import Mathlib

/-!
# xcore / libxbase: red-black tree with parent pointers (`rbtree.c`)

The C nodes live in a store addressed by natural numbers; `none` is `NULL`.
Every function that dereferences a pointer returns `none` when the pointer is
`NULL` or dangling, and loops take a fuel argument (`none` when it runs out).
-/

namespace Xcore

/-- Node colours, `rb_color_t` (`RB_BLACK = 0`, `RB_RED = 1`). -/
inductive rb_color_t where
  | RB_BLACK
  | RB_RED
  deriving DecidableEq, Repr

open rb_color_t

/-- Cursor part of a node, `rb_cursor_st`: key, key size and data. -/
structure rb_cursor_st (K V : Type) where
  key : K
  ksize : Nat
  data : V
  deriving DecidableEq

/-- Tree node, `rbtree_node_st`. Pointers are `Option Nat`. -/
structure rbtree_node_st (K V : Type) where
  cs : rb_cursor_st K V
  left : Option Nat
  right : Option Nat
  parent : Option Nat
  color : rb_color_t
  deriving DecidableEq

/-- Tree header, `rbtree_st`, together with the node store `mem` it points into
and the log `freed` of the values handed to `data_free` (oldest first).
`data_free` records whether a destructor was registered. -/
structure rbtree_st (K V : Type) where
  mem : Nat → Option (rbtree_node_st K V)
  root : Option Nat
  first : Option Nat
  last : Option Nat
  nelem : Nat
  flag : Int
  cmp_fn : K → Nat → K → Nat → Int
  data_free : Bool
  freed : List V

/-- Flag bit `RFLAG_EXTERN_KEY`. -/
def RFLAG_EXTERN_KEY : Int := 1

variable {K V : Type}

/-- Store one node at an address. -/
def rbtree_st.store (t : rbtree_st K V) (a : Nat) (n : rbtree_node_st K V) : rbtree_st K V :=
  { t with mem := Function.update t.mem a (some n) }

/-- Macro `set_color(col, node)`. -/
def set_color (col : rb_color_t) (node : Nat) (t : rbtree_st K V) : Option (rbtree_st K V) := do
  let n ← t.mem node
  pure (t.store node { n with color := col })

/-- Macro `set_parent(par, node)`. -/
def set_parent (par : Option Nat) (node : Nat) (t : rbtree_st K V) : Option (rbtree_st K V) := do
  let n ← t.mem node
  pure (t.store node { n with parent := par })

/-- Assignment `node->left = child`. -/
def set_left (child : Option Nat) (node : Nat) (t : rbtree_st K V) : Option (rbtree_st K V) := do
  let n ← t.mem node
  pure (t.store node { n with left := child })

/-- Assignment `node->right = child`. -/
def set_right (child : Option Nat) (node : Nat) (t : rbtree_st K V) : Option (rbtree_st K V) := do
  let n ← t.mem node
  pure (t.store node { n with right := child })

/-- Function `set_child(child, node, left)`. -/
def set_child (child : Option Nat) (node : Nat) (left : Bool) (t : rbtree_st K V) :
    Option (rbtree_st K V) :=
  if left then set_left child node t else set_right child node t

/-- Function `get_first`: follow `left` links. -/
def get_first : Nat → rbtree_st K V → Nat → Option Nat
  | 0, _, _ => none
  | fuel + 1, t, node => do
    let n ← t.mem node
    match n.left with
    | some l => get_first fuel t l
    | none => pure node

/-- Function `get_last`: follow `right` links. -/
def get_last : Nat → rbtree_st K V → Nat → Option Nat
  | 0, _, _ => none
  | fuel + 1, t, node => do
    let n ← t.mem node
    match n.right with
    | some r => get_last fuel t r
    | none => pure node

/-- Function `rbtree_first`. -/
def rbtree_first (t : rbtree_st K V) : Option Nat := t.first

/-- Function `rbtree_last`. -/
def rbtree_last (t : rbtree_st K V) : Option Nat := t.last

/-- The climbing loop of `rb_next`:
`while ((parent = get_parent(node)) && parent->right == node) node = parent;`. -/
def rb_next_up : Nat → rbtree_st K V → Nat → Option (Option Nat)
  | 0, _, _ => none
  | fuel + 1, t, node => do
    let n ← t.mem node
    match n.parent with
    | none => pure none
    | some parent => do
      let pn ← t.mem parent
      if pn.right = some node then rb_next_up fuel t parent else pure (some parent)

/-- Function `rb_next`. -/
def rb_next (fuel : Nat) (t : rbtree_st K V) (node : Nat) : Option (Option Nat) := do
  let n ← t.mem node
  match n.right with
  | some r => do
    let f ← get_first fuel t r
    pure (some f)
  | none => rb_next_up fuel t node

/-- The climbing loop of `rb_prev`. -/
def rb_prev_up : Nat → rbtree_st K V → Nat → Option (Option Nat)
  | 0, _, _ => none
  | fuel + 1, t, node => do
    let n ← t.mem node
    match n.parent with
    | none => pure none
    | some parent => do
      let pn ← t.mem parent
      if pn.left = some node then rb_prev_up fuel t parent else pure (some parent)

/-- Function `rb_prev`. -/
def rb_prev (fuel : Nat) (t : rbtree_st K V) (node : Nat) : Option (Option Nat) := do
  let n ← t.mem node
  match n.left with
  | some l => do
    let f ← get_last fuel t l
    pure (some f)
  | none => rb_prev_up fuel t node

/-- The loop of `do_lookup`, started at `node` with the current `*pparent` and
`*is_left`. The result is `(found node, *pparent, *is_left)`. -/
def do_lookup_loop (t : rbtree_st K V) (key : K) (ksize : Nat) :
    Nat → Option Nat → Option Nat → Bool → Option (Option Nat × Option Nat × Bool)
  | _, none, pparent, is_left => some (none, pparent, is_left)
  | 0, some _, _, _ => none
  | fuel + 1, some node, pparent, is_left => do
    let n ← t.mem node
    let res := t.cmp_fn n.cs.key n.cs.ksize key ksize
    if res = 0 then
      pure (some node, pparent, is_left)
    else
      let is_left := decide (res > 0)
      do_lookup_loop t key ksize fuel (if is_left then n.left else n.right) (some node) is_left

/-- Function `do_lookup`. -/
def do_lookup (fuel : Nat) (t : rbtree_st K V) (key : K) (ksize : Nat) :
    Option (Option Nat × Option Nat × Bool) :=
  do_lookup_loop t key ksize fuel t.root none false

/-- Lines 175-181 of `rotate_left` and 197-203 of `rotate_right`: the parent of
`p`, or else the tree root, now points to `q`. -/
def rotate_relink (t : rbtree_st K V) (parent : Option Nat) (p q : Nat) :
    Option (rbtree_st K V) :=
  match parent with
  | some par => do
    let parn ← t.mem par
    if parn.left = some p then set_left (some q) par t else set_right (some q) par t
  | none => pure { t with root := some q }

/-- Function `rotate_left`. -/
def rotate_left (t : rbtree_st K V) (node : Nat) : Option (rbtree_st K V) := do
  let p := node
  let pn ← t.mem p
  let q ← pn.right
  let parent := pn.parent
  let t ← rotate_relink t parent p q
  let t ← set_parent parent q t
  let t ← set_parent (some q) p t
  let qn ← t.mem q
  let t ← set_right qn.left p t
  let pn ← t.mem p
  let t ← (match pn.right with
    | some r => set_parent (some p) r t
    | none => pure t)
  set_left (some p) q t

/-- Function `rotate_right`. -/
def rotate_right (t : rbtree_st K V) (node : Nat) : Option (rbtree_st K V) := do
  let p := node
  let pn ← t.mem p
  let q ← pn.left
  let parent := pn.parent
  let t ← rotate_relink t parent p q
  let t ← set_parent parent q t
  let t ← set_parent (some q) p t
  let qn ← t.mem q
  let t ← set_left qn.right p t
  let pn ← t.mem p
  let t ← (match pn.left with
    | some l => set_parent (some p) l t
    | none => pure t)
  set_right (some p) q t

/-- Function `rbtree_search`: `(0, value)` when found, `(-1, none)` otherwise
(`*val` is left untouched). -/
def rbtree_search (fuel : Nat) (t : rbtree_st K V) (key : K) (ksize : Nat) :
    Option (Int × Option V) := do
  let (nd, _, _) ← do_lookup fuel t key ksize
  match nd with
  | none => pure (-1, none)
  | some a => do
    let n ← t.mem a
    pure (0, some n.cs.data)

/-- Function `rbtree_get_cursor`. -/
def rbtree_get_cursor (fuel : Nat) (t : rbtree_st K V) (key : K) (ksize : Nat) :
    Option (Option Nat) := do
  let (nd, _, _) ← do_lookup fuel t key ksize
  pure nd

/-- Test `uncle && is_red(uncle)` and its siblings: a non-NULL red node. -/
def is_red_ptr (t : rbtree_st K V) (p : Option Nat) : Option Bool :=
  match p with
  | none => pure false
  | some a => do
    let n ← t.mem a
    pure (decide (n.color ≠ RB_BLACK))

/-- Test `!p || is_black(p)`. -/
def is_black_or_null (t : rbtree_st K V) (p : Option Nat) : Option Bool :=
  match p with
  | none => pure true
  | some a => do
    let n ← t.mem a
    pure (decide (n.color = RB_BLACK))

/-- Lines 333-349 of `rbtree_insert`: the body of the fixup loop when
`parent == grandpa->left`. Returns the tree and the new `node`. -/
def insert_fixup_left (t : rbtree_st K V) (node parent grandpa : Nat) :
    Option (rbtree_st K V × Nat) := do
  let gn ← t.mem grandpa
  let uncle := gn.right
  let red ← is_red_ptr t uncle
  if red then do
    let t ← set_color RB_BLACK parent t
    let u ← uncle
    let t ← set_color RB_BLACK u t
    let t ← set_color RB_RED grandpa t
    pure (t, grandpa)
  else do
    let pn ← t.mem parent
    let (t, node, parent) ← (if some node = pn.right then do
        let t ← rotate_left t parent
        let node := parent
        let n ← t.mem node
        let parent ← n.parent
        pure (t, node, parent)
      else pure (t, node, parent))
    let t ← set_color RB_BLACK parent t
    let t ← set_color RB_RED grandpa t
    let t ← rotate_right t grandpa
    pure (t, node)

/-- Lines 351-367 of `rbtree_insert`: the body of the fixup loop when
`parent != grandpa->left`. Returns the tree and the new `node`. -/
def insert_fixup_right (t : rbtree_st K V) (node parent grandpa : Nat) :
    Option (rbtree_st K V × Nat) := do
  let gn ← t.mem grandpa
  let uncle := gn.left
  let red ← is_red_ptr t uncle
  if red then do
    let t ← set_color RB_BLACK parent t
    let u ← uncle
    let t ← set_color RB_BLACK u t
    let t ← set_color RB_RED grandpa t
    pure (t, grandpa)
  else do
    let pn ← t.mem parent
    let (t, node, parent) ← (if some node = pn.left then do
        let t ← rotate_right t parent
        let node := parent
        let n ← t.mem node
        let parent ← n.parent
        pure (t, node, parent)
      else pure (t, node, parent))
    let t ← set_color RB_BLACK parent t
    let t ← set_color RB_RED grandpa t
    let t ← rotate_left t grandpa
    pure (t, node)

/-- The fixup loop of `rbtree_insert`, started at `node`:
`while ((parent = get_parent(node)) && is_red(parent)) { ... }`. -/
def insert_fixup : Nat → rbtree_st K V → Nat → Option (rbtree_st K V)
  | 0, _, _ => none
  | fuel + 1, t, node => do
    let n ← t.mem node
    match n.parent with
    | none => pure t
    | some parent => do
      let pn ← t.mem parent
      if pn.color = RB_BLACK then pure t
      else do
        let grandpa ← pn.parent
        let gn ← t.mem grandpa
        let (t, node) ← (if some parent = gn.left then insert_fixup_left t node parent grandpa
          else insert_fixup_right t node parent grandpa)
        insert_fixup fuel t node

/-- Lines 279-286 of `rbtree_insert`: the key is already stored at `node`; the
old value goes to the destructor, the key reference is replaced in external-key
mode, and the value is replaced. -/
def insert_overwrite (t : rbtree_st K V) (node : Nat) (key : K) (ksize : Nat) (val : V) :
    Option (rbtree_st K V) := do
  let n ← t.mem node
  let t := if t.data_free then { t with freed := t.freed ++ [n.cs.data] } else t
  let n ← t.mem node
  let t := if Int.land t.flag RFLAG_EXTERN_KEY ≠ 0 then
      t.store node { n with cs := { n.cs with key := key, ksize := ksize } }
    else t
  let n ← t.mem node
  pure (t.store node { n with cs := { n.cs with data := val } })

/-- Lines 309-322 of `rbtree_insert`: hook the new `node` under `parent` (moving
a cached cursor when the parent was an extreme), or make it the root. -/
def insert_link (t : rbtree_st K V) (node : Nat) (parent : Option Nat) (is_left : Bool) :
    Option (rbtree_st K V) :=
  match parent with
  | some par => do
    let t := if is_left then
        (if some par = t.first then { t with first := some node } else t)
      else
        (if some par = t.last then { t with last := some node } else t)
    set_child (some node) par is_left t
  | none => pure { t with root := some node, first := some node, last := some node }

/-- Function `rbtree_insert`. The address `a` is the block that `xmalloc0`
returns for the new node (used only when the key is not yet stored). The key
bytes are held by value in both key modes. -/
def rbtree_insert (fuel : Nat) (t : rbtree_st K V) (key : K) (ksize : Nat) (val : V) (a : Nat) :
    Option (rbtree_st K V) := do
  let (found, parent, is_left) ← do_lookup fuel t key ksize
  match found with
  | some node => insert_overwrite t node key ksize val
  | none => do
    let node := a
    let t := t.store node
      { cs := { key := key, ksize := ksize, data := val },
        left := none, right := none, parent := parent, color := RB_RED }
    let t ← insert_link t node parent is_left
    let t ← insert_fixup fuel t node
    let r ← t.root
    let t ← set_color RB_BLACK r t
    pure { t with nelem := (t.nelem + 1) % 2 ^ 32 }

/-- Lines 455-460 of the `rbtree_delete` fixup, branch `node == parent->left`:
a red sibling is recoloured and rotated away. Returns the tree and `sibling`. -/
def fixup_red_sibling_left (t : rbtree_st K V) (par sibling : Nat) :
    Option (rbtree_st K V × Nat) := do
  let sn ← t.mem sibling
  if sn.color ≠ RB_BLACK then do
    let t ← set_color RB_BLACK sibling t
    let t ← set_color RB_RED par t
    let t ← rotate_left t par
    let parn ← t.mem par
    let sibling ← parn.right
    pure (t, sibling)
  else pure (t, sibling)

/-- Lines 468-473: the far (right) child of the sibling is not red, so the
sibling is rotated to bring a red node to the far side. -/
def fixup_near_left (t : rbtree_st K V) (par sibling : Nat) :
    Option (rbtree_st K V × Nat) := do
  let sn ← t.mem sibling
  let rb ← is_black_or_null t sn.right
  if rb then do
    let sl ← sn.left
    let t ← set_color RB_BLACK sl t
    let t ← set_color RB_RED sibling t
    let t ← rotate_right t sibling
    let parn ← t.mem par
    let sibling ← parn.right
    pure (t, sibling)
  else pure (t, sibling)

/-- Lines 474-477: final recolouring and rotation of the branch
`node == parent->left`. -/
def fixup_far_left (t : rbtree_st K V) (par sibling : Nat) : Option (rbtree_st K V) := do
  let parn ← t.mem par
  let t ← set_color parn.color sibling t
  let t ← set_color RB_BLACK par t
  let sn ← t.mem sibling
  let sr ← sn.right
  let t ← set_color RB_BLACK sr t
  rotate_left t par

/-- Lines 461-479 of the `rbtree_delete` fixup, branch `node == parent->left`, once
the sibling is black: recolour and move up when both its children are black,
else rotate and stop. The result is the tree and `some (node, parent)` when the
branch ends in `continue`, `none` when it ends in `node = tree->root; break`. -/
def fixup_black_sibling_left (t : rbtree_st K V) (par sibling : Nat) :
    Option (rbtree_st K V × Option (Nat × Option Nat)) := do
  let sn ← t.mem sibling
  let lb ← is_black_or_null t sn.left
  let rb ← is_black_or_null t sn.right
  if lb && rb then do
    let t ← set_color RB_RED sibling t
    let node := par
    let parn ← t.mem par
    let parent := parn.parent
    pure (t, some (node, parent))
  else do
    let (t, sibling) ← fixup_near_left t par sibling
    let t ← fixup_far_left t par sibling
    pure (t, none)

/-- The branch `node == parent->left` of the body of the `rbtree_delete` fixup
loop (lines 453-479). -/
def delete_fixup_left (t : rbtree_st K V) (par : Nat) :
    Option (rbtree_st K V × Option (Nat × Option Nat)) := do
  let parn ← t.mem par
  let sibling ← parn.right
  let (t, sibling) ← fixup_red_sibling_left t par sibling
  fixup_black_sibling_left t par sibling

/-- Lines 483-488, branch `node == parent->right`. -/
def fixup_red_sibling_right (t : rbtree_st K V) (par sibling : Nat) :
    Option (rbtree_st K V × Nat) := do
  let sn ← t.mem sibling
  if sn.color ≠ RB_BLACK then do
    let t ← set_color RB_BLACK sibling t
    let t ← set_color RB_RED par t
    let t ← rotate_right t par
    let parn ← t.mem par
    let sibling ← parn.left
    pure (t, sibling)
  else pure (t, sibling)

/-- Lines 496-501, branch `node == parent->right`. -/
def fixup_near_right (t : rbtree_st K V) (par sibling : Nat) :
    Option (rbtree_st K V × Nat) := do
  let sn ← t.mem sibling
  let lb ← is_black_or_null t sn.left
  if lb then do
    let sr ← sn.right
    let t ← set_color RB_BLACK sr t
    let t ← set_color RB_RED sibling t
    let t ← rotate_left t sibling
    let parn ← t.mem par
    let sibling ← parn.left
    pure (t, sibling)
  else pure (t, sibling)

/-- Lines 502-505, branch `node == parent->right`. -/
def fixup_far_right (t : rbtree_st K V) (par sibling : Nat) : Option (rbtree_st K V) := do
  let parn ← t.mem par
  let t ← set_color parn.color sibling t
  let t ← set_color RB_BLACK par t
  let sn ← t.mem sibling
  let sl ← sn.left
  let t ← set_color RB_BLACK sl t
  rotate_right t par

/-- Lines 489-507 of the `rbtree_delete` fixup, branch `node == parent->right`, once
the sibling is black: recolour and move up when both its children are black,
else rotate and stop. The result is the tree and `some (node, parent)` when the
branch ends in `continue`, `none` when it ends in `node = tree->root; break`. -/
def fixup_black_sibling_right (t : rbtree_st K V) (par sibling : Nat) :
    Option (rbtree_st K V × Option (Nat × Option Nat)) := do
  let sn ← t.mem sibling
  let lb ← is_black_or_null t sn.left
  let rb ← is_black_or_null t sn.right
  if lb && rb then do
    let t ← set_color RB_RED sibling t
    let node := par
    let parn ← t.mem par
    let parent := parn.parent
    pure (t, some (node, parent))
  else do
    let (t, sibling) ← fixup_near_right t par sibling
    let t ← fixup_far_right t par sibling
    pure (t, none)

/-- The branch `node == parent->right` of the body of the `rbtree_delete` fixup
loop (lines 481-507). -/
def delete_fixup_right (t : rbtree_st K V) (par : Nat) :
    Option (rbtree_st K V × Option (Nat × Option Nat)) := do
  let parn ← t.mem par
  let sibling ← parn.left
  let (t, sibling) ← fixup_red_sibling_right t par sibling
  fixup_black_sibling_right t par sibling

/-- The fixup loop of `rbtree_delete` (`do { ... } while (is_black(node))`),
entered with the current `node` (possibly `NULL`) and `parent`. It returns the
tree and the value of `node` on leaving the loop. -/
def delete_fixup : Nat → rbtree_st K V → Option Nat → Option Nat →
    Option (rbtree_st K V × Option Nat)
  | 0, _, _, _ => none
  | fuel + 1, t, node, parent =>
    if node = t.root then pure (t, node)
    else do
      let par ← parent
      let parn ← t.mem par
      let (t, ctl) ← (if node = parn.left then delete_fixup_left t par
        else delete_fixup_right t par)
      match ctl with
      | none => pure (t, t.root)
      | some (node, parent) => do
        let nn ← t.mem node
        if nn.color = RB_BLACK then delete_fixup fuel t (some node) parent
        else pure (t, some node)

/-- The tail of `rbtree_delete` at label `end_delete`: destructor call, release
of the node, `nelem--`. -/
def end_delete (t : rbtree_st K V) (oldnode : Nat) : Option (rbtree_st K V) := do
  let old ← t.mem oldnode
  let t := if t.data_free then { t with freed := t.freed ++ [old.cs.data] } else t
  let t := { t with mem := Function.update t.mem oldnode none }
  pure { t with nelem := (t.nelem + 2 ^ 32 - 1) % 2 ^ 32 }

/-- Lines 389-392 of `rbtree_delete`: move the cached cursors off `node`. -/
def delete_cursors (fuel : Nat) (t : rbtree_st K V) (node : Nat) : Option (rbtree_st K V) := do
  let t ← (if some node = t.first then do
      let nx ← rb_next fuel t node
      pure { t with first := nx }
    else pure t)
  if some node = t.last then do
    let pv ← rb_prev fuel t node
    pure { t with last := pv }
  else pure t

/-- Lines 394-399 of `rbtree_delete`: the node that takes the place of the
removed one. -/
def delete_next (fuel : Nat) (t : rbtree_st K V) (left right : Option Nat) :
    Option (Option Nat) :=
  match left, right with
  | none, _ => pure right
  | some _, none => pure left
  | some _, some r => do
    let f ← get_first fuel t r
    pure (some f)

/-- Lines 401-404 of `rbtree_delete`: hook `next` under the parent of `node`. -/
def delete_link (t : rbtree_st K V) (node : Nat) (parent next : Option Nat) :
    Option (rbtree_st K V) :=
  match parent with
  | some par => do
    let parn ← t.mem par
    set_child next par (decide (parn.left = some node)) t
  | none => pure { t with root := next }

/-- Lines 414-421 of `rbtree_delete`: the successor `next` is not the right
child of `node`; it is cut out of its place and adopts `right`. The result is
the tree, the new `node` and the new `parent`. -/
def delete_splice_far (t : rbtree_st K V) (node r nx : Nat) :
    Option (rbtree_st K V × Option Nat × Option Nat) := do
  let nxn ← t.mem nx
  let parent := nxn.parent
  let ndn ← t.mem node
  let t ← set_parent ndn.parent nx t
  let nxn ← t.mem nx
  let node := nxn.right
  let par ← parent
  let t ← set_left node par t
  let t ← set_right (some r) nx t
  let t ← set_parent (some nx) r t
  pure (t, node, parent)

/-- Lines 423-425 of `rbtree_delete`: the successor `next` is the right child
of `node`. -/
def delete_splice_near (t : rbtree_st K V) (parent : Option Nat) (nx : Nat) :
    Option (rbtree_st K V × Option Nat × Option Nat) := do
  let t ← set_parent parent nx t
  let parent := some nx
  let nxn ← t.mem nx
  let node := nxn.right
  pure (t, node, parent)

/-- Lines 407-426 of `rbtree_delete`, the case `left && right`: the successor
`next` takes over the colour, children and parent of `node`. The result is the
tree, the removed colour, the new `node` and the new `parent`. -/
def delete_splice (t : rbtree_st K V) (node : Nat) (parent : Option Nat) (l r nx : Nat) :
    Option (rbtree_st K V × rb_color_t × Option Nat × Option Nat) := do
  let nxn ← t.mem nx
  let color := nxn.color
  let ndn ← t.mem node
  let t ← set_color ndn.color nx t
  let t ← set_left (some l) nx t
  let t ← set_parent (some nx) l t
  let (t, node, parent) ← (if nx ≠ r then delete_splice_far t node r nx
    else delete_splice_near t parent nx)
  pure (t, color, node, parent)

/-- Lines 406-436 of `rbtree_delete`: splice out `node`, then set the parent of
the successor's child. -/
def delete_unlink (t : rbtree_st K V) (node : Nat) (parent left right next : Option Nat) :
    Option (rbtree_st K V × rb_color_t × Option Nat × Option Nat) := do
  let (t, color, node, parent) ← (match left, right with
    | some l, some r => do
      let nx ← next
      delete_splice t node parent l r nx
    | _, _ => do
      let ndn ← t.mem node
      pure (t, ndn.color, next, parent))
  let t ← (match node with
    | some nd => set_parent parent nd t
    | none => pure t)
  pure (t, color, node, parent)

/-- Lines 511-512 of `rbtree_delete`: `if (node) set_color(RB_BLACK, node)`. -/
def blacken_opt (t : rbtree_st K V) (node : Option Nat) : Option (rbtree_st K V) :=
  match node with
  | some nd => set_color RB_BLACK nd t
  | none => pure t

/-- Lines 441-512 of `rbtree_delete`: the easy cases and the fixup loop. -/
def delete_rebalance (fuel : Nat) (t : rbtree_st K V) (color : rb_color_t)
    (node parent : Option Nat) : Option (rbtree_st K V) :=
  if color = RB_RED then pure t
  else do
    let red ← is_red_ptr t node
    if red then do
      let nd ← node
      set_color RB_BLACK nd t
    else do
      let (t, node) ← delete_fixup fuel t node parent
      blacken_opt t node

/-- Function `rbtree_delete`. -/
def rbtree_delete (fuel : Nat) (t : rbtree_st K V) (key : K) (ksize : Nat) :
    Option (rbtree_st K V) := do
  let (found, parent, _) ← do_lookup fuel t key ksize
  match found with
  | none => pure t
  | some oldnode => do
    let node := oldnode
    let ndn ← t.mem node
    let left := ndn.left
    let right := ndn.right
    let t ← delete_cursors fuel t node
    let next ← delete_next fuel t left right
    let t ← delete_link t node parent next
    let (t, color, node, parent) ← delete_unlink t node parent left right next
    let t ← delete_rebalance fuel t color node parent
    end_delete t oldnode

/-- Function `rbtree_create` with a caller comparator (`cmp` non-NULL).
`xmalloc0` zeroes the header: no root, no cursors, `nelem = 0`. -/
def rbtree_create (data_free : Bool) (cmp : K → Nat → K → Nat → Int) (flag : Int) :
    rbtree_st K V :=
  { mem := fun _ => none, root := none, first := none, last := none, nelem := 0,
    flag := flag, cmp_fn := cmp, data_free := data_free, freed := [] }

/-- Function `rbtree_count`. -/
def rbtree_count (t : rbtree_st K V) : Nat := t.nelem

/-! ## Abstraction: the tree drawn by the pointers -/

/-- Replace the store and the root of a tree header, keeping every other field. -/
def rbtree_st.upd (t : rbtree_st K V) (m : Nat → Option (rbtree_node_st K V))
    (r : Option Nat) : rbtree_st K V :=
  { t with mem := m, root := r }

/-- Replace the cached cursors of a tree header. -/
def rbtree_st.setCursors (t : rbtree_st K V) (f l : Option Nat) : rbtree_st K V :=
  { t with first := f, last := l }

/-- Shape of a stored tree: every node with its address, colour and cursor. -/
inductive Tree (K V : Type) where
  | nil : Tree K V
  | node (a : Nat) (c : rb_color_t) (cs : rb_cursor_st K V) (l r : Tree K V) : Tree K V
  deriving DecidableEq

namespace Tree

/-- Pointer to the root node of a shape (`NULL` for the empty shape). -/
def ptr : Tree K V → Option Nat
  | nil => none
  | node a _ _ _ _ => some a

/-- Addresses of the nodes, in order. -/
def addrs : Tree K V → List Nat
  | nil => []
  | node a _ _ l r => l.addrs ++ a :: r.addrs

/-- Entries (cursors) of the nodes, in order. -/
def toList : Tree K V → List (rb_cursor_st K V)
  | nil => []
  | node _ _ cs l r => l.toList ++ cs :: r.toList

/-- Number of nodes. -/
def size : Tree K V → Nat
  | nil => 0
  | node _ _ _ l r => l.size + r.size + 1

/-- Number of nodes on the longest path from the root to an empty child edge. -/
def height : Tree K V → Nat
  | nil => 0
  | node _ _ _ l r => max l.height r.height + 1

/-- The root node exists and is red. -/
def isRed : Tree K V → Bool
  | node _ RB_RED _ _ _ => true
  | _ => false

/-- Number of black nodes on the leftmost path. -/
def bh : Tree K V → Nat
  | nil => 0
  | node _ c _ l _ => l.bh + (if c = RB_BLACK then 1 else 0)

/-- Both subtrees of every node have the same black height. -/
def Bal : Tree K V → Prop
  | nil => True
  | node _ _ _ l r => l.bh = r.bh ∧ l.Bal ∧ r.Bal

/-- No red node has a red child. -/
def NoRR : Tree K V → Prop
  | nil => True
  | node _ c _ l r => (c = RB_RED → l.isRed = false ∧ r.isRed = false) ∧ l.NoRR ∧ r.NoRR

/-- For every path from the root to an empty child edge, the number of black
nodes on it. -/
def blackCounts : Tree K V → List Nat
  | nil => [0]
  | node _ c _ l r =>
    (l.blackCounts ++ r.blackCounts).map (fun n => n + (if c = RB_BLACK then 1 else 0))

/-- Rule (a): the root is black (or the tree is empty). -/
def RootBlack (T : Tree K V) : Prop := T.isRed = false

/-- Rule (c): every path from the root to an empty child edge passes through
the same number of black nodes. -/
def UniformBlack (T : Tree K V) : Prop :=
  ∀ x ∈ T.blackCounts, ∀ y ∈ T.blackCounts, x = y

/-- Address of the leftmost node. -/
def firstAddr : Tree K V → Option Nat
  | nil => none
  | node a _ _ nil _ => some a
  | node _ _ _ l _ => l.firstAddr

/-- Address of the rightmost node. -/
def lastAddr : Tree K V → Option Nat
  | nil => none
  | node a _ _ _ nil => some a
  | node _ _ _ _ r => r.lastAddr

end Tree

/-- The store `m` holds the shape `T` below a node whose `parent` field is
`par`: every node sits at its address with exactly the links the shape gives. -/
def Repr (m : Nat → Option (rbtree_node_st K V)) : Tree K V → Option Nat → Prop
  | .nil, _ => True
  | .node a c cs l r, par =>
    m a = some { cs := cs, left := l.ptr, right := r.ptr, parent := par, color := c } ∧
    Repr m l (some a) ∧ Repr m r (some a)

/-- The tree header `t` stores the shape `T`. -/
def Abs (t : rbtree_st K V) (T : Tree K V) : Prop :=
  t.root = T.ptr ∧ Repr t.mem T none

/-- A consistent three-way comparator: the sign flips when the arguments are
swapped and "less or equal" is transitive. -/
def Consistent (cmp : K → Nat → K → Nat → Int) : Prop :=
  (∀ a la b lb, (cmp a la b lb < 0 ↔ 0 < cmp b lb a la)) ∧
  (∀ a la b lb c lc, cmp a la b lb ≤ 0 → cmp b lb c lc ≤ 0 → cmp a la c lc ≤ 0)

/-- The cursor `x` sorts strictly before `y`. -/
def cursorLt (cmp : K → Nat → K → Nat → Int) (x y : rb_cursor_st K V) : Prop :=
  cmp x.key x.ksize y.key y.ksize < 0

/-- Strictly increasing list of cursors. -/
def Sorted (cmp : K → Nat → K → Nat → Int) (l : List (rb_cursor_st K V)) : Prop :=
  l.Pairwise (cursorLt cmp)

/-! ## Paths (the tree around a hole) -/

/-- One step of a path: the hole is the left (`isLeft`) or right child of the
node `a`; `sib` is the other subtree. -/
structure Frame (K V : Type) where
  isLeft : Bool
  a : Nat
  c : rb_color_t
  cs : rb_cursor_st K V
  sib : Tree K V

/-- Fill the hole of one step. -/
def Frame.plug (f : Frame K V) (t : Tree K V) : Tree K V :=
  if f.isLeft then .node f.a f.c f.cs t f.sib else .node f.a f.c f.cs f.sib t

/-- Fill the hole of a path (innermost step first). -/
def plug : List (Frame K V) → Tree K V → Tree K V
  | [], t => t
  | f :: fs, t => plug fs (f.plug t)

/-- Address of the node right above the hole. -/
def ctxPtr : List (Frame K V) → Option Nat
  | [] => none
  | f :: _ => some f.a

/-- Value of `*is_left` when the descent stands below a path. -/
def ctxIsLeft : List (Frame K V) → Bool
  | [] => false
  | f :: _ => f.isLeft

/-- Addresses of the nodes on and beside a path. -/
def ctxAddrs : List (Frame K V) → List Nat
  | [] => []
  | f :: fs => f.a :: (f.sib.addrs ++ ctxAddrs fs)

/-- Addresses that come before the hole, in order. -/
def ctxBeforeA : List (Frame K V) → List Nat
  | [] => []
  | f :: fs => if f.isLeft then ctxBeforeA fs else ctxBeforeA fs ++ (f.sib.addrs ++ [f.a])

/-- Addresses that come after the hole, in order. -/
def ctxAfterA : List (Frame K V) → List Nat
  | [] => []
  | f :: fs => if f.isLeft then (f.a :: f.sib.addrs) ++ ctxAfterA fs else ctxAfterA fs

/-- Entries that come before the hole, in order. -/
def ctxBefore : List (Frame K V) → List (rb_cursor_st K V)
  | [] => []
  | f :: fs => if f.isLeft then ctxBefore fs else ctxBefore fs ++ (f.sib.toList ++ [f.cs])

/-- Entries that come after the hole, in order. -/
def ctxAfter : List (Frame K V) → List (rb_cursor_st K V)
  | [] => []
  | f :: fs => if f.isLeft then (f.cs :: f.sib.toList) ++ ctxAfter fs else ctxAfter fs

/-- The store holds the path around a hole whose pointer is `hp`. -/
def ReprCtx (m : Nat → Option (rbtree_node_st K V)) : List (Frame K V) → Option Nat → Prop
  | [], _ => True
  | f :: fs, hp =>
    m f.a = some { cs := f.cs,
                   left := if f.isLeft then hp else f.sib.ptr,
                   right := if f.isLeft then f.sib.ptr else hp,
                   parent := ctxPtr fs, color := f.c } ∧
    Repr m f.sib (some f.a) ∧ ReprCtx m fs (some f.a)

/-- Root pointer of a filled path. -/
def ctxRoot : List (Frame K V) → Option Nat → Option Nat
  | [], hp => hp
  | f :: fs, _ => ctxRoot fs (some f.a)

/-- The path is balanced around a hole of black height `n`. -/
def CtxBal : List (Frame K V) → Nat → Prop
  | [], _ => True
  | f :: fs, n => f.sib.bh = n ∧ f.sib.Bal ∧ CtxBal fs (n + (if f.c = RB_BLACK then 1 else 0))

/-- The path has no red-red edge, the hole holding a root that is red or not. -/
def CtxNoRR : List (Frame K V) → Bool → Prop
  | [], _ => True
  | f :: fs, red =>
    (f.c = RB_RED → red = false ∧ f.sib.isRed = false) ∧ f.sib.NoRR ∧
    CtxNoRR fs (decide (f.c = RB_RED))

/-- The topmost step of the path is black. -/
def CtxRootBlack : List (Frame K V) → Prop
  | [] => True
  | [f] => f.c = RB_BLACK
  | _ :: fs => CtxRootBlack fs

/-- Loop invariant of the `rbtree_insert` fixup: the current node is red with
black subtrees `l` and `r`, and the path above it obeys the colour rules for a
hole with a black root. -/
def InsInv (Γ : List (Frame K V)) (l r : Tree K V) : Prop :=
  l.NoRR ∧ r.NoRR ∧ l.isRed = false ∧ r.isRed = false ∧ l.bh = r.bh ∧ l.Bal ∧ r.Bal ∧
    CtxBal Γ l.bh ∧ CtxNoRR Γ false ∧ CtxRootBlack Γ

/-- Loop invariant of the `rbtree_delete` fixup: the subtree at the current
node is black-rooted and one black node short of what the path above expects. -/
def DelInv (Γ : List (Frame K V)) (hole : Tree K V) : Prop :=
  hole.Bal ∧ hole.NoRR ∧ hole.isRed = false ∧ CtxBal Γ (hole.bh + 1) ∧ CtxNoRR Γ false ∧
    CtxRootBlack Γ

/-- Descent of `do_lookup` on a shape, collecting the path. -/
def zoom (cmp : K → Nat → K → Nat → Int) (key : K) (ksize : Nat) :
    Tree K V → List (Frame K V) → List (Frame K V) × Tree K V
  | .nil, Γ => (Γ, .nil)
  | .node a c cs l r, Γ =>
    if cmp cs.key cs.ksize key ksize = 0 then (Γ, .node a c cs l r)
    else if cmp cs.key cs.ksize key ksize > 0 then
      zoom cmp key ksize l ({ isLeft := true, a := a, c := c, cs := cs, sib := r } :: Γ)
    else
      zoom cmp key ksize r ({ isLeft := false, a := a, c := c, cs := cs, sib := l } :: Γ)

/-! ## Traversal, locality, invariant and reachability -/

/-- Function `rbtree_next`. -/
def rbtree_next (fuel : Nat) (t : rbtree_st K V) (itor : Nat) : Option (Option Nat) :=
  rb_next fuel t itor

/-- Function `rbtree_prev`. -/
def rbtree_prev (fuel : Nat) (t : rbtree_st K V) (itor : Nat) : Option (Option Nat) :=
  rb_prev fuel t itor

/-- The traversal `for (cs = ...; cs; cs = rbtree_next(cs))` from a cursor,
collecting the entries it visits; `n` bounds the number of steps. -/
def inorder_from (fuel : Nat) (t : rbtree_st K V) :
    Nat → Option Nat → Option (List (rb_cursor_st K V))
  | _, none => some []
  | 0, some _ => none
  | n + 1, some a => do
    let nd ← t.mem a
    let nx ← rbtree_next fuel t a
    let rest ← inorder_from fuel t n nx
    pure (nd.cs :: rest)

/-- The traversal `for (cs = rbtree_first(rb); cs; cs = rbtree_next(cs))`. -/
def inorder (fuel : Nat) (t : rbtree_st K V) : Option (List (rb_cursor_st K V)) :=
  inorder_from fuel t fuel (rbtree_first t)

/-- The store with one more cell at address `x`. -/
def rbtree_st.ins (t : rbtree_st K V) (x : Nat) (v : rbtree_node_st K V) : rbtree_st K V :=
  { t with mem := Function.update t.mem x (some v) }

/-- A step of the program is local: it runs the same way in a store
with one more cell, which it leaves alone. -/
def Local {A : Type} (op : rbtree_st K V → Option (rbtree_st K V × A)) : Prop :=
  ∀ (t u : rbtree_st K V) (x : Nat) (v : rbtree_node_st K V) (res : A),
    t.mem x = none → op t = some (u, res) →
    u.mem x = none ∧ op (t.ins x v) = some (u.ins x v, res)

/-- A step that only changes the tree. -/
def Local0 (op : rbtree_st K V → Option (rbtree_st K V)) : Prop :=
  ∀ (t u : rbtree_st K V) (x : Nat) (v : rbtree_node_st K V),
    t.mem x = none → op t = some u →
    u.mem x = none ∧ op (t.ins x v) = some (u.ins x v)

/-- A test that only reads the store. -/
def LocalR {A : Type} (rd : rbtree_st K V → Option A) : Prop :=
  ∀ (t : rbtree_st K V) (x : Nat) (v : rbtree_node_st K V) (res : A),
    t.mem x = none → rd t = some res → rd (t.ins x v) = some res

/-- What the unlink phase of `rbtree_delete` leaves behind. -/
def UnlinkPost (t : rbtree_st K V) (Γ : List (Frame K V)) (x : Nat) (c : rb_color_t)
    (cs : rb_cursor_st K V) (l r : Tree K V) (ctx2 : List (Frame K V)) (hole : Tree K V)
    (col : rb_color_t) (m : Nat → Option (rbtree_node_st K V)) (R : Option Nat) : Prop :=
  Abs (t.upd m R) (plug ctx2 hole) ∧ m x = t.mem x ∧
  (plug ctx2 hole).addrs = ctxBeforeA Γ ++ (l.addrs ++ r.addrs) ++ ctxAfterA Γ ∧
  (plug ctx2 hole).toList = ctxBefore Γ ++ (l.toList ++ r.toList) ++ ctxAfter Γ ∧
  ctx2.length + 1 ≤ (plug Γ (.node x c cs l r)).height ∧
  (col = RB_RED → (plug ctx2 hole).Bal ∧ (plug ctx2 hole).NoRR ∧ (plug ctx2 hole).RootBlack) ∧
  (col = RB_BLACK → ∀ h csh hl hr, hole = .node h RB_RED csh hl hr →
    (plug ctx2 (.node h RB_BLACK csh hl hr)).Bal ∧ (plug ctx2 (.node h RB_BLACK csh hl hr)).NoRR ∧
    (plug ctx2 (.node h RB_BLACK csh hl hr)).RootBlack) ∧
  (col = RB_BLACK → hole.isRed = false → DelInv ctx2 hole)

/-- The header and the store of `t` hold the shape `T`, sorted, coloured by
the rules, with the cached cursors and the count in step. -/
def Inv (t : rbtree_st K V) (T : Tree K V) : Prop :=
  Consistent t.cmp_fn ∧ Abs t T ∧ Sorted t.cmp_fn T.toList ∧ T.RootBlack ∧ T.NoRR ∧ T.Bal ∧
    t.first = T.addrs.head? ∧ t.last = T.addrs.getLast? ∧
    t.nelem = T.toList.length % 2 ^ 32

/-- The traversal of `t` yields the entries `l` (for every large enough fuel). -/
def Entries (t : rbtree_st K V) (l : List (rb_cursor_st K V)) : Prop :=
  ∃ N, ∀ fuel, N ≤ fuel → inorder fuel t = some l

/-- The call `rbtree_insert(t, key, ksize, val)`, the allocator handing out
the address `a`, returns and leaves the tree `t2`. -/
def InsertsTo (t : rbtree_st K V) (key : K) (ksize : Nat) (val : V) (a : Nat)
    (t2 : rbtree_st K V) : Prop :=
  ∃ N, ∀ fuel, N ≤ fuel → rbtree_insert fuel t key ksize val a = some t2

/-- The call `rbtree_delete(t, key, ksize)` returns and leaves the tree `t2`. -/
def DeletesTo (t : rbtree_st K V) (key : K) (ksize : Nat) (t2 : rbtree_st K V) : Prop :=
  ∃ N, ∀ fuel, N ≤ fuel → rbtree_delete fuel t key ksize = some t2

/-- The call `rbtree_search(t, key, ksize, &val)` returns `res.1` and leaves
`res.2` in `*val` (`none`: `*val` was not written). -/
def SearchesTo (t : rbtree_st K V) (key : K) (ksize : Nat) (res : Int × Option V) : Prop :=
  ∃ N, ∀ fuel, N ≤ fuel → rbtree_search fuel t key ksize = some res

/-- Trees obtained from `rbtree_create` (with a consistent comparator) by
calls of `rbtree_insert` (on a fresh address from the allocator) and
`rbtree_delete`. -/
inductive Reachable : rbtree_st K V → Prop
  | create (data_free : Bool) (cmp : K → Nat → K → Nat → Int) (flag : Int)
      (hc : Consistent cmp) : Reachable (rbtree_create data_free cmp flag)
  | insert {t t2 : rbtree_st K V} (key : K) (ksize : Nat) (val : V) (a : Nat)
      (h : Reachable t) (ha : t.mem a = none) (e : InsertsTo t key ksize val a t2) :
      Reachable t2
  | delete {t t2 : rbtree_st K V} (key : K) (ksize : Nat)
      (h : Reachable t) (e : DeletesTo t key ksize t2) : Reachable t2

/-- A comparator on one-byte keys: the difference of the byte values. -/
def cmpC : Char → Nat → Char → Nat → Int := fun a _ b _ => (a.toNat : Int) - (b.toNat : Int)

/-- The empty tree of the examples, with a destructor registered. -/
def ex0 : rbtree_st Char Nat := rbtree_create true cmpC 0

/-- After `rbtree_insert(ex0, "b", 1, 20)`; the allocator hands out address 0. -/
def ex1 : rbtree_st Char Nat := (rbtree_insert 8 ex0 'b' 1 20 0).getD ex0

/-- After `rbtree_insert(ex1, "a", 1, 10)`; the allocator hands out address 1. -/
def ex2 : rbtree_st Char Nat := (rbtree_insert 8 ex1 'a' 1 10 1).getD ex1

/-- After `rbtree_insert(ex2, "c", 1, 30)`; the allocator hands out address 2. -/
def ex3 : rbtree_st Char Nat := (rbtree_insert 8 ex2 'c' 1 30 2).getD ex2

/-- After `rbtree_insert(ex3, "d", 1, 40)`; the allocator hands out address 3. -/
def ex4 : rbtree_st Char Nat := (rbtree_insert 8 ex3 'd' 1 40 3).getD ex3

/-- The shape held by `ex1`. -/
def exT1 : Tree Char Nat := .node 0 RB_BLACK ⟨'b', 1, 20⟩ .nil .nil

/-- The shape held by `ex2`. -/
def exT2 : Tree Char Nat :=
  .node 0 RB_BLACK ⟨'b', 1, 20⟩ (.node 1 RB_RED ⟨'a', 1, 10⟩ .nil .nil) .nil

/-- The shape held by `ex3`. -/
def exT3 : Tree Char Nat :=
  .node 0 RB_BLACK ⟨'b', 1, 20⟩ (.node 1 RB_RED ⟨'a', 1, 10⟩ .nil .nil)
    (.node 2 RB_RED ⟨'c', 1, 30⟩ .nil .nil)

/-- The shape held by `ex4`. -/
def exT4 : Tree Char Nat :=
  .node 0 RB_BLACK ⟨'b', 1, 20⟩ (.node 1 RB_BLACK ⟨'a', 1, 10⟩ .nil .nil)
    (.node 2 RB_BLACK ⟨'c', 1, 30⟩ .nil (.node 3 RB_RED ⟨'d', 1, 40⟩ .nil .nil))

/-- A consistent comparator that tells keys apart by parity only. -/
def cmpP : Nat → Nat → Nat → Nat → Int :=
  fun a _ b _ => ((a % 2 : Nat) : Int) - ((b % 2 : Nat) : Int)

/-- An empty tree in external-key mode under `cmpP`. -/
def cx0 : rbtree_st Nat Nat := rbtree_create false cmpP RFLAG_EXTERN_KEY

/-- After `rbtree_insert(cx0, 1, 1, 10)`; the allocator hands out address 0. -/
def cx1 : rbtree_st Nat Nat := (rbtree_insert 8 cx0 1 1 10 0).getD cx0

/-- After `rbtree_insert(cx1, 3, 1, 99)`: the key 3 compares equal to the
stored key 1. -/
def cx2 : rbtree_st Nat Nat := (rbtree_insert 8 cx1 3 1 99 1).getD cx1

/-! ## Bounds, destroy, foreach and the default comparator -/

/-- The loop of `rbtree_lower_bound`:
`while (parent && cmp_fn(parent key, key) < 0) parent = rb_next(parent);`
(`n` bounds the number of rounds, `fuel` is handed to `rb_next`). -/
def lower_bound_loop (fuel : Nat) (t : rbtree_st K V) (key : K) (ksize : Nat) :
    Nat → Option Nat → Option (Option Nat)
  | _, none => some none
  | 0, some _ => none
  | n + 1, some parent => do
    let pn ← t.mem parent
    if t.cmp_fn pn.cs.key pn.cs.ksize key ksize < 0 then do
      let nx ← rb_next fuel t parent
      lower_bound_loop fuel t key ksize n nx
    else pure (some parent)

/-- Function `rbtree_lower_bound`. -/
def rbtree_lower_bound (fuel : Nat) (t : rbtree_st K V) (key : K) (ksize : Nat) :
    Option (Option Nat) := do
  let (ret, parent, _) ← do_lookup fuel t key ksize
  match ret with
  | some r => pure (some r)
  | none => lower_bound_loop fuel t key ksize fuel parent

/-- The loop of `rbtree_upper_bound`:
`while (parent && cmp_fn(parent key, key) > 0) parent = rb_prev(parent);`. -/
def upper_bound_loop (fuel : Nat) (t : rbtree_st K V) (key : K) (ksize : Nat) :
    Nat → Option Nat → Option (Option Nat)
  | _, none => some none
  | 0, some _ => none
  | n + 1, some parent => do
    let pn ← t.mem parent
    if t.cmp_fn pn.cs.key pn.cs.ksize key ksize > 0 then do
      let pv ← rb_prev fuel t parent
      upper_bound_loop fuel t key ksize n pv
    else pure (some parent)

/-- Function `rbtree_upper_bound`. -/
def rbtree_upper_bound (fuel : Nat) (t : rbtree_st K V) (key : K) (ksize : Nat) :
    Option (Option Nat) := do
  let (ret, parent, _) ← do_lookup fuel t key ksize
  match ret with
  | some r => pure (some r)
  | none => upper_bound_loop fuel t key ksize fuel parent

/-- The guarded call `if (child) node_destroy(tree, child);` inside
`node_destroy`. -/
def destroy_child (destroy : rbtree_st K V → Nat → Option (rbtree_st K V))
    (t : rbtree_st K V) (child : Option Nat) : Option (rbtree_st K V) :=
  match child with
  | some c => destroy t c
  | none => pure t

/-- Function `node_destroy`: both subtrees first, then the destructor on the
value of the node, then the node itself is released. -/
def node_destroy : Nat → rbtree_st K V → Nat → Option (rbtree_st K V)
  | 0, _, _ => none
  | fuel + 1, t, node => do
    let n ← t.mem node
    let t ← destroy_child (node_destroy fuel) t n.left
    let n ← t.mem node
    let t ← destroy_child (node_destroy fuel) t n.right
    let n ← t.mem node
    let t := if t.data_free then { t with freed := t.freed ++ [n.cs.data] } else t
    pure { t with mem := Function.update t.mem node none }

/-- Function `rbtree_destroy`; `none` is a `NULL` tree. The result keeps the
store and the destructor log as the call leaves them (the header block is
released at the end). -/
def rbtree_destroy (fuel : Nat) (tree : Option (rbtree_st K V)) :
    Option (Option (rbtree_st K V)) :=
  match tree with
  | none => some none
  | some t =>
    match t.root with
    | some r => (node_destroy fuel t r).map some
    | none => some (some t)

/-- Conversion `(int)x` of a `uint32_t`. -/
def int_of_u32 (x : Nat) : Int :=
  if x % 2 ^ 32 < 2 ^ 31 then ((x % 2 ^ 32 : Nat) : Int) else ((x % 2 ^ 32 : Nat) : Int) - 2 ^ 32

/-- Result of an `int` operation, wrapped into the 32-bit range. -/
def wrap_int (z : Int) : Int := (z + 2 ^ 31) % 2 ^ 32 - 2 ^ 31

/-- The loop of `rbtree_foreach` from the cursor `cs`:
`for (...; cs; cs = rbtree_next(cs)) if ((res = fn(key, ksize, val, data))) return res;`.
The callback gets the key length as an `int`. The calls made are logged
(oldest first); the result is the return value and the log. -/
def foreach_from {D : Type} (fuel : Nat) (t : rbtree_st K V) (data : D)
    (fn : K → Int → V → D → Int) :
    Nat → Option Nat → List (K × Int × V) → Option (Int × List (K × Int × V))
  | _, none, log => some (0, log)
  | 0, some _, _ => none
  | n + 1, some cs, log => do
    let nd ← t.mem cs
    let res := fn nd.cs.key (int_of_u32 nd.cs.ksize) nd.cs.data data
    let log := log ++ [(nd.cs.key, int_of_u32 nd.cs.ksize, nd.cs.data)]
    if res ≠ 0 then pure (res, log)
    else do
      let nx ← rbtree_next fuel t cs
      foreach_from fuel t data fn n nx log

/-- Function `rbtree_foreach`; `fn = none` is a `NULL` callback. -/
def rbtree_foreach {D : Type} (fuel : Nat) (rb : rbtree_st K V) (data : D)
    (fn : Option (K → Int → V → D → Int)) : Option (Int × List (K × Int × V)) :=
  match fn with
  | none => some (0, [])
  | some f => foreach_from fuel rb data f fuel (rbtree_first rb) []

/-- C library `memcmp` from offset `i` on two byte blocks (`s j` is the byte
at offset `j`, read as `unsigned char`): the difference of the first pair of
bytes that differ among the next `n`, or 0. -/
def memcmp_from (s1 s2 : Nat → Nat) : Nat → Nat → Int
  | _, 0 => 0
  | i, n + 1 =>
    if s1 i % 256 = s2 i % 256 then memcmp_from s1 s2 (i + 1) n
    else ((s1 i % 256 : Nat) : Int) - ((s2 i % 256 : Nat) : Int)

/-- C library `memcmp`. -/
def memcmp (s1 s2 : Nat → Nat) (n : Nat) : Int := memcmp_from s1 s2 0 n

/-- Function `default_cmp`; the key lengths are `uint32_t`. -/
def default_cmp (key1 : Nat → Nat) (ksize1 : Nat) (key2 : Nat → Nat) (ksize2 : Nat) : Int :=
  let kmin := if ksize1 % 2 ^ 32 < ksize2 % 2 ^ 32 then ksize1 % 2 ^ 32 else ksize2 % 2 ^ 32
  let res := memcmp key1 key2 kmin
  if res ≠ 0 then res
  else wrap_int (int_of_u32 ksize1 - int_of_u32 ksize2)

/-- Function `rbtree_create` called with `cmp == NULL`:
`rb->cmp_fn = cmp ? cmp : default_cmp`. -/
def rbtree_create_default (data_free : Bool) (flag : Int) : rbtree_st (Nat → Nat) V :=
  rbtree_create data_free default_cmp flag

/-- The key `a` of length `la` is a proper byte-prefix of the key `b` of
length `lb`. -/
def ProperInit (a : Nat → Nat) (la : Nat) (b : Nat → Nat) (lb : Nat) : Prop :=
  la < lb ∧ ∀ i, i < la → a i % 256 = b i % 256

/-- The values of a shape in the order in which `node_destroy` visits them. -/
def Tree.postorder : Tree K V → List V
  | .nil => []
  | .node _ _ cs l r => l.postorder ++ r.postorder ++ [cs.data]

/-- The store after `node_destroy` has gone through the shape `T`: its nodes
are released and, when a destructor is registered, their values have been
handed to it. -/
def rbtree_st.wipe (t : rbtree_st K V) (T : Tree K V) : rbtree_st K V :=
  { t with mem := fun a => if a ∈ T.addrs then none else t.mem a,
           freed := if t.data_free then t.freed ++ T.postorder else t.freed }

/-- The call `rbtree_lower_bound(t, key, ksize)` returns the cursor `res`. -/
def LowerBoundsTo (t : rbtree_st K V) (key : K) (ksize : Nat) (res : Option Nat) : Prop :=
  ∃ N, ∀ fuel, N ≤ fuel → rbtree_lower_bound fuel t key ksize = some res

/-- The call `rbtree_upper_bound(t, key, ksize)` returns the cursor `res`. -/
def UpperBoundsTo (t : rbtree_st K V) (key : K) (ksize : Nat) (res : Option Nat) : Prop :=
  ∃ N, ∀ fuel, N ≤ fuel → rbtree_upper_bound fuel t key ksize = some res

/-- The call `rbtree_next(a)` returns the cursor `res`. -/
def NextsTo (t : rbtree_st K V) (a : Nat) (res : Option Nat) : Prop :=
  ∃ N, ∀ fuel, N ≤ fuel → rbtree_next fuel t a = some res

/-- The call `rbtree_prev(a)` returns the cursor `res`. -/
def PrevsTo (t : rbtree_st K V) (a : Nat) (res : Option Nat) : Prop :=
  ∃ N, ∀ fuel, N ≤ fuel → rbtree_prev fuel t a = some res

/-- The call `rbtree_destroy(tree)` returns and leaves `res`. -/
def DestroysTo (tree res : Option (rbtree_st K V)) : Prop :=
  ∃ N, ∀ fuel, N ≤ fuel → rbtree_destroy fuel tree = some res

/-- The call `rbtree_foreach(t, data, fn)` returns `res.1` after the calls
`res.2` of the callback. -/
def ForeachTo {D : Type} (t : rbtree_st K V) (data : D) (fn : Option (K → Int → V → D → Int))
    (res : Int × List (K × Int × V)) : Prop :=
  ∃ N, ∀ fuel, N ≤ fuel → rbtree_foreach fuel t data fn = some res

/-- What the callback of `rbtree_foreach` is handed for an entry. -/
def callArgs (e : rb_cursor_st K V) : K × Int × V := (e.key, int_of_u32 e.ksize, e.data)

/-- A three-way comparator on keys that are numbers: -1, 0 or 1 as the first
number is below, equal to or above the second. -/
def cmpN : Nat → Nat → Nat → Nat → Int :=
  fun a _ b _ => if a < b then -1 else if b < a then 1 else 0

/-- The tree after `rbtree_insert` of the keys `0, 1, ..., n - 1` in turn into
an empty tree; the key `k` is the number `k` held in 8 bytes (key length 8),
and the allocator hands out the address `k` for the node of the key `k`. -/
def fill : Nat → rbtree_st Nat Nat
  | 0 => rbtree_create false cmpN 0
  | n + 1 => (rbtree_insert (n + 1) (fill n) n 8 0 n).getD (fill n)

/-- After `rbtree_insert(ex0, "a", 1, 10)`; the allocator hands out address 0. -/
def ey1 : rbtree_st Char Nat := (rbtree_insert 8 ex0 'a' 1 10 0).getD ex0

/-- After `rbtree_insert(ey1, "c", 1, 30)`; the allocator hands out address 1. -/
def ey2 : rbtree_st Char Nat := (rbtree_insert 8 ey1 'c' 1 30 1).getD ey1

/-- After `rbtree_insert(ey2, "e", 1, 50)`; the allocator hands out address 2. -/
def ey3 : rbtree_st Char Nat := (rbtree_insert 8 ey2 'e' 1 50 2).getD ey2

/-- The shape held by `ey1`. -/
def eyT1 : Tree Char Nat := .node 0 RB_BLACK ⟨'a', 1, 10⟩ .nil .nil

/-- The shape held by `ey2`. -/
def eyT2 : Tree Char Nat :=
  .node 0 RB_BLACK ⟨'a', 1, 10⟩ .nil (.node 1 RB_RED ⟨'c', 1, 30⟩ .nil .nil)

/-- The shape held by `ey3`. -/
def eyT3 : Tree Char Nat :=
  .node 1 RB_BLACK ⟨'c', 1, 30⟩ (.node 0 RB_RED ⟨'a', 1, 10⟩ .nil .nil)
    (.node 2 RB_RED ⟨'e', 1, 50⟩ .nil .nil)

/-! ## Size, parent links, rotation count, list, stack and trie traversal -/

/-- Function `rbtree_size`; `node_size` is `sizeof(rbtree_node_st)`. The
product is returned as a `uint32_t`. -/
def rbtree_size (node_size : Nat) (t : rbtree_st K V) : Nat := (t.nelem * node_size) % 2 ^ 32

/-- Parent back-references of the nodes of the shape `T` in the store: the
root has no parent, every child points back to its parent, and a node without
a parent is the root. -/
def ParentLinks (t : rbtree_st K V) (T : Tree K V) : Prop :=
  (∀ r, t.root = some r → ∃ n, t.mem r = some n ∧ n.parent = none) ∧
  ∀ a ∈ T.addrs, ∃ n, t.mem a = some n ∧
    (∀ c, n.left = some c → ∃ nc, t.mem c = some nc ∧ nc.parent = some a) ∧
    (∀ c, n.right = some c → ∃ nc, t.mem c = some nc ∧ nc.parent = some a) ∧
    (n.parent = none → t.root = some a)

/-! ## Counting the rotations of an insert -/

/-- The body of the fixup loop of `rbtree_insert` for `parent == grandpa->left`
(lines 333-349, as `insert_fixup_left`), which also returns the number of calls
of `rotate_left` and `rotate_right` it makes. -/
def insert_fixup_left_rot (t : rbtree_st K V) (node parent grandpa : Nat) :
    Option (rbtree_st K V × Nat × Nat) := do
  let gn ← t.mem grandpa
  let uncle := gn.right
  let red ← is_red_ptr t uncle
  if red then do
    let t ← set_color RB_BLACK parent t
    let u ← uncle
    let t ← set_color RB_BLACK u t
    let t ← set_color RB_RED grandpa t
    pure (t, grandpa, 0)
  else do
    let pn ← t.mem parent
    let (t, node, parent, k) ← (if some node = pn.right then do
        let t ← rotate_left t parent
        let node := parent
        let n ← t.mem node
        let parent ← n.parent
        pure (t, node, parent, 1)
      else pure (t, node, parent, 0))
    let t ← set_color RB_BLACK parent t
    let t ← set_color RB_RED grandpa t
    let t ← rotate_right t grandpa
    pure (t, node, k + 1)

/-- The body of the fixup loop of `rbtree_insert` for `parent != grandpa->left`
(lines 351-367, as `insert_fixup_right`), which also returns the number of
calls of `rotate_left` and `rotate_right` it makes. -/
def insert_fixup_right_rot (t : rbtree_st K V) (node parent grandpa : Nat) :
    Option (rbtree_st K V × Nat × Nat) := do
  let gn ← t.mem grandpa
  let uncle := gn.left
  let red ← is_red_ptr t uncle
  if red then do
    let t ← set_color RB_BLACK parent t
    let u ← uncle
    let t ← set_color RB_BLACK u t
    let t ← set_color RB_RED grandpa t
    pure (t, grandpa, 0)
  else do
    let pn ← t.mem parent
    let (t, node, parent, k) ← (if some node = pn.left then do
        let t ← rotate_right t parent
        let node := parent
        let n ← t.mem node
        let parent ← n.parent
        pure (t, node, parent, 1)
      else pure (t, node, parent, 0))
    let t ← set_color RB_BLACK parent t
    let t ← set_color RB_RED grandpa t
    let t ← rotate_left t grandpa
    pure (t, node, k + 1)

/-- The fixup loop of `rbtree_insert` (as `insert_fixup`), which adds the
number of calls of `rotate_left` and `rotate_right` it makes to `rots`. -/
def insert_fixup_rot : Nat → rbtree_st K V → Nat → Nat → Option (rbtree_st K V × Nat)
  | 0, _, _, _ => none
  | fuel + 1, t, node, rots => do
    let n ← t.mem node
    match n.parent with
    | none => pure (t, rots)
    | some parent => do
      let pn ← t.mem parent
      if pn.color = RB_BLACK then pure (t, rots)
      else do
        let grandpa ← pn.parent
        let gn ← t.mem grandpa
        let (t, node, k) ← (if some parent = gn.left then
            insert_fixup_left_rot t node parent grandpa
          else insert_fixup_right_rot t node parent grandpa)
        insert_fixup_rot fuel t node (rots + k)

/-- Function `rbtree_insert` (as `rbtree_insert`), which also returns the number
of calls of `rotate_left` and `rotate_right` made during the call. -/
def rbtree_insert_rot (fuel : Nat) (t : rbtree_st K V) (key : K) (ksize : Nat) (val : V)
    (a : Nat) : Option (rbtree_st K V × Nat) := do
  let (found, parent, is_left) ← do_lookup fuel t key ksize
  match found with
  | some node => do
    let t ← insert_overwrite t node key ksize val
    pure (t, 0)
  | none => do
    let node := a
    let t := t.store node
      { cs := { key := key, ksize := ksize, data := val },
        left := none, right := none, parent := parent, color := RB_RED }
    let t ← insert_link t node parent is_left
    let (t, rots) ← insert_fixup_rot fuel t node 0
    let r ← t.root
    let t ← set_color RB_BLACK r t
    pure ({ t with nelem := (t.nelem + 1) % 2 ^ 32 }, rots)

/-- The call `rbtree_insert(t, key, ksize, val)`, the allocator handing out the
address `a`, returns, leaves the tree `t2` and makes `k` calls of
`rotate_left` and `rotate_right`. -/
def InsertsRotating (t : rbtree_st K V) (key : K) (ksize : Nat) (val : V) (a : Nat)
    (t2 : rbtree_st K V) (k : Nat) : Prop :=
  ∃ N, ∀ fuel, N ≤ fuel → rbtree_insert_rot fuel t key ksize val a = some (t2, k)

/-! ## Intrusive circular list (`list.c`) -/

/-- Modelled from the spec: the type `list_t` of `list.h`, which is not among
the sources; the link of an intrusive doubly-linked list, with the two fields
`next` and `prev` that `list.c` reads and writes. The links live in a store
addressed by natural numbers; `list.c` never stores `NULL` in a link. -/
structure list_t where
  next : Nat
  prev : Nat
  deriving DecidableEq

/-- Read of `a->next`. -/
def list_next (m : Nat → Option list_t) (a : Nat) : Option Nat := (m a).map (fun c => c.next)

/-- Read of `a->prev`. -/
def list_prev (m : Nat → Option list_t) (a : Nat) : Option Nat := (m a).map (fun c => c.prev)

/-- Assignment `a->next = v`. -/
def list_set_next (m : Nat → Option list_t) (a v : Nat) : Option (Nat → Option list_t) := do
  let c ← m a
  pure (Function.update m a (some { c with next := v }))

/-- Assignment `a->prev = v`. -/
def list_set_prev (m : Nat → Option list_t) (a v : Nat) : Option (Nat → Option list_t) := do
  let c ← m a
  pure (Function.update m a (some { c with prev := v }))

/-- Function `list_init`: both fields of the link at `l` are written. -/
def list_init (m : Nat → Option list_t) (l : Nat) : Nat → Option list_t :=
  Function.update m l (some { next := l, prev := l })

/-- Function `list_is_empty`. -/
def list_is_empty (m : Nat → Option list_t) (l : Nat) : Option Bool :=
  (list_next m l).map (fun n => decide (n = l))

/-- Function `list_head` (`none` inside is `NULL`). -/
def list_head (m : Nat → Option list_t) (l : Nat) : Option (Option Nat) :=
  (list_next m l).map (fun n => if n ≠ l then some n else none)

/-- Function `list_tail` (`none` inside is `NULL`). -/
def list_tail (m : Nat → Option list_t) (l : Nat) : Option (Option Nat) :=
  (list_prev m l).map (fun p => if p ≠ l then some p else none)

/-- Function `list_del`; the list argument is not used by the code. -/
def list_del (m : Nat → Option list_t) (_l : Option Nat) (elem : Nat) :
    Option (Nat → Option list_t) := do
  let p ← list_prev m elem
  let n ← list_next m elem
  let m ← list_set_next m p n
  let n ← list_next m elem
  let p ← list_prev m elem
  let m ← list_set_prev m n p
  let m ← list_set_next m elem elem
  list_set_prev m elem elem

/-- Function `list_add_tail`. -/
def list_add_tail (m : Nat → Option list_t) (l elem : Nat) : Option (Nat → Option list_t) := do
  let m ← list_del m (some l) elem
  let prev ← list_prev m l
  let m ← list_set_prev m l elem
  let m ← list_set_next m elem l
  let m ← list_set_prev m elem prev
  list_set_next m prev elem

/-- Function `list_add_head`. -/
def list_add_head (m : Nat → Option list_t) (l elem : Nat) : Option (Nat → Option list_t) := do
  let m ← list_del m (some l) elem
  let next ← list_next m l
  let m ← list_set_next m l elem
  let m ← list_set_prev m elem l
  let m ← list_set_next m elem next
  list_set_prev m next elem

/-- Function `list_pop_head`: the store and the link taken off (`none`: `NULL`). -/
def list_pop_head (m : Nat → Option list_t) (l : Nat) :
    Option ((Nat → Option list_t) × Option Nat) := do
  let head ← list_next m l
  let empty ← list_is_empty m l
  if empty then pure (m, none)
  else do
    let h ← list_next m l
    let m ← list_del m (some l) h
    pure (m, some head)

/-- Function `list_pop_tail`: the store and the link taken off (`none`: `NULL`). -/
def list_pop_tail (m : Nat → Option list_t) (l : Nat) :
    Option ((Nat → Option list_t) × Option Nat) := do
  let tail ← list_prev m l
  let empty ← list_is_empty m l
  if empty then pure (m, none)
  else do
    let p ← list_prev m l
    let m ← list_del m (some l) p
    pure (m, some tail)

/-- Modelled from the spec: the macro `list_foreach(l, elem)` of `list.h`, which
is not among the sources; the intrusive doubly-linked list is walked from
`elem` along `next` until the head `l` comes back. The links visited are
collected. -/
def list_foreach_from (m : Nat → Option list_t) (l : Nat) : Nat → Nat → Option (List Nat)
  | 0, _ => none
  | fuel + 1, elem =>
    if elem = l then some []
    else do
      let n ← list_next m elem
      let rest ← list_foreach_from m l fuel n
      pure (elem :: rest)

/-- The elements reached by `list_foreach(l, elem)`. -/
def list_elems (fuel : Nat) (m : Nat → Option list_t) (l : Nat) : Option (List Nat) := do
  let n ← list_next m l
  list_foreach_from m l fuel n

/-- Function `list_count`. -/
def list_count (fuel : Nat) (m : Nat → Option list_t) (l : Nat) : Option Nat :=
  (list_elems fuel m l).map List.length

/-- The link `a` points on to `b` and `b` points back to `a`. -/
def Link (m : Nat → Option list_t) (a b : Nat) : Prop :=
  list_next m a = some b ∧ list_prev m b = some a

/-- The store holds the well-formed circular list with head `l` and elements
`xs` (in order): the links are distinct, and along `l, xs, l` every link points
on to the one after it, which points back. -/
def ListRep (m : Nat → Option list_t) (l : Nat) (xs : List Nat) : Prop :=
  (l :: xs).Nodup ∧ List.Chain' (Link m) (l :: xs ++ [l])

/-- The link at `e` is initialised (`list_init`) and in no list: it points to
itself both ways. -/
def SelfLinked (m : Nat → Option list_t) (e : Nat) : Prop := Link m e e

/-- On the links `S` the `next` and `prev` pointers are inverse to each other
and stay inside `S`. -/
def LinksInverse (m : Nat → Option list_t) (S : List Nat) : Prop :=
  ∀ a ∈ S, ∃ b c, b ∈ S ∧ c ∈ S ∧ list_next m a = some b ∧ list_prev m b = some a ∧
    list_prev m a = some c ∧ list_next m c = some a

/-- A store with the list whose head is the link at 0 and whose elements are
the links at 1 and 2, in this order; the link at 3 is initialised and in no
list. -/
def lx3 : Nat → Option list_t := fun a =>
  if a = 0 then some { next := 1, prev := 2 }
  else if a = 1 then some { next := 2, prev := 0 }
  else if a = 2 then some { next := 0, prev := 1 }
  else if a = 3 then some { next := 3, prev := 3 }
  else none

/-- The call `list_count(l)` returns `n`. -/
def CountsTo (m : Nat → Option list_t) (l : Nat) (n : Nat) : Prop :=
  ∃ N, ∀ fuel, N ≤ fuel → list_count fuel m l = some n

/-- The walk `list_foreach(l, elem)` visits the links `xs` in this order. -/
def WalksTo (m : Nat → Option list_t) (l : Nat) (xs : List Nat) : Prop :=
  ∃ N, ∀ fuel, N ≤ fuel → list_elems fuel m l = some xs

/-! ## Stack (`stack.c`) -/

/-- A stack, `struct stack_st`, together with its nodes (`stack_node_t`). The
list member of the header is the link at the address `self` of the store
`links`, the list member of a node is the link at the address of the node, and
`data a` is the `data` pointer of the node at `a` (`none`: `NULL`). The field
`size` is a `size_t`; it counts nodes that are allocated one by one, so it
stays below the range of the type and is kept as a natural number. -/
structure stack_st (D : Type) where
  links : Nat → Option list_t
  data : Nat → Option D
  self : Nat
  size : Nat

/-- Function `stack_new`; the allocator hands out the address `s`. -/
def stack_new {D : Type} (s : Nat) : stack_st D :=
  { links := list_init (fun _ => none) s, data := fun _ => none, self := s, size := 0 }

/-- Function `stack_push`; the allocator hands out the address `a` for the
node. -/
def stack_push {D : Type} (stack : stack_st D) (data : Option D) (a : Nat) :
    Option (stack_st D) := do
  let m := list_init stack.links a
  let dt := Function.update stack.data a data
  let m ← list_add_head m stack.self a
  pure { stack with links := m, data := dt, size := stack.size + 1 }

/-- Function `stack_pop`: the stack afterwards and the pointer returned. -/
def stack_pop {D : Type} (stack : stack_st D) : Option (stack_st D × Option D) :=
  if stack.size = 0 then pure (stack, none)
  else do
    let (m, node) ← list_pop_head stack.links stack.self
    let node ← node
    let _ ← m node
    let data := stack.data node
    pure ({ stack with links := Function.update m node none,
                       data := Function.update stack.data node none,
                       size := stack.size - 1 }, data)

/-- Function `stack_top`. -/
def stack_top {D : Type} (stack : stack_st D) : Option (Option D) :=
  if stack.size = 0 then pure none
  else do
    let node ← list_head stack.links stack.self
    let node ← node
    let _ ← stack.links node
    pure (stack.data node)

/-- Function `stack_size`. -/
def stack_size {D : Type} (stack : stack_st D) : Nat := stack.size

/-- Function `stack_empty`. -/
def stack_empty {D : Type} (stack : stack_st D) : Bool := decide (stack.size = 0)

/-- Function `stack_clear`: `while (stack_pop(stack)) ;`. -/
def stack_clear {D : Type} : Nat → stack_st D → Option (stack_st D)
  | 0, _ => none
  | fuel + 1, stack => do
    let (stack, data) ← stack_pop stack
    match data with
    | some _ => stack_clear fuel stack
    | none => pure stack

/-- The stack holds the nodes at the addresses `as` (top first) with the data
pointers `ds`: the links form the well-formed list of these nodes, every node
carries its pointer, and `size` is their number. -/
def StackRep {D : Type} (stack : stack_st D) (as : List Nat) (ds : List (Option D)) : Prop :=
  ListRep stack.links stack.self as ∧ as.map stack.data = ds ∧ stack.size = as.length

/-- The stack holds the data pointers `ds`, top first. -/
def Holds {D : Type} (stack : stack_st D) (ds : List (Option D)) : Prop :=
  ∃ as, StackRep stack as ds

/-- The calls `stack_push(stack, d)` for the pointers `d` of the list in turn;
the allocator hands out the address paired with the pointer. -/
def stack_push_all {D : Type} : List (Option D × Nat) → stack_st D → Option (stack_st D)
  | [], stack => some stack
  | (d, a) :: rest, stack => do
    let stack ← stack_push stack d a
    stack_push_all rest stack

/-- The call `stack_pop(stack)` made `n` times: the stack afterwards and the
pointers returned, in the order of the calls. -/
def stack_pop_n {D : Type} : Nat → stack_st D → Option (stack_st D × List (Option D))
  | 0, stack => some (stack, [])
  | n + 1, stack => do
    let (stack, d) ← stack_pop stack
    let (stack, ds) ← stack_pop_n n stack
    pure (stack, d :: ds)

/-- The stack after `stack_new` and `stack_push(7)`, with data pointers given as
numbers; the allocator hands out the addresses 0 and 1. -/
def sx1 : stack_st Nat := (stack_push (stack_new 0) (some 7) 1).getD (stack_new 0)

/-- The stack after `stack_new`, `stack_push(7)`, `stack_push(NULL)`, with data
pointers given as numbers; the allocator hands out the addresses 0, 1, 2. -/
def sx2 : Option (stack_st Nat) :=
  (stack_push (stack_new 0) (some 7) 1).bind (fun s => stack_push s none 2)

/-! ## Trie traversal (`trie.c`) -/

/-- Macro `TRIE_NODE_TAKEN` of `trie.h`. -/
def TRIE_NODE_TAKEN : Int := 1

/-- Macro `TRIE_NODE_CONTINUE` of `trie.h`. -/
def TRIE_NODE_CONTINUE : Int := 1

/-- Modelled from the spec: a hash table of `hash.h`, whose code (`hash.c`) is
not among the sources; the table is given as the list of the values it holds,
in the order in which `hash_table_foreach` yields them. -/
abbrev hash_table_t : Type := List Nat

/-- The fields of `struct trie_node` that `trie_node_foreach` reads: the parent
pointer and the table of the child nodes. -/
structure trie_node where
  parent : Option Nat
  childs : hash_table_t

/-- The loop `hash_table_foreach(top->childs, it) stack_push(sk, it.val);`; the
allocator hands out the addresses `a, a + 1, ...`. The result is the stack and
the next address of the allocator. -/
def trie_push_childs : hash_table_t → stack_st Nat → Nat → Option (stack_st Nat × Nat)
  | [], sk, a => some (sk, a)
  | c :: cs, sk, a => do
    let sk ← stack_push sk (some c) a
    trie_push_childs cs sk (a + 1)

/-- The loop of `trie_node_foreach`; `fn` is the callback, the nodes it is
called on are logged (oldest first). -/
def trie_foreach_loop (mem : Nat → Option trie_node) (fn : Nat → Int) :
    Nat → stack_st Nat → Nat → List Nat → Option (stack_st Nat × List Nat)
  | 0, _, _, _ => none
  | fuel + 1, sk, a, log =>
    if stack_empty sk then some (sk, log)
    else do
      let (sk, top) ← stack_pop sk
      let top ← top
      let nd ← mem top
      if nd.parent.isSome then
        let log := log ++ [top]
        if fn top = TRIE_NODE_TAKEN then pure (sk, log)
        else do
          let (sk, a) ← trie_push_childs nd.childs sk a
          trie_foreach_loop mem fn fuel sk a log
      else do
        let (sk, a) ← trie_push_childs nd.childs sk a
        trie_foreach_loop mem fn fuel sk a log

/-- Function `trie_node_foreach`; the allocator hands out the addresses from
`a` on. The result is the list of the nodes the callback was called on. -/
def trie_node_foreach (fuel : Nat) (mem : Nat → Option trie_node) (node : Nat)
    (fn : Nat → Int) (a : Nat) : Option (List Nat) := do
  let sk : stack_st Nat := stack_new a
  let sk ← stack_push sk (some node) (a + 1)
  let (sk, log) ← trie_foreach_loop mem fn fuel sk (a + 2) []
  let _ ← stack_clear fuel sk
  pure log

/-- A trie of three nodes: the root at 10 with the children at 11 and 12. -/
def tx3 : Nat → Option trie_node := fun a =>
  if a = 10 then some { parent := none, childs := [11, 12] }
  else if a = 11 then some { parent := some 10, childs := [] }
  else if a = 12 then some { parent := some 10, childs := [] }
  else none

/-! ## Cursor lookup, node payload and a tree with a long key -/

/-- The call `rbtree_get_cursor(t, key, ksize)` returns the cursor `res`. -/
def GetsCursor (t : rbtree_st K V) (key : K) (ksize : Nat) (res : Option Nat) : Prop :=
  ∃ N, ∀ fuel, N ≤ fuel → rbtree_get_cursor fuel t key ksize = some res

/-- The payload that a cursor to the node at `b` reads: its key, key length
and value (`none` when no node is allocated at `b`). -/
def payload (t : rbtree_st K V) (b : Nat) : Option (rb_cursor_st K V) :=
  (t.mem b).map (fun n => n.cs)

/-- A comparator on byte strings (`s i` is the byte at offset `i`) that orders
the keys by their first byte. -/
def cmpB : (Nat → Nat) → Nat → (Nat → Nat) → Nat → Int :=
  fun a _ b _ => ((a 0 % 256 : Nat) : Int) - ((b 0 % 256 : Nat) : Int)

/-- The empty tree under `cmpB`. -/
def ez0 : rbtree_st (Nat → Nat) Nat := rbtree_create false cmpB 0

/-- After `rbtree_insert(ez0, key, 2147483649, 10)` for the key of 2147483649
zero bytes; the allocator hands out address 0. -/
def ez1 : rbtree_st (Nat → Nat) Nat :=
  (rbtree_insert 8 ez0 (fun _ => 0) 2147483649 10 0).getD ez0

/-! ## Store and shape: framing lemmas -/

/-! ## Header bookkeeping -/

@[simp] theorem upd_mem (t : rbtree_st K V) (m) (r) : (t.upd m r).mem = m := rfl
@[simp] theorem upd_root (t : rbtree_st K V) (m) (r) : (t.upd m r).root = r := rfl
@[simp] theorem upd_first (t : rbtree_st K V) (m) (r) : (t.upd m r).first = t.first := rfl
@[simp] theorem upd_last (t : rbtree_st K V) (m) (r) : (t.upd m r).last = t.last := rfl
@[simp] theorem upd_nelem (t : rbtree_st K V) (m) (r) : (t.upd m r).nelem = t.nelem := rfl
@[simp] theorem upd_flag (t : rbtree_st K V) (m) (r) : (t.upd m r).flag = t.flag := rfl
@[simp] theorem upd_cmp_fn (t : rbtree_st K V) (m) (r) : (t.upd m r).cmp_fn = t.cmp_fn := rfl
@[simp] theorem upd_data_free (t : rbtree_st K V) (m) (r) :
    (t.upd m r).data_free = t.data_free := rfl
@[simp] theorem upd_freed (t : rbtree_st K V) (m) (r) : (t.upd m r).freed = t.freed := rfl
@[simp] theorem upd_upd (t : rbtree_st K V) (m m2) (r r2) :
    (t.upd m r).upd m2 r2 = t.upd m2 r2 := rfl
@[simp] theorem upd_self (t : rbtree_st K V) : t.upd t.mem t.root = t := rfl

theorem store_eq_upd (t : rbtree_st K V) (a : Nat) (n : rbtree_node_st K V) :
    t.store a n = t.upd (Function.update t.mem a (some n)) t.root := rfl

theorem set_color_eq (t : rbtree_st K V) (c : rb_color_t) (a : Nat) (n : rbtree_node_st K V)
    (h : t.mem a = some n) :
    set_color c a t = some (t.upd (Function.update t.mem a (some { n with color := c })) t.root) := by
  simp [set_color, h, store_eq_upd]

theorem set_parent_eq (t : rbtree_st K V) (p : Option Nat) (a : Nat) (n : rbtree_node_st K V)
    (h : t.mem a = some n) :
    set_parent p a t = some (t.upd (Function.update t.mem a (some { n with parent := p })) t.root) := by
  simp [set_parent, h, store_eq_upd]

theorem set_left_eq (t : rbtree_st K V) (p : Option Nat) (a : Nat) (n : rbtree_node_st K V)
    (h : t.mem a = some n) :
    set_left p a t = some (t.upd (Function.update t.mem a (some { n with left := p })) t.root) := by
  simp [set_left, h, store_eq_upd]

theorem set_right_eq (t : rbtree_st K V) (p : Option Nat) (a : Nat) (n : rbtree_node_st K V)
    (h : t.mem a = some n) :
    set_right p a t = some (t.upd (Function.update t.mem a (some { n with right := p })) t.root) := by
  simp [set_right, h, store_eq_upd]

/-! ## Shapes and stores -/

theorem Repr.congr {m m2 : Nat → Option (rbtree_node_st K V)} {T : Tree K V} {par : Option Nat}
    (h : Repr m T par) (hm : ∀ a ∈ T.addrs, m2 a = m a) : Repr m2 T par := by
  induction T generalizing par with
  | nil => trivial
  | node a c cs l r ihl ihr =>
    obtain ⟨h1, h2, h3⟩ := h
    refine ⟨?_, ihl h2 ?_, ihr h3 ?_⟩
    · rw [hm a (by simp [Tree.addrs])]; exact h1
    · intro x hx; exact hm x (by simp [Tree.addrs, hx])
    · intro x hx; exact hm x (by simp [Tree.addrs, hx])

theorem Repr.frame {m : Nat → Option (rbtree_node_st K V)} {T : Tree K V} {par : Option Nat}
    (h : Repr m T par) {a : Nat} (v : Option (rbtree_node_st K V)) (ha : a ∉ T.addrs) :
    Repr (Function.update m a v) T par :=
  h.congr (fun x hx => Function.update_noteq (ne_of_mem_of_not_mem hx ha) _ _)

/-- Changing the parent pointer of the root node of a shape. -/
theorem Repr.reparent {m : Nat → Option (rbtree_node_st K V)} {T : Tree K V} {par : Option Nat}
    (h : Repr m T par) (par2 : Option Nat) (hnd : T.addrs.Nodup) :
    ∀ a n, T.ptr = some a → m a = some n →
      Repr (Function.update m a (some { n with parent := par2 })) T par2 := by
  intro a n hp hn
  cases T with
  | nil => trivial
  | node b c cs l r =>
    simp only [Tree.ptr, Option.some.injEq] at hp
    subst hp
    obtain ⟨h1, h2, h3⟩ := h
    simp only [Tree.addrs, List.nodup_append, List.nodup_cons, List.mem_cons, not_or] at hnd
    rw [h1] at hn
    cases hn
    refine ⟨by simp, h2.frame _ ?_, h3.frame _ hnd.2.1.1⟩
    intro hb
    exact hnd.2.2 hb (by simp)

theorem mem_of_Repr {m : Nat → Option (rbtree_node_st K V)} {T : Tree K V} {par : Option Nat}
    (h : Repr m T par) {a : Nat} (ha : a ∈ T.addrs) : m a ≠ none := by
  induction T generalizing par with
  | nil => simp [Tree.addrs] at ha
  | node b c cs l r ihl ihr =>
    obtain ⟨h1, h2, h3⟩ := h
    simp only [Tree.addrs, List.mem_append, List.mem_cons] at ha
    rcases ha with ha | rfl | ha
    · exact ihl h2 ha
    · simp [h1]
    · exact ihr h3 ha

/-! ## Paths -/

theorem addrs_plug (Γ : List (Frame K V)) (t : Tree K V) :
    (plug Γ t).addrs = ctxBeforeA Γ ++ t.addrs ++ ctxAfterA Γ := by
  induction Γ generalizing t with
  | nil => simp [plug, ctxBeforeA, ctxAfterA]
  | cons f fs ih =>
    rw [plug, ih]
    cases hf : f.isLeft <;> simp [Frame.plug, hf, ctxBeforeA, ctxAfterA, Tree.addrs]

theorem toList_plug (Γ : List (Frame K V)) (t : Tree K V) :
    (plug Γ t).toList = ctxBefore Γ ++ t.toList ++ ctxAfter Γ := by
  induction Γ generalizing t with
  | nil => simp [plug, ctxBefore, ctxAfter]
  | cons f fs ih =>
    rw [plug, ih]
    cases hf : f.isLeft <;> simp [Frame.plug, hf, ctxBefore, ctxAfter, Tree.toList]

theorem ptr_plug (Γ : List (Frame K V)) (t : Tree K V) :
    (plug Γ t).ptr = ctxRoot Γ t.ptr := by
  induction Γ generalizing t with
  | nil => rfl
  | cons f fs ih =>
    rw [plug, ih]
    cases hf : f.isLeft <;> simp [Frame.plug, hf, ctxRoot, Tree.ptr]

theorem Repr_plug {m : Nat → Option (rbtree_node_st K V)} (Γ : List (Frame K V))
    (t : Tree K V) :
    Repr m (plug Γ t) none ↔ ReprCtx m Γ t.ptr ∧ Repr m t (ctxPtr Γ) := by
  induction Γ generalizing t with
  | nil => simp [plug, ReprCtx, ctxPtr]
  | cons f fs ih =>
    rw [plug, ih]
    cases hf : f.isLeft <;> simp [Frame.plug, hf, ReprCtx, Repr, Tree.ptr, ctxPtr] <;> tauto

theorem addrs_plug_perm (Γ : List (Frame K V)) (t : Tree K V) :
    (plug Γ t).addrs.Perm (ctxAddrs Γ ++ t.addrs) := by
  induction Γ generalizing t with
  | nil => simp [plug, ctxAddrs]
  | cons f fs ih =>
    rw [plug]
    refine (ih _).trans ?_
    cases hf : f.isLeft
    · simp only [Frame.plug, hf, Tree.addrs, ctxAddrs, Bool.false_eq_true, if_false]
      rw [List.perm_iff_count]
      intro x
      simp only [List.count_append, List.count_cons]
      omega
    · simp only [Frame.plug, hf, Tree.addrs, ctxAddrs, if_true]
      rw [List.perm_iff_count]
      intro x
      simp only [List.count_append, List.count_cons]
      omega

theorem nodup_plug {Γ : List (Frame K V)} {t : Tree K V} :
    (plug Γ t).addrs.Nodup ↔
      (ctxAddrs Γ).Nodup ∧ t.addrs.Nodup ∧ ∀ a ∈ t.addrs, a ∉ ctxAddrs Γ := by
  rw [(addrs_plug_perm Γ t).nodup_iff, List.nodup_append]
  constructor
  · rintro ⟨h1, h2, h3⟩
    exact ⟨h1, h2, fun a ha hc => h3 hc ha⟩
  · rintro ⟨h1, h2, h3⟩
    exact ⟨h1, h2, fun a hc ha => h3 a ha hc⟩

theorem ptr_mem {T : Tree K V} {a : Nat} (h : T.ptr = some a) : a ∈ T.addrs := by
  cases T with
  | nil => simp [Tree.ptr] at h
  | node b c cs l r =>
    simp only [Tree.ptr, Option.some.injEq] at h
    simp [Tree.addrs, h]

theorem ReprCtx.congrCtx {m m2 : Nat → Option (rbtree_node_st K V)} {Γ : List (Frame K V)}
    {hp : Option Nat} (h : ReprCtx m Γ hp) (hm : ∀ a ∈ ctxAddrs Γ, m2 a = m a) :
    ReprCtx m2 Γ hp := by
  induction Γ generalizing hp with
  | nil => trivial
  | cons f fs ih =>
    obtain ⟨h1, h2, h3⟩ := h
    refine ⟨?_, h2.congr ?_, ih h3 ?_⟩
    · rw [hm f.a (by simp [ctxAddrs])]; exact h1
    · intro x hx; exact hm x (by simp [ctxAddrs, hx])
    · intro x hx; exact hm x (by simp [ctxAddrs, hx])

theorem ReprCtx.frameCtx {m : Nat → Option (rbtree_node_st K V)} {Γ : List (Frame K V)}
    {hp : Option Nat} (h : ReprCtx m Γ hp) {a : Nat} (v : Option (rbtree_node_st K V))
    (ha : a ∉ ctxAddrs Γ) : ReprCtx (Function.update m a v) Γ hp :=
  h.congrCtx (fun x hx => Function.update_noteq (ne_of_mem_of_not_mem hx ha) _ _)

/-- The link above the hole is redirected. -/
theorem rotate_relink_spec {t : rbtree_st K V} {Γ : List (Frame K V)} {p q : Nat}
    (hroot : t.root = ctxRoot Γ (some p))
    (hctx : ReprCtx t.mem Γ (some p)) (hnd : (ctxAddrs Γ).Nodup)
    (hp : p ∉ ctxAddrs Γ) :
    ∃ m1, rotate_relink t (ctxPtr Γ) p q = some (t.upd m1 (ctxRoot Γ (some q))) ∧
      ReprCtx m1 Γ (some q) ∧ (∀ a, some a ≠ ctxPtr Γ → m1 a = t.mem a) := by
  cases Γ with
  | nil =>
    refine ⟨t.mem, ?_, trivial, fun _ _ => rfl⟩
    simp [rotate_relink, ctxPtr, ctxRoot, rbtree_st.upd]
  | cons f fs =>
    obtain ⟨h1, h2, h3⟩ := hctx
    simp only [ctxAddrs, List.nodup_cons, List.mem_append, not_or, List.nodup_append,
      List.mem_cons] at hnd hp
    have hsib : f.sib.ptr ≠ some p := fun h => hp.2.1 (ptr_mem h)
    cases hf : f.isLeft
    · simp only [hf, Bool.false_eq_true, if_false] at h1
      refine ⟨Function.update t.mem f.a (some ⟨f.cs, f.sib.ptr, some q, ctxPtr fs, f.c⟩), ?_, ⟨?_, h2.frame _ hnd.1.1, h3.frameCtx _ hnd.1.2⟩, ?_⟩
      · simp only [rotate_relink, ctxPtr, h1, Option.bind_eq_bind, Option.some_bind, hsib,
          if_false]
        rw [set_right_eq _ _ _ _ h1, hroot]
        rfl
      · simp [hf]
      · intro a ha
        simp only [ctxPtr, ne_eq, Option.some.injEq] at ha
        exact Function.update_noteq ha _ _
    · simp only [hf, if_true] at h1
      refine ⟨Function.update t.mem f.a (some ⟨f.cs, some q, f.sib.ptr, ctxPtr fs, f.c⟩), ?_, ⟨?_, h2.frame _ hnd.1.1, h3.frameCtx _ hnd.1.2⟩, ?_⟩
      · simp only [rotate_relink, ctxPtr, h1, Option.bind_eq_bind, Option.some_bind, if_true]
        rw [set_left_eq _ _ _ _ h1, hroot]
        rfl
      · simp [hf]
      · intro a ha
        simp only [ctxPtr, ne_eq, Option.some.injEq] at ha
        exact Function.update_noteq ha _ _

/-! ## Rotations -/

@[simp] theorem ptr_nil : (Tree.nil : Tree K V).ptr = none := rfl
@[simp] theorem ptr_node (a : Nat) (c : rb_color_t) (cs : rb_cursor_st K V) (l r : Tree K V) :
    (Tree.node a c cs l r).ptr = some a := rfl

theorem mem_addrs_node {x a : Nat} {c : rb_color_t} {cs : rb_cursor_st K V} {l r : Tree K V} :
    x ∈ (Tree.node a c cs l r).addrs ↔ x = a ∨ x ∈ l.addrs ∨ x ∈ r.addrs := by
  simp only [Tree.addrs, List.mem_append, List.mem_cons]
  tauto

theorem nodup_node {a : Nat} {c : rb_color_t} {cs : rb_cursor_st K V} {l r : Tree K V} :
    (Tree.node a c cs l r).addrs.Nodup ↔
      a ∉ l.addrs ∧ a ∉ r.addrs ∧ l.addrs.Nodup ∧ r.addrs.Nodup ∧ ∀ x ∈ l.addrs, x ∉ r.addrs := by
  simp only [Tree.addrs, List.nodup_append, List.nodup_cons, List.Disjoint, List.mem_cons,
    not_or]
  constructor
  · rintro ⟨h1, ⟨h2, h3⟩, h4⟩
    exact ⟨fun h => h4 h (Or.inl rfl), h2, h1, h3, fun x hx hr => h4 hx (Or.inr hr)⟩
  · rintro ⟨h1, h2, h3, h4, h5⟩
    refine ⟨h3, ⟨h2, h4⟩, fun x hx hr => ?_⟩
    rcases hr with rfl | hr
    · exact h1 hx
    · exact h5 x hx hr

theorem ctxPtr_mem {Γ : List (Frame K V)} {a : Nat} (h : ctxPtr Γ = some a) :
    a ∈ ctxAddrs Γ := by
  cases Γ with
  | nil => simp [ctxPtr] at h
  | cons f fs =>
    simp only [ctxPtr, Option.some.injEq] at h
    simp [ctxAddrs, h]

theorem ctxPtr_ne {Γ : List (Frame K V)} {a : Nat} (h : a ∉ ctxAddrs Γ) :
    some a ≠ ctxPtr Γ := fun e => h (ctxPtr_mem e.symm)

theorem set_parent_def (t : rbtree_st K V) (p : Option Nat) (a : Nat) :
    set_parent p a t = (t.mem a).map (fun n =>
      t.upd (Function.update t.mem a (some { n with parent := p })) t.root) := by
  cases h : t.mem a <;> simp [set_parent, h, store_eq_upd]

theorem set_color_def (t : rbtree_st K V) (c : rb_color_t) (a : Nat) :
    set_color c a t = (t.mem a).map (fun n =>
      t.upd (Function.update t.mem a (some { n with color := c })) t.root) := by
  cases h : t.mem a <;> simp [set_color, h, store_eq_upd]

theorem set_left_def (t : rbtree_st K V) (p : Option Nat) (a : Nat) :
    set_left p a t = (t.mem a).map (fun n =>
      t.upd (Function.update t.mem a (some { n with left := p })) t.root) := by
  cases h : t.mem a <;> simp [set_left, h, store_eq_upd]

theorem set_right_def (t : rbtree_st K V) (p : Option Nat) (a : Nat) :
    set_right p a t = (t.mem a).map (fun n =>
      t.upd (Function.update t.mem a (some { n with right := p })) t.root) := by
  cases h : t.mem a <;> simp [set_right, h, store_eq_upd]

theorem rotate_left_spec {t : rbtree_st K V} {Γ : List (Frame K V)} {p q : Nat}
    {cp cq : rb_color_t} {csp csq : rb_cursor_st K V} {A B C : Tree K V}
    (h : Abs t (plug Γ (.node p cp csp A (.node q cq csq B C))))
    (hnd : (plug Γ (.node p cp csp A (.node q cq csq B C))).addrs.Nodup) :
    ∃ m r, rotate_left t p = some (t.upd m r) ∧
      Abs (t.upd m r) (plug Γ (.node q cq csq (.node p cp csp A B) C)) := by
  obtain ⟨hroot, hrep⟩ := h
  rw [ptr_plug] at hroot
  rw [Repr_plug] at hrep
  obtain ⟨hctx, hp, hA, hq, hB, hC⟩ := hrep
  rw [nodup_plug] at hnd
  obtain ⟨hnc, hns, hdis⟩ := hnd
  simp only [nodup_node, mem_addrs_node, not_or] at hns
  simp only [mem_addrs_node] at hdis
  obtain ⟨hpA, ⟨hpq, hpB, hpC⟩, hnA, ⟨hqB, hqC, hnB, hnC, hBC⟩, hAx⟩ := hns
  have hpc : p ∉ ctxAddrs Γ := hdis p (by simp)
  have hqc : q ∉ ctxAddrs Γ := hdis q (by simp)
  obtain ⟨m1, e1, hctx1, hm1⟩ := rotate_relink_spec (q := q) hroot hctx hnc hpc
  have hm1p := (hm1 p (ctxPtr_ne hpc)).trans hp
  have hm1q := (hm1 q (ctxPtr_ne hqc)).trans hq
  have hqp : q ≠ p := Ne.symm hpq
  cases B with
  | nil =>
    simp [rotate_left, hp, e1, set_parent_def, set_left_def, set_right_def, hm1q, hm1p,
      Function.update_apply, hpq, hqp]
    refine ⟨_, _, rfl, by simp [ptr_plug], ?_⟩
    rw [Repr_plug]
    refine ⟨hctx1.congrCtx fun a ha => ?_, by simp, ⟨by simp [Function.update_apply, hpq], ?_, trivial⟩, ?_⟩
    · have h1 := ne_of_mem_of_not_mem ha hpc
      have h2 := ne_of_mem_of_not_mem ha hqc
      simp [Function.update_apply, h1, h2]
    · refine hA.congr fun a ha => ?_
      have h1 := ne_of_mem_of_not_mem ha hpA
      have h2 := (hAx a ha).1
      simp [Function.update_apply, h1, h2, hm1 a (ctxPtr_ne (hdis a (by simp [ha])))]
    · refine hC.congr fun a ha => ?_
      have h1 := ne_of_mem_of_not_mem ha hpC
      have h2 := ne_of_mem_of_not_mem ha hqC
      simp [Function.update_apply, h1, h2, hm1 a (ctxPtr_ne (hdis a (by simp [ha])))]
  | node b cb csb Bl Br =>
    simp only [nodup_node, mem_addrs_node, not_or] at hnB hpB hqB hAx hBC hdis
    obtain ⟨hB1, hBl, hBr⟩ := hB
    have hbc : b ∉ ctxAddrs Γ := hdis b (by simp)
    have hm1b := (hm1 b (ctxPtr_ne hbc)).trans hB1
    have hbp : b ≠ p := Ne.symm hpB.1
    have hbq : b ≠ q := Ne.symm hqB.1
    simp [rotate_left, hp, e1, set_parent_def, set_left_def, set_right_def, hm1q, hm1p, hm1b,
      Function.update_apply, hpq, hqp, hbp, hbq, hbp.symm, hbq.symm]
    refine ⟨_, _, rfl, by simp [ptr_plug], ?_⟩
    rw [Repr_plug]
    refine ⟨hctx1.congrCtx fun a ha => ?_, by simp [Function.update_apply, hbq.symm], ⟨by simp [Function.update_apply, hpq, hbp.symm], ?_,
      by simp [Function.update_apply, hbp, hbq], ?_, ?_⟩, ?_⟩
    · have h1 := ne_of_mem_of_not_mem ha hpc
      have h2 := ne_of_mem_of_not_mem ha hqc
      have h3 := ne_of_mem_of_not_mem ha hbc
      simp [Function.update_apply, h1, h2, h3]
    · refine hA.congr fun a ha => ?_
      have h1 := ne_of_mem_of_not_mem ha hpA
      have h2 := (hAx a ha).1
      have h3 := (hAx a ha).2.1.1
      simp [Function.update_apply, h1, h2, h3, hm1 a (ctxPtr_ne (hdis a (by simp [ha])))]
    · refine hBl.congr fun a ha => ?_
      have h1 := ne_of_mem_of_not_mem ha hpB.2.1
      have h2 := ne_of_mem_of_not_mem ha hqB.2.1
      have h3 := ne_of_mem_of_not_mem ha hnB.1
      simp [Function.update_apply, h1, h2, h3, hm1 a (ctxPtr_ne (hdis a (by simp [ha])))]
    · refine hBr.congr fun a ha => ?_
      have h1 := ne_of_mem_of_not_mem ha hpB.2.2
      have h2 := ne_of_mem_of_not_mem ha hqB.2.2
      have h3 := ne_of_mem_of_not_mem ha hnB.2.1
      simp [Function.update_apply, h1, h2, h3, hm1 a (ctxPtr_ne (hdis a (by simp [ha])))]
    · refine hC.congr fun a ha => ?_
      have h1 := ne_of_mem_of_not_mem ha hpC
      have h2 := ne_of_mem_of_not_mem ha hqC
      have h3 : a ≠ b := fun e => (hBC b (Or.inl rfl)) (e ▸ ha)
      simp [Function.update_apply, h1, h2, h3, hm1 a (ctxPtr_ne (hdis a (by simp [ha])))]

theorem rotate_right_spec {t : rbtree_st K V} {Γ : List (Frame K V)} {p q : Nat}
    {cp cq : rb_color_t} {csp csq : rb_cursor_st K V} {A B C : Tree K V}
    (h : Abs t (plug Γ (.node p cp csp (.node q cq csq A B) C)))
    (hnd : (plug Γ (.node p cp csp (.node q cq csq A B) C)).addrs.Nodup) :
    ∃ m r, rotate_right t p = some (t.upd m r) ∧
      Abs (t.upd m r) (plug Γ (.node q cq csq A (.node p cp csp B C))) := by
  obtain ⟨hroot, hrep⟩ := h
  rw [ptr_plug] at hroot
  rw [Repr_plug] at hrep
  obtain ⟨hctx, hp, ⟨hq, hA, hB⟩, hC⟩ := hrep
  rw [nodup_plug] at hnd
  obtain ⟨hnc, hns, hdis⟩ := hnd
  simp only [nodup_node, mem_addrs_node, not_or] at hns
  simp only [mem_addrs_node] at hdis
  obtain ⟨⟨hpq, hpA, hpB⟩, hpC, ⟨hqA, hqB, hnA, hnB, hAB⟩, hnC, hxC⟩ := hns
  have hpc : p ∉ ctxAddrs Γ := hdis p (by simp)
  have hqc : q ∉ ctxAddrs Γ := hdis q (by simp)
  obtain ⟨m1, e1, hctx1, hm1⟩ := rotate_relink_spec (q := q) hroot hctx hnc hpc
  have hm1p := (hm1 p (ctxPtr_ne hpc)).trans hp
  have hm1q := (hm1 q (ctxPtr_ne hqc)).trans hq
  have hqp : q ≠ p := Ne.symm hpq
  cases B with
  | nil =>
    simp [rotate_right, hp, e1, set_parent_def, set_left_def, set_right_def, hm1q, hm1p,
      Function.update_apply, hpq, hqp]
    refine ⟨_, _, rfl, by simp [ptr_plug], ?_⟩
    rw [Repr_plug]
    refine ⟨hctx1.congrCtx fun a ha => ?_, by simp, ?_, by simp [Function.update_apply, hpq],
      trivial, ?_⟩
    · have h1 := ne_of_mem_of_not_mem ha hpc
      have h2 := ne_of_mem_of_not_mem ha hqc
      simp [Function.update_apply, h1, h2]
    · refine hA.congr fun a ha => ?_
      have h1 := ne_of_mem_of_not_mem ha hpA
      have h2 := ne_of_mem_of_not_mem ha hqA
      simp [Function.update_apply, h1, h2, hm1 a (ctxPtr_ne (hdis a (by simp [ha])))]
    · refine hC.congr fun a ha => ?_
      have h1 := ne_of_mem_of_not_mem ha hpC
      have h2 : a ≠ q := fun e => hxC q (Or.inl rfl) (e ▸ ha)
      simp [Function.update_apply, h1, h2, hm1 a (ctxPtr_ne (hdis a (by simp [ha])))]
  | node b cb csb Bl Br =>
    simp only [nodup_node, mem_addrs_node, not_or] at hnB hpB hqB hAB hxC hdis
    obtain ⟨hB1, hBl, hBr⟩ := hB
    have hbc : b ∉ ctxAddrs Γ := hdis b (by simp)
    have hm1b := (hm1 b (ctxPtr_ne hbc)).trans hB1
    have hbp : b ≠ p := Ne.symm hpB.1
    have hbq : b ≠ q := Ne.symm hqB.1
    simp [rotate_right, hp, e1, set_parent_def, set_left_def, set_right_def, hm1q, hm1p, hm1b,
      Function.update_apply, hpq, hqp, hbp, hbq, hbp.symm, hbq.symm]
    refine ⟨_, _, rfl, by simp [ptr_plug], ?_⟩
    rw [Repr_plug]
    refine ⟨hctx1.congrCtx fun a ha => ?_, by simp [Function.update_apply, hbq.symm], ?_,
      by simp [Function.update_apply, hpq, hbp.symm],
      ⟨by simp [Function.update_apply, hbp, hbq], ?_, ?_⟩, ?_⟩
    · have h1 := ne_of_mem_of_not_mem ha hpc
      have h2 := ne_of_mem_of_not_mem ha hqc
      have h3 := ne_of_mem_of_not_mem ha hbc
      simp [Function.update_apply, h1, h2, h3]
    · refine hA.congr fun a ha => ?_
      have h1 := ne_of_mem_of_not_mem ha hpA
      have h2 := ne_of_mem_of_not_mem ha hqA
      have h3 := (hAB a ha).1
      simp [Function.update_apply, h1, h2, h3, hm1 a (ctxPtr_ne (hdis a (by simp [ha])))]
    · refine hBl.congr fun a ha => ?_
      have h1 := ne_of_mem_of_not_mem ha hpB.2.1
      have h2 := ne_of_mem_of_not_mem ha hqB.2.1
      have h3 := ne_of_mem_of_not_mem ha hnB.1
      simp [Function.update_apply, h1, h2, h3, hm1 a (ctxPtr_ne (hdis a (by simp [ha])))]
    · refine hBr.congr fun a ha => ?_
      have h1 := ne_of_mem_of_not_mem ha hpB.2.2
      have h2 := ne_of_mem_of_not_mem ha hqB.2.2
      have h3 := ne_of_mem_of_not_mem ha hnB.2.1
      simp [Function.update_apply, h1, h2, h3, hm1 a (ctxPtr_ne (hdis a (by simp [ha])))]
    · refine hC.congr fun a ha => ?_
      have h1 := ne_of_mem_of_not_mem ha hpC
      have h2 : a ≠ q := fun e => hxC q (Or.inl rfl) (e ▸ ha)
      have h3 : a ≠ b := fun e => hxC b (Or.inr (Or.inr (Or.inl rfl))) (e ▸ ha)
      simp [Function.update_apply, h1, h2, h3, hm1 a (ctxPtr_ne (hdis a (by simp [ha])))]

/-! ## Reads, comparator, descent -/

theorem Abs.read {t : rbtree_st K V} {Γ : List (Frame K V)} {a : Nat} {c : rb_color_t}
    {cs : rb_cursor_st K V} {l r : Tree K V} (h : Abs t (plug Γ (.node a c cs l r))) :
    t.mem a = some ⟨cs, l.ptr, r.ptr, ctxPtr Γ, c⟩ :=
  ((Repr_plug Γ _).1 h.2).2.1

theorem set_color_spec {t : rbtree_st K V} {Γ : List (Frame K V)} {a : Nat} {c : rb_color_t}
    {cs : rb_cursor_st K V} {l r : Tree K V} (c2 : rb_color_t)
    (h : Abs t (plug Γ (.node a c cs l r)))
    (hnd : (plug Γ (.node a c cs l r)).addrs.Nodup) :
    ∃ m r2, set_color c2 a t = some (t.upd m r2) ∧
      Abs (t.upd m r2) (plug Γ (.node a c2 cs l r)) := by
  obtain ⟨hroot, hrep⟩ := h
  rw [ptr_plug] at hroot
  rw [Repr_plug] at hrep
  obtain ⟨hctx, hp, hl, hr⟩ := hrep
  rw [nodup_plug] at hnd
  obtain ⟨hnc, hns, hdis⟩ := hnd
  simp only [nodup_node, mem_addrs_node, not_or] at hns
  have hac : a ∉ ctxAddrs Γ := hdis a (by simp [mem_addrs_node])
  simp only [set_color_def, hp, Option.map_some']
  refine ⟨_, _, rfl, by simpa [ptr_plug] using hroot, ?_⟩
  rw [Repr_plug]
  exact ⟨hctx.frameCtx _ hac, by simp, hl.frame _ hns.1, hr.frame _ hns.2.1⟩

theorem is_red_ptr_spec {t : rbtree_st K V} {X : Tree K V} {par : Option Nat}
    (h : Repr t.mem X par) : is_red_ptr t X.ptr = some X.isRed := by
  cases X with
  | nil => rfl
  | node a c cs l r =>
    obtain ⟨h1, -, -⟩ := h
    cases c <;> simp [is_red_ptr, h1, Tree.isRed]

theorem is_black_or_null_spec {t : rbtree_st K V} {X : Tree K V} {par : Option Nat}
    (h : Repr t.mem X par) : is_black_or_null t X.ptr = some (!X.isRed) := by
  cases X with
  | nil => rfl
  | node a c cs l r =>
    obtain ⟨h1, -, -⟩ := h
    cases c <;> simp [is_black_or_null, h1, Tree.isRed]

/-! ## Comparator facts -/

theorem Consistent.flip {cmp : K → Nat → K → Nat → Int} (h : Consistent cmp) (a la b lb) :
    cmp a la b lb < 0 ↔ 0 < cmp b lb a la := h.1 a la b lb

theorem Consistent.eq_symm {cmp : K → Nat → K → Nat → Int} (h : Consistent cmp) {a la b lb}
    (e : cmp a la b lb = 0) : cmp b lb a la = 0 := by
  have h1 := h.1 a la b lb
  have h2 := h.1 b lb a la
  omega

theorem Consistent.lt_of_lt_of_le {cmp : K → Nat → K → Nat → Int} (h : Consistent cmp)
    {a la b lb c lc} (h1 : cmp a la b lb < 0) (h2 : cmp b lb c lc ≤ 0) : cmp a la c lc < 0 := by
  by_contra hc
  have h3 : cmp c lc a la ≤ 0 := by
    have := h.1 c lc a la
    have := h.1 a la c lc
    omega
  have h4 := h.2 _ _ _ _ _ _ h2 h3
  have := h.1 a la b lb
  omega

theorem Consistent.lt_of_le_of_lt {cmp : K → Nat → K → Nat → Int} (h : Consistent cmp)
    {a la b lb c lc} (h1 : cmp a la b lb ≤ 0) (h2 : cmp b lb c lc < 0) : cmp a la c lc < 0 := by
  by_contra hc
  have h3 : cmp c lc a la ≤ 0 := by
    have := h.1 c lc a la
    have := h.1 a la c lc
    omega
  have h4 := h.2 _ _ _ _ _ _ h3 h1
  have := h.1 b lb c lc
  omega

theorem Consistent.lt_trans {cmp : K → Nat → K → Nat → Int} (h : Consistent cmp)
    {a la b lb c lc} (h1 : cmp a la b lb < 0) (h2 : cmp b lb c lc < 0) : cmp a la c lc < 0 :=
  h.lt_of_lt_of_le h1 (le_of_lt h2)

theorem Consistent.refl {cmp : K → Nat → K → Nat → Int} (h : Consistent cmp) (a la) :
    cmp a la a la = 0 := by
  have := h.1 a la a la
  omega

/-! ## Descent -/

theorem zoom_plug (cmp : K → Nat → K → Nat → Int) (key : K) (ksize : Nat) (S : Tree K V)
    (Γ : List (Frame K V)) :
    plug (zoom cmp key ksize S Γ).1 (zoom cmp key ksize S Γ).2 = plug Γ S := by
  induction S generalizing Γ with
  | nil => rfl
  | node a c cs l r ihl ihr =>
    unfold zoom
    split
    · rfl
    · split
      · rw [ihl]; simp [plug, Frame.plug]
      · rw [ihr]; simp [plug, Frame.plug]

theorem zoom_found (cmp : K → Nat → K → Nat → Int) (key : K) (ksize : Nat) (S : Tree K V)
    (Γ : List (Frame K V)) {a c cs l r}
    (h : (zoom cmp key ksize S Γ).2 = .node a c cs l r) : cmp cs.key cs.ksize key ksize = 0 := by
  induction S generalizing Γ with
  | nil => simp [zoom] at h
  | node a2 c2 cs2 l2 r2 ihl ihr =>
    unfold zoom at h
    split at h
    · cases h; assumption
    · split at h
      · exact ihl _ h
      · exact ihr _ h

theorem height_plug (Γ : List (Frame K V)) (S : Tree K V) :
    Γ.length + S.height ≤ (plug Γ S).height := by
  induction Γ generalizing S with
  | nil => simp [plug]
  | cons f fs ih =>
    rw [plug]
    refine le_trans ?_ (ih _)
    cases hf : f.isLeft <;> simp [Frame.plug, hf, Tree.height] <;> omega

theorem do_lookup_loop_spec (t : rbtree_st K V) (key : K) (ksize : Nat) (S : Tree K V)
    (Γ : List (Frame K V)) (fuel : Nat) (h : Repr t.mem S (ctxPtr Γ))
    (hf : S.height ≤ fuel) :
    do_lookup_loop t key ksize fuel S.ptr (ctxPtr Γ) (ctxIsLeft Γ) =
      some ((zoom t.cmp_fn key ksize S Γ).2.ptr, ctxPtr (zoom t.cmp_fn key ksize S Γ).1,
        ctxIsLeft (zoom t.cmp_fn key ksize S Γ).1) := by
  induction S generalizing Γ fuel with
  | nil => simp [do_lookup_loop, zoom]
  | node a c cs l r ihl ihr =>
    obtain ⟨h1, h2, h3⟩ := h
    cases fuel with
    | zero => simp [Tree.height] at hf
    | succ fuel =>
      simp only [Tree.height, Nat.add_le_add_iff_right, max_le_iff] at hf
      simp only [ptr_node, do_lookup_loop, h1, Option.bind_eq_bind, Option.some_bind]
      by_cases h0 : t.cmp_fn cs.key cs.ksize key ksize = 0
      · simp [zoom, h0]
      · by_cases hgt : t.cmp_fn cs.key cs.ksize key ksize > 0
        · have e : do_lookup_loop t key ksize fuel l.ptr (some a) true = _ :=
            ihl ({ isLeft := true, a := a, c := c, cs := cs, sib := r } :: Γ) fuel h2 hf.1
          simp only [zoom, h0, hgt, if_false, if_true, decide_True]
          exact e
        · have e : do_lookup_loop t key ksize fuel r.ptr (some a) false = _ :=
            ihr ({ isLeft := false, a := a, c := c, cs := cs, sib := l } :: Γ) fuel h3 hf.2
          simp only [zoom, h0, hgt, if_false, decide_False, Bool.false_eq_true]
          exact e

/-! ## Colour rules along a path -/

/-! ## Colour rules along a path -/

@[simp] theorem plug_nil (S : Tree K V) : plug [] S = S := rfl
@[simp] theorem plug_cons (f : Frame K V) (fs : List (Frame K V)) (S : Tree K V) :
    plug (f :: fs) S = plug fs (f.plug S) := rfl
@[simp] theorem plug_left (a : Nat) (c : rb_color_t) (cs : rb_cursor_st K V) (sib S : Tree K V) :
    Frame.plug ⟨true, a, c, cs, sib⟩ S = .node a c cs S sib := rfl
@[simp] theorem plug_right (a : Nat) (c : rb_color_t) (cs : rb_cursor_st K V) (sib S : Tree K V) :
    Frame.plug ⟨false, a, c, cs, sib⟩ S = .node a c cs sib S := rfl

theorem color_cases (c : rb_color_t) : c = RB_BLACK ∨ c = RB_RED := by
  cases c <;> simp

@[simp] theorem isRed_node_red (a : Nat) (cs : rb_cursor_st K V) (l r : Tree K V) :
    (Tree.node a RB_RED cs l r).isRed = true := rfl
@[simp] theorem isRed_node_black (a : Nat) (cs : rb_cursor_st K V) (l r : Tree K V) :
    (Tree.node a RB_BLACK cs l r).isRed = false := rfl
@[simp] theorem isRed_nil : (Tree.nil : Tree K V).isRed = false := rfl

theorem isRed_node (a : Nat) (c : rb_color_t) (cs : rb_cursor_st K V) (l r : Tree K V) :
    (Tree.node a c cs l r).isRed = decide (c = RB_RED) := by
  cases c <;> rfl

theorem Bal_plug (Γ : List (Frame K V)) (S : Tree K V) :
    (plug Γ S).Bal ↔ S.Bal ∧ CtxBal Γ S.bh := by
  induction Γ generalizing S with
  | nil => simp [CtxBal]
  | cons f fs ih =>
    obtain ⟨il, a, c, cs, sib⟩ := f
    rw [plug_cons, ih]
    cases il
    · simp only [plug_right, Tree.Bal, Tree.bh, CtxBal]
      constructor
      · rintro ⟨⟨h1, h2, h3⟩, h4⟩
        exact ⟨h3, h1, h2, h1 ▸ h4⟩
      · rintro ⟨h1, h2, h3, h4⟩
        exact ⟨⟨h2, h3, h1⟩, h2 ▸ h4⟩
    · simp only [plug_left, Tree.Bal, Tree.bh, CtxBal]
      constructor
      · rintro ⟨⟨h1, h2, h3⟩, h4⟩
        exact ⟨h2, h1.symm, h3, h4⟩
      · rintro ⟨h1, h2, h3, h4⟩
        exact ⟨⟨h2.symm, h1, h3⟩, h4⟩

theorem NoRR_plug (Γ : List (Frame K V)) (S : Tree K V) :
    (plug Γ S).NoRR ↔ S.NoRR ∧ CtxNoRR Γ S.isRed := by
  induction Γ generalizing S with
  | nil => simp [CtxNoRR]
  | cons f fs ih =>
    obtain ⟨il, a, c, cs, sib⟩ := f
    rw [plug_cons, ih]
    cases il
    · simp only [plug_right, Tree.NoRR, CtxNoRR, isRed_node]
      tauto
    · simp only [plug_left, Tree.NoRR, CtxNoRR, isRed_node]
      tauto

theorem CtxNoRR_black {Γ : List (Frame K V)} {b : Bool} (h : CtxNoRR Γ b) :
    CtxNoRR Γ false := by
  cases Γ with
  | nil => trivial
  | cons f fs =>
    obtain ⟨h1, h2, h3⟩ := h
    exact ⟨fun hc => ⟨rfl, (h1 hc).2⟩, h2, h3⟩

theorem isRed_plug_cons (f : Frame K V) (fs : List (Frame K V)) (S : Tree K V) :
    (plug (f :: fs) S).isRed = false ↔ CtxRootBlack (f :: fs) := by
  induction fs generalizing f S with
  | nil =>
    obtain ⟨il, a, c, cs, sib⟩ := f
    cases il <;> cases c <;> simp [CtxRootBlack]
  | cons g gs ih =>
    rw [plug_cons, ih]
    simp [CtxRootBlack]

/-- Colour of the root is forced to black. -/
theorem bal_blacken {a : Nat} {c : rb_color_t} {cs : rb_cursor_st K V} {l r : Tree K V}
    (h : (Tree.node a c cs l r).Bal) : (Tree.node a RB_BLACK cs l r).Bal := h

theorem norr_blacken {a : Nat} {c : rb_color_t} {cs : rb_cursor_st K V} {l r : Tree K V}
    (h : (Tree.node a c cs l r).NoRR) : (Tree.node a RB_BLACK cs l r).NoRR :=
  ⟨fun hc => by simp at hc, h.2⟩

/-! ## Rule (c) as a list of path counts -/

theorem blackCounts_ne_nil (T : Tree K V) : T.blackCounts ≠ [] := by
  cases T with
  | nil => simp [Tree.blackCounts]
  | node a c cs l r =>
    have := blackCounts_ne_nil l
    simp [Tree.blackCounts, this]

theorem bh_mem_blackCounts (T : Tree K V) : T.bh ∈ T.blackCounts := by
  induction T with
  | nil => simp [Tree.blackCounts, Tree.bh]
  | node a c cs l r ihl _ =>
    simp only [Tree.blackCounts, Tree.bh, List.map_append, List.mem_append, List.mem_map]
    exact Or.inl ⟨_, ihl, rfl⟩

theorem blackCounts_of_Bal {T : Tree K V} (h : T.Bal) : ∀ x ∈ T.blackCounts, x = T.bh := by
  induction T with
  | nil => simp [Tree.blackCounts, Tree.bh]
  | node a c cs l r ihl ihr =>
    obtain ⟨h1, h2, h3⟩ := h
    intro x hx
    simp only [Tree.blackCounts, List.map_append, List.mem_append, List.mem_map] at hx
    rcases hx with ⟨y, hy, rfl⟩ | ⟨y, hy, rfl⟩
    · rw [ihl h2 y hy]; rfl
    · rw [ihr h3 y hy, ← h1]; rfl

theorem uniformBlack_iff_Bal (T : Tree K V) : T.UniformBlack ↔ T.Bal := by
  constructor
  · intro h
    induction T with
    | nil => trivial
    | node a c cs l r ihl ihr =>
      have key : ∀ x ∈ l.blackCounts ++ r.blackCounts, ∀ y ∈ l.blackCounts ++ r.blackCounts,
          x = y := by
        intro x hx y hy
        have := h (x + if c = RB_BLACK then 1 else 0)
          (by simp only [Tree.blackCounts, List.mem_map]; exact ⟨x, hx, rfl⟩)
          (y + if c = RB_BLACK then 1 else 0)
          (by simp only [Tree.blackCounts, List.mem_map]; exact ⟨y, hy, rfl⟩)
        omega
      refine ⟨?_, ihl ?_, ihr ?_⟩
      · exact key _ (List.mem_append_left _ (bh_mem_blackCounts l)) _
          (List.mem_append_right _ (bh_mem_blackCounts r))
      · intro x hx y hy
        exact key x (List.mem_append_left _ hx) y (List.mem_append_left _ hy)
      · intro x hx y hy
        exact key x (List.mem_append_right _ hx) y (List.mem_append_right _ hy)
  · intro h x hx y hy
    rw [blackCounts_of_Bal h x hx, blackCounts_of_Bal h y hy]

/-! ## Insert fixup: one round -/

theorem ptr_ne_of_not_mem {X : Tree K V} {a : Nat} (h : a ∉ X.addrs) : X.ptr ≠ some a :=
  fun e => h (ptr_mem e)

theorem ptr_ne_of_not_mem2 {X : Tree K V} {a : Nat} (h : a ∉ X.addrs) : some a ≠ X.ptr :=
  fun e => h (ptr_mem e.symm)

theorem CtxRootBlack_tail {f : Frame K V} {fs : List (Frame K V)} (h : CtxRootBlack (f :: fs)) :
    CtxRootBlack fs := by
  cases fs with
  | nil => trivial
  | cons g gs => exact h

theorem CtxRootBlack_cons_black {f : Frame K V} {fs : List (Frame K V)} (hf : f.c = RB_BLACK)
    (h : CtxRootBlack fs) : CtxRootBlack (f :: fs) := by
  cases fs with
  | nil => exact hf
  | cons g gs => exact h

/-- The loop of `rbtree_insert` stops at once below a black parent or at the root. -/
theorem insert_fixup_exit {t : rbtree_st K V} {Γ : List (Frame K V)} {x : Nat}
    {c : rb_color_t} {cs : rb_cursor_st K V} {l r : Tree K V} (fuel : Nat)
    (h : Abs t (plug Γ (.node x c cs l r)))
    (hc : ∀ f fs, Γ = f :: fs → f.c = RB_BLACK) :
    insert_fixup (fuel + 1) t x = some t := by
  have hx := h.read
  cases Γ with
  | nil => simp [insert_fixup, hx, ctxPtr]
  | cons f fs =>
    obtain ⟨il, p, cp, csp, sp⟩ := f
    have hcp : cp = RB_BLACK := hc _ _ rfl
    subst hcp
    cases il
    · have hp := Abs.read (Γ := fs) (a := p) h
      simp [insert_fixup, hx, ctxPtr, hp]
    · have hp := Abs.read (Γ := fs) (a := p) h
      simp [insert_fixup, hx, ctxPtr, hp]

theorem insert_fixup_left_spec {t : rbtree_st K V} {rest : List (Frame K V)} {x p g : Nat}
    {il1 : Bool} {cs csp csg : rb_cursor_st K V} {l r sp sg : Tree K V}
    (h : Abs t (plug (⟨il1, p, RB_RED, csp, sp⟩ :: ⟨true, g, RB_BLACK, csg, sg⟩ :: rest)
      (.node x RB_RED cs l r)))
    (hnd : (plug (⟨il1, p, RB_RED, csp, sp⟩ :: ⟨true, g, RB_BLACK, csg, sg⟩ :: rest)
      (.node x RB_RED cs l r)).addrs.Nodup)
    (hinv : InsInv (⟨il1, p, RB_RED, csp, sp⟩ :: ⟨true, g, RB_BLACK, csg, sg⟩ :: rest) l r) :
    ∃ m r2 x2 ctx2 cs2 l2 r3, insert_fixup_left t x p g = some (t.upd m r2, x2) ∧
      Abs (t.upd m r2) (plug ctx2 (.node x2 RB_RED cs2 l2 r3)) ∧
      (plug ctx2 (.node x2 RB_RED cs2 l2 r3)).addrs =
        (plug (⟨il1, p, RB_RED, csp, sp⟩ :: ⟨true, g, RB_BLACK, csg, sg⟩ :: rest)
          (.node x RB_RED cs l r)).addrs ∧
      (plug ctx2 (.node x2 RB_RED cs2 l2 r3)).toList =
        (plug (⟨il1, p, RB_RED, csp, sp⟩ :: ⟨true, g, RB_BLACK, csg, sg⟩ :: rest)
          (.node x RB_RED cs l r)).toList ∧
      InsInv ctx2 l2 r3 ∧ ctx2.length ≤ rest.length + 1 := by
  obtain ⟨hl, hr, hlr, hrr, hbh, hlb, hrb, hcb, hcn, hcr⟩ := hinv
  simp only [CtxBal, CtxNoRR, if_true, if_false, reduceCtorEq,
    decide_True, decide_False, true_implies, false_implies, true_and, and_true] at hcb hcn
  obtain ⟨hsp, hspb, hsg, hsgb, hcb2⟩ := hcb
  obtain ⟨hspr, hspn, hsgn, hcn2⟩ := hcn
  have hcr2 : CtxRootBlack rest := CtxRootBlack_tail (CtxRootBlack_tail hcr)
  have hg := Abs.read (Γ := rest) (a := g) h
  have hsgR : Repr t.mem sg (some g) := ((Repr_plug rest _).1 h.2).2.2.2
  have hu := is_red_ptr_spec hsgR
  cases hsgred : sg.isRed
  · simp only [hsgred] at hu
    cases il1
    · simp only [plug_cons, plug_left, plug_right] at h hnd ⊢
      have hp := Abs.read (Γ := ⟨true, g, RB_BLACK, csg, sg⟩ :: rest) (a := p) h
      obtain ⟨m1, r1, e1, h1⟩ := rotate_left_spec
        (Γ := ⟨true, g, RB_BLACK, csg, sg⟩ :: rest) h hnd
      simp only [plug_cons, plug_left] at h1
      have hp1 := Abs.read (Γ := ⟨true, x, RB_RED, cs, r⟩ :: ⟨true, g, RB_BLACK, csg, sg⟩ :: rest)
        (a := p) h1
      have hnd1 : (plug rest (.node g RB_BLACK csg (.node x RB_RED cs
          (.node p RB_RED csp sp l) r) sg)).addrs.Nodup := by
        simpa [addrs_plug, Tree.addrs] using hnd
      obtain ⟨m2, r2, e2, h2⟩ := set_color_spec RB_BLACK
        (Γ := ⟨true, g, RB_BLACK, csg, sg⟩ :: rest) h1 hnd1
      simp only [plug_cons, plug_left, upd_upd] at h2 e2
      have hnd2 : (plug rest (.node g RB_BLACK csg (.node x RB_BLACK cs
          (.node p RB_RED csp sp l) r) sg)).addrs.Nodup := by
        simpa [addrs_plug, Tree.addrs] using hnd
      obtain ⟨m3, r3, e3, h3⟩ := set_color_spec RB_RED (Γ := rest) h2 hnd2
      simp only [upd_upd] at h3 e3
      have hnd3 : (plug rest (.node g RB_RED csg (.node x RB_BLACK cs
          (.node p RB_RED csp sp l) r) sg)).addrs.Nodup := by
        simpa [addrs_plug, Tree.addrs] using hnd
      obtain ⟨m4, r4, e4, h4⟩ := rotate_right_spec (Γ := rest) h3 hnd3
      simp only [upd_upd] at h4 e4
      refine ⟨m4, r4, p, ⟨true, x, RB_BLACK, cs, .node g RB_RED csg r sg⟩ :: rest, csp, sp, l,
        ?_, h4, ?_, ?_, ?_, by simp⟩
      · simp [insert_fixup_left, hg, hu, hp, e1, hp1, ctxPtr, e2, e3, e4]
      · simp [addrs_plug, Tree.addrs]
      · simp [toList_plug, Tree.toList]
      · simp only [InsInv, CtxBal, CtxNoRR, Tree.NoRR, Tree.Bal, Tree.bh, isRed_node_black,
          isRed_node_red] at hsgn hsgb hsg ⊢
        have := CtxRootBlack_cons_black (f := ⟨true, x, RB_BLACK, cs, .node g RB_RED csg r sg⟩)
          rfl hcr2
        simp_all
    · simp only [plug_cons, plug_left, plug_right] at h hnd ⊢
      have hp := Abs.read (Γ := ⟨true, g, RB_BLACK, csg, sg⟩ :: rest) (a := p) h
      have hxsp : some x ≠ sp.ptr := by
        apply ptr_ne_of_not_mem2
        have h1 := (nodup_node.1 (nodup_plug.1 hnd).2.1).2.2.1
        exact (nodup_node.1 h1).2.2.2.2 x (by simp [mem_addrs_node])
      obtain ⟨m2, r2, e2, h2⟩ := set_color_spec RB_BLACK
        (Γ := ⟨true, g, RB_BLACK, csg, sg⟩ :: rest) h hnd
      simp only [plug_cons, plug_left, upd_upd] at h2 e2
      have hnd2 : (plug rest (.node g RB_BLACK csg (.node p RB_BLACK csp
          (.node x RB_RED cs l r) sp) sg)).addrs.Nodup := by
        simpa [addrs_plug, Tree.addrs] using hnd
      obtain ⟨m3, r3, e3, h3⟩ := set_color_spec RB_RED (Γ := rest) h2 hnd2
      simp only [upd_upd] at h3 e3
      have hnd3 : (plug rest (.node g RB_RED csg (.node p RB_BLACK csp
          (.node x RB_RED cs l r) sp) sg)).addrs.Nodup := by
        simpa [addrs_plug, Tree.addrs] using hnd
      obtain ⟨m4, r4, e4, h4⟩ := rotate_right_spec (Γ := rest) h3 hnd3
      simp only [upd_upd] at h4 e4
      refine ⟨m4, r4, x, ⟨true, p, RB_BLACK, csp, .node g RB_RED csg sp sg⟩ :: rest, cs, l, r,
        ?_, h4, ?_, ?_, ?_, by simp⟩
      · simp [insert_fixup_left, hg, hu, hp, hxsp, e2, e3, e4]
      · simp [addrs_plug, Tree.addrs]
      · simp [toList_plug, Tree.toList]
      · simp only [InsInv, CtxBal, CtxNoRR, Tree.NoRR, Tree.Bal, Tree.bh, isRed_node_black,
          isRed_node_red] at hsgn hsgb hsg ⊢
        have := CtxRootBlack_cons_black (f := ⟨true, p, RB_BLACK, csp, .node g RB_RED csg sp sg⟩)
          rfl hcr2
        simp_all
  · cases sg with
    | nil => simp at hsgred
    | node u cu csu ul ur =>
      rcases color_cases cu with rfl | rfl
      · simp at hsgred
      · simp only [ptr_node, isRed_node_red] at hu
        cases il1
        · simp only [plug_cons, plug_left, plug_right] at h hnd ⊢
          obtain ⟨m1, r1, e1, h1⟩ := set_color_spec RB_BLACK
            (Γ := ⟨true, g, RB_BLACK, csg, _⟩ :: rest) h hnd
          simp only [plug_cons, plug_left] at h1
          have hnd1 : (plug rest (.node g RB_BLACK csg (.node p RB_BLACK csp sp
              (.node x RB_RED cs l r)) (.node u RB_RED csu ul ur))).addrs.Nodup := by
            simpa [addrs_plug, Tree.addrs] using hnd
          obtain ⟨m2, r2, e2, h2⟩ := set_color_spec RB_BLACK
            (Γ := ⟨false, g, RB_BLACK, csg, _⟩ :: rest) h1 hnd1
          simp only [plug_cons, plug_right, upd_upd] at h2 e2
          have hnd2 : (plug rest (.node g RB_BLACK csg (.node p RB_BLACK csp sp
              (.node x RB_RED cs l r)) (.node u RB_BLACK csu ul ur))).addrs.Nodup := by
            simpa [addrs_plug, Tree.addrs] using hnd
          obtain ⟨m3, r3, e3, h3⟩ := set_color_spec RB_RED (Γ := rest) h2 hnd2
          simp only [upd_upd] at h3 e3
          refine ⟨m3, r3, g, rest, csg, _, _, ?_, h3, ?_, ?_, ?_, by omega⟩
          · simp [insert_fixup_left, hg, hu, e1, e2, e3]
          · simp [addrs_plug, Tree.addrs]
          · simp [toList_plug, Tree.toList]
          · simp only [InsInv, Tree.NoRR, Tree.Bal, Tree.bh, isRed_node_black,
              isRed_node_red] at hsgn hsgb hsg ⊢
            simp_all
        · simp only [plug_cons, plug_left] at h hnd ⊢
          obtain ⟨m1, r1, e1, h1⟩ := set_color_spec RB_BLACK
            (Γ := ⟨true, g, RB_BLACK, csg, _⟩ :: rest) h hnd
          simp only [plug_cons, plug_left] at h1
          have hnd1 : (plug rest (.node g RB_BLACK csg (.node p RB_BLACK csp
              (.node x RB_RED cs l r) sp) (.node u RB_RED csu ul ur))).addrs.Nodup := by
            simpa [addrs_plug, Tree.addrs] using hnd
          obtain ⟨m2, r2, e2, h2⟩ := set_color_spec RB_BLACK
            (Γ := ⟨false, g, RB_BLACK, csg, _⟩ :: rest) h1 hnd1
          simp only [plug_cons, plug_right, upd_upd] at h2 e2
          have hnd2 : (plug rest (.node g RB_BLACK csg (.node p RB_BLACK csp
              (.node x RB_RED cs l r) sp) (.node u RB_BLACK csu ul ur))).addrs.Nodup := by
            simpa [addrs_plug, Tree.addrs] using hnd
          obtain ⟨m3, r3, e3, h3⟩ := set_color_spec RB_RED (Γ := rest) h2 hnd2
          simp only [upd_upd] at h3 e3
          refine ⟨m3, r3, g, rest, csg, _, _, ?_, h3, ?_, ?_, ?_, by omega⟩
          · simp [insert_fixup_left, hg, hu, e1, e2, e3]
          · simp [addrs_plug, Tree.addrs]
          · simp [toList_plug, Tree.toList]
          · simp only [InsInv, Tree.NoRR, Tree.Bal, Tree.bh, isRed_node_black,
              isRed_node_red] at hsgn hsgb hsg ⊢
            simp_all

theorem insert_fixup_right_spec {t : rbtree_st K V} {rest : List (Frame K V)} {x p g : Nat}
    {il1 : Bool} {cs csp csg : rb_cursor_st K V} {l r sp sg : Tree K V}
    (h : Abs t (plug (⟨il1, p, RB_RED, csp, sp⟩ :: ⟨false, g, RB_BLACK, csg, sg⟩ :: rest)
      (.node x RB_RED cs l r)))
    (hnd : (plug (⟨il1, p, RB_RED, csp, sp⟩ :: ⟨false, g, RB_BLACK, csg, sg⟩ :: rest)
      (.node x RB_RED cs l r)).addrs.Nodup)
    (hinv : InsInv (⟨il1, p, RB_RED, csp, sp⟩ :: ⟨false, g, RB_BLACK, csg, sg⟩ :: rest) l r) :
    ∃ m r2 x2 ctx2 cs2 l2 r3, insert_fixup_right t x p g = some (t.upd m r2, x2) ∧
      Abs (t.upd m r2) (plug ctx2 (.node x2 RB_RED cs2 l2 r3)) ∧
      (plug ctx2 (.node x2 RB_RED cs2 l2 r3)).addrs =
        (plug (⟨il1, p, RB_RED, csp, sp⟩ :: ⟨false, g, RB_BLACK, csg, sg⟩ :: rest)
          (.node x RB_RED cs l r)).addrs ∧
      (plug ctx2 (.node x2 RB_RED cs2 l2 r3)).toList =
        (plug (⟨il1, p, RB_RED, csp, sp⟩ :: ⟨false, g, RB_BLACK, csg, sg⟩ :: rest)
          (.node x RB_RED cs l r)).toList ∧
      InsInv ctx2 l2 r3 ∧ ctx2.length ≤ rest.length + 1 := by
  obtain ⟨hl, hr, hlr, hrr, hbh, hlb, hrb, hcb, hcn, hcr⟩ := hinv
  simp only [CtxBal, CtxNoRR, if_true, if_false, reduceCtorEq,
    decide_True, decide_False, true_implies, false_implies, true_and, and_true] at hcb hcn
  obtain ⟨hsp, hspb, hsg, hsgb, hcb2⟩ := hcb
  obtain ⟨hspr, hspn, hsgn, hcn2⟩ := hcn
  have hcr2 : CtxRootBlack rest := CtxRootBlack_tail (CtxRootBlack_tail hcr)
  have hg := Abs.read (Γ := rest) (a := g) h
  have hsgR : Repr t.mem sg (some g) := ((Repr_plug rest _).1 h.2).2.2.1
  have hu := is_red_ptr_spec hsgR
  cases hsgred : sg.isRed
  · simp only [hsgred] at hu
    cases il1
    · simp only [plug_cons, plug_left, plug_right] at h hnd ⊢
      have hp := Abs.read (Γ := ⟨false, g, RB_BLACK, csg, sg⟩ :: rest) (a := p) h
      have hxsp : some x ≠ sp.ptr := by
        apply ptr_ne_of_not_mem2
        have h1 := (nodup_node.1 (nodup_plug.1 hnd).2.1).2.2.2.1
        exact fun hx => (nodup_node.1 h1).2.2.2.2 x hx (by simp [mem_addrs_node])
      obtain ⟨m2, r2, e2, h2⟩ := set_color_spec RB_BLACK
        (Γ := ⟨false, g, RB_BLACK, csg, sg⟩ :: rest) h hnd
      simp only [plug_cons, plug_right, upd_upd] at h2 e2
      have hnd2 : (plug rest (.node g RB_BLACK csg sg (.node p RB_BLACK csp sp
          (.node x RB_RED cs l r)))).addrs.Nodup := by
        simpa [addrs_plug, Tree.addrs] using hnd
      obtain ⟨m3, r3, e3, h3⟩ := set_color_spec RB_RED (Γ := rest) h2 hnd2
      simp only [upd_upd] at h3 e3
      have hnd3 : (plug rest (.node g RB_RED csg sg (.node p RB_BLACK csp sp
          (.node x RB_RED cs l r)))).addrs.Nodup := by
        simpa [addrs_plug, Tree.addrs] using hnd
      obtain ⟨m4, r4, e4, h4⟩ := rotate_left_spec (Γ := rest) h3 hnd3
      simp only [upd_upd] at h4 e4
      refine ⟨m4, r4, x, ⟨false, p, RB_BLACK, csp, .node g RB_RED csg sg sp⟩ :: rest, cs, l, r,
        ?_, h4, ?_, ?_, ?_, by simp⟩
      · simp [insert_fixup_right, hg, hu, hp, hxsp, e2, e3, e4]
      · simp [addrs_plug, Tree.addrs]
      · simp [toList_plug, Tree.toList]
      · simp only [InsInv, CtxBal, CtxNoRR, Tree.NoRR, Tree.Bal, Tree.bh, isRed_node_black,
          isRed_node_red] at hsgn hsgb hsg ⊢
        have := CtxRootBlack_cons_black (f := ⟨false, p, RB_BLACK, csp, .node g RB_RED csg sg sp⟩)
          rfl hcr2
        simp_all
    · simp only [plug_cons, plug_left, plug_right] at h hnd ⊢
      have hp := Abs.read (Γ := ⟨false, g, RB_BLACK, csg, sg⟩ :: rest) (a := p) h
      obtain ⟨m1, r1, e1, h1⟩ := rotate_right_spec
        (Γ := ⟨false, g, RB_BLACK, csg, sg⟩ :: rest) h hnd
      simp only [plug_cons, plug_right] at h1
      have hp1 := Abs.read
        (Γ := ⟨false, x, RB_RED, cs, l⟩ :: ⟨false, g, RB_BLACK, csg, sg⟩ :: rest) (a := p) h1
      have hnd1 : (plug rest (.node g RB_BLACK csg sg (.node x RB_RED cs l
          (.node p RB_RED csp r sp)))).addrs.Nodup := by
        simpa [addrs_plug, Tree.addrs] using hnd
      obtain ⟨m2, r2, e2, h2⟩ := set_color_spec RB_BLACK
        (Γ := ⟨false, g, RB_BLACK, csg, sg⟩ :: rest) h1 hnd1
      simp only [plug_cons, plug_right, upd_upd] at h2 e2
      have hnd2 : (plug rest (.node g RB_BLACK csg sg (.node x RB_BLACK cs l
          (.node p RB_RED csp r sp)))).addrs.Nodup := by
        simpa [addrs_plug, Tree.addrs] using hnd
      obtain ⟨m3, r3, e3, h3⟩ := set_color_spec RB_RED (Γ := rest) h2 hnd2
      simp only [upd_upd] at h3 e3
      have hnd3 : (plug rest (.node g RB_RED csg sg (.node x RB_BLACK cs l
          (.node p RB_RED csp r sp)))).addrs.Nodup := by
        simpa [addrs_plug, Tree.addrs] using hnd
      obtain ⟨m4, r4, e4, h4⟩ := rotate_left_spec (Γ := rest) h3 hnd3
      simp only [upd_upd] at h4 e4
      refine ⟨m4, r4, p, ⟨false, x, RB_BLACK, cs, .node g RB_RED csg sg l⟩ :: rest, csp, r, sp,
        ?_, h4, ?_, ?_, ?_, by simp⟩
      · simp [insert_fixup_right, hg, hu, hp, e1, hp1, ctxPtr, e2, e3, e4]
      · simp [addrs_plug, Tree.addrs]
      · simp [toList_plug, Tree.toList]
      · simp only [InsInv, CtxBal, CtxNoRR, Tree.NoRR, Tree.Bal, Tree.bh, isRed_node_black,
          isRed_node_red] at hsgn hsgb hsg ⊢
        have := CtxRootBlack_cons_black (f := ⟨false, x, RB_BLACK, cs, .node g RB_RED csg sg l⟩)
          rfl hcr2
        simp_all
  · cases sg with
    | nil => simp at hsgred
    | node u cu csu ul ur =>
      rcases color_cases cu with rfl | rfl
      · simp at hsgred
      · simp only [ptr_node, isRed_node_red] at hu
        cases il1
        · simp only [plug_cons, plug_left, plug_right] at h hnd ⊢
          obtain ⟨m1, r1, e1, h1⟩ := set_color_spec RB_BLACK
            (Γ := ⟨false, g, RB_BLACK, csg, _⟩ :: rest) h hnd
          simp only [plug_cons, plug_right] at h1
          have hnd1 : (plug rest (.node g RB_BLACK csg (.node u RB_RED csu ul ur)
              (.node p RB_BLACK csp sp (.node x RB_RED cs l r)))).addrs.Nodup := by
            simpa [addrs_plug, Tree.addrs] using hnd
          obtain ⟨m2, r2, e2, h2⟩ := set_color_spec RB_BLACK
            (Γ := ⟨true, g, RB_BLACK, csg, _⟩ :: rest) h1 hnd1
          simp only [plug_cons, plug_left, upd_upd] at h2 e2
          have hnd2 : (plug rest (.node g RB_BLACK csg (.node u RB_BLACK csu ul ur)
              (.node p RB_BLACK csp sp (.node x RB_RED cs l r)))).addrs.Nodup := by
            simpa [addrs_plug, Tree.addrs] using hnd
          obtain ⟨m3, r3, e3, h3⟩ := set_color_spec RB_RED (Γ := rest) h2 hnd2
          simp only [upd_upd] at h3 e3
          refine ⟨m3, r3, g, rest, csg, _, _, ?_, h3, ?_, ?_, ?_, by omega⟩
          · simp [insert_fixup_right, hg, hu, e1, e2, e3]
          · simp [addrs_plug, Tree.addrs]
          · simp [toList_plug, Tree.toList]
          · simp only [InsInv, Tree.NoRR, Tree.Bal, Tree.bh, isRed_node_black,
              isRed_node_red] at hsgn hsgb hsg ⊢
            simp_all
        · simp only [plug_cons, plug_left, plug_right] at h hnd ⊢
          obtain ⟨m1, r1, e1, h1⟩ := set_color_spec RB_BLACK
            (Γ := ⟨false, g, RB_BLACK, csg, _⟩ :: rest) h hnd
          simp only [plug_cons, plug_right] at h1
          have hnd1 : (plug rest (.node g RB_BLACK csg (.node u RB_RED csu ul ur)
              (.node p RB_BLACK csp (.node x RB_RED cs l r) sp))).addrs.Nodup := by
            simpa [addrs_plug, Tree.addrs] using hnd
          obtain ⟨m2, r2, e2, h2⟩ := set_color_spec RB_BLACK
            (Γ := ⟨true, g, RB_BLACK, csg, _⟩ :: rest) h1 hnd1
          simp only [plug_cons, plug_left, upd_upd] at h2 e2
          have hnd2 : (plug rest (.node g RB_BLACK csg (.node u RB_BLACK csu ul ur)
              (.node p RB_BLACK csp (.node x RB_RED cs l r) sp))).addrs.Nodup := by
            simpa [addrs_plug, Tree.addrs] using hnd
          obtain ⟨m3, r3, e3, h3⟩ := set_color_spec RB_RED (Γ := rest) h2 hnd2
          simp only [upd_upd] at h3 e3
          refine ⟨m3, r3, g, rest, csg, _, _, ?_, h3, ?_, ?_, ?_, by omega⟩
          · simp [insert_fixup_right, hg, hu, e1, e2, e3]
          · simp [addrs_plug, Tree.addrs]
          · simp [toList_plug, Tree.toList]
          · simp only [InsInv, Tree.NoRR, Tree.Bal, Tree.bh, isRed_node_black,
              isRed_node_red] at hsgn hsgb hsg ⊢
            simp_all

/-! ## Insert fixup: the loop -/

theorem insert_fixup_spec (n : Nat) : ∀ (t : rbtree_st K V) (Γ : List (Frame K V)) (x : Nat)
    (cs : rb_cursor_st K V) (l r : Tree K V), Γ.length ≤ n →
    Abs t (plug Γ (.node x RB_RED cs l r)) →
    (plug Γ (.node x RB_RED cs l r)).addrs.Nodup → InsInv Γ l r →
    ∃ m r2 T2, (∀ fuel, Γ.length + 1 ≤ fuel → insert_fixup fuel t x = some (t.upd m r2)) ∧
      Abs (t.upd m r2) T2 ∧
      T2.addrs = (plug Γ (.node x RB_RED cs l r)).addrs ∧
      T2.toList = (plug Γ (.node x RB_RED cs l r)).toList ∧ T2.Bal ∧ T2.NoRR := by
  induction n with
  | zero =>
    intro t Γ x cs l r hlen h hnd hinv
    obtain ⟨hl, hr, hlr, hrr, hbh, hlb, hrb, hcb, hcn, hcr⟩ := hinv
    cases Γ with
    | cons f fs => simp at hlen
    | nil =>
      refine ⟨t.mem, t.root, _, ?_, h, rfl, rfl, ⟨hbh, hlb, hrb⟩, ⟨fun _ => ⟨hlr, hrr⟩, hl, hr⟩⟩
      intro fuel hf
      cases fuel with
      | zero => omega
      | succ k =>
        rw [insert_fixup_exit k h (by simp)]
        rfl
  | succ n ih =>
    intro t Γ x cs l r hlen h hnd hinv
    have hinv0 := hinv
    obtain ⟨hl, hr, hlr, hrr, hbh, hlb, hrb, hcb, hcn, hcr⟩ := hinv
    have hxbal : (Tree.node x RB_RED cs l r).Bal := ⟨hbh, hlb, hrb⟩
    have hxnorr : (Tree.node x RB_RED cs l r).NoRR := ⟨fun _ => ⟨hlr, hrr⟩, hl, hr⟩
    have hexit : (∀ f fs, Γ = f :: fs → f.c = RB_BLACK) →
        ∀ fuel, Γ.length + 1 ≤ fuel → insert_fixup fuel t x = some (t.upd t.mem t.root) := by
      intro hc fuel hf
      cases fuel with
      | zero => omega
      | succ k =>
        rw [insert_fixup_exit k h hc]
        rfl
    cases Γ with
    | nil => exact ⟨t.mem, t.root, _, hexit (by simp), h, rfl, rfl, hxbal, hxnorr⟩
    | cons f1 rest1 =>
      obtain ⟨il1, p, cp, csp, sp⟩ := f1
      rcases color_cases cp with rfl | rfl
      · refine ⟨t.mem, t.root, _, hexit (by simp), h, rfl, rfl, ?_, ?_⟩
        · rw [Bal_plug]; exact ⟨hxbal, hcb⟩
        · rw [NoRR_plug]
          refine ⟨hxnorr, ?_⟩
          obtain ⟨h1, h2, h3⟩ := hcn
          exact ⟨fun hc => by simp at hc, h2, h3⟩
      · cases rest1 with
        | nil => simp [CtxRootBlack] at hcr
        | cons f2 rest =>
          obtain ⟨il2, g, cg, csg, sg⟩ := f2
          have hcg : cg = RB_BLACK := by
            rcases color_cases cg with rfl | rfl
            · rfl
            · simp [CtxNoRR] at hcn
          subst hcg
          have hx := Abs.read
            (Γ := ⟨il1, p, RB_RED, csp, sp⟩ :: ⟨il2, g, RB_BLACK, csg, sg⟩ :: rest) h
          have hp : ∃ pl pr, t.mem p = some ⟨csp, pl, pr, some g, RB_RED⟩ := by
            cases il1
            · exact ⟨_, _, Abs.read (Γ := ⟨il2, g, RB_BLACK, csg, sg⟩ :: rest) (a := p) h⟩
            · exact ⟨_, _, Abs.read (Γ := ⟨il2, g, RB_BLACK, csg, sg⟩ :: rest) (a := p) h⟩
          obtain ⟨pl, pr, hp⟩ := hp
          simp only [List.length_cons] at hlen
          cases il2
          · have hg : t.mem g = some ⟨csg, sg.ptr, some p, ctxPtr rest, RB_BLACK⟩ := by
              cases il1
              · exact Abs.read (Γ := rest) (a := g) h
              · exact Abs.read (Γ := rest) (a := g) h
            have hpsg : some p ≠ sg.ptr := by
              apply ptr_ne_of_not_mem2
              have hnd2 := hnd
              cases il1 <;>
              · simp only [plug_cons, plug_left, plug_right] at hnd2
                have h1 := (nodup_plug.1 hnd2).2.1
                exact fun hx => (nodup_node.1 h1).2.2.2.2 p hx (by simp [mem_addrs_node])
            obtain ⟨m1, r1, x2, ctx2, cs2, l2, r3, e1, h1, ha1, hl1, hi1, hlen2⟩ :=
              insert_fixup_right_spec h hnd hinv0
            obtain ⟨m2, r2, T2, e2, h2, ha2, hl2, hb2, hn2⟩ :=
              ih _ ctx2 x2 cs2 l2 r3 (by omega) h1 (ha1 ▸ hnd) hi1
            simp only [upd_upd] at e2 h2
            refine ⟨m2, r2, T2, ?_, h2, ha2.trans ha1, hl2.trans hl1, hb2, hn2⟩
            intro fuel hf
            simp only [List.length_cons] at hf
            cases fuel with
            | zero => omega
            | succ k =>
              have e3 := e2 k (by omega)
              simp [insert_fixup, hx, ctxPtr, hp, hg, hpsg, e1, e3]
          · have hg : t.mem g = some ⟨csg, some p, sg.ptr, ctxPtr rest, RB_BLACK⟩ := by
              cases il1
              · exact Abs.read (Γ := rest) (a := g) h
              · exact Abs.read (Γ := rest) (a := g) h
            obtain ⟨m1, r1, x2, ctx2, cs2, l2, r3, e1, h1, ha1, hl1, hi1, hlen2⟩ :=
              insert_fixup_left_spec h hnd hinv0
            obtain ⟨m2, r2, T2, e2, h2, ha2, hl2, hb2, hn2⟩ :=
              ih _ ctx2 x2 cs2 l2 r3 (by omega) h1 (ha1 ▸ hnd) hi1
            simp only [upd_upd] at e2 h2
            refine ⟨m2, r2, T2, ?_, h2, ha2.trans ha1, hl2.trans hl1, hb2, hn2⟩
            intro fuel hf
            simp only [List.length_cons] at hf
            cases fuel with
            | zero => omega
            | succ k =>
              have e3 := e2 k (by omega)
              simp [insert_fixup, hx, ctxPtr, hp, hg, e1, e3]

/-! ## Order of the entries -/

/-! ## Order facts -/

theorem toList_map_some {m : Nat → Option (rbtree_node_st K V)} {T : Tree K V}
    {par : Option Nat} (h : Repr m T par) :
    T.toList.map some = T.addrs.map (fun a => (m a).map (fun n => n.cs)) := by
  induction T generalizing par with
  | nil => rfl
  | node a c cs l r ihl ihr =>
    obtain ⟨h1, h2, h3⟩ := h
    simp [Tree.toList, Tree.addrs, ihl h2, ihr h3, h1]

theorem cursorLt_irrefl {cmp : K → Nat → K → Nat → Int} (hc : Consistent cmp)
    (x : rb_cursor_st K V) : ¬ cursorLt cmp x x := by
  have := hc.refl x.key x.ksize
  simp [cursorLt, this]

theorem nodup_of_sorted {cmp : K → Nat → K → Nat → Int} (hc : Consistent cmp)
    {m : Nat → Option (rbtree_node_st K V)} {T : Tree K V} {par : Option Nat}
    (h : Repr m T par) (hs : Sorted cmp T.toList) : T.addrs.Nodup := by
  have h1 : T.toList.Nodup := by
    unfold List.Nodup
    refine List.Pairwise.imp ?_ hs
    intro x y hxy e
    subst e
    exact cursorLt_irrefl hc x hxy
  have h2 : (T.toList.map some).Nodup := h1.map (Option.some_injective _)
  rw [toList_map_some h] at h2
  exact List.Nodup.of_map _ h2

theorem zoom_bounds {cmp : K → Nat → K → Nat → Int} (hc : Consistent cmp) (key : K) (ksize : Nat)
    (S : Tree K V) (Γ : List (Frame K V)) (hs : Sorted cmp (plug Γ S).toList)
    (hb : ∀ e ∈ ctxBefore Γ, cmp e.key e.ksize key ksize < 0)
    (ha : ∀ e ∈ ctxAfter Γ, 0 < cmp e.key e.ksize key ksize) :
    (∀ e ∈ ctxBefore (zoom cmp key ksize S Γ).1, cmp e.key e.ksize key ksize < 0) ∧
    (∀ e ∈ ctxAfter (zoom cmp key ksize S Γ).1, 0 < cmp e.key e.ksize key ksize) := by
  induction S generalizing Γ with
  | nil => exact ⟨hb, ha⟩
  | node a c cs l r ihl ihr =>
    have hs2 := hs
    rw [toList_plug] at hs2
    have hsub : Sorted cmp (Tree.node a c cs l r).toList :=
      (List.pairwise_append.1 (List.pairwise_append.1 hs2).1).2.1
    simp only [Tree.toList, Sorted] at hsub
    rw [List.pairwise_append] at hsub
    obtain ⟨-, hcr, hlcr⟩ := hsub
    rw [List.pairwise_cons] at hcr
    unfold zoom
    by_cases h0 : cmp cs.key cs.ksize key ksize = 0
    · simp only [h0, if_true]; exact ⟨hb, ha⟩
    · by_cases hgt : cmp cs.key cs.ksize key ksize > 0
      · simp only [h0, hgt, if_false, if_true]
        refine ihl _ hs hb ?_
        intro e he
        simp only [ctxAfter, if_true, List.cons_append, List.mem_cons, List.mem_append] at he
        rcases he with rfl | he | he
        · exact hgt
        · have h1 : cmp key ksize cs.key cs.ksize < 0 := (hc.flip _ _ _ _).2 hgt
          have h2 : cmp cs.key cs.ksize e.key e.ksize < 0 := hcr.1 e he
          exact (hc.flip _ _ _ _).1 (hc.lt_trans h1 h2)
        · exact ha e he
      · simp only [h0, hgt, if_false]
        have hlt : cmp cs.key cs.ksize key ksize < 0 := by omega
        refine ihr _ hs ?_ ha
        intro e he
        simp only [ctxBefore, Bool.false_eq_true, if_false, List.mem_append, List.mem_singleton]
          at he
        rcases he with he | he | rfl
        · exact hb e he
        · have h2 : cmp e.key e.ksize cs.key cs.ksize < 0 := hlcr e he cs (by simp)
          exact hc.lt_trans h2 hlt
        · exact hlt

theorem sorted_insert_mid {cmp : K → Nat → K → Nat → Int} (hc : Consistent cmp)
    {l1 l2 : List (rb_cursor_st K V)} (e : rb_cursor_st K V) (hs : Sorted cmp (l1 ++ l2))
    (hb : ∀ x ∈ l1, cmp x.key x.ksize e.key e.ksize < 0)
    (ha : ∀ x ∈ l2, 0 < cmp x.key x.ksize e.key e.ksize) :
    Sorted cmp (l1 ++ e :: l2) := by
  simp only [Sorted, List.pairwise_append, List.pairwise_cons, List.mem_cons] at hs ⊢
  refine ⟨hs.1, ⟨fun x hx => (hc.flip _ _ _ _).2 (ha x hx), hs.2.1⟩, ?_⟩
  rintro x hx y (rfl | hy)
  · exact hb x hx
  · exact hs.2.2 x hx y hy

/-- Replacing an entry by one that compares equal keeps the order. -/
theorem sorted_replace_mid {cmp : K → Nat → K → Nat → Int} (hc : Consistent cmp)
    {l1 l2 : List (rb_cursor_st K V)} (e e2 : rb_cursor_st K V)
    (hs : Sorted cmp (l1 ++ e :: l2))
    (he : cmp e.key e.ksize e2.key e2.ksize = 0) :
    Sorted cmp (l1 ++ e2 :: l2) := by
  have he2 := hc.eq_symm he
  simp only [Sorted, List.pairwise_append, List.pairwise_cons, List.mem_cons] at hs ⊢
  refine ⟨hs.1, ⟨fun x hx => ?_, hs.2.1.2⟩, ?_⟩
  · exact hc.lt_of_le_of_lt (le_of_eq he2) (hs.2.1.1 x hx)
  · rintro x hx y (rfl | hy)
    · exact hc.lt_of_lt_of_le (hs.2.2 x hx e (Or.inl rfl)) (le_of_eq he)
    · exact hs.2.2 x hx y (Or.inr hy)

/-! ## Cached cursors -/

theorem head_insert_ctx (Γ : List (Frame K V)) (a : Nat) (first : Option Nat)
    (hnd : (ctxBeforeA Γ ++ ctxAfterA Γ).Nodup)
    (hf : first = (ctxBeforeA Γ ++ ctxAfterA Γ).head?) :
    (if ctxPtr Γ = none ∨ (ctxIsLeft Γ = true ∧ ctxPtr Γ = first) then some a else first) =
      (ctxBeforeA Γ ++ a :: ctxAfterA Γ).head? := by
  subst hf
  cases Γ with
  | nil => simp [ctxBeforeA, ctxPtr]
  | cons f fs =>
    obtain ⟨il, p, c, cs, sib⟩ := f
    cases il
    · simp [ctxIsLeft, ctxBeforeA, ctxAfterA, List.head?_append, ctxPtr]
    · simp only [ctxIsLeft, ctxBeforeA, ctxAfterA, ctxPtr, if_true] at hnd ⊢
      cases hb : ctxBeforeA fs with
      | nil => simp
      | cons b bs =>
        rw [hb] at hnd
        have : p ≠ b := by
          intro e
          subst e
          simp at hnd
        simp [this]

theorem getLast_insert_ctx (Γ : List (Frame K V)) (a : Nat) (last : Option Nat)
    (hnd : (ctxBeforeA Γ ++ ctxAfterA Γ).Nodup)
    (hf : last = (ctxBeforeA Γ ++ ctxAfterA Γ).getLast?) :
    (if ctxPtr Γ = none ∨ (ctxIsLeft Γ = false ∧ ctxPtr Γ = last) then some a else last) =
      (ctxBeforeA Γ ++ a :: ctxAfterA Γ).getLast? := by
  subst hf
  cases Γ with
  | nil => simp [ctxBeforeA, ctxAfterA, ctxPtr]
  | cons f fs =>
    obtain ⟨il, p, c, cs, sib⟩ := f
    cases il
    · simp only [ctxIsLeft, ctxBeforeA, ctxAfterA, ctxPtr, Bool.false_eq_true, if_false] at hnd ⊢
      cases hb : ctxAfterA fs with
      | nil => simp [List.getLast?_append]
      | cons b bs =>
        rw [hb] at hnd
        have hne : (b :: bs) ≠ [] := by simp
        have hz : (b :: bs).getLast? = some ((b :: bs).getLast hne) := List.getLast?_eq_getLast _ hne
        have : p ≠ (b :: bs).getLast hne := by
          intro e
          have hm : p ∈ b :: bs := e ▸ List.getLast_mem _
          rw [List.nodup_append] at hnd
          exact hnd.2.2 (by simp) hm
        rw [List.getLast?_append_cons, List.getLast?_append_cons, List.getLast?_cons_cons, hz]
        simp [this]
    · simp only [ctxIsLeft, ctxBeforeA, ctxAfterA, ctxPtr, if_true, List.cons_append]
      rw [List.getLast?_append_cons, List.getLast?_append_cons, List.getLast?_cons_cons]
      simp

/-! ## Function rbtree_insert -/

@[simp] theorem setCursors_mem (t : rbtree_st K V) (f l) : (t.setCursors f l).mem = t.mem := rfl
@[simp] theorem setCursors_root (t : rbtree_st K V) (f l) : (t.setCursors f l).root = t.root := rfl
@[simp] theorem setCursors_first (t : rbtree_st K V) (f l) : (t.setCursors f l).first = f := rfl
@[simp] theorem setCursors_last (t : rbtree_st K V) (f l) : (t.setCursors f l).last = l := rfl
@[simp] theorem setCursors_nelem (t : rbtree_st K V) (f l) :
    (t.setCursors f l).nelem = t.nelem := rfl
@[simp] theorem setCursors_flag (t : rbtree_st K V) (f l) : (t.setCursors f l).flag = t.flag := rfl
@[simp] theorem setCursors_cmp_fn (t : rbtree_st K V) (f l) :
    (t.setCursors f l).cmp_fn = t.cmp_fn := rfl
@[simp] theorem setCursors_data_free (t : rbtree_st K V) (f l) :
    (t.setCursors f l).data_free = t.data_free := rfl
@[simp] theorem setCursors_freed (t : rbtree_st K V) (f l) :
    (t.setCursors f l).freed = t.freed := rfl

/-- Lines 290-322 of `rbtree_insert`: the new red leaf is in place. -/
theorem insert_link_spec {t : rbtree_st K V} {Γ : List (Frame K V)} (a : Nat)
    (cs : rb_cursor_st K V) (h : Abs t (plug Γ .nil)) (hnd : (plug Γ .nil).addrs.Nodup)
    (ha : t.mem a = none) :
    ∃ m r, insert_link (t.store a ⟨cs, none, none, ctxPtr Γ, RB_RED⟩) a (ctxPtr Γ)
        (ctxIsLeft Γ) = some ((t.setCursors
          (if ctxPtr Γ = none ∨ (ctxIsLeft Γ = true ∧ ctxPtr Γ = t.first) then some a
            else t.first)
          (if ctxPtr Γ = none ∨ (ctxIsLeft Γ = false ∧ ctxPtr Γ = t.last) then some a
            else t.last)).upd m r) ∧
      Abs (t.upd m r) (plug Γ (.node a RB_RED cs .nil .nil)) := by
  have hafresh : a ∉ (plug Γ .nil).addrs := fun hm => mem_of_Repr h.2 hm ha
  obtain ⟨hroot, hrep⟩ := h
  rw [ptr_plug] at hroot
  rw [Repr_plug] at hrep
  obtain ⟨hctx, -⟩ := hrep
  rw [nodup_plug] at hnd
  obtain ⟨hnc, -, -⟩ := hnd
  rw [(addrs_plug_perm Γ .nil).mem_iff] at hafresh
  simp only [Tree.addrs, List.append_nil] at hafresh
  cases Γ with
  | nil =>
    refine ⟨Function.update t.mem a (some ⟨cs, none, none, none, RB_RED⟩), some a, ?_, rfl, ?_⟩
    · simp [insert_link, ctxPtr, store_eq_upd, rbtree_st.upd, rbtree_st.setCursors]
    · simp [Repr, ctxPtr]
  | cons f fs =>
    obtain ⟨il, p, c, csp, sib⟩ := f
    obtain ⟨h1, h2, h3⟩ := hctx
    simp only [ctxAddrs, List.mem_cons, List.mem_append, not_or, List.nodup_cons,
      List.nodup_append] at hafresh hnc
    have hap : a ≠ p := hafresh.1
    have hpa : p ≠ a := Ne.symm hap
    cases il
    · simp only [Bool.false_eq_true, if_false, ptr_nil] at h1
      refine ⟨Function.update (Function.update t.mem a (some ⟨cs, none, none, some p, RB_RED⟩))
        p (some ⟨csp, sib.ptr, some a, ctxPtr fs, c⟩), t.root, ?_, ?_, ?_⟩
      · by_cases hl : t.last = some p
        · simp [insert_link, ctxPtr, ctxIsLeft, store_eq_upd, set_child, set_right_def,
            Function.update_apply, hpa, h1, hl, rbtree_st.upd, rbtree_st.setCursors]
        · have hl2 : ¬ some p = t.last := fun e => hl e.symm
          simp [insert_link, ctxPtr, ctxIsLeft, store_eq_upd, set_child, set_right_def,
            Function.update_apply, hpa, h1, hl, hl2, rbtree_st.upd, rbtree_st.setCursors]
      · simpa [ptr_plug, ctxRoot] using hroot
      · rw [Repr_plug]
        refine ⟨⟨by simp, (h2.frame _ hafresh.2.1).frame _ hnc.1.1,
          (h3.frameCtx _ hafresh.2.2).frameCtx _ hnc.1.2⟩, ?_⟩
        simp [Repr, ctxPtr, Function.update_apply, hap]
    · simp only [if_true, ptr_nil] at h1
      refine ⟨Function.update (Function.update t.mem a (some ⟨cs, none, none, some p, RB_RED⟩))
        p (some ⟨csp, some a, sib.ptr, ctxPtr fs, c⟩), t.root, ?_, ?_, ?_⟩
      · by_cases hl : t.first = some p
        · simp [insert_link, ctxPtr, ctxIsLeft, store_eq_upd, set_child, set_left_def,
            Function.update_apply, hpa, h1, hl, rbtree_st.upd, rbtree_st.setCursors]
        · have hl2 : ¬ some p = t.first := fun e => hl e.symm
          simp [insert_link, ctxPtr, ctxIsLeft, store_eq_upd, set_child, set_left_def,
            Function.update_apply, hpa, h1, hl, hl2, rbtree_st.upd, rbtree_st.setCursors]
      · simpa [ptr_plug, ctxRoot] using hroot
      · rw [Repr_plug]
        refine ⟨⟨by simp, (h2.frame _ hafresh.2.1).frame _ hnc.1.1,
          (h3.frameCtx _ hafresh.2.2).frameCtx _ hnc.1.2⟩, ?_⟩
        simp [Repr, ctxPtr, Function.update_apply, hap]

theorem Abs.ofEq {t t2 : rbtree_st K V} {T : Tree K V} (h : Abs t T) (hm : t2.mem = t.mem)
    (hr : t2.root = t.root) : Abs t2 T := by
  unfold Abs at *
  rw [hm, hr]
  exact h

theorem insInv_leaf {Γ : List (Frame K V)} (hrb : (plug Γ (.nil : Tree K V)).RootBlack)
    (hn : (plug Γ (.nil : Tree K V)).NoRR) (hb : (plug Γ (.nil : Tree K V)).Bal) :
    InsInv Γ (.nil : Tree K V) .nil := by
  refine ⟨trivial, trivial, rfl, rfl, rfl, trivial, trivial, ((Bal_plug Γ _).1 hb).2,
    ((NoRR_plug Γ _).1 hn).2, ?_⟩
  cases Γ with
  | nil => trivial
  | cons f fs => exact (isRed_plug_cons f fs _).1 hrb

theorem do_lookup_spec (t : rbtree_st K V) (key : K) (ksize : Nat) (T : Tree K V) (fuel : Nat)
    (h : Abs t T) (hf : T.height ≤ fuel) :
    do_lookup fuel t key ksize =
      some ((zoom t.cmp_fn key ksize T []).2.ptr, ctxPtr (zoom t.cmp_fn key ksize T []).1,
        ctxIsLeft (zoom t.cmp_fn key ksize T []).1) := by
  unfold do_lookup
  rw [h.1]
  exact do_lookup_loop_spec t key ksize T [] fuel h.2 hf

theorem rbtree_insert_new {t : rbtree_st K V} {T : Tree K V} (key : K) (ksize : Nat) (val : V)
    (a : Nat) (hc : Consistent t.cmp_fn) (h : Abs t T) (hs : Sorted t.cmp_fn T.toList)
    (hrb : T.RootBlack) (hn : T.NoRR) (hb : T.Bal) (ha : t.mem a = none)
    (hz : (zoom t.cmp_fn key ksize T []).2 = .nil) :
    ∃ t2 T2, (∀ fuel, T.height + 1 ≤ fuel → rbtree_insert fuel t key ksize val a = some t2) ∧
      Abs t2 T2 ∧
      T2.addrs = ctxBeforeA (zoom t.cmp_fn key ksize T []).1 ++
        a :: ctxAfterA (zoom t.cmp_fn key ksize T []).1 ∧
      T2.toList = ctxBefore (zoom t.cmp_fn key ksize T []).1 ++
        ⟨key, ksize, val⟩ :: ctxAfter (zoom t.cmp_fn key ksize T []).1 ∧
      T2.RootBlack ∧ T2.NoRR ∧ T2.Bal ∧
      t2.first = (if ctxPtr (zoom t.cmp_fn key ksize T []).1 = none ∨
          (ctxIsLeft (zoom t.cmp_fn key ksize T []).1 = true ∧
            ctxPtr (zoom t.cmp_fn key ksize T []).1 = t.first) then some a else t.first) ∧
      t2.last = (if ctxPtr (zoom t.cmp_fn key ksize T []).1 = none ∨
          (ctxIsLeft (zoom t.cmp_fn key ksize T []).1 = false ∧
            ctxPtr (zoom t.cmp_fn key ksize T []).1 = t.last) then some a else t.last) ∧
      t2.nelem = (t.nelem + 1) % 2 ^ 32 ∧ t2.flag = t.flag ∧ t2.cmp_fn = t.cmp_fn ∧
      t2.data_free = t.data_free ∧ t2.freed = t.freed := by
  have hplug := zoom_plug t.cmp_fn key ksize T []
  have hlk := fun fuel (hf : T.height + 1 ≤ fuel) =>
    do_lookup_spec t key ksize T fuel h (by omega)
  generalize (zoom t.cmp_fn key ksize T []).1 = Γ at *
  rw [hz] at hplug hlk
  simp only [plug_nil] at hplug
  subst hplug
  have hnd := nodup_of_sorted hc h.2 hs
  have hafresh : a ∉ (plug Γ .nil).addrs := fun hm => mem_of_Repr h.2 hm ha
  obtain ⟨m1, r1, e1, h1⟩ := insert_link_spec a ⟨key, ksize, val⟩ h hnd ha
  generalize hF : (if ctxPtr Γ = none ∨ (ctxIsLeft Γ = true ∧ ctxPtr Γ = t.first)
    then some a else t.first) = F at e1 ⊢
  generalize hL : (if ctxPtr Γ = none ∨ (ctxIsLeft Γ = false ∧ ctxPtr Γ = t.last)
    then some a else t.last) = L at e1 ⊢
  have hnd1 : (plug Γ (.node a RB_RED ⟨key, ksize, val⟩ .nil .nil)).addrs.Nodup := by
    rw [addrs_plug] at hnd hafresh ⊢
    simp only [Tree.addrs, List.append_nil, List.nil_append, List.mem_append, not_or,
      List.append_assoc, List.singleton_append] at hnd hafresh ⊢
    rw [List.nodup_append] at hnd ⊢
    refine ⟨hnd.1, List.nodup_cons.2 ⟨hafresh.2, hnd.2.1⟩, ?_⟩
    intro x hx hx2
    rcases List.mem_cons.1 hx2 with rfl | hx2
    · exact hafresh.1 hx
    · exact hnd.2.2 hx hx2
  have hlen : Γ.length ≤ (plug Γ (.nil : Tree K V)).height := by
    have := height_plug Γ (.nil : Tree K V)
    omega
  obtain ⟨m2, r2, T2, e2, h2, ha2, hl2, hb2, hn2⟩ := insert_fixup_spec Γ.length
    ((t.setCursors F L).upd m1 r1) Γ a ⟨key, ksize, val⟩ .nil .nil (le_refl _)
    (h1.ofEq rfl rfl) hnd1 (insInv_leaf hrb hn hb)
  simp only [upd_upd] at e2 h2
  cases T2 with
  | nil =>
    rw [addrs_plug] at ha2
    simp [Tree.addrs] at ha2
  | node rt c cs2 l2 r3 =>
    have hroot : r2 = some rt := h2.1
    subst hroot
    obtain ⟨m3, r4, e3, h3⟩ := set_color_spec RB_BLACK (Γ := []) h2 (by
      simp only [plug_nil]; rw [ha2]; exact hnd1)
    simp only [upd_upd, plug_nil] at e3 h3
    have e : ∀ fuel, (plug Γ (.nil : Tree K V)).height + 1 ≤ fuel →
        rbtree_insert fuel t key ksize val a =
        some { ((t.setCursors F L).upd m3 r4) with nelem := (t.nelem + 1) % 2 ^ 32 } := by
      intro fuel hf
      simp only [rbtree_insert, hlk fuel hf, ptr_nil, Option.bind_eq_bind, Option.some_bind, e1,
        e2 fuel (by omega), upd_root, e3]
      rfl
    refine ⟨_, .node rt RB_BLACK cs2 l2 r3, e, ?_, ?_, ?_, rfl, norr_blacken hn2,
      bal_blacken hb2, ?_⟩
    · exact h3.ofEq rfl rfl
    · have : (Tree.node rt RB_BLACK cs2 l2 r3).addrs = (Tree.node rt c cs2 l2 r3).addrs := rfl
      rw [this, ha2, addrs_plug]
      simp [Tree.addrs]
    · have : (Tree.node rt RB_BLACK cs2 l2 r3).toList = (Tree.node rt c cs2 l2 r3).toList := rfl
      rw [this, hl2, toList_plug]
      simp [Tree.toList]
    · exact ⟨rfl, rfl, rfl, rfl, rfl, rfl, rfl⟩

/-- Replacing the cursor of one node. -/
theorem set_cs_spec {t : rbtree_st K V} {Γ : List (Frame K V)} {a : Nat} {c : rb_color_t}
    {cs : rb_cursor_st K V} {l r : Tree K V} (cs2 : rb_cursor_st K V)
    (h : Abs t (plug Γ (.node a c cs l r)))
    (hnd : (plug Γ (.node a c cs l r)).addrs.Nodup) :
    Abs (t.upd (Function.update t.mem a (some ⟨cs2, l.ptr, r.ptr, ctxPtr Γ, c⟩)) t.root)
      (plug Γ (.node a c cs2 l r)) := by
  obtain ⟨hroot, hrep⟩ := h
  rw [ptr_plug] at hroot
  rw [Repr_plug] at hrep
  obtain ⟨hctx, hp, hl, hr⟩ := hrep
  rw [nodup_plug] at hnd
  obtain ⟨hnc, hns, hdis⟩ := hnd
  simp only [nodup_node, mem_addrs_node, not_or] at hns
  have hac : a ∉ ctxAddrs Γ := hdis a (by simp [mem_addrs_node])
  refine ⟨by simpa [ptr_plug] using hroot, ?_⟩
  rw [Repr_plug]
  exact ⟨hctx.frameCtx _ hac, by simp, hl.frame _ hns.1, hr.frame _ hns.2.1⟩

theorem rbtree_insert_found {t : rbtree_st K V} {T : Tree K V} (key : K) (ksize : Nat) (val : V)
    (a : Nat) (h : Abs t T) (hnd : T.addrs.Nodup) {x : Nat} {c : rb_color_t}
    {cs : rb_cursor_st K V} {l r : Tree K V}
    (hz : (zoom t.cmp_fn key ksize T []).2 = .node x c cs l r) :
    ∃ cs2, cs2 = (if Int.land t.flag RFLAG_EXTERN_KEY ≠ 0 then ⟨key, ksize, val⟩
        else ⟨cs.key, cs.ksize, val⟩) ∧
      (∀ fuel, T.height ≤ fuel → rbtree_insert fuel t key ksize val a =
        some { t with
          mem := Function.update t.mem x (some ⟨cs2, l.ptr, r.ptr,
            ctxPtr (zoom t.cmp_fn key ksize T []).1, c⟩),
          freed := if t.data_free then t.freed ++ [cs.data] else t.freed }) ∧
      Abs (t.upd (Function.update t.mem x (some ⟨cs2, l.ptr, r.ptr,
            ctxPtr (zoom t.cmp_fn key ksize T []).1, c⟩)) t.root)
        (plug (zoom t.cmp_fn key ksize T []).1 (.node x c cs2 l r)) ∧
      T = plug (zoom t.cmp_fn key ksize T []).1 (.node x c cs l r) ∧
      t.mem x = some ⟨cs, l.ptr, r.ptr, ctxPtr (zoom t.cmp_fn key ksize T []).1, c⟩ := by
  have hplug := zoom_plug t.cmp_fn key ksize T []
  have hlk := fun fuel (hf : T.height ≤ fuel) => do_lookup_spec t key ksize T fuel h hf
  generalize (zoom t.cmp_fn key ksize T []).1 = Γ at *
  rw [hz] at hplug hlk
  simp only [plug_nil] at hplug
  subst hplug
  have hx := h.read
  refine ⟨_, rfl, ?_, set_cs_spec _ h hnd, rfl, hx⟩
  intro fuel hf
  simp only [rbtree_insert, hlk fuel hf, ptr_node, Option.bind_eq_bind, Option.some_bind,
    insert_overwrite]
  by_cases hdf : t.data_free = true <;> by_cases hfl : Int.land t.flag RFLAG_EXTERN_KEY = 0 <;>
    simp [hdf, hfl, hx, rbtree_st.store]

/-! ## Delete fixup, left branch: steps -/

/-! ## Steps of the `rbtree_delete` fixup, branch `node == parent->left` -/

theorem fixup_red_sibling_left_red {t : rbtree_st K V} {rest : List (Frame K V)} {f s a : Nat}
    {cf ca : rb_color_t} {csf css csa : rb_cursor_st K V} {hole al ar sr : Tree K V}
    (h : Abs t (plug (⟨true, f, cf, csf, .node s RB_RED css (.node a ca csa al ar) sr⟩ :: rest)
      hole))
    (hnd : (plug (⟨true, f, cf, csf, .node s RB_RED css (.node a ca csa al ar) sr⟩ :: rest)
      hole).addrs.Nodup) :
    ∃ m r, fixup_red_sibling_left t f s = some (t.upd m r, a) ∧
      Abs (t.upd m r) (plug (⟨true, f, RB_RED, csf, .node a ca csa al ar⟩ ::
        ⟨true, s, RB_BLACK, css, sr⟩ :: rest) hole) := by
  simp only [plug_cons, plug_left] at h hnd ⊢
  have hs := Abs.read (Γ := ⟨false, f, cf, csf, hole⟩ :: rest) (a := s) h
  obtain ⟨m1, r1, e1, h1⟩ := set_color_spec RB_BLACK
    (Γ := ⟨false, f, cf, csf, hole⟩ :: rest) h hnd
  simp only [plug_cons, plug_right] at h1
  have hnd1 : (plug rest (.node f cf csf hole (.node s RB_BLACK css (.node a ca csa al ar)
      sr))).addrs.Nodup := by
    simpa [addrs_plug, Tree.addrs] using hnd
  obtain ⟨m2, r2, e2, h2⟩ := set_color_spec RB_RED (Γ := rest) h1 hnd1
  simp only [upd_upd] at h2 e2
  have hnd2 : (plug rest (.node f RB_RED csf hole (.node s RB_BLACK css (.node a ca csa al ar)
      sr))).addrs.Nodup := by
    simpa [addrs_plug, Tree.addrs] using hnd
  obtain ⟨m3, r3, e3, h3⟩ := rotate_left_spec (Γ := rest) h2 hnd2
  simp only [upd_upd] at h3 e3
  have hf3 := Abs.read (Γ := ⟨true, s, RB_BLACK, css, sr⟩ :: rest) (a := f) h3
  refine ⟨m3, r3, ?_, h3⟩
  simp [fixup_red_sibling_left, hs, e1, e2, e3, hf3]

theorem fixup_red_sibling_left_black {t : rbtree_st K V} {f s : Nat}
    {n : rbtree_node_st K V} (hs : t.mem s = some n) (hc : n.color = RB_BLACK) :
    fixup_red_sibling_left t f s = some (t, s) := by
  simp [fixup_red_sibling_left, hs, hc]

theorem fixup_near_left_near {t : rbtree_st K V} {rest : List (Frame K V)} {f s a : Nat}
    {cf c ca : rb_color_t} {csf css csa : rb_cursor_st K V} {hole al ar sr : Tree K V}
    (h : Abs t (plug (⟨true, f, cf, csf, .node s c css (.node a ca csa al ar) sr⟩ :: rest)
      hole))
    (hnd : (plug (⟨true, f, cf, csf, .node s c css (.node a ca csa al ar) sr⟩ :: rest)
      hole).addrs.Nodup)
    (hsr : sr.isRed = false) :
    ∃ m r, fixup_near_left t f s = some (t.upd m r, a) ∧
      Abs (t.upd m r) (plug (⟨true, f, cf, csf,
        .node a RB_BLACK csa al (.node s RB_RED css ar sr)⟩ :: rest) hole) := by
  simp only [plug_cons, plug_left] at h hnd ⊢
  have hs := Abs.read (Γ := ⟨false, f, cf, csf, hole⟩ :: rest) (a := s) h
  have hsrR : Repr t.mem sr (some s) :=
    ((Repr_plug (⟨false, f, cf, csf, hole⟩ :: rest) _).1 h.2).2.2.2
  have hb := is_black_or_null_spec hsrR
  simp only [hsr, Bool.not_false] at hb
  obtain ⟨m1, r1, e1, h1⟩ := set_color_spec RB_BLACK
    (Γ := ⟨true, s, c, css, sr⟩ :: ⟨false, f, cf, csf, hole⟩ :: rest) h hnd
  simp only [plug_cons, plug_right, plug_left] at h1
  have hnd1 : (plug rest (.node f cf csf hole (.node s c css (.node a RB_BLACK csa al ar)
      sr))).addrs.Nodup := by
    simpa [addrs_plug, Tree.addrs] using hnd
  obtain ⟨m2, r2, e2, h2⟩ := set_color_spec RB_RED
    (Γ := ⟨false, f, cf, csf, hole⟩ :: rest) h1 hnd1
  simp only [upd_upd, plug_cons, plug_right] at h2 e2
  have hnd2 : (plug rest (.node f cf csf hole (.node s RB_RED css (.node a RB_BLACK csa al ar)
      sr))).addrs.Nodup := by
    simpa [addrs_plug, Tree.addrs] using hnd
  obtain ⟨m3, r3, e3, h3⟩ := rotate_right_spec
    (Γ := ⟨false, f, cf, csf, hole⟩ :: rest) h2 hnd2
  simp only [upd_upd, plug_cons, plug_right] at h3 e3
  have hf3 := Abs.read (Γ := rest) (a := f) h3
  refine ⟨m3, r3, ?_, h3⟩
  simp [fixup_near_left, hs, hb, e1, e2, e3, hf3]

theorem fixup_near_left_far {t : rbtree_st K V} {f s : Nat} {par : Option Nat}
    {c : rb_color_t} {css : rb_cursor_st K V} {sl sr : Tree K V}
    (hs : t.mem s = some ⟨css, sl.ptr, sr.ptr, par, c⟩) (hsrR : Repr t.mem sr (some s))
    (hsr : sr.isRed = true) :
    fixup_near_left t f s = some (t, s) := by
  have hb := is_black_or_null_spec hsrR
  simp only [hsr, Bool.not_true] at hb
  simp [fixup_near_left, hs, hb]

theorem fixup_far_left_spec {t : rbtree_st K V} {rest : List (Frame K V)} {f s b : Nat}
    {cf c cb : rb_color_t} {csf css csb : rb_cursor_st K V} {hole sl bl br : Tree K V}
    (h : Abs t (plug (⟨true, f, cf, csf, .node s c css sl (.node b cb csb bl br)⟩ :: rest)
      hole))
    (hnd : (plug (⟨true, f, cf, csf, .node s c css sl (.node b cb csb bl br)⟩ :: rest)
      hole).addrs.Nodup) :
    ∃ m r, fixup_far_left t f s = some (t.upd m r) ∧
      Abs (t.upd m r) (plug rest (.node s cf css (.node f RB_BLACK csf hole sl)
        (.node b RB_BLACK csb bl br))) := by
  simp only [plug_cons, plug_left] at h hnd ⊢
  have hf := Abs.read (Γ := rest) (a := f) h
  obtain ⟨m1, r1, e1, h1⟩ := set_color_spec cf
    (Γ := ⟨false, f, cf, csf, hole⟩ :: rest) h hnd
  simp only [plug_cons, plug_right] at h1
  have hnd1 : (plug rest (.node f cf csf hole (.node s cf css sl
      (.node b cb csb bl br)))).addrs.Nodup := by
    simpa [addrs_plug, Tree.addrs] using hnd
  obtain ⟨m2, r2, e2, h2⟩ := set_color_spec RB_BLACK (Γ := rest) h1 hnd1
  simp only [upd_upd] at h2 e2
  have hs2 := Abs.read (Γ := ⟨false, f, RB_BLACK, csf, hole⟩ :: rest) (a := s) h2
  have hnd2 : (plug rest (.node f RB_BLACK csf hole (.node s cf css sl
      (.node b cb csb bl br)))).addrs.Nodup := by
    simpa [addrs_plug, Tree.addrs] using hnd
  obtain ⟨m3, r3, e3, h3⟩ := set_color_spec RB_BLACK
    (Γ := ⟨false, s, cf, css, sl⟩ :: ⟨false, f, RB_BLACK, csf, hole⟩ :: rest) h2 hnd2
  simp only [upd_upd, plug_cons, plug_right] at h3 e3
  have hnd3 : (plug rest (.node f RB_BLACK csf hole (.node s cf css sl
      (.node b RB_BLACK csb bl br)))).addrs.Nodup := by
    simpa [addrs_plug, Tree.addrs] using hnd
  obtain ⟨m4, r4, e4, h4⟩ := rotate_left_spec (Γ := rest) h3 hnd3
  simp only [upd_upd] at h4 e4
  refine ⟨m4, r4, ?_, h4⟩
  simp [fixup_far_left, hf, e1, e2, hs2, e3, e4]

/-! ## Delete fixup, left branch: colours -/

theorem isRed_eq_true {T : Tree K V} (h : T.isRed = true) :
    ∃ a cs l r, T = .node a RB_RED cs l r := by
  cases T with
  | nil => simp at h
  | node a c cs l r =>
    rcases color_cases c with rfl | rfl
    · simp at h
    · exact ⟨a, cs, l, r, rfl⟩

theorem ne_nil_of_bh {T : Tree K V} {n : Nat} (h : T.bh = n + 1) :
    ∃ a c cs l r, T = .node a c cs l r := by
  cases T with
  | nil => simp [Tree.bh] at h
  | node a c cs l r => exact ⟨a, c, cs, l, r, rfl⟩

@[simp] theorem bh_nil : (Tree.nil : Tree K V).bh = 0 := rfl
@[simp] theorem bh_node_black (a : Nat) (cs : rb_cursor_st K V) (l r : Tree K V) :
    (Tree.node a RB_BLACK cs l r).bh = l.bh + 1 := rfl
@[simp] theorem bh_node_red (a : Nat) (cs : rb_cursor_st K V) (l r : Tree K V) :
    (Tree.node a RB_RED cs l r).bh = l.bh := rfl

/-- Colour rules after the both-black step under a black parent. -/
theorem del_colors_up_black {Γ : List (Frame K V)} {f s : Nat} {csf css : rb_cursor_st K V}
    {hole sl sr : Tree K V}
    (hhb : hole.Bal) (hhn : hole.NoRR)
    (hsl : sl.bh = hole.bh) (hsr : sr.bh = hole.bh) (hslb : sl.Bal) (hsrb : sr.Bal)
    (hsln : sl.NoRR) (hsrn : sr.NoRR) (hslred : sl.isRed = false) (hsrred : sr.isRed = false)
    (hcb : CtxBal Γ (hole.bh + 1 + 1)) (hcn : CtxNoRR Γ false)
    (hcr : CtxRootBlack Γ) :
    DelInv Γ (.node f RB_BLACK csf hole (.node s RB_RED css sl sr)) := by
  simp_all [DelInv, Tree.Bal, Tree.NoRR]

theorem del_colors_up_red {Γ : List (Frame K V)} {f s : Nat} (csf css : rb_cursor_st K V)
    {hole sl sr : Tree K V}
    (hhb : hole.Bal) (hhn : hole.NoRR)
    (hsl : sl.bh = hole.bh) (hsr : sr.bh = hole.bh) (hslb : sl.Bal) (hsrb : sr.Bal)
    (hsln : sl.NoRR) (hsrn : sr.NoRR) (hslred : sl.isRed = false) (hsrred : sr.isRed = false)
    (hcb : CtxBal Γ (hole.bh + 1)) (hcn : CtxNoRR Γ false) :
    (plug Γ (.node f RB_BLACK csf hole (.node s RB_RED css sl sr))).Bal ∧
    (plug Γ (.node f RB_BLACK csf hole (.node s RB_RED css sl sr))).NoRR := by
  simp_all [Bal_plug, NoRR_plug, Tree.Bal, Tree.NoRR]

theorem del_colors_far {Γ : List (Frame K V)} {f s b : Nat} {cf : rb_color_t}
    (csf css : rb_cursor_st K V) {csb : rb_cursor_st K V} {hole sl bl br : Tree K V}
    (hhb : hole.Bal) (hhn : hole.NoRR)
    (hsl : sl.bh = hole.bh) (hsr : (Tree.node b RB_RED csb bl br).bh = hole.bh) (hslb : sl.Bal)
    (hsrb : (Tree.node b RB_RED csb bl br).Bal)
    (hsln : sl.NoRR) (hsrn : (Tree.node b RB_RED csb bl br).NoRR)
    (hcb : CtxBal Γ (hole.bh + 1 + (if cf = RB_BLACK then 1 else 0)))
    (hcn : CtxNoRR Γ (decide (cf = RB_RED))) :
    (plug Γ (.node s cf css (.node f RB_BLACK csf hole sl) (.node b RB_BLACK csb bl br))).Bal ∧
    (plug Γ (.node s cf css (.node f RB_BLACK csf hole sl)
      (.node b RB_BLACK csb bl br))).NoRR := by
  rcases color_cases cf with rfl | rfl <;>
    simp_all [Bal_plug, NoRR_plug, Tree.Bal, Tree.NoRR]

theorem del_colors_near {Γ : List (Frame K V)} {f s a : Nat} {cf : rb_color_t}
    (csf css : rb_cursor_st K V) {csa : rb_cursor_st K V} {hole al ar sr : Tree K V}
    (hhb : hole.Bal) (hhn : hole.NoRR)
    (hsl : (Tree.node a RB_RED csa al ar).bh = hole.bh) (hsr : sr.bh = hole.bh)
    (hslb : (Tree.node a RB_RED csa al ar).Bal) (hsrb : sr.Bal)
    (hsln : (Tree.node a RB_RED csa al ar).NoRR) (hsrn : sr.NoRR)
    (hcb : CtxBal Γ (hole.bh + 1 + (if cf = RB_BLACK then 1 else 0)))
    (hcn : CtxNoRR Γ (decide (cf = RB_RED))) :
    (plug Γ (.node a cf csa (.node f RB_BLACK csf hole al) (.node s RB_BLACK css ar sr))).Bal ∧
    (plug Γ (.node a cf csa (.node f RB_BLACK csf hole al)
      (.node s RB_BLACK css ar sr))).NoRR := by
  rcases color_cases cf with rfl | rfl <;>
    simp_all [Bal_plug, NoRR_plug, Tree.Bal, Tree.NoRR]

theorem fixup_black_sibling_left_spec {t : rbtree_st K V} {Γ : List (Frame K V)} {f s : Nat}
    {cf : rb_color_t} {csf css : rb_cursor_st K V} {hole sl sr : Tree K V}
    (h : Abs t (plug (⟨true, f, cf, csf, .node s RB_BLACK css sl sr⟩ :: Γ) hole))
    (hnd : (plug (⟨true, f, cf, csf, .node s RB_BLACK css sl sr⟩ :: Γ) hole).addrs.Nodup)
    (hhb : hole.Bal) (hhn : hole.NoRR) (hhr : hole.isRed = false)
    (hsl : sl.bh = hole.bh) (hsr : sr.bh = hole.bh) (hslb : sl.Bal) (hsrb : sr.Bal)
    (hsln : sl.NoRR) (hsrn : sr.NoRR)
    (hcb : CtxBal Γ (hole.bh + 1 + (if cf = RB_BLACK then 1 else 0)))
    (hcn : CtxNoRR Γ (decide (cf = RB_RED)))
    (hcr : CtxRootBlack (⟨true, f, cf, csf, .node s RB_BLACK css sl sr⟩ :: Γ)) :
    ∃ m r ctl, fixup_black_sibling_left t f s = some (t.upd m r, ctl) ∧
      ((ctl = none ∧ ∃ T2, Abs (t.upd m r) T2 ∧
          T2.addrs = (plug (⟨true, f, cf, csf, .node s RB_BLACK css sl sr⟩ :: Γ) hole).addrs ∧
          T2.toList = (plug (⟨true, f, cf, csf, .node s RB_BLACK css sl sr⟩ :: Γ) hole).toList ∧
          T2.Bal ∧ T2.NoRR) ∨
       (∃ S1, ctl = some (f, ctxPtr Γ) ∧
          Abs (t.upd m r) (plug Γ (.node f cf csf hole S1)) ∧
          (plug Γ (.node f cf csf hole S1)).addrs =
            (plug (⟨true, f, cf, csf, .node s RB_BLACK css sl sr⟩ :: Γ) hole).addrs ∧
          (plug Γ (.node f cf csf hole S1)).toList =
            (plug (⟨true, f, cf, csf, .node s RB_BLACK css sl sr⟩ :: Γ) hole).toList ∧
          (cf = RB_BLACK → DelInv Γ (.node f RB_BLACK csf hole S1)) ∧
          (cf = RB_RED → (plug Γ (.node f RB_BLACK csf hole S1)).Bal ∧
            (plug Γ (.node f RB_BLACK csf hole S1)).NoRR ∧ CtxRootBlack Γ))) := by
  have hs := Abs.read (Γ := ⟨false, f, cf, csf, hole⟩ :: Γ) (a := s) h
  have hsR := ((Repr_plug (⟨false, f, cf, csf, hole⟩ :: Γ) _).1 h.2).2
  obtain ⟨-, hslR, hsrR⟩ := hsR
  have hlb := is_black_or_null_spec hslR
  have hrb := is_black_or_null_spec hsrR
  cases hslred : sl.isRed <;> cases hsrred : sr.isRed
  · -- both children of the sibling are black
    simp only [hslred, hsrred, Bool.not_false] at hlb hrb
    simp only [plug_cons, plug_left] at h hnd
    obtain ⟨m1, r1, e1, h1⟩ := set_color_spec RB_RED
      (Γ := ⟨false, f, cf, csf, hole⟩ :: Γ) h hnd
    simp only [plug_cons, plug_right] at h1
    have hf1 := Abs.read (Γ := Γ) (a := f) h1
    refine ⟨m1, r1, _, ?_, Or.inr ⟨.node s RB_RED css sl sr, rfl, h1, ?_, ?_, ?_, ?_⟩⟩
    · simp [fixup_black_sibling_left, hs, hlb, hrb, e1, hf1]
    · simp [addrs_plug, Tree.addrs]
    · simp [toList_plug, Tree.toList]
    · rintro rfl
      exact del_colors_up_black hhb hhn hsl hsr hslb hsrb hsln hsrn hslred hsrred
        (by simpa using hcb) (CtxNoRR_black hcn) (CtxRootBlack_tail hcr)
    · rintro rfl
      have := del_colors_up_red (Γ := Γ) (f := f) (s := s) csf css
        hhb hhn hsl hsr hslb hsrb hsln hsrn hslred hsrred
        (by simpa using hcb) (CtxNoRR_black hcn)
      refine ⟨this.1, this.2, ?_⟩
      cases Γ with
      | nil => simp [CtxRootBlack] at hcr
      | cons g gs => exact hcr
  · -- the far child is red
    obtain ⟨b, csb, bl, br, rfl⟩ := isRed_eq_true hsrred
    have e1 := fixup_near_left_far (f := f) hs hsrR hsrred
    obtain ⟨m2, r2, e2, h2⟩ := fixup_far_left_spec h hnd
    simp only [hslred, hsrred, Bool.not_false, Bool.not_true, ptr_node] at hlb hrb
    have := del_colors_far (Γ := Γ) (f := f) (s := s) csf css
      hhb hhn hsl hsr hslb hsrb hsln hsrn hcb hcn
    refine ⟨m2, r2, none, ?_, Or.inl ⟨rfl, _, h2, ?_, ?_, this.1, this.2⟩⟩
    · simp [fixup_black_sibling_left, hs, hlb, hrb, e1, e2]
    · simp [addrs_plug, Tree.addrs]
    · simp [toList_plug, Tree.toList]
  · -- the near child is red, the far child is black
    obtain ⟨a, csa, al, ar, rfl⟩ := isRed_eq_true hslred
    obtain ⟨m1, r1, e1, h1⟩ := fixup_near_left_near h hnd hsrred
    have hnd1 : (plug (⟨true, f, cf, csf,
        .node a RB_BLACK csa al (.node s RB_RED css ar sr)⟩ :: Γ) hole).addrs.Nodup := by
      simpa [addrs_plug, Tree.addrs] using hnd
    obtain ⟨m2, r2, e2, h2⟩ := fixup_far_left_spec h1 hnd1
    simp only [upd_upd] at e2 h2
    simp only [hslred, hsrred, Bool.not_false, Bool.not_true, ptr_node] at hlb hrb
    have := del_colors_near (Γ := Γ) (f := f) (s := s) csf css
      hhb hhn hsl hsr hslb hsrb hsln hsrn hcb hcn
    refine ⟨m2, r2, none, ?_, Or.inl ⟨rfl, _, h2, ?_, ?_, this.1, this.2⟩⟩
    · simp [fixup_black_sibling_left, hs, hlb, hrb, e1, e2]
    · simp [addrs_plug, Tree.addrs]
    · simp [toList_plug, Tree.toList]
  · -- both children red: the far child decides
    obtain ⟨b, csb, bl, br, rfl⟩ := isRed_eq_true hsrred
    have e1 := fixup_near_left_far (f := f) hs hsrR hsrred
    obtain ⟨m2, r2, e2, h2⟩ := fixup_far_left_spec h hnd
    simp only [hslred, hsrred, Bool.not_false, Bool.not_true, ptr_node] at hlb hrb
    have := del_colors_far (Γ := Γ) (f := f) (s := s) csf css
      hhb hhn hsl hsr hslb hsrb hsln hsrn hcb hcn
    refine ⟨m2, r2, none, ?_, Or.inl ⟨rfl, _, h2, ?_, ?_, this.1, this.2⟩⟩
    · simp [fixup_black_sibling_left, hs, hlb, hrb, e1, e2]
    · simp [addrs_plug, Tree.addrs]
    · simp [toList_plug, Tree.toList]

/-! ## Delete fixup, left branch: one round -/

theorem delete_fixup_left_spec {t : rbtree_st K V} {rest : List (Frame K V)} {f : Nat}
    {cf : rb_color_t} {csf : rb_cursor_st K V} {sib hole : Tree K V}
    (h : Abs t (plug (⟨true, f, cf, csf, sib⟩ :: rest) hole))
    (hnd : (plug (⟨true, f, cf, csf, sib⟩ :: rest) hole).addrs.Nodup)
    (hinv : DelInv (⟨true, f, cf, csf, sib⟩ :: rest) hole) :
    ∃ m r ctl, delete_fixup_left t f = some (t.upd m r, ctl) ∧
      ((ctl = none ∧ ∃ T2, Abs (t.upd m r) T2 ∧
          T2.addrs = (plug (⟨true, f, cf, csf, sib⟩ :: rest) hole).addrs ∧
          T2.toList = (plug (⟨true, f, cf, csf, sib⟩ :: rest) hole).toList ∧
          T2.Bal ∧ T2.NoRR) ∨
       (∃ ctx1 cf1 S1, ctl = some (f, ctxPtr ctx1) ∧
          Abs (t.upd m r) (plug ctx1 (.node f cf1 csf hole S1)) ∧
          (plug ctx1 (.node f cf1 csf hole S1)).addrs =
            (plug (⟨true, f, cf, csf, sib⟩ :: rest) hole).addrs ∧
          (plug ctx1 (.node f cf1 csf hole S1)).toList =
            (plug (⟨true, f, cf, csf, sib⟩ :: rest) hole).toList ∧
          (cf1 = RB_BLACK → DelInv ctx1 (.node f RB_BLACK csf hole S1) ∧
            ctx1.length ≤ rest.length) ∧
          (cf1 = RB_RED → (plug ctx1 (.node f RB_BLACK csf hole S1)).Bal ∧
            (plug ctx1 (.node f RB_BLACK csf hole S1)).NoRR ∧ CtxRootBlack ctx1))) := by
  obtain ⟨hhb, hhn, hhr, hcb, hcn, hcr⟩ := hinv
  simp only [CtxBal, CtxNoRR] at hcb hcn
  obtain ⟨hsb, hsbal, hcb2⟩ := hcb
  obtain ⟨hsred, hsn, hcn2⟩ := hcn
  obtain ⟨s, c, css, sl, sr, rfl⟩ := ne_nil_of_bh hsb
  have hf := Abs.read (Γ := rest) (a := f) h
  simp only [plug_left, ptr_node] at hf
  rcases color_cases c with rfl | rfl
  · -- black sibling
    have hs := Abs.read (Γ := ⟨false, f, cf, csf, hole⟩ :: rest) (a := s) h
    have e1 := fixup_red_sibling_left_black (f := f) hs rfl
    simp only [bh_node_black, Nat.add_right_cancel_iff] at hsb
    obtain ⟨hlr, hslb, hsrb⟩ := hsbal
    obtain ⟨-, hsln, hsrn⟩ := hsn
    obtain ⟨m, r, ctl, e2, hout⟩ := fixup_black_sibling_left_spec h hnd hhb hhn hhr hsb
      (hlr ▸ hsb) hslb hsrb hsln hsrn hcb2 hcn2 hcr
    refine ⟨m, r, ctl, ?_, ?_⟩
    · simp [delete_fixup_left, hf, e1, e2]
    · rcases hout with hout | ⟨S1, h1, h2, h3, h4, h5, h6⟩
      · exact Or.inl hout
      · exact Or.inr ⟨rest, cf, S1, h1, h2, h3, h4, fun hc => ⟨h5 hc, le_refl _⟩, h6⟩
  · -- red sibling
    have hcf : cf = RB_BLACK := by
      rcases color_cases cf with rfl | rfl
      · rfl
      · simp at hsred
    subst hcf
    simp only [bh_node_red] at hsb
    obtain ⟨hlr, hslb, hsrb⟩ := hsbal
    obtain ⟨hsch, hsln, hsrn⟩ := hsn
    obtain ⟨a, ca, csa, al, ar, rfl⟩ := ne_nil_of_bh hsb
    have hca : ca = RB_BLACK := by
      rcases color_cases ca with rfl | rfl
      · rfl
      · simp at hsch
    subst hca
    obtain ⟨m1, r1, e1, h1⟩ := fixup_red_sibling_left_red h hnd
    have hnd1 : (plug (⟨true, f, RB_RED, csf, .node a RB_BLACK csa al ar⟩ ::
        ⟨true, s, RB_BLACK, css, sr⟩ :: rest) hole).addrs.Nodup := by
      simpa [addrs_plug, Tree.addrs] using hnd
    simp only [bh_node_black, Nat.add_right_cancel_iff] at hsb
    obtain ⟨hab, halb, harb⟩ := hslb
    obtain ⟨-, haln, harn⟩ := hsln
    have hsrbh : sr.bh = hole.bh + 1 := by
      rw [← hlr]; simp [hsb]
    obtain ⟨m, r, ctl, e2, hout⟩ := fixup_black_sibling_left_spec h1 hnd1 hhb hhn hhr hsb
      (hab ▸ hsb) halb harb haln harn
      (by simpa [CtxBal] using ⟨hsrbh, hsrb, hcb2⟩)
      (by simpa [CtxNoRR] using ⟨hsrn, hcn2⟩)
      (show CtxRootBlack (⟨true, s, RB_BLACK, css, sr⟩ :: rest) from
        CtxRootBlack_cons_black rfl (CtxRootBlack_tail hcr))
    simp only [upd_upd] at e2 hout
    refine ⟨m, r, ctl, ?_, ?_⟩
    · simp [delete_fixup_left, hf, e1, e2]
    · rcases hout with ⟨h0, T2, h2, h3, h4, h5, h6⟩ | ⟨S1, h1, h2, h3, h4, h5, h6⟩
      · refine Or.inl ⟨h0, T2, h2, ?_, ?_, h5, h6⟩
        · rw [h3]; simp [addrs_plug, Tree.addrs]
        · rw [h4]; simp [toList_plug, Tree.toList]
      · refine Or.inr ⟨_, RB_RED, S1, h1, h2, ?_, ?_, fun hc => by simp at hc,
          fun _ => h6 trivial⟩
        · rw [h3]; simp [addrs_plug, Tree.addrs]
        · rw [h4]; simp [toList_plug, Tree.toList]

/-! ## Delete fixup, right branch: steps -/

/-! ## Steps of the `rbtree_delete` fixup, branch `node == parent->right` -/

theorem fixup_red_sibling_right_red {t : rbtree_st K V} {rest : List (Frame K V)} {f s a : Nat}
    {cf ca : rb_color_t} {csf css csa : rb_cursor_st K V} {hole al ar sl : Tree K V}
    (h : Abs t (plug (⟨false, f, cf, csf, .node s RB_RED css sl (.node a ca csa al ar)⟩ :: rest)
      hole))
    (hnd : (plug (⟨false, f, cf, csf, .node s RB_RED css sl (.node a ca csa al ar)⟩ :: rest)
      hole).addrs.Nodup) :
    ∃ m r, fixup_red_sibling_right t f s = some (t.upd m r, a) ∧
      Abs (t.upd m r) (plug (⟨false, f, RB_RED, csf, .node a ca csa al ar⟩ ::
        ⟨false, s, RB_BLACK, css, sl⟩ :: rest) hole) := by
  simp only [plug_cons, plug_right] at h hnd ⊢
  have hs := Abs.read (Γ := ⟨true, f, cf, csf, hole⟩ :: rest) (a := s) h
  obtain ⟨m1, r1, e1, h1⟩ := set_color_spec RB_BLACK
    (Γ := ⟨true, f, cf, csf, hole⟩ :: rest) h hnd
  simp only [plug_cons, plug_left] at h1
  have hnd1 : (plug rest (.node f cf csf (.node s RB_BLACK css sl (.node a ca csa al ar))
      hole)).addrs.Nodup := by
    simpa [addrs_plug, Tree.addrs] using hnd
  obtain ⟨m2, r2, e2, h2⟩ := set_color_spec RB_RED (Γ := rest) h1 hnd1
  simp only [upd_upd] at h2 e2
  have hnd2 : (plug rest (.node f RB_RED csf (.node s RB_BLACK css sl (.node a ca csa al ar))
      hole)).addrs.Nodup := by
    simpa [addrs_plug, Tree.addrs] using hnd
  obtain ⟨m3, r3, e3, h3⟩ := rotate_right_spec (Γ := rest) h2 hnd2
  simp only [upd_upd] at h3 e3
  have hf3 := Abs.read (Γ := ⟨false, s, RB_BLACK, css, sl⟩ :: rest) (a := f) h3
  refine ⟨m3, r3, ?_, h3⟩
  simp [fixup_red_sibling_right, hs, e1, e2, e3, hf3]

theorem fixup_red_sibling_right_black {t : rbtree_st K V} {f s : Nat}
    {n : rbtree_node_st K V} (hs : t.mem s = some n) (hc : n.color = RB_BLACK) :
    fixup_red_sibling_right t f s = some (t, s) := by
  simp [fixup_red_sibling_right, hs, hc]

theorem fixup_near_right_near {t : rbtree_st K V} {rest : List (Frame K V)} {f s a : Nat}
    {cf c ca : rb_color_t} {csf css csa : rb_cursor_st K V} {hole al ar sl : Tree K V}
    (h : Abs t (plug (⟨false, f, cf, csf, .node s c css sl (.node a ca csa al ar)⟩ :: rest)
      hole))
    (hnd : (plug (⟨false, f, cf, csf, .node s c css sl (.node a ca csa al ar)⟩ :: rest)
      hole).addrs.Nodup)
    (hsl : sl.isRed = false) :
    ∃ m r, fixup_near_right t f s = some (t.upd m r, a) ∧
      Abs (t.upd m r) (plug (⟨false, f, cf, csf,
        .node a RB_BLACK csa (.node s RB_RED css sl al) ar⟩ :: rest) hole) := by
  simp only [plug_cons, plug_right] at h hnd ⊢
  have hs := Abs.read (Γ := ⟨true, f, cf, csf, hole⟩ :: rest) (a := s) h
  have hslR : Repr t.mem sl (some s) :=
    ((Repr_plug (⟨true, f, cf, csf, hole⟩ :: rest) _).1 h.2).2.2.1
  have hb := is_black_or_null_spec hslR
  simp only [hsl, Bool.not_false] at hb
  obtain ⟨m1, r1, e1, h1⟩ := set_color_spec RB_BLACK
    (Γ := ⟨false, s, c, css, sl⟩ :: ⟨true, f, cf, csf, hole⟩ :: rest) h hnd
  simp only [plug_cons, plug_right, plug_left] at h1
  have hnd1 : (plug rest (.node f cf csf (.node s c css sl (.node a RB_BLACK csa al ar))
      hole)).addrs.Nodup := by
    simpa [addrs_plug, Tree.addrs] using hnd
  obtain ⟨m2, r2, e2, h2⟩ := set_color_spec RB_RED
    (Γ := ⟨true, f, cf, csf, hole⟩ :: rest) h1 hnd1
  simp only [upd_upd, plug_cons, plug_left] at h2 e2
  have hnd2 : (plug rest (.node f cf csf (.node s RB_RED css sl (.node a RB_BLACK csa al ar))
      hole)).addrs.Nodup := by
    simpa [addrs_plug, Tree.addrs] using hnd
  obtain ⟨m3, r3, e3, h3⟩ := rotate_left_spec
    (Γ := ⟨true, f, cf, csf, hole⟩ :: rest) h2 hnd2
  simp only [upd_upd, plug_cons, plug_left] at h3 e3
  have hf3 := Abs.read (Γ := rest) (a := f) h3
  refine ⟨m3, r3, ?_, h3⟩
  simp [fixup_near_right, hs, hb, e1, e2, e3, hf3]

theorem fixup_near_right_far {t : rbtree_st K V} {f s : Nat} {par : Option Nat}
    {c : rb_color_t} {css : rb_cursor_st K V} {sl sr : Tree K V}
    (hs : t.mem s = some ⟨css, sl.ptr, sr.ptr, par, c⟩) (hslR : Repr t.mem sl (some s))
    (hsl : sl.isRed = true) :
    fixup_near_right t f s = some (t, s) := by
  have hb := is_black_or_null_spec hslR
  simp only [hsl, Bool.not_true] at hb
  simp [fixup_near_right, hs, hb]

theorem fixup_far_right_spec {t : rbtree_st K V} {rest : List (Frame K V)} {f s b : Nat}
    {cf c cb : rb_color_t} {csf css csb : rb_cursor_st K V} {hole sr bl br : Tree K V}
    (h : Abs t (plug (⟨false, f, cf, csf, .node s c css (.node b cb csb bl br) sr⟩ :: rest)
      hole))
    (hnd : (plug (⟨false, f, cf, csf, .node s c css (.node b cb csb bl br) sr⟩ :: rest)
      hole).addrs.Nodup) :
    ∃ m r, fixup_far_right t f s = some (t.upd m r) ∧
      Abs (t.upd m r) (plug rest (.node s cf css (.node b RB_BLACK csb bl br)
        (.node f RB_BLACK csf sr hole))) := by
  simp only [plug_cons, plug_right] at h hnd ⊢
  have hf := Abs.read (Γ := rest) (a := f) h
  obtain ⟨m1, r1, e1, h1⟩ := set_color_spec cf
    (Γ := ⟨true, f, cf, csf, hole⟩ :: rest) h hnd
  simp only [plug_cons, plug_left] at h1
  have hnd1 : (plug rest (.node f cf csf (.node s cf css (.node b cb csb bl br) sr)
      hole)).addrs.Nodup := by
    simpa [addrs_plug, Tree.addrs] using hnd
  obtain ⟨m2, r2, e2, h2⟩ := set_color_spec RB_BLACK (Γ := rest) h1 hnd1
  simp only [upd_upd] at h2 e2
  have hs2 := Abs.read (Γ := ⟨true, f, RB_BLACK, csf, hole⟩ :: rest) (a := s) h2
  have hnd2 : (plug rest (.node f RB_BLACK csf (.node s cf css (.node b cb csb bl br) sr)
      hole)).addrs.Nodup := by
    simpa [addrs_plug, Tree.addrs] using hnd
  obtain ⟨m3, r3, e3, h3⟩ := set_color_spec RB_BLACK
    (Γ := ⟨true, s, cf, css, sr⟩ :: ⟨true, f, RB_BLACK, csf, hole⟩ :: rest) h2 hnd2
  simp only [upd_upd, plug_cons, plug_left] at h3 e3
  have hnd3 : (plug rest (.node f RB_BLACK csf (.node s cf css (.node b RB_BLACK csb bl br) sr)
      hole)).addrs.Nodup := by
    simpa [addrs_plug, Tree.addrs] using hnd
  obtain ⟨m4, r4, e4, h4⟩ := rotate_right_spec (Γ := rest) h3 hnd3
  simp only [upd_upd] at h4 e4
  refine ⟨m4, r4, ?_, h4⟩
  simp [fixup_far_right, hf, e1, e2, hs2, e3, e4]

/-- Colour rules after the both-black step under a black parent. -/
theorem del_colors_up_black_r {Γ : List (Frame K V)} {f s : Nat} {csf css : rb_cursor_st K V}
    {hole sl sr : Tree K V}
    (hhb : hole.Bal) (hhn : hole.NoRR) (hhr : hole.isRed = false)
    (hsl : sl.bh = hole.bh) (hsr : sr.bh = hole.bh) (hslb : sl.Bal) (hsrb : sr.Bal)
    (hsln : sl.NoRR) (hsrn : sr.NoRR) (hslred : sl.isRed = false) (hsrred : sr.isRed = false)
    (hcb : CtxBal Γ (hole.bh + 1 + 1)) (hcn : CtxNoRR Γ false)
    (hcr : CtxRootBlack Γ) :
    DelInv Γ (.node f RB_BLACK csf (.node s RB_RED css sl sr) hole) := by
  simp_all [DelInv, Tree.Bal, Tree.NoRR]

theorem del_colors_up_red_r {Γ : List (Frame K V)} {f s : Nat} (csf css : rb_cursor_st K V)
    {hole sl sr : Tree K V}
    (hhb : hole.Bal) (hhn : hole.NoRR) (hhr : hole.isRed = false)
    (hsl : sl.bh = hole.bh) (hsr : sr.bh = hole.bh) (hslb : sl.Bal) (hsrb : sr.Bal)
    (hsln : sl.NoRR) (hsrn : sr.NoRR) (hslred : sl.isRed = false) (hsrred : sr.isRed = false)
    (hcb : CtxBal Γ (hole.bh + 1)) (hcn : CtxNoRR Γ false) :
    (plug Γ (.node f RB_BLACK csf (.node s RB_RED css sl sr) hole)).Bal ∧
    (plug Γ (.node f RB_BLACK csf (.node s RB_RED css sl sr) hole)).NoRR := by
  simp_all [Bal_plug, NoRR_plug, Tree.Bal, Tree.NoRR]

theorem del_colors_far_r {Γ : List (Frame K V)} {f s b : Nat} {cf : rb_color_t}
    (csf css : rb_cursor_st K V) {csb : rb_cursor_st K V} {hole sr bl br : Tree K V}
    (hhb : hole.Bal) (hhn : hole.NoRR) (hhr : hole.isRed = false)
    (hsl : (Tree.node b RB_RED csb bl br).bh = hole.bh) (hsr : sr.bh = hole.bh)
    (hslb : (Tree.node b RB_RED csb bl br).Bal) (hsrb : sr.Bal)
    (hsln : (Tree.node b RB_RED csb bl br).NoRR) (hsrn : sr.NoRR)
    (hcb : CtxBal Γ (hole.bh + 1 + (if cf = RB_BLACK then 1 else 0)))
    (hcn : CtxNoRR Γ (decide (cf = RB_RED))) :
    (plug Γ (.node s cf css (.node b RB_BLACK csb bl br) (.node f RB_BLACK csf sr hole))).Bal ∧
    (plug Γ (.node s cf css (.node b RB_BLACK csb bl br)
      (.node f RB_BLACK csf sr hole))).NoRR := by
  rcases color_cases cf with rfl | rfl <;>
    simp_all [Bal_plug, NoRR_plug, Tree.Bal, Tree.NoRR]

theorem del_colors_near_r {Γ : List (Frame K V)} {f s a : Nat} {cf : rb_color_t}
    (csf css : rb_cursor_st K V) {csa : rb_cursor_st K V} {hole al ar sl : Tree K V}
    (hhb : hole.Bal) (hhn : hole.NoRR) (hhr : hole.isRed = false)
    (hsl : sl.bh = hole.bh) (hsr : (Tree.node a RB_RED csa al ar).bh = hole.bh)
    (hslb : sl.Bal) (hsrb : (Tree.node a RB_RED csa al ar).Bal)
    (hsln : sl.NoRR) (hsrn : (Tree.node a RB_RED csa al ar).NoRR)
    (hslred : sl.isRed = false)
    (hcb : CtxBal Γ (hole.bh + 1 + (if cf = RB_BLACK then 1 else 0)))
    (hcn : CtxNoRR Γ (decide (cf = RB_RED))) :
    (plug Γ (.node a cf csa (.node s RB_BLACK css sl al) (.node f RB_BLACK csf ar hole))).Bal ∧
    (plug Γ (.node a cf csa (.node s RB_BLACK css sl al)
      (.node f RB_BLACK csf ar hole))).NoRR := by
  rcases color_cases cf with rfl | rfl <;>
    simp_all [Bal_plug, NoRR_plug, Tree.Bal, Tree.NoRR]

/-! ## Delete fixup, right branch: one round -/

theorem fixup_black_sibling_right_spec {t : rbtree_st K V} {Γ : List (Frame K V)} {f s : Nat}
    {cf : rb_color_t} {csf css : rb_cursor_st K V} {hole sl sr : Tree K V}
    (h : Abs t (plug (⟨false, f, cf, csf, .node s RB_BLACK css sl sr⟩ :: Γ) hole))
    (hnd : (plug (⟨false, f, cf, csf, .node s RB_BLACK css sl sr⟩ :: Γ) hole).addrs.Nodup)
    (hhb : hole.Bal) (hhn : hole.NoRR) (hhr : hole.isRed = false)
    (hsl : sl.bh = hole.bh) (hsr : sr.bh = hole.bh) (hslb : sl.Bal) (hsrb : sr.Bal)
    (hsln : sl.NoRR) (hsrn : sr.NoRR)
    (hcb : CtxBal Γ (hole.bh + 1 + (if cf = RB_BLACK then 1 else 0)))
    (hcn : CtxNoRR Γ (decide (cf = RB_RED)))
    (hcr : CtxRootBlack (⟨false, f, cf, csf, .node s RB_BLACK css sl sr⟩ :: Γ)) :
    ∃ m r ctl, fixup_black_sibling_right t f s = some (t.upd m r, ctl) ∧
      ((ctl = none ∧ ∃ T2, Abs (t.upd m r) T2 ∧
          T2.addrs = (plug (⟨false, f, cf, csf, .node s RB_BLACK css sl sr⟩ :: Γ) hole).addrs ∧
          T2.toList =
            (plug (⟨false, f, cf, csf, .node s RB_BLACK css sl sr⟩ :: Γ) hole).toList ∧
          T2.Bal ∧ T2.NoRR) ∨
       (∃ S1, ctl = some (f, ctxPtr Γ) ∧
          Abs (t.upd m r) (plug Γ (.node f cf csf S1 hole)) ∧
          (plug Γ (.node f cf csf S1 hole)).addrs =
            (plug (⟨false, f, cf, csf, .node s RB_BLACK css sl sr⟩ :: Γ) hole).addrs ∧
          (plug Γ (.node f cf csf S1 hole)).toList =
            (plug (⟨false, f, cf, csf, .node s RB_BLACK css sl sr⟩ :: Γ) hole).toList ∧
          (cf = RB_BLACK → DelInv Γ (.node f RB_BLACK csf S1 hole)) ∧
          (cf = RB_RED → (plug Γ (.node f RB_BLACK csf S1 hole)).Bal ∧
            (plug Γ (.node f RB_BLACK csf S1 hole)).NoRR ∧ CtxRootBlack Γ))) := by
  have hs := Abs.read (Γ := ⟨true, f, cf, csf, hole⟩ :: Γ) (a := s) h
  have hsR := ((Repr_plug (⟨true, f, cf, csf, hole⟩ :: Γ) _).1 h.2).2
  obtain ⟨-, hslR, hsrR⟩ := hsR
  have hlb := is_black_or_null_spec hslR
  have hrb := is_black_or_null_spec hsrR
  cases hslred : sl.isRed <;> cases hsrred : sr.isRed
  · -- both children of the sibling are black
    simp only [hslred, hsrred, Bool.not_false] at hlb hrb
    simp only [plug_cons, plug_right] at h hnd
    obtain ⟨m1, r1, e1, h1⟩ := set_color_spec RB_RED
      (Γ := ⟨true, f, cf, csf, hole⟩ :: Γ) h hnd
    simp only [plug_cons, plug_left] at h1
    have hf1 := Abs.read (Γ := Γ) (a := f) h1
    refine ⟨m1, r1, _, ?_, Or.inr ⟨.node s RB_RED css sl sr, rfl, h1, ?_, ?_, ?_, ?_⟩⟩
    · simp [fixup_black_sibling_right, hs, hlb, hrb, e1, hf1]
    · simp [addrs_plug, Tree.addrs]
    · simp [toList_plug, Tree.toList]
    · rintro rfl
      exact del_colors_up_black_r hhb hhn hhr hsl hsr hslb hsrb hsln hsrn hslred hsrred
        (by simpa using hcb) (CtxNoRR_black hcn) (CtxRootBlack_tail hcr)
    · rintro rfl
      have := del_colors_up_red_r (Γ := Γ) (f := f) (s := s) csf css
        hhb hhn hhr hsl hsr hslb hsrb hsln hsrn hslred hsrred
        (by simpa using hcb) (CtxNoRR_black hcn)
      refine ⟨this.1, this.2, ?_⟩
      cases Γ with
      | nil => simp [CtxRootBlack] at hcr
      | cons g gs => exact hcr
  · -- the near child is red, the far child is black
    obtain ⟨a, csa, al, ar, rfl⟩ := isRed_eq_true hsrred
    obtain ⟨m1, r1, e1, h1⟩ := fixup_near_right_near h hnd hslred
    have hnd1 : (plug (⟨false, f, cf, csf,
        .node a RB_BLACK csa (.node s RB_RED css sl al) ar⟩ :: Γ) hole).addrs.Nodup := by
      simpa [addrs_plug, Tree.addrs] using hnd
    obtain ⟨m2, r2, e2, h2⟩ := fixup_far_right_spec h1 hnd1
    simp only [upd_upd] at e2 h2
    simp only [hslred, hsrred, Bool.not_false, Bool.not_true, ptr_node] at hlb hrb
    have := del_colors_near_r (Γ := Γ) (f := f) (s := s) csf css
      hhb hhn hhr hsl hsr hslb hsrb hsln hsrn hslred hcb hcn
    refine ⟨m2, r2, none, ?_, Or.inl ⟨rfl, _, h2, ?_, ?_, this.1, this.2⟩⟩
    · simp [fixup_black_sibling_right, hs, hlb, hrb, e1, e2]
    · simp [addrs_plug, Tree.addrs]
    · simp [toList_plug, Tree.toList]
  · -- the far child is red
    obtain ⟨b, csb, bl, br, rfl⟩ := isRed_eq_true hslred
    have e1 := fixup_near_right_far (f := f) hs hslR hslred
    obtain ⟨m2, r2, e2, h2⟩ := fixup_far_right_spec h hnd
    simp only [hslred, hsrred, Bool.not_false, Bool.not_true, ptr_node] at hlb hrb
    have := del_colors_far_r (Γ := Γ) (f := f) (s := s) csf css
      hhb hhn hhr hsl hsr hslb hsrb hsln hsrn hcb hcn
    refine ⟨m2, r2, none, ?_, Or.inl ⟨rfl, _, h2, ?_, ?_, this.1, this.2⟩⟩
    · simp [fixup_black_sibling_right, hs, hlb, hrb, e1, e2]
    · simp [addrs_plug, Tree.addrs]
    · simp [toList_plug, Tree.toList]
  · -- both children red: the far child decides
    obtain ⟨b, csb, bl, br, rfl⟩ := isRed_eq_true hslred
    have e1 := fixup_near_right_far (f := f) hs hslR hslred
    obtain ⟨m2, r2, e2, h2⟩ := fixup_far_right_spec h hnd
    simp only [hslred, hsrred, Bool.not_false, Bool.not_true, ptr_node] at hlb hrb
    have := del_colors_far_r (Γ := Γ) (f := f) (s := s) csf css
      hhb hhn hhr hsl hsr hslb hsrb hsln hsrn hcb hcn
    refine ⟨m2, r2, none, ?_, Or.inl ⟨rfl, _, h2, ?_, ?_, this.1, this.2⟩⟩
    · simp [fixup_black_sibling_right, hs, hlb, hrb, e1, e2]
    · simp [addrs_plug, Tree.addrs]
    · simp [toList_plug, Tree.toList]

theorem delete_fixup_right_spec {t : rbtree_st K V} {rest : List (Frame K V)} {f : Nat}
    {cf : rb_color_t} {csf : rb_cursor_st K V} {sib hole : Tree K V}
    (h : Abs t (plug (⟨false, f, cf, csf, sib⟩ :: rest) hole))
    (hnd : (plug (⟨false, f, cf, csf, sib⟩ :: rest) hole).addrs.Nodup)
    (hinv : DelInv (⟨false, f, cf, csf, sib⟩ :: rest) hole) :
    ∃ m r ctl, delete_fixup_right t f = some (t.upd m r, ctl) ∧
      ((ctl = none ∧ ∃ T2, Abs (t.upd m r) T2 ∧
          T2.addrs = (plug (⟨false, f, cf, csf, sib⟩ :: rest) hole).addrs ∧
          T2.toList = (plug (⟨false, f, cf, csf, sib⟩ :: rest) hole).toList ∧
          T2.Bal ∧ T2.NoRR) ∨
       (∃ ctx1 cf1 S1, ctl = some (f, ctxPtr ctx1) ∧
          Abs (t.upd m r) (plug ctx1 (.node f cf1 csf S1 hole)) ∧
          (plug ctx1 (.node f cf1 csf S1 hole)).addrs =
            (plug (⟨false, f, cf, csf, sib⟩ :: rest) hole).addrs ∧
          (plug ctx1 (.node f cf1 csf S1 hole)).toList =
            (plug (⟨false, f, cf, csf, sib⟩ :: rest) hole).toList ∧
          (cf1 = RB_BLACK → DelInv ctx1 (.node f RB_BLACK csf S1 hole) ∧
            ctx1.length ≤ rest.length) ∧
          (cf1 = RB_RED → (plug ctx1 (.node f RB_BLACK csf S1 hole)).Bal ∧
            (plug ctx1 (.node f RB_BLACK csf S1 hole)).NoRR ∧ CtxRootBlack ctx1))) := by
  obtain ⟨hhb, hhn, hhr, hcb, hcn, hcr⟩ := hinv
  simp only [CtxBal, CtxNoRR] at hcb hcn
  obtain ⟨hsb, hsbal, hcb2⟩ := hcb
  obtain ⟨hsred, hsn, hcn2⟩ := hcn
  obtain ⟨s, c, css, sl, sr, rfl⟩ := ne_nil_of_bh hsb
  have hf := Abs.read (Γ := rest) (a := f) h
  simp only [plug_right, ptr_node] at hf
  rcases color_cases c with rfl | rfl
  · -- black sibling
    have hs := Abs.read (Γ := ⟨true, f, cf, csf, hole⟩ :: rest) (a := s) h
    have e1 := fixup_red_sibling_right_black (f := f) hs rfl
    simp only [bh_node_black, Nat.add_right_cancel_iff] at hsb
    obtain ⟨hlr, hslb, hsrb⟩ := hsbal
    obtain ⟨-, hsln, hsrn⟩ := hsn
    obtain ⟨m, r, ctl, e2, hout⟩ := fixup_black_sibling_right_spec h hnd hhb hhn hhr hsb
      (hlr ▸ hsb) hslb hsrb hsln hsrn hcb2 hcn2 hcr
    refine ⟨m, r, ctl, ?_, ?_⟩
    · simp [delete_fixup_right, hf, e1, e2]
    · rcases hout with hout | ⟨S1, h1, h2, h3, h4, h5, h6⟩
      · exact Or.inl hout
      · exact Or.inr ⟨rest, cf, S1, h1, h2, h3, h4, fun hc => ⟨h5 hc, le_refl _⟩, h6⟩
  · -- red sibling
    have hcf : cf = RB_BLACK := by
      rcases color_cases cf with rfl | rfl
      · rfl
      · simp at hsred
    subst hcf
    simp only [bh_node_red] at hsb
    obtain ⟨hlr, hslb, hsrb⟩ := hsbal
    obtain ⟨hsch, hsln, hsrn⟩ := hsn
    have hsrbh : sr.bh = hole.bh + 1 := hlr ▸ hsb
    obtain ⟨a, ca, csa, al, ar, rfl⟩ := ne_nil_of_bh hsrbh
    have hca : ca = RB_BLACK := by
      rcases color_cases ca with rfl | rfl
      · rfl
      · simp at hsch
    subst hca
    obtain ⟨m1, r1, e1, h1⟩ := fixup_red_sibling_right_red h hnd
    have hnd1 : (plug (⟨false, f, RB_RED, csf, .node a RB_BLACK csa al ar⟩ ::
        ⟨false, s, RB_BLACK, css, sl⟩ :: rest) hole).addrs.Nodup := by
      simpa [addrs_plug, Tree.addrs] using hnd
    simp only [bh_node_black, Nat.add_right_cancel_iff] at hsrbh
    obtain ⟨hab, halb, harb⟩ := hsrb
    obtain ⟨-, haln, harn⟩ := hsrn
    obtain ⟨m, r, ctl, e2, hout⟩ := fixup_black_sibling_right_spec h1 hnd1 hhb hhn hhr hsrbh
      (hab ▸ hsrbh) halb harb haln harn
      (by simpa [CtxBal] using ⟨hsb, hslb, hcb2⟩)
      (by simpa [CtxNoRR] using ⟨hsln, hcn2⟩)
      (show CtxRootBlack (⟨false, s, RB_BLACK, css, sl⟩ :: rest) from
        CtxRootBlack_cons_black rfl (CtxRootBlack_tail hcr))
    simp only [upd_upd] at e2 hout
    refine ⟨m, r, ctl, ?_, ?_⟩
    · simp [delete_fixup_right, hf, e1, e2]
    · rcases hout with ⟨h0, T2, h2, h3, h4, h5, h6⟩ | ⟨S1, h1, h2, h3, h4, h5, h6⟩
      · refine Or.inl ⟨h0, T2, h2, ?_, ?_, h5, h6⟩
        · rw [h3]; simp [addrs_plug, Tree.addrs]
        · rw [h4]; simp [toList_plug, Tree.toList]
      · refine Or.inr ⟨_, RB_RED, S1, h1, h2, ?_, ?_, fun hc => by simp at hc,
          fun _ => h6 trivial⟩
        · rw [h3]; simp [addrs_plug, Tree.addrs]
        · rw [h4]; simp [toList_plug, Tree.toList]

/-! ## Delete fixup: the loop -/

theorem ctxRoot_some (rest : List (Frame K V)) (a : Nat) :
    ∃ b, ctxRoot rest (some a) = some b ∧ (b = a ∨ b ∈ ctxAddrs rest) := by
  induction rest generalizing a with
  | nil => exact ⟨a, rfl, Or.inl rfl⟩
  | cons f fs ih =>
    obtain ⟨b, hb, hb2⟩ := ih f.a
    refine ⟨b, hb, Or.inr ?_⟩
    rcases hb2 with rfl | hb2
    · simp [ctxAddrs]
    · simp [ctxAddrs, hb2]

theorem hole_ne_root {f : Frame K V} {rest : List (Frame K V)} {hole : Tree K V}
    (hnd : (plug (f :: rest) hole).addrs.Nodup) :
    hole.ptr ≠ ctxRoot (f :: rest) hole.ptr := by
  obtain ⟨b, hb, hb2⟩ := ctxRoot_some rest f.a
  have hmem : b ∈ ctxAddrs (f :: rest) := by
    rcases hb2 with rfl | hb2
    · simp [ctxAddrs]
    · simp [ctxAddrs, hb2]
  intro e
  have e2 : hole.ptr = some b := e.trans hb
  exact (nodup_plug.1 hnd).2.2 b (ptr_mem e2) hmem

/-- The loop of the `rbtree_delete` fixup followed by the final blackening. -/
theorem delete_fixup_spec (n : Nat) : ∀ (t : rbtree_st K V) (Γ : List (Frame K V))
    (hole : Tree K V), Γ.length ≤ n → Abs t (plug Γ hole) →
    (plug Γ hole).addrs.Nodup → DelInv Γ hole →
    ∃ m r T2, (∀ fuel, Γ.length + 1 ≤ fuel →
        (delete_fixup fuel t hole.ptr (ctxPtr Γ)).bind (fun p => blacken_opt p.1 p.2) =
          some (t.upd m r)) ∧
      Abs (t.upd m r) T2 ∧ T2.addrs = (plug Γ hole).addrs ∧
      T2.toList = (plug Γ hole).toList ∧ T2.Bal ∧ T2.NoRR ∧ T2.RootBlack := by
  induction n with
  | zero =>
    intro t Γ hole hlen h hnd hinv
    obtain ⟨hhb, hhn, hhr, hcb, hcn, hcr⟩ := hinv
    cases Γ with
    | cons f fs => simp at hlen
    | nil =>
      simp only [plug_nil] at h hnd ⊢
      cases hole with
      | nil =>
        refine ⟨t.mem, t.root, .nil, ?_, h, rfl, rfl, trivial, trivial, rfl⟩
        intro fuel hf
        cases fuel with
        | zero => omega
        | succ k =>
          have hr : t.root = none := h.1
          have e : delete_fixup (k + 1) t none none = some (t, none) := by
            simp [delete_fixup, hr]
          show (delete_fixup (k + 1) t none none).bind _ = _
          rw [e]
          rfl
      | node a c cs l r =>
        have hc : c = RB_BLACK := by
          rcases color_cases c with rfl | rfl
          · rfl
          · simp at hhr
        subst hc
        obtain ⟨m1, r1, e1, h1⟩ := set_color_spec RB_BLACK (Γ := []) h hnd
        refine ⟨m1, r1, _, ?_, h1, rfl, rfl, hhb, hhn, rfl⟩
        intro fuel hf
        cases fuel with
        | zero => omega
        | succ k => simp [delete_fixup, h.1, blacken_opt, e1]
  | succ n ih =>
    intro t Γ hole hlen h hnd hinv
    have hinv0 := hinv
    obtain ⟨hhb, hhn, hhr, hcb, hcn, hcr⟩ := hinv
    cases Γ with
    | nil =>
      exact ih t [] hole (Nat.zero_le _) h hnd hinv0
    | cons f rest =>
      obtain ⟨il, fa, cf, csf, sib⟩ := f
      have hroot : t.root = ctxRoot (⟨il, fa, cf, csf, sib⟩ :: rest) hole.ptr := by
        rw [h.1, ptr_plug]
      have hne : hole.ptr ≠ t.root := by
        rw [hroot]; exact hole_ne_root hnd
      have hsb : sib.bh = hole.bh + 1 := hcb.1
      obtain ⟨s, c, css, sl, sr, rfl⟩ := ne_nil_of_bh hsb
      simp only [List.length_cons] at hlen
      cases il
      · have hf := Abs.read (Γ := rest) (a := fa) h
        simp only [plug_right, ptr_node] at hf
        have hns : hole.ptr ≠ some s := by
          apply ptr_ne_of_not_mem
          have h1 := (nodup_plug.1 hnd).2.2 s
          simp only [ctxAddrs, List.mem_cons, List.mem_append, mem_addrs_node, true_or, or_true,
            not_true_eq_false, imp_false] at h1
          exact h1
        obtain ⟨m1, r1, ctl, e1, hout⟩ := delete_fixup_right_spec h hnd hinv0
        rcases hout with ⟨rfl, T2, h2, ha2, hl2, hb2, hn2⟩ | ⟨ctx1, cf1, S1, rfl, h2, ha2, hl2, hk, hr⟩
        · cases T2 with
          | nil =>
            rw [addrs_plug] at ha2
            simp [Tree.addrs, ctxBeforeA, ctxAfterA] at ha2
          | node rt c2 cs2 l2 r3 =>
            obtain ⟨m3, r4, e3, h3⟩ := set_color_spec RB_BLACK (Γ := []) h2
              (by simp only [plug_nil]; rw [ha2]; exact hnd)
            simp only [upd_upd, plug_nil] at e3 h3
            have hr1 : r1 = some rt := h2.1
            subst hr1
            refine ⟨m3, r4, _, ?_, h3, ha2, hl2, bal_blacken hb2, norr_blacken hn2, rfl⟩
            intro fuel hf2
            cases fuel with
            | zero => omega
            | succ k => simp [delete_fixup, hne, ctxPtr, hf, hns, e1, blacken_opt, e3]
        · have hf2 := Abs.read (Γ := ctx1) (a := fa) h2
          rcases color_cases cf1 with rfl | rfl
          · obtain ⟨hdi, hl1⟩ := hk rfl
            obtain ⟨m2, r2, T2, e2, h3, ha3, hl3, hb3, hn3, hr3⟩ :=
              ih _ ctx1 _ (by omega) h2 (ha2 ▸ hnd) hdi
            simp only [upd_upd, ptr_node] at e2 h3
            refine ⟨m2, r2, T2, ?_, h3, ha3.trans ha2, hl3.trans hl2, hb3, hn3, hr3⟩
            intro fuel hfu
            simp only [List.length_cons] at hfu
            cases fuel with
            | zero => omega
            | succ k =>
              have e3 := e2 k (by omega)
              simp only [delete_fixup, hne, ctxPtr, if_false, Option.bind_eq_bind,
                Option.some_bind, hf, hns, e1, upd_mem, hf2, if_true]
              exact e3
          · obtain ⟨hb3, hn3, hcr3⟩ := hr rfl
            obtain ⟨m3, r4, e3, h3⟩ := set_color_spec RB_BLACK (Γ := ctx1) h2 (ha2 ▸ hnd)
            simp only [upd_upd] at e3 h3
            refine ⟨m3, r4, _, ?_, h3, ?_, ?_, hb3, hn3, ?_⟩
            · intro fuel hfu
              cases fuel with
              | zero => omega
              | succ k =>
                simp [delete_fixup, hne, ctxPtr, hf, hns, e1, hf2, blacken_opt, e3]
            · rw [← ha2]; simp [addrs_plug, Tree.addrs]
            · rw [← hl2]; simp [toList_plug, Tree.toList]
            · cases ctx1 with
              | nil => rfl
              | cons g gs => exact (isRed_plug_cons g gs _).2 hcr3
      · have hf := Abs.read (Γ := rest) (a := fa) h
        simp only [plug_left, ptr_node] at hf
        obtain ⟨m1, r1, ctl, e1, hout⟩ := delete_fixup_left_spec h hnd hinv0
        rcases hout with ⟨rfl, T2, h2, ha2, hl2, hb2, hn2⟩ | ⟨ctx1, cf1, S1, rfl, h2, ha2, hl2, hk, hr⟩
        · cases T2 with
          | nil =>
            rw [addrs_plug] at ha2
            simp [Tree.addrs, ctxBeforeA, ctxAfterA] at ha2
          | node rt c2 cs2 l2 r3 =>
            obtain ⟨m3, r4, e3, h3⟩ := set_color_spec RB_BLACK (Γ := []) h2
              (by simp only [plug_nil]; rw [ha2]; exact hnd)
            simp only [upd_upd, plug_nil] at e3 h3
            have hr1 : r1 = some rt := h2.1
            subst hr1
            refine ⟨m3, r4, _, ?_, h3, ha2, hl2, bal_blacken hb2, norr_blacken hn2, rfl⟩
            intro fuel hf2
            cases fuel with
            | zero => omega
            | succ k => simp [delete_fixup, hne, ctxPtr, hf, e1, blacken_opt, e3]
        · have hf2 := Abs.read (Γ := ctx1) (a := fa) h2
          rcases color_cases cf1 with rfl | rfl
          · obtain ⟨hdi, hl1⟩ := hk rfl
            obtain ⟨m2, r2, T2, e2, h3, ha3, hl3, hb3, hn3, hr3⟩ :=
              ih _ ctx1 _ (by omega) h2 (ha2 ▸ hnd) hdi
            simp only [upd_upd, ptr_node] at e2 h3
            refine ⟨m2, r2, T2, ?_, h3, ha3.trans ha2, hl3.trans hl2, hb3, hn3, hr3⟩
            intro fuel hfu
            simp only [List.length_cons] at hfu
            cases fuel with
            | zero => omega
            | succ k =>
              have e3 := e2 k (by omega)
              simp only [delete_fixup, hne, ctxPtr, if_false, Option.bind_eq_bind,
                Option.some_bind, hf, e1, upd_mem, hf2, if_true]
              exact e3
          · obtain ⟨hb3, hn3, hcr3⟩ := hr rfl
            obtain ⟨m3, r4, e3, h3⟩ := set_color_spec RB_BLACK (Γ := ctx1) h2 (ha2 ▸ hnd)
            simp only [upd_upd] at e3 h3
            refine ⟨m3, r4, _, ?_, h3, ?_, ?_, hb3, hn3, ?_⟩
            · intro fuel hfu
              cases fuel with
              | zero => omega
              | succ k =>
                simp [delete_fixup, hne, ctxPtr, hf, e1, hf2, blacken_opt, e3]
            · rw [← ha2]; simp [addrs_plug, Tree.addrs]
            · rw [← hl2]; simp [toList_plug, Tree.toList]
            · cases ctx1 with
              | nil => rfl
              | cons g gs => exact (isRed_plug_cons g gs _).2 hcr3

/-! ## Delete: relinking the parent -/

/-! ## Unlinking a node (`rbtree_delete`, lines 394-436) -/

/-- Lines 401-404: the link above the removed node is redirected. -/
theorem delete_link_spec {t : rbtree_st K V} {Γ : List (Frame K V)} {x : Nat}
    (q : Option Nat) (hroot : t.root = ctxRoot Γ (some x))
    (hctx : ReprCtx t.mem Γ (some x)) (hnd : (ctxAddrs Γ).Nodup)
    (hp : x ∉ ctxAddrs Γ) :
    ∃ m1, delete_link t x (ctxPtr Γ) q = some (t.upd m1 (ctxRoot Γ q)) ∧
      ReprCtx m1 Γ q ∧ (∀ a, some a ≠ ctxPtr Γ → m1 a = t.mem a) := by
  cases Γ with
  | nil =>
    refine ⟨t.mem, ?_, trivial, fun _ _ => rfl⟩
    simp [delete_link, ctxPtr, ctxRoot, rbtree_st.upd]
  | cons f fs =>
    obtain ⟨h1, h2, h3⟩ := hctx
    simp only [ctxAddrs, List.nodup_cons, List.mem_append, not_or, List.nodup_append,
      List.mem_cons] at hnd hp
    have hsib : f.sib.ptr ≠ some x := fun h => hp.2.1 (ptr_mem h)
    cases hf : f.isLeft
    · simp only [hf, Bool.false_eq_true, if_false] at h1
      refine ⟨Function.update t.mem f.a (some ⟨f.cs, f.sib.ptr, q, ctxPtr fs, f.c⟩),
        ?_, ⟨?_, h2.frame _ hnd.1.1, h3.frameCtx _ hnd.1.2⟩, ?_⟩
      · simp only [delete_link, ctxPtr, h1, Option.bind_eq_bind, Option.some_bind, hsib,
          decide_False, set_child, Bool.false_eq_true, if_false]
        rw [set_right_eq _ _ _ _ h1, hroot]
        rfl
      · simp [hf]
      · intro a ha
        simp only [ctxPtr, ne_eq, Option.some.injEq] at ha
        exact Function.update_noteq ha _ _
    · simp only [hf, if_true] at h1
      refine ⟨Function.update t.mem f.a (some ⟨f.cs, q, f.sib.ptr, ctxPtr fs, f.c⟩),
        ?_, ⟨?_, h2.frame _ hnd.1.1, h3.frameCtx _ hnd.1.2⟩, ?_⟩
      · simp only [delete_link, ctxPtr, h1, Option.bind_eq_bind, Option.some_bind,
          decide_True, set_child, if_true]
        rw [set_left_eq _ _ _ _ h1, hroot]
        rfl
      · simp [hf]
      · intro a ha
        simp only [ctxPtr, ne_eq, Option.some.injEq] at ha
        exact Function.update_noteq ha _ _

/-- Line 435-436: `if (node) set_parent(parent, node)` on the root of a stored
subtree. -/
theorem reparent_opt_spec {t : rbtree_st K V} {m : Nat → Option (rbtree_node_st K V)}
    {Y : Tree K V} {par : Option Nat} (par2 : Option Nat)
    (hY : Repr m Y par) (hnd : Y.addrs.Nodup) (hm : ∀ a ∈ Y.addrs, t.mem a = m a) :
    ∃ m2, (match Y.ptr with
        | some nd => set_parent par2 nd t
        | none => pure t) = some (t.upd m2 t.root) ∧
      Repr m2 Y par2 ∧ (∀ a, some a ≠ Y.ptr → m2 a = t.mem a) := by
  have hY2 : Repr t.mem Y par := hY.congr hm
  cases Y with
  | nil => exact ⟨t.mem, rfl, trivial, fun _ _ => rfl⟩
  | node b c cs l r =>
    have hb := hY2.1
    refine ⟨_, ?_, hY2.reparent par2 hnd b _ rfl hb, ?_⟩
    · simp only [ptr_node]
      rw [set_parent_eq _ _ _ _ hb]
    · intro a ha
      simp only [ptr_node, ne_eq, Option.some.injEq] at ha
      exact Function.update_noteq ha _ _

/-- A node with at most one child is bypassed: its child `ch` takes its place. -/
theorem bypass_spec {t : rbtree_st K V} {Γ : List (Frame K V)} {x : Nat} {ch : Tree K V}
    (hroot : t.root = ctxRoot Γ (some x))
    (hctx : ReprCtx t.mem Γ (some x)) (hch : Repr t.mem ch (some x))
    (hnc : (ctxAddrs Γ).Nodup) (hnch : ch.addrs.Nodup) (hxc : x ∉ ctxAddrs Γ)
    (hdis : ∀ a ∈ ch.addrs, a ∉ ctxAddrs Γ) :
    ∃ m r, (delete_link t x (ctxPtr Γ) ch.ptr).bind (fun t1 =>
        match ch.ptr with
        | some nd => set_parent (ctxPtr Γ) nd t1
        | none => pure t1) = some (t.upd m r) ∧
      Abs (t.upd m r) (plug Γ ch) ∧ (∀ a, a ∉ ctxAddrs Γ → a ∉ ch.addrs → m a = t.mem a) := by
  obtain ⟨m1, e1, hctx1, hm1⟩ := delete_link_spec ch.ptr hroot hctx hnc hxc
  obtain ⟨m2, e2, hch2, hm2⟩ := reparent_opt_spec (t := t.upd m1 (ctxRoot Γ ch.ptr))
    (ctxPtr Γ) hch hnch (fun a ha => hm1 a (ctxPtr_ne (hdis a ha)))
  simp only [upd_mem, upd_root, upd_upd] at e2 hm2
  refine ⟨m2, ctxRoot Γ ch.ptr, ?_, ⟨by simp [ptr_plug], ?_⟩, ?_⟩
  · rw [e1]; exact e2
  · rw [Repr_plug]
    refine ⟨hctx1.congrCtx fun a ha => hm2 a ?_, hch2⟩
    exact fun e => hdis a (ptr_mem e.symm) ha
  · intro a ha1 ha2
    rw [hm2 a (ptr_ne_of_not_mem2 ha2), hm1 a (ctxPtr_ne ha1)]

/-! ## Delete: successor is the right child -/

@[simp] theorem addrs_nil : (Tree.nil : Tree K V).addrs = [] := rfl

/-- Lines 406-436, the successor is the right child of the removed node. -/
theorem unlink_near_spec {t : rbtree_st K V} {Γ : List (Frame K V)} {x la y : Nat}
    {c cl cy : rb_color_t} {cs csl csy : rb_cursor_st K V} {ll lr yr : Tree K V}
    (h : Abs t (plug Γ (.node x c cs (.node la cl csl ll lr) (.node y cy csy .nil yr))))
    (hnd : (plug Γ (.node x c cs (.node la cl csl ll lr)
      (.node y cy csy .nil yr))).addrs.Nodup) :
    ∃ m r, (delete_link t x (ctxPtr Γ) (some y)).bind (fun t1 =>
        delete_unlink t1 x (ctxPtr Γ) (some la) (some y) (some y)) =
          some (t.upd m r, cy, yr.ptr, some y) ∧
      Abs (t.upd m r) (plug (⟨false, y, c, csy, .node la cl csl ll lr⟩ :: Γ) yr) ∧
      m x = t.mem x := by
  obtain ⟨hroot, hrep⟩ := h
  rw [ptr_plug] at hroot
  rw [Repr_plug] at hrep
  obtain ⟨hctx, hx, ⟨hla, hll, hlr⟩, hy, -, hyr⟩ := hrep
  rw [nodup_plug] at hnd
  obtain ⟨hnc, hns, hdis⟩ := hnd
  simp only [nodup_node, mem_addrs_node, not_or, addrs_nil, List.not_mem_nil, not_false_eq_true,
    true_and, List.nodup_nil, false_or, and_true, imp_false, forall_eq_or_imp] at hns hdis
  simp only [ptr_node, ptr_nil] at hx hroot hctx hy
  obtain ⟨⟨hxla, hxll, hxlr⟩, ⟨hxy, hxyr⟩, ⟨hlall, hlalr, hnll, hnlr, hllr⟩, ⟨hyyr, hnyr⟩,
    ⟨hlay, hlayr⟩, hlx⟩ := hns
  obtain ⟨hxc, hdis⟩ := hdis
  obtain ⟨hnyr, -⟩ := hnyr
  have hyc : y ∉ ctxAddrs Γ := hdis y (by simp)
  have hlac : la ∉ ctxAddrs Γ := hdis la (by simp)
  obtain ⟨m1, e1, hctx1, hm1⟩ := delete_link_spec (some y) hroot hctx hnc hxc
  have hm1x := (hm1 x (ctxPtr_ne hxc)).trans hx
  have hm1y := (hm1 y (ctxPtr_ne hyc)).trans hy
  have hm1la := (hm1 la (ctxPtr_ne hlac)).trans hla
  have hyx : y ≠ x := Ne.symm hxy
  have hlax : la ≠ x := Ne.symm hxla
  have hyla : y ≠ la := Ne.symm hlay
  obtain ⟨m2, e2, hyr2, hm2⟩ := reparent_opt_spec
    (t := t.upd (Function.update (Function.update (Function.update m1 y
        (some ⟨csy, some la, yr.ptr, some x, c⟩)) la
        (some ⟨csl, ll.ptr, lr.ptr, some y, cl⟩)) y
        (some ⟨csy, some la, yr.ptr, ctxPtr Γ, c⟩)) (ctxRoot Γ (some y)))
    (some y) hyr hnyr (by
      intro a ha
      have h1 : a ≠ y := ne_of_mem_of_not_mem ha hyyr
      have h2 : a ≠ la := fun e => hlayr (e ▸ ha)
      simp [Function.update_apply, h1, h2, hm1 a (ctxPtr_ne (hdis a (by simp [ha])))])
  simp only [upd_mem, upd_root, upd_upd, set_parent_def, Option.pure_def] at e2 hm2
  refine ⟨m2, ctxRoot Γ (some y), ?_, ⟨by simp [ptr_plug, ctxRoot], ?_⟩, ?_⟩
  · rw [e1]
    simp only [Option.some_bind, delete_unlink, delete_splice, Option.bind_eq_bind, upd_mem,
      hm1y, hm1x, set_color_def, set_left_def, set_parent_def, Option.map_some', upd_upd,
      upd_root, Function.update_same, ne_eq, not_true_eq_false, if_false, delete_splice_near,
      Function.update_idem, Function.update_apply, hlay, hyla, hm1la]
    simp only [Option.pure_def, Option.some_bind, upd_mem, upd_root, upd_upd]
    generalize yr.ptr = q at e2 ⊢
    cases q with
    | none => simp only at e2 ⊢; rw [e2]; rfl
    | some nd => simp only at e2 ⊢; rw [e2]; rfl
  · rw [Repr_plug]
    have hm2c : ∀ a, a ∈ ctxAddrs Γ → m2 a = m1 a := by
      intro a ha
      have h1 : a ≠ y := fun e => hyc (e ▸ ha)
      have h2 : a ≠ la := fun e => hlac (e ▸ ha)
      rw [hm2 a (ptr_ne_of_not_mem2 (fun hh => hdis a (by simp [hh]) ha))]
      simp [Function.update_apply, h1, h2]
    have hm2y : m2 y = some ⟨csy, some la, yr.ptr, ctxPtr Γ, c⟩ := by
      rw [hm2 y (ptr_ne_of_not_mem2 hyyr)]; simp
    have hm2la : m2 la = some ⟨csl, ll.ptr, lr.ptr, some y, cl⟩ := by
      rw [hm2 la (ptr_ne_of_not_mem2 hlayr)]; simp [Function.update_apply, hlay]
    have hm2l : ∀ a, a ∈ ll.addrs ∨ a ∈ lr.addrs → m2 a = t.mem a := by
      intro a ha
      have h1 : a ≠ y := (hlx a ha).1
      have h2 : a ≠ la := by rintro rfl; rcases ha with ha | ha <;> contradiction
      rw [hm2 a (ptr_ne_of_not_mem2 (hlx a ha).2)]
      simp [Function.update_apply, h1, h2, hm1 a (ctxPtr_ne (hdis a (by tauto)))]
    exact ⟨⟨hm2y, ⟨hm2la, hll.congr (fun a ha => hm2l a (Or.inl ha)),
      hlr.congr (fun a ha => hm2l a (Or.inr ha))⟩, hctx1.congrCtx hm2c⟩, hyr2⟩
  · have h1 : some x ≠ yr.ptr := ptr_ne_of_not_mem2 hxyr
    rw [hm2 x h1]
    simp [Function.update_apply, hxy, hxla, hm1 x (ctxPtr_ne hxc)]

/-! ## Paths in two parts -/

theorem ctxAddrs_append (c1 c2 : List (Frame K V)) :
    ctxAddrs (c1 ++ c2) = ctxAddrs c1 ++ ctxAddrs c2 := by
  induction c1 with
  | nil => rfl
  | cons f fs ih => simp [ctxAddrs, ih]

theorem ctxRoot_append (c1 c2 : List (Frame K V)) (hp : Option Nat) :
    ctxRoot (c1 ++ c2) hp = ctxRoot c2 (ctxRoot c1 hp) := by
  induction c1 generalizing hp with
  | nil => rfl
  | cons f fs ih => simp [ctxRoot, ih]

theorem plug_append (c1 c2 : List (Frame K V)) (S : Tree K V) :
    plug (c1 ++ c2) S = plug c2 (plug c1 S) := by
  induction c1 generalizing S with
  | nil => rfl
  | cons f fs ih => simp [plug, ih]

theorem ReprCtx.right {m : Nat → Option (rbtree_node_st K V)} {c1 c2 : List (Frame K V)}
    {hp : Option Nat} (h : ReprCtx m (c1 ++ c2) hp) : ReprCtx m c2 (ctxRoot c1 hp) := by
  induction c1 generalizing hp with
  | nil => exact h
  | cons f fs ih => exact ih h.2.2

theorem ctxRoot_mem {c : List (Frame K V)} {f : Frame K V} {hp : Option Nat} {rr : Nat}
    (h : ctxRoot (f :: c) hp = some rr) : rr ∈ ctxAddrs (f :: c) := by
  obtain ⟨b, hb, hb2⟩ := ctxRoot_some c f.a
  have e : rr = b := Option.some.inj (h.symm.trans hb)
  subst e
  rcases hb2 with rfl | hb2
  · simp [ctxAddrs]
  · simp [ctxAddrs, hb2]

/-- The frames of a path stay represented when only the parent link of its
topmost node is moved to the head of another upper path. -/
theorem ReprCtx.retop {m M : Nat → Option (rbtree_node_st K V)} {c2 c2' : List (Frame K V)}
    {rr : Nat} (hM2 : ReprCtx M c2' (some rr))
    (hMrr : ∀ n, m rr = some n → M rr = some { n with parent := ctxPtr c2' }) :
    ∀ (c1 : List (Frame K V)) (f : Frame K V) (hp : Option Nat),
      ReprCtx m ((f :: c1) ++ c2) hp → (ctxAddrs (f :: c1)).Nodup →
      ctxRoot (f :: c1) hp = some rr → (∀ a ∈ ctxAddrs (f :: c1), a ≠ rr → M a = m a) →
      ReprCtx M ((f :: c1) ++ c2') hp := by
  intro c1
  induction c1 with
  | nil =>
    intro f hp h hnd hr hM
    simp only [ctxRoot, Option.some.injEq] at hr
    subst hr
    obtain ⟨h1, h2, -⟩ := h
    simp only [ctxAddrs, List.append_nil, List.nodup_cons] at hnd
    refine ⟨?_, h2.congr ?_, hM2⟩
    · rw [hMrr _ h1]; rfl
    · intro a ha
      exact hM a (by simp [ctxAddrs, ha]) (fun e => hnd.1 (e ▸ ha))
  | cons g gs ih =>
    intro f hp h hnd hr hM
    obtain ⟨h1, h2, h3⟩ := h
    have hnd2 : (f.a :: (f.sib.addrs ++ ctxAddrs (g :: gs))).Nodup := hnd
    obtain ⟨hn1, hn2⟩ := List.nodup_cons.1 hnd2
    obtain ⟨-, hn3, hn4⟩ := List.nodup_append.1 hn2
    have hr3 : ctxRoot (g :: gs) (some f.a) = some rr := hr
    have hrm : rr ∈ ctxAddrs (g :: gs) := ctxRoot_mem hr3
    have hfr : f.a ≠ rr := by
      rintro rfl
      exact hn1 (List.mem_append_right _ hrm)
    refine ⟨?_, h2.congr ?_, ih g (some f.a) h3 hn3 hr ?_⟩
    · rw [hM f.a (List.mem_cons_self _ _) hfr]; exact h1
    · intro a ha
      refine hM a (List.mem_cons_of_mem _ (List.mem_append_left _ ha)) ?_
      rintro rfl
      exact hn4 ha hrm
    · intro a ha hne
      exact hM a (List.mem_cons_of_mem _ (List.mem_append_right _ ha)) hne

/-- A path stays represented when its hole pointer changes and its topmost
node is hung below another upper path. -/
theorem ReprCtx.respine {m M : Nat → Option (rbtree_node_st K V)} {c2 c2' : List (Frame K V)}
    {f : Frame K V} {rt : List (Frame K V)} {hp hp' : Option Nat} {rr : Nat}
    (h : ReprCtx m ((f :: rt) ++ c2) hp) (hnd : (ctxAddrs (f :: rt)).Nodup)
    (hr : ctxRoot (f :: rt) hp = some rr)
    (hM : ∀ a ∈ ctxAddrs (f :: rt), a ≠ f.a → a ≠ rr → M a = m a)
    (hMf : M f.a = some ⟨f.cs, if f.isLeft then hp' else f.sib.ptr,
      if f.isLeft then f.sib.ptr else hp', ctxPtr (rt ++ c2'), f.c⟩)
    (hMrr : f.a ≠ rr → ∀ n, m rr = some n → M rr = some { n with parent := ctxPtr c2' })
    (hM2 : ReprCtx M c2' (some rr)) :
    ReprCtx M ((f :: rt) ++ c2') hp' := by
  obtain ⟨h1, h2, h3⟩ := h
  have hnd2 : (f.a :: (f.sib.addrs ++ ctxAddrs rt)).Nodup := hnd
  obtain ⟨hn1, hn2⟩ := List.nodup_cons.1 hnd2
  obtain ⟨-, hn3, hn4⟩ := List.nodup_append.1 hn2
  cases rt with
  | nil =>
    simp only [ctxRoot, Option.some.injEq] at hr
    subst hr
    refine ⟨hMf, h2.congr ?_, hM2⟩
    intro a ha
    have hne : a ≠ f.a := fun e => hn1 (List.mem_append_left _ (e ▸ ha))
    exact hM a (List.mem_cons_of_mem _ (List.mem_append_left _ ha)) hne hne
  | cons g gs =>
    have hr3 : ctxRoot (g :: gs) (some f.a) = some rr := hr
    have hrm : rr ∈ ctxAddrs (g :: gs) := ctxRoot_mem hr3
    have hfr : f.a ≠ rr := by
      rintro rfl
      exact hn1 (List.mem_append_right _ hrm)
    refine ⟨hMf, h2.congr ?_, ReprCtx.retop hM2 (hMrr hfr) gs g (some f.a) h3 hn3 hr ?_⟩
    · intro a ha
      refine hM a (List.mem_cons_of_mem _ (List.mem_append_left _ ha)) ?_ ?_
      · exact fun e => hn1 (List.mem_append_left _ (e ▸ ha))
      · rintro rfl
        exact hn4 ha hrm
    · intro a ha hne
      refine hM a (List.mem_cons_of_mem _ (List.mem_append_right _ ha)) ?_ hne
      exact fun e => hn1 (List.mem_append_right _ (e ▸ ha))

theorem ctxPtr_append_cons (f : Frame K V) (c1 c2 : List (Frame K V)) :
    ctxPtr ((f :: c1) ++ c2) = some f.a := rfl

theorem ReprCtx.cell {m : Nat → Option (rbtree_node_st K V)} {c : List (Frame K V)}
    {hp : Option Nat} (h : ReprCtx m c hp) : ∀ a ∈ ctxAddrs c, ∃ n, m a = some n := by
  induction c generalizing hp with
  | nil => intro a ha; simp [ctxAddrs] at ha
  | cons f fs ih =>
    intro a ha
    simp only [ctxAddrs, List.mem_cons, List.mem_append] at ha
    rcases ha with rfl | ha | ha
    · exact ⟨_, h.1⟩
    · exact Option.ne_none_iff_exists'.1 (mem_of_Repr h.2.1 ha)
    · exact ih h.2.2 a ha

/-! ## Delete: successor deeper in the right subtree -/

/-- Lines 406-436, the successor lies deeper in the right subtree: the
sequence of stores up to `if (node) set_parent(parent, node)`. -/
theorem splice_far_eval {t : rbtree_st K V} {m1 : Nat → Option (rbtree_node_st K V)}
    {R par : Option Nat} {x la y p rr : Nat} {c cl cy cp : rb_color_t}
    {cs csl csy csp : rb_cursor_st K V} {pl pr lal lar yrp pp ppar : Option Nat}
    (hx : m1 x = some ⟨cs, pl, pr, par, c⟩)
    (hy : m1 y = some ⟨csy, none, yrp, some p, cy⟩)
    (hla : m1 la = some ⟨csl, lal, lar, some x, cl⟩)
    (hp : m1 p = some ⟨csp, some y, pp, ppar, cp⟩)
    (hrr : p ≠ rr → ∃ n, m1 rr = some n)
    (hxy : x ≠ y) (hxla : x ≠ la) (hxp : x ≠ p) (hyla : y ≠ la) (hyp : y ≠ p) (hyrr : y ≠ rr)
    (hlap : la ≠ p) (hlarr : la ≠ rr) :
    ∃ Mf, delete_splice (t.upd m1 R) x par la rr y = some (t.upd Mf R, cy, yrp, some p) ∧
      Mf y = some ⟨csy, some la, some rr, par, c⟩ ∧
      Mf la = some ⟨csl, lal, lar, some y, cl⟩ ∧
      Mf p = some ⟨csp, yrp, pp, if p = rr then some y else ppar, cp⟩ ∧
      (p ≠ rr → ∀ n, m1 rr = some n → Mf rr = some { n with parent := some y }) ∧
      (∀ a, a ≠ y → a ≠ la → a ≠ p → a ≠ rr → Mf a = m1 a) := by
  by_cases hprr : p = rr
  · subst hprr
    simp only [delete_splice, delete_splice_far, Option.bind_eq_bind, upd_mem,
        hy, hx, hla, hp, set_color_def, set_left_def, set_parent_def, set_right_def,
        Option.map_some', upd_upd, Option.pure_def,
        upd_root, Function.update_same, ne_eq, not_true_eq_false, if_false, if_true,
        Function.update_idem, Function.update_apply, hxy, hxla, hxp, hyla, hyp, hyrr, hlap,
        Ne.symm hxy, Ne.symm hxla, Ne.symm hxp, Ne.symm hyla, Ne.symm hyp, Ne.symm hlap,
        Option.some_bind, not_false_eq_true]
    refine ⟨_, rfl, ?_⟩
    simp only [Function.update_apply, hyp, Ne.symm hyp, hyla, Ne.symm hyla, hlap, Ne.symm hlap,
      if_true, if_false, true_and, not_true_eq_false, ne_eq, false_implies]
    intro a h1 h2 h3 _
    simp [h1, h2, h3]
  · obtain ⟨nrr, hnrr⟩ := hrr hprr
    have hrrp : rr ≠ p := Ne.symm hprr
    simp only [delete_splice, delete_splice_far, Option.bind_eq_bind, upd_mem,
        hy, hx, hla, hp, hnrr, set_color_def, set_left_def, set_parent_def, set_right_def,
        Option.map_some', upd_upd, Option.pure_def,
        upd_root, Function.update_same, ne_eq, not_true_eq_false, if_false, if_true,
        Function.update_idem, Function.update_apply, hxy, hxla, hxp, hyla, hyp, hyrr, hlap,
        hlarr, hprr, hrrp, Ne.symm hyrr, Ne.symm hlarr,
        Ne.symm hxy, Ne.symm hxla, Ne.symm hxp, Ne.symm hyla, Ne.symm hyp, Ne.symm hlap,
        Option.some_bind, not_false_eq_true]
    refine ⟨_, rfl, ?_⟩
    simp only [Function.update_apply, hyp, Ne.symm hyp, hyla, Ne.symm hyla, hlap, Ne.symm hlap,
      hlarr, hprr, hrrp, hyrr, Ne.symm hyrr, Ne.symm hlarr,
      if_true, if_false, true_and, not_true_eq_false, ne_eq, false_implies, not_false_eq_true,
      true_implies]
    refine ⟨?_, ?_⟩
    · intro n hn
      cases hn
      rfl
    · intro a h1 h2 h3 h4
      simp [h1, h2, h3, h4]

/-- Lines 406-436, the successor `y` lies deeper in the right subtree. -/
theorem unlink_far_spec {t : rbtree_st K V} {Γ rt : List (Frame K V)} {x la y p rr : Nat}
    {c cl cy cp : rb_color_t} {cs csl csy csp : rb_cursor_st K V} {ll lr yr ps : Tree K V}
    (h : Abs t (plug ((⟨true, p, cp, csp, ps⟩ :: rt) ++
      ⟨false, x, c, cs, .node la cl csl ll lr⟩ :: Γ) (.node y cy csy .nil yr)))
    (hnd : (plug ((⟨true, p, cp, csp, ps⟩ :: rt) ++
      ⟨false, x, c, cs, .node la cl csl ll lr⟩ :: Γ) (.node y cy csy .nil yr)).addrs.Nodup)
    (hr : ctxRoot rt (some p) = some rr) :
    ∃ m r, (delete_link t x (ctxPtr Γ) (some y)).bind (fun t1 =>
        delete_unlink t1 x (ctxPtr Γ) (some la) (some rr) (some y)) =
          some (t.upd m r, cy, yr.ptr, some p) ∧
      Abs (t.upd m r) (plug ((⟨true, p, cp, csp, ps⟩ :: rt) ++
        ⟨false, y, c, csy, .node la cl csl ll lr⟩ :: Γ) yr) ∧
      m x = t.mem x := by
  obtain ⟨hroot, hrep⟩ := h
  rw [ptr_plug, ctxRoot_append] at hroot
  rw [Repr_plug] at hrep
  obtain ⟨hC, hy, -, hyr⟩ := hrep
  have hr2 : ctxRoot (⟨true, p, cp, csp, ps⟩ :: rt) (Tree.node y cy csy Tree.nil yr).ptr
      = some rr := hr
  have hC2 := hC.right
  rw [hr2] at hC2 hroot
  obtain ⟨hx, ⟨hla, hll, hlr⟩, hctx⟩ := hC2
  have hp := hC.1
  simp only [ptr_node, ptr_nil, if_true, if_false, Bool.false_eq_true, ctxPtr_append_cons]
    at hx hy hp hla
  rw [nodup_plug, ctxAddrs_append, List.nodup_append] at hnd
  obtain ⟨⟨hn1, hn2, hd12⟩, hns, hdis⟩ := hnd
  have hU : ∀ a, a ∈ ctxAddrs (⟨false, x, c, cs, .node la cl csl ll lr⟩ :: Γ) ↔
      a = x ∨ (a = la ∨ a ∈ ll.addrs ∨ a ∈ lr.addrs) ∨ a ∈ ctxAddrs Γ := by
    intro a
    simp only [ctxAddrs, List.mem_cons, List.mem_append, mem_addrs_node]
  have hn2b : (x :: ((Tree.node la cl csl ll lr).addrs ++ ctxAddrs Γ)).Nodup := hn2
  obtain ⟨hx1, hx2⟩ := List.nodup_cons.1 hn2b
  obtain ⟨hLn, hnc, hLc⟩ := List.nodup_append.1 hx2
  simp only [List.mem_append, not_or, mem_addrs_node] at hx1
  obtain ⟨⟨hxla, hxll, hxlr⟩, hxc⟩ := hx1
  rw [nodup_node] at hLn hns
  obtain ⟨hlall, hlalr, -, -, -⟩ := hLn
  obtain ⟨-, hyyr, -, hnyr, -⟩ := hns
  have hpm : p ∈ ctxAddrs (⟨true, p, cp, csp, ps⟩ :: rt) := List.mem_cons_self _ _
  have hrrm : rr ∈ ctxAddrs (⟨true, p, cp, csp, ps⟩ :: rt) := ctxRoot_mem hr2
  have hxm := (hU x).2 (Or.inl rfl)
  have hlam := (hU la).2 (Or.inr (Or.inl (Or.inl rfl)))
  have hym : y ∈ (Tree.node y cy csy Tree.nil yr).addrs := mem_addrs_node.2 (Or.inl rfl)
  have hxy : x ≠ y := by rintro rfl; exact hdis _ hym (List.mem_append_right _ hxm)
  have hxp : x ≠ p := by rintro rfl; exact hd12 hpm hxm
  have hxrr : x ≠ rr := by rintro rfl; exact hd12 hrrm hxm
  have hyla : y ≠ la := by rintro rfl; exact hdis _ hym (List.mem_append_right _ hlam)
  have hyp : y ≠ p := by rintro rfl; exact hdis _ hym (List.mem_append_left _ hpm)
  have hyrr : y ≠ rr := by rintro rfl; exact hdis _ hym (List.mem_append_left _ hrrm)
  have hlap : la ≠ p := by rintro rfl; exact hd12 hpm hlam
  have hlarr : la ≠ rr := by rintro rfl; exact hd12 hrrm hlam
  have hyc : y ∉ ctxAddrs Γ := fun hh =>
    hdis _ hym (List.mem_append_right _ ((hU y).2 (Or.inr (Or.inr hh))))
  have hlac : la ∉ ctxAddrs Γ := fun hh => hLc (mem_addrs_node.2 (Or.inl rfl)) hh
  have hC1c : ∀ a ∈ ctxAddrs (⟨true, p, cp, csp, ps⟩ :: rt), a ∉ ctxAddrs Γ :=
    fun a ha hh => hd12 ha ((hU a).2 (Or.inr (Or.inr hh)))
  have hyrd : ∀ a ∈ yr.addrs, a ∉ ctxAddrs (⟨true, p, cp, csp, ps⟩ :: rt) ∧
      a ∉ ctxAddrs (⟨false, x, c, cs, .node la cl csl ll lr⟩ :: Γ) := by
    intro a ha
    have := hdis a (mem_addrs_node.2 (Or.inr (Or.inr ha)))
    simpa only [List.mem_append, not_or] using this
  have hroot2 : t.root = ctxRoot Γ (some x) := hroot
  have hctx2 : ReprCtx t.mem Γ (some x) := hctx
  obtain ⟨m1, e1, hctx1, hm1⟩ := delete_link_spec (some y) hroot2 hctx2 hnc hxc
  have hm1x := (hm1 x (ctxPtr_ne hxc)).trans hx
  have hm1y := (hm1 y (ctxPtr_ne hyc)).trans hy
  have hm1la := (hm1 la (ctxPtr_ne hlac)).trans hla
  have hm1p := (hm1 p (ctxPtr_ne (hC1c p hpm))).trans hp
  have hrrEx : p ≠ rr → ∃ n, m1 rr = some n := by
    intro _
    rw [hm1 rr (ctxPtr_ne (hC1c rr hrrm))]
    exact hC.cell rr (by rw [ctxAddrs_append]; exact List.mem_append_left _ hrrm)
  obtain ⟨Mf, eS, hMy, hMla, hMp, hMrr, hMo⟩ := splice_far_eval (t := t)
    (R := ctxRoot Γ (some y)) hm1x hm1y hm1la hm1p hrrEx hxy hxla hxp hyla hyp hyrr hlap hlarr
  obtain ⟨m2, e2, hyr2, hm2⟩ := reparent_opt_spec (t := t.upd Mf (ctxRoot Γ (some y)))
    (some p) hyr hnyr (by
      intro a ha
      obtain ⟨h1, h2⟩ := hyrd a ha
      have h3 : a ≠ y := fun e => hyyr (e ▸ ha)
      have h4 : a ≠ la := fun e => h2 (e ▸ hlam)
      have h5 : a ≠ p := fun e => h1 (e ▸ hpm)
      have h6 : a ≠ rr := fun e => h1 (e ▸ hrrm)
      have h7 : a ∉ ctxAddrs Γ := fun hh => h2 ((hU a).2 (Or.inr (Or.inr hh)))
      simp only [upd_mem]
      rw [hMo a h3 h4 h5 h6, hm1 a (ctxPtr_ne h7)])
  simp only [upd_mem, upd_root, upd_upd, set_parent_def, Option.pure_def] at e2 hm2
  have hm2y : m2 y = Mf y := hm2 y (ptr_ne_of_not_mem2 hyyr)
  have hm2o : ∀ a, a ∈ ctxAddrs (⟨true, p, cp, csp, ps⟩ :: rt) ∨
      a ∈ ctxAddrs (⟨false, x, c, cs, .node la cl csl ll lr⟩ :: Γ) → m2 a = Mf a := by
    intro a ha
    refine hm2 a (ptr_ne_of_not_mem2 (fun hh => ?_))
    rcases ha with ha | ha
    · exact (hyrd a hh).1 ha
    · exact (hyrd a hh).2 ha
  refine ⟨m2, ctxRoot Γ (some y), ?_, ⟨?_, ?_⟩, ?_⟩
  · rw [e1]
    simp only [Option.some_bind, delete_unlink, Option.bind_eq_bind, eS, set_parent_def,
      Option.pure_def, upd_mem, upd_root, upd_upd]
    generalize yr.ptr = q at e2 ⊢
    cases q with
    | none => simp only at e2 ⊢; rw [e2]; rfl
    | some nd => simp only at e2 ⊢; rw [e2]; rfl
  · rw [ptr_plug, ctxRoot_append]; rfl
  · rw [Repr_plug]
    simp only [upd_mem]
    refine ⟨ReprCtx.respine hC hn1 hr2 ?_ ?_ ?_ ⟨?_, ⟨?_, ?_, ?_⟩, ?_⟩, hyr2⟩
    · intro a ha h1 h2
      have h3 : a ≠ y := by rintro rfl; exact hdis _ hym (List.mem_append_left _ ha)
      have h4 : a ≠ la := by rintro rfl; exact hd12 ha hlam
      rw [hm2o a (Or.inl ha), hMo a h3 h4 h1 h2, hm1 a (ctxPtr_ne (hC1c a ha))]
    · rw [hm2o p (Or.inl hpm), hMp]
      cases rt with
      | nil =>
        have : p = rr := Option.some.inj hr
        simp [this, ctxPtr]
      | cons g gs =>
        have hr3 : ctxRoot (g :: gs) (some p) = some rr := hr
        have hrm : rr ∈ ctxAddrs (g :: gs) := ctxRoot_mem hr3
        have : p ≠ rr := by
          rintro rfl
          exact (List.nodup_cons.1 hn1).1 (List.mem_append_right _ hrm)
        simp [this, ctxPtr]
    · intro hne n hn
      rw [hm2o rr (Or.inl hrrm)]
      exact hMrr hne n ((hm1 rr (ctxPtr_ne (hC1c rr hrrm))).trans hn)
    · show m2 y = some ⟨csy, some la, some rr, ctxPtr Γ, c⟩
      rw [hm2y, hMy]
    · show m2 la = _
      rw [hm2o la (Or.inr hlam), hMla]
    · refine hll.congr (fun a ha => ?_)
      have hA := (hU a).2 (Or.inr (Or.inl (Or.inr (Or.inl ha))))
      have h1 : a ≠ y := by rintro rfl; exact hdis _ hym (List.mem_append_right _ hA)
      have h2 : a ≠ la := fun e => hlall (e ▸ ha)
      have h3 : a ≠ p := by rintro rfl; exact hd12 hpm hA
      have h4 : a ≠ rr := by rintro rfl; exact hd12 hrrm hA
      have h5 : a ∉ ctxAddrs Γ := fun hh => hLc (mem_addrs_node.2 (Or.inr (Or.inl ha))) hh
      rw [hm2o a (Or.inr hA), hMo a h1 h2 h3 h4, hm1 a (ctxPtr_ne h5)]
    · refine hlr.congr (fun a ha => ?_)
      have hA := (hU a).2 (Or.inr (Or.inl (Or.inr (Or.inr ha))))
      have h1 : a ≠ y := by rintro rfl; exact hdis _ hym (List.mem_append_right _ hA)
      have h2 : a ≠ la := fun e => hlalr (e ▸ ha)
      have h3 : a ≠ p := by rintro rfl; exact hd12 hpm hA
      have h4 : a ≠ rr := by rintro rfl; exact hd12 hrrm hA
      have h5 : a ∉ ctxAddrs Γ := fun hh => hLc (mem_addrs_node.2 (Or.inr (Or.inr ha))) hh
      rw [hm2o a (Or.inr hA), hMo a h1 h2 h3 h4, hm1 a (ctxPtr_ne h5)]
    · refine hctx1.congrCtx (fun a ha => ?_)
      have hA := (hU a).2 (Or.inr (Or.inr ha))
      have h1 : a ≠ y := fun e => hyc (e ▸ ha)
      have h2 : a ≠ la := fun e => hlac (e ▸ ha)
      have h3 : a ≠ p := by rintro rfl; exact hd12 hpm hA
      have h4 : a ≠ rr := by rintro rfl; exact hd12 hrrm hA
      rw [hm2o a (Or.inr hA), hMo a h1 h2 h3 h4]
  · rw [hm2o x (Or.inr hxm), hMo x hxy hxla hxp hxrr, hm1 x (ctxPtr_ne hxc)]

/-! ## Delete: colours after the unlink -/

theorem rootBlack_plug_iff (C : List (Frame K V)) (S S2 : Tree K V)
    (h : C = [] → (S.isRed = false → S2.isRed = false)) :
    (plug C S).RootBlack → (plug C S2).RootBlack := by
  cases C with
  | nil => exact h rfl
  | cons f fs =>
    intro hr
    exact (isRed_plug_cons f fs S2).2 ((isRed_plug_cons f fs S).1 hr)

theorem ctxRootBlack_of_plug {C : List (Frame K V)} {S : Tree K V}
    (h : (plug C S).RootBlack) : CtxRootBlack C := by
  cases C with
  | nil => trivial
  | cons f fs => exact (isRed_plug_cons f fs S).1 h

theorem red_leaf_of_bal {a : Nat} {c : rb_color_t} {cs : rb_cursor_st K V} {l r : Tree K V}
    (hr : (Tree.node a c cs l r).isRed = false) (hb : (Tree.node a c cs l r).bh = 0) :
    False := by
  cases c with
  | RB_RED => simp [Tree.isRed] at hr
  | RB_BLACK => simp [Tree.bh] at hb

/-- Colour facts after a node with at most one child has been cut out. -/
theorem unlink_colors {C : List (Frame K V)} {y : Nat} {cy : rb_color_t}
    {csy : rb_cursor_st K V} {l r : Tree K V} (hole : Tree K V)
    (hh : (l = .nil ∧ hole = r) ∨ (r = .nil ∧ hole = l))
    (hb : (plug C (.node y cy csy l r)).Bal) (hn : (plug C (.node y cy csy l r)).NoRR)
    (hr : (plug C (.node y cy csy l r)).RootBlack) :
    (cy = RB_RED → (plug C hole).Bal ∧ (plug C hole).NoRR ∧ (plug C hole).RootBlack) ∧
    (cy = RB_BLACK → ∀ h csh hl hr, hole = .node h RB_RED csh hl hr →
      (plug C (.node h RB_BLACK csh hl hr)).Bal ∧ (plug C (.node h RB_BLACK csh hl hr)).NoRR ∧
      (plug C (.node h RB_BLACK csh hl hr)).RootBlack) ∧
    (cy = RB_BLACK → hole.isRed = false → DelInv C hole) := by
  rw [Bal_plug] at hb
  rw [NoRR_plug] at hn
  obtain ⟨hb1, hb2⟩ := hb
  obtain ⟨hn1, hn2⟩ := hn
  have hcr := ctxRootBlack_of_plug hr
  have hn3 := CtxNoRR_black hn2
  refine ⟨?_, ?_, ?_⟩
  · rintro rfl
    have hnil : hole = .nil := by
      rcases hh with ⟨rfl, rfl⟩ | ⟨rfl, rfl⟩
      · cases hole with
        | nil => rfl
        | node a c cs l r =>
          exact (red_leaf_of_bal (hn1.1 rfl).2 hb1.1.symm).elim
      · cases hole with
        | nil => rfl
        | node a c cs l r =>
          exact (red_leaf_of_bal (hn1.1 rfl).1 hb1.1).elim
    subst hnil
    refine ⟨(Bal_plug _ _).2 ⟨trivial, ?_⟩, (NoRR_plug _ _).2 ⟨trivial, hn3⟩,
      rootBlack_plug_iff C _ _ (fun _ _ => rfl) hr⟩
    rcases hh with ⟨rfl, h2⟩ | ⟨h1, rfl⟩
    · simpa [Tree.bh] using hb2
    · simpa [Tree.bh] using hb2
  · rintro rfl h csh hl hr2 rfl
    have hbh : (Tree.node y RB_BLACK csy l r).bh = (Tree.node h RB_BLACK csh hl hr2).bh := by
      rcases hh with ⟨rfl, rfl⟩ | ⟨rfl, rfl⟩
      · have := hb1.1
        simp only [bh_node_black, bh_node_red, bh_nil] at this ⊢
        omega
      · simp only [bh_node_black, bh_node_red]
    refine ⟨(Bal_plug _ _).2 ⟨?_, hbh ▸ hb2⟩, (NoRR_plug _ _).2 ⟨?_, hn3⟩,
      rootBlack_plug_iff C _ _ (fun _ _ => rfl) hr⟩
    · rcases hh with ⟨rfl, rfl⟩ | ⟨rfl, rfl⟩
      · exact bal_blacken hb1.2.2
      · exact bal_blacken hb1.2.1
    · rcases hh with ⟨rfl, rfl⟩ | ⟨rfl, rfl⟩
      · exact norr_blacken hn1.2.2
      · exact norr_blacken hn1.2.1
  · rintro rfl hred
    have hbh : (Tree.node y RB_BLACK csy l r).bh = hole.bh + 1 := by
      rcases hh with ⟨rfl, rfl⟩ | ⟨rfl, rfl⟩
      · have := hb1.1
        simp only [bh_node_black, bh_nil] at this ⊢
        omega
      · simp only [bh_node_black]
    refine ⟨?_, ?_, hred, hbh ▸ hb2, hn3, hcr⟩
    · rcases hh with ⟨rfl, rfl⟩ | ⟨rfl, rfl⟩
      · exact hb1.2.2
      · exact hb1.2.1
    · rcases hh with ⟨rfl, rfl⟩ | ⟨rfl, rfl⟩
      · exact hn1.2.2
      · exact hn1.2.1

/-! ## Leftmost node, get_first and get_last -/

theorem ctxBal_relabel {b : Bool} {x y : Nat} {c : rb_color_t} {cs cs2 : rb_cursor_st K V}
    {s : Tree K V} (c2 : List (Frame K V)) :
    ∀ (c1 : List (Frame K V)) (n : Nat), CtxBal (c1 ++ ⟨b, x, c, cs, s⟩ :: c2) n →
      CtxBal (c1 ++ ⟨b, y, c, cs2, s⟩ :: c2) n := by
  intro c1
  induction c1 with
  | nil => intro n h; exact h
  | cons f fs ih => intro n h; exact ⟨h.1, h.2.1, ih _ h.2.2⟩

theorem ctxNoRR_relabel {b : Bool} {x y : Nat} {c : rb_color_t} {cs cs2 : rb_cursor_st K V}
    {s : Tree K V} (c2 : List (Frame K V)) :
    ∀ (c1 : List (Frame K V)) (red : Bool), CtxNoRR (c1 ++ ⟨b, x, c, cs, s⟩ :: c2) red →
      CtxNoRR (c1 ++ ⟨b, y, c, cs2, s⟩ :: c2) red := by
  intro c1
  induction c1 with
  | nil => intro n h; exact h
  | cons f fs ih => intro n h; exact ⟨h.1, h.2.1, ih _ h.2.2⟩

theorem ctxRootBlack_relabel {b : Bool} {x y : Nat} {c : rb_color_t} {cs cs2 : rb_cursor_st K V}
    {s : Tree K V} (c2 : List (Frame K V)) :
    ∀ (c1 : List (Frame K V)), CtxRootBlack (c1 ++ ⟨b, x, c, cs, s⟩ :: c2) →
      CtxRootBlack (c1 ++ ⟨b, y, c, cs2, s⟩ :: c2) := by
  intro c1
  induction c1 with
  | nil =>
    intro h
    cases c2 with
    | nil => exact h
    | cons g gs => exact h
  | cons f fs ih =>
    intro h
    cases fs with
    | nil => exact ih h
    | cons g gs => exact ih h

/-- The colour rules do not see the address or the entry of a node on the path. -/
theorem colors_relabel {b : Bool} {x : Nat} {c : rb_color_t} {cs : rb_cursor_st K V}
    {s S : Tree K V} (y : Nat) (cs2 : rb_cursor_st K V) (c1 c2 : List (Frame K V))
    (hb : (plug (c1 ++ ⟨b, x, c, cs, s⟩ :: c2) S).Bal)
    (hn : (plug (c1 ++ ⟨b, x, c, cs, s⟩ :: c2) S).NoRR)
    (hr : (plug (c1 ++ ⟨b, x, c, cs, s⟩ :: c2) S).RootBlack) :
    (plug (c1 ++ ⟨b, y, c, cs2, s⟩ :: c2) S).Bal ∧
    (plug (c1 ++ ⟨b, y, c, cs2, s⟩ :: c2) S).NoRR ∧
    (plug (c1 ++ ⟨b, y, c, cs2, s⟩ :: c2) S).RootBlack := by
  rw [Bal_plug] at hb ⊢
  rw [NoRR_plug] at hn ⊢
  refine ⟨⟨hb.1, ctxBal_relabel c2 c1 _ hb.2⟩, ⟨hn.1, ctxNoRR_relabel c2 c1 _ hn.2⟩, ?_⟩
  have h1 : CtxRootBlack (c1 ++ ⟨b, y, c, cs2, s⟩ :: c2) :=
    ctxRootBlack_relabel c2 c1 (ctxRootBlack_of_plug hr)
  cases c1 with
  | nil => exact (isRed_plug_cons _ _ _).2 h1
  | cons f fs => exact (isRed_plug_cons _ _ _).2 h1

theorem ctxBeforeA_append (c1 c2 : List (Frame K V)) :
    ctxBeforeA (c1 ++ c2) = ctxBeforeA c2 ++ ctxBeforeA c1 := by
  induction c1 with
  | nil => simp [ctxBeforeA]
  | cons f fs ih => cases hf : f.isLeft <;> simp [ctxBeforeA, hf, ih]

theorem ctxAfterA_append (c1 c2 : List (Frame K V)) :
    ctxAfterA (c1 ++ c2) = ctxAfterA c1 ++ ctxAfterA c2 := by
  induction c1 with
  | nil => simp [ctxAfterA]
  | cons f fs ih => cases hf : f.isLeft <;> simp [ctxAfterA, hf, ih]

theorem ctxBefore_append (c1 c2 : List (Frame K V)) :
    ctxBefore (c1 ++ c2) = ctxBefore c2 ++ ctxBefore c1 := by
  induction c1 with
  | nil => simp [ctxBefore]
  | cons f fs ih => cases hf : f.isLeft <;> simp [ctxBefore, hf, ih]

theorem ctxAfter_append (c1 c2 : List (Frame K V)) :
    ctxAfter (c1 ++ c2) = ctxAfter c1 ++ ctxAfter c2 := by
  induction c1 with
  | nil => simp [ctxAfter]
  | cons f fs ih => cases hf : f.isLeft <;> simp [ctxAfter, hf, ih]

theorem ctxBeforeA_left {c : List (Frame K V)} (h : ∀ f ∈ c, f.isLeft = true) :
    ctxBeforeA c = [] := by
  induction c with
  | nil => rfl
  | cons f fs ih =>
    simp only [ctxBeforeA, h f (List.mem_cons_self _ _), if_true]
    exact ih (fun g hg => h g (List.mem_cons_of_mem _ hg))

theorem ctxBefore_left {c : List (Frame K V)} (h : ∀ f ∈ c, f.isLeft = true) :
    ctxBefore c = [] := by
  induction c with
  | nil => rfl
  | cons f fs ih =>
    simp only [ctxBefore, h f (List.mem_cons_self _ _), if_true]
    exact ih (fun g hg => h g (List.mem_cons_of_mem _ hg))

/-- Every non-empty shape is its leftmost node under a path of left steps. -/
theorem exists_leftmost (R : Tree K V) (hR : R ≠ .nil) :
    ∃ (rctx : List (Frame K V)) (y : Nat) (cy : rb_color_t) (csy : rb_cursor_st K V)
      (yr : Tree K V), R = plug rctx (.node y cy csy .nil yr) ∧
        (∀ f ∈ rctx, f.isLeft = true) := by
  induction R with
  | nil => exact (hR rfl).elim
  | node a c cs l r ihl _ =>
    cases hl : l with
    | nil => exact ⟨[], a, c, cs, r, rfl, fun _ hf => by simp at hf⟩
    | node la cl csl ll lr =>
      obtain ⟨rctx, y, cy, csy, yr, e, hall⟩ := ihl (by rw [hl]; simp)
      refine ⟨rctx ++ [⟨true, a, c, cs, r⟩], y, cy, csy, yr, ?_, ?_⟩
      · rw [plug_append, ← e, hl]; rfl
      · intro f hf
        rcases List.mem_append.1 hf with hf | hf
        · exact hall f hf
        · simp only [List.mem_singleton] at hf
          rw [hf]

/-- Function `get_first` returns the first address of the subtree in order. -/
theorem get_first_spec {t : rbtree_st K V} :
    ∀ (T : Tree K V) (par : Option Nat) (a : Nat), T.ptr = some a → Repr t.mem T par →
      ∀ fuel, T.height ≤ fuel → get_first fuel t a = T.addrs.head? := by
  intro T
  induction T with
  | nil => intro par a h; simp at h
  | node b c cs l r ihl _ =>
    intro par a h hrep fuel hf
    simp only [ptr_node, Option.some.injEq] at h
    subst h
    obtain ⟨h1, h2, h3⟩ := hrep
    cases fuel with
    | zero => simp [Tree.height] at hf
    | succ k =>
      simp only [Tree.height] at hf
      cases l with
      | nil => simp [get_first, h1, Tree.addrs]
      | node la cl csl ll lr =>
        have := ihl (some b) la rfl h2 k (by simp only [Tree.height] at hf ⊢; omega)
        simp only [get_first, h1, ptr_node, Option.bind_eq_bind, Option.some_bind, this]
        simp [Tree.addrs]

/-- Function `get_last` returns the last address of the subtree in order. -/
theorem get_last_spec {t : rbtree_st K V} :
    ∀ (T : Tree K V) (par : Option Nat) (a : Nat), T.ptr = some a → Repr t.mem T par →
      ∀ fuel, T.height ≤ fuel → get_last fuel t a = T.addrs.getLast? := by
  intro T
  induction T with
  | nil => intro par a h; simp at h
  | node b c cs l r _ ihr =>
    intro par a h hrep fuel hf
    simp only [ptr_node, Option.some.injEq] at h
    subst h
    obtain ⟨h1, h2, h3⟩ := hrep
    cases fuel with
    | zero => simp [Tree.height] at hf
    | succ k =>
      simp only [Tree.height] at hf
      cases r with
      | nil => simp [get_last, h1, Tree.addrs]
      | node ra cr csr rl rr =>
        have := ihr (some b) ra rfl h3 k (by simp only [Tree.height] at hf ⊢; omega)
        simp only [get_last, h1, ptr_node, Option.bind_eq_bind, Option.some_bind, this]
        have hne : (Tree.node ra cr csr rl rr).addrs ≠ [] := by simp [Tree.addrs]
        show _ = (l.addrs ++ ([b] ++ (Tree.node ra cr csr rl rr).addrs)).getLast?
        rw [List.getLast?_append_of_ne_nil _ (by simp), List.getLast?_append_of_ne_nil _ hne]

/-! ## Delete: the unlink phase -/

theorem delete_unlink_simple {t1 : rbtree_st K V} {x : Nat} {par left right next : Option Nat}
    {n : rbtree_node_st K V} (hlr : left = none ∨ right = none) (hx : t1.mem x = some n) :
    delete_unlink t1 x par left right next =
      (match next with
        | some nd => set_parent par nd t1
        | none => pure t1).bind (fun t2 => pure (t2, n.color, next, par)) := by
  rcases hlr with rfl | rfl
  · cases next <;> simp [delete_unlink, hx]
  · cases left <;> cases next <;> simp [delete_unlink, hx]

/-- Lines 394-436, a node with at most one child: the child takes its place. -/
theorem unlink_simple_spec {t : rbtree_st K V} {Γ : List (Frame K V)} {x : Nat}
    {c : rb_color_t} {cs : rb_cursor_st K V} {l r : Tree K V} (ch : Tree K V)
    (hh : (l = .nil ∧ ch = r) ∨ (r = .nil ∧ ch = l))
    (h : Abs t (plug Γ (.node x c cs l r)))
    (hnd : (plug Γ (.node x c cs l r)).addrs.Nodup) :
    ∃ m R, (delete_link t x (ctxPtr Γ) ch.ptr).bind (fun t1 =>
        delete_unlink t1 x (ctxPtr Γ) l.ptr r.ptr ch.ptr) =
          some (t.upd m R, c, ch.ptr, ctxPtr Γ) ∧
      Abs (t.upd m R) (plug Γ ch) ∧ m x = t.mem x := by
  obtain ⟨hroot, hrep⟩ := h
  rw [ptr_plug] at hroot
  rw [Repr_plug] at hrep
  obtain ⟨hctx, hx, hl, hr⟩ := hrep
  rw [nodup_plug] at hnd
  obtain ⟨hnc, hns, hdis⟩ := hnd
  rw [nodup_node] at hns
  obtain ⟨hxl, hxr, hnl, hnr, -⟩ := hns
  have hxc : x ∉ ctxAddrs Γ := hdis x (mem_addrs_node.2 (Or.inl rfl))
  have hch : Repr t.mem ch (some x) := by
    rcases hh with ⟨-, rfl⟩ | ⟨-, rfl⟩
    · exact hr
    · exact hl
  have hnch : ch.addrs.Nodup := by
    rcases hh with ⟨-, rfl⟩ | ⟨-, rfl⟩
    · exact hnr
    · exact hnl
  have hxch : x ∉ ch.addrs := by
    rcases hh with ⟨-, rfl⟩ | ⟨-, rfl⟩
    · exact hxr
    · exact hxl
  have hdch : ∀ a ∈ ch.addrs, a ∉ ctxAddrs Γ := by
    intro a ha
    refine hdis a (mem_addrs_node.2 (Or.inr ?_))
    rcases hh with ⟨-, rfl⟩ | ⟨-, rfl⟩
    · exact Or.inr ha
    · exact Or.inl ha
  obtain ⟨m1, e1, -, hm1⟩ := delete_link_spec ch.ptr hroot hctx hnc hxc
  obtain ⟨m, R, e, hAbs, hfr⟩ := bypass_spec hroot hctx hch hnc hnch hxc hdch
  have hm1x := (hm1 x (ctxPtr_ne hxc)).trans hx
  have hlr : l.ptr = none ∨ r.ptr = none := by
    rcases hh with ⟨rfl, -⟩ | ⟨rfl, -⟩
    · exact Or.inl rfl
    · exact Or.inr rfl
  refine ⟨m, R, ?_, hAbs, hfr x hxc hxch⟩
  rw [e1, Option.some_bind] at e
  rw [e1, Option.some_bind, delete_unlink_simple hlr (by simpa using hm1x)]
  generalize ch.ptr = q at e ⊢
  cases q with
  | none => simp only at e ⊢; rw [e]; rfl
  | some nd => simp only at e ⊢; rw [e]; rfl

theorem height_node_pos (a : Nat) (c : rb_color_t) (cs : rb_cursor_st K V) (l r : Tree K V) :
    1 ≤ (Tree.node a c cs l r).height := by
  simp [Tree.height]

/-- Lines 394-436 of `rbtree_delete`: choice of the replacement and unlinking. -/
theorem unlink_spec {t : rbtree_st K V} {Γ : List (Frame K V)} {x : Nat}
    {c : rb_color_t} {cs : rb_cursor_st K V} {l r : Tree K V}
    (h : Abs t (plug Γ (.node x c cs l r)))
    (hnd : (plug Γ (.node x c cs l r)).addrs.Nodup)
    (hb : (plug Γ (.node x c cs l r)).Bal) (hn : (plug Γ (.node x c cs l r)).NoRR)
    (hr : (plug Γ (.node x c cs l r)).RootBlack) :
    ∃ ctx2 hole col m R,
      (∀ fuel, (plug Γ (.node x c cs l r)).height ≤ fuel →
        (delete_next fuel t l.ptr r.ptr).bind (fun next =>
          (delete_link t x (ctxPtr Γ) next).bind (fun t1 =>
            delete_unlink t1 x (ctxPtr Γ) l.ptr r.ptr next)) =
          some (t.upd m R, col, hole.ptr, ctxPtr ctx2)) ∧
      UnlinkPost t Γ x c cs l r ctx2 hole col m R := by
  have hlen := height_plug Γ (.node x c cs l r)
  have hpos := height_node_pos x c cs l r
  cases hl : l with
  | nil =>
    subst hl
    obtain ⟨m, R, e, hAbs, hmx⟩ := unlink_simple_spec r (Or.inl ⟨rfl, rfl⟩) h hnd
    have hcol := unlink_colors r (Or.inl ⟨rfl, rfl⟩) hb hn hr
    refine ⟨Γ, r, c, m, R, ?_, hAbs, hmx, ?_, ?_, by omega, hcol⟩
    · intro fuel _
      simp only [delete_next, ptr_nil, Option.pure_def, Option.some_bind]
      exact e
    · simp [addrs_plug, Tree.addrs]
    · simp [toList_plug, Tree.toList]
  | node la cl csl ll lr =>
    subst hl
    cases hrr : r with
    | nil =>
      subst hrr
      obtain ⟨m, R, e, hAbs, hmx⟩ := unlink_simple_spec (.node la cl csl ll lr)
        (Or.inr ⟨rfl, rfl⟩) h hnd
      have hcol := unlink_colors (.node la cl csl ll lr) (Or.inr ⟨rfl, rfl⟩) hb hn hr
      refine ⟨Γ, _, c, m, R, ?_, hAbs, hmx, ?_, ?_, by omega, hcol⟩
      · intro fuel _
        simp only [delete_next, ptr_nil, ptr_node, Option.pure_def, Option.some_bind]
        exact e
      · simp [addrs_plug, Tree.addrs]
      · simp [toList_plug, Tree.toList]
    | node ra cr csr rl rr =>
      have hRne : r ≠ .nil := by rw [hrr]; exact fun e => Tree.noConfusion e
      rw [← hrr] at *
      clear hrr ra cr csr rl rr
      obtain ⟨rctx, y, cy, csy, yr, e, hall⟩ := exists_leftmost r hRne
      have hrepR : Repr t.mem r (some x) := ((Repr_plug Γ _).1 h.2).2.2.2
      have hhx : r.height + 1 ≤ (Tree.node x c cs (.node la cl csl ll lr) r).height := by
        simp only [Tree.height]; omega
      have hfirst : ∀ a, r.ptr = some a → ∀ fuel,
          (plug Γ (.node x c cs (.node la cl csl ll lr) r)).height ≤ fuel →
          get_first fuel t a = some y := by
        intro a ha fuel hf
        rw [get_first_spec r (some x) a ha hrepR fuel (by omega), e, addrs_plug,
          ctxBeforeA_left hall]
        simp [Tree.addrs]
      cases rctx with
      | nil =>
        have e2 : r = .node y cy csy .nil yr := e
        subst e2
        obtain ⟨m, R, eq, hAbs, hmx⟩ := unlink_near_spec h hnd
        have hb1 : (plug ([] ++ ⟨false, x, c, cs, .node la cl csl ll lr⟩ :: Γ)
            (.node y cy csy .nil yr)).Bal := hb
        have hn1 : (plug ([] ++ ⟨false, x, c, cs, .node la cl csl ll lr⟩ :: Γ)
            (.node y cy csy .nil yr)).NoRR := hn
        have hr1 : (plug ([] ++ ⟨false, x, c, cs, .node la cl csl ll lr⟩ :: Γ)
            (.node y cy csy .nil yr)).RootBlack := hr
        obtain ⟨hb2, hn2, hr2⟩ := colors_relabel y csy [] Γ hb1 hn1 hr1
        have hcol := unlink_colors yr (Or.inl ⟨rfl, rfl⟩) hb2 hn2 hr2
        refine ⟨_, yr, cy, m, R, ?_, hAbs, hmx, ?_, ?_, ?_, hcol⟩
        · intro fuel hf
          simp only [delete_next, ptr_node, Option.bind_eq_bind, hfirst y rfl fuel hf,
            Option.pure_def, Option.some_bind]
          exact eq
        · simp [addrs_plug, Tree.addrs, ctxBeforeA, ctxAfterA]
        · simp [toList_plug, Tree.toList, ctxBefore, ctxAfter]
        · simp only [List.length_cons]
          simp only [Tree.height] at hhx hlen ⊢
          omega
      | cons fp rt =>
        obtain ⟨il, p, cp, csp, ps⟩ := fp
        have hil : il = true := hall _ (List.mem_cons_self _ _)
        subst hil
        subst e
        have eT : plug Γ (.node x c cs (.node la cl csl ll lr)
            (plug (⟨true, p, cp, csp, ps⟩ :: rt) (.node y cy csy .nil yr))) =
            plug ((⟨true, p, cp, csp, ps⟩ :: rt) ++
              ⟨false, x, c, cs, .node la cl csl ll lr⟩ :: Γ) (.node y cy csy .nil yr) := by
          rw [plug_append]; rfl
        obtain ⟨ra, hra, -⟩ := ctxRoot_some rt p
        have hptr : (plug (⟨true, p, cp, csp, ps⟩ :: rt) (.node y cy csy .nil yr)).ptr
            = some ra := by
          rw [ptr_plug]; exact hra
        have hlen2 := height_plug ((⟨true, p, cp, csp, ps⟩ :: rt) ++
              ⟨false, x, c, cs, .node la cl csl ll lr⟩ :: Γ) (.node y cy csy .nil yr)
        have hfirst2 := hfirst ra hptr
        rw [eT] at h hnd hb hn hr hfirst2 ⊢
        obtain ⟨m, R, eq, hAbs, hmx⟩ := unlink_far_spec h hnd hra
        obtain ⟨hb2, hn2, hr2⟩ := colors_relabel y csy
          (⟨true, p, cp, csp, ps⟩ :: rt) Γ hb hn hr
        have hcol := unlink_colors yr (Or.inl ⟨rfl, rfl⟩) hb2 hn2 hr2
        refine ⟨_, yr, cy, m, R, ?_, hAbs, hmx, ?_, ?_, ?_, hcol⟩
        · intro fuel hf
          simp only [delete_next, ptr_node, hptr, Option.bind_eq_bind, hfirst2 fuel hf,
            Option.pure_def, Option.some_bind]
          exact eq
        · rw [addrs_plug, addrs_plug, ctxBeforeA_append, ctxAfterA_append,
            ctxBeforeA_left hall]
          simp [Tree.addrs, ctxBeforeA, ctxAfterA]
        · rw [toList_plug, toList_plug, ctxBefore_append, ctxAfter_append,
            ctxBefore_left hall]
          simp [Tree.toList, ctxBefore, ctxAfter]
        · have := height_node_pos y cy csy .nil yr
          have hTe := congrArg Tree.height eT
          show _ ≤ (plug Γ (.node x c cs (.node la cl csl ll lr)
            (plug (⟨true, p, cp, csp, ps⟩ :: rt) (.node y cy csy .nil yr)))).height
          simp only [List.length_append, List.length_cons] at hlen2 ⊢
          omega

/-! ## Functions rb_next and rb_prev -/

/-- The climbing loop of `rb_next` stops at the first node that is reached
from its left child. -/
theorem rb_next_up_spec {t : rbtree_st K V} :
    ∀ (Γ : List (Frame K V)) (x : Nat) (c : rb_color_t) (cs : rb_cursor_st K V)
      (l r : Tree K V), Abs t (plug Γ (.node x c cs l r)) →
      (plug Γ (.node x c cs l r)).addrs.Nodup →
      ∀ fuel, Γ.length + 1 ≤ fuel → rb_next_up fuel t x = some (ctxAfterA Γ).head? := by
  intro Γ
  induction Γ with
  | nil =>
    intro x c cs l r h hnd fuel hf
    have hx := Abs.read (Γ := []) h
    cases fuel with
    | zero => omega
    | succ k => simp [rb_next_up, hx, ctxPtr, ctxAfterA]
  | cons f fs ih =>
    intro x c cs l r h hnd fuel hf
    have hx := Abs.read h
    obtain ⟨il, p, cp, csp, sib⟩ := f
    cases fuel with
    | zero => omega
    | succ k =>
      simp only [List.length_cons] at hf
      cases il with
      | true =>
        simp only [plug_cons, plug_left] at h hnd
        have hp := Abs.read h
        have hxs : x ∉ sib.addrs := by
          have h1 := (nodup_plug.1 hnd).2.1
          rw [nodup_node] at h1
          exact fun hh => h1.2.2.2.2 x (mem_addrs_node.2 (Or.inl rfl)) hh
        have hne : sib.ptr ≠ some x := ptr_ne_of_not_mem hxs
        simp [rb_next_up, hx, hp, ctxPtr, ctxAfterA, hne]
      | false =>
        simp only [plug_cons, plug_right] at h hnd
        have hp := Abs.read h
        have := ih p cp csp sib (.node x c cs l r) h hnd k (by omega)
        simp [rb_next_up, hx, hp, ctxPtr, ctxAfterA, this]

/-- Function `rb_next` returns the next address in order. -/
theorem rb_next_spec {t : rbtree_st K V} {Γ : List (Frame K V)} {x : Nat} {c : rb_color_t}
    {cs : rb_cursor_st K V} {l r : Tree K V} (h : Abs t (plug Γ (.node x c cs l r)))
    (hnd : (plug Γ (.node x c cs l r)).addrs.Nodup) (fuel : Nat)
    (hf : (plug Γ (.node x c cs l r)).height ≤ fuel) :
    rb_next fuel t x = some (r.addrs ++ ctxAfterA Γ).head? := by
  have hx := Abs.read h
  have hlen := height_plug Γ (.node x c cs l r)
  cases r with
  | nil =>
    have := rb_next_up_spec Γ x c cs l .nil h hnd fuel
      (by have := height_node_pos x c cs l .nil; omega)
    simp [rb_next, hx, this, Tree.addrs]
  | node ra cr csr rl rr =>
    have hrep : Repr t.mem (.node ra cr csr rl rr) (some x) := ((Repr_plug Γ _).1 h.2).2.2.2
    have hh : (Tree.node ra cr csr rl rr).height + 1 ≤
        (Tree.node x c cs l (.node ra cr csr rl rr)).height := by
      simp only [Tree.height]; omega
    have := get_first_spec (.node ra cr csr rl rr) (some x) ra rfl hrep fuel (by omega)
    have hne : (Tree.node ra cr csr rl rr).addrs ≠ [] := by simp [Tree.addrs]
    obtain ⟨z, zs, hz⟩ := List.exists_cons_of_ne_nil hne
    rw [hz] at this ⊢
    simp [rb_next, hx, this]

/-- The climbing loop of `rb_prev` stops at the first node that is reached
from its right child. -/
theorem rb_prev_up_spec {t : rbtree_st K V} :
    ∀ (Γ : List (Frame K V)) (x : Nat) (c : rb_color_t) (cs : rb_cursor_st K V)
      (l r : Tree K V), Abs t (plug Γ (.node x c cs l r)) →
      (plug Γ (.node x c cs l r)).addrs.Nodup →
      ∀ fuel, Γ.length + 1 ≤ fuel → rb_prev_up fuel t x = some (ctxBeforeA Γ).getLast? := by
  intro Γ
  induction Γ with
  | nil =>
    intro x c cs l r h hnd fuel hf
    have hx := Abs.read (Γ := []) h
    cases fuel with
    | zero => omega
    | succ k => simp [rb_prev_up, hx, ctxPtr, ctxBeforeA]
  | cons f fs ih =>
    intro x c cs l r h hnd fuel hf
    have hx := Abs.read h
    obtain ⟨il, p, cp, csp, sib⟩ := f
    cases fuel with
    | zero => omega
    | succ k =>
      simp only [List.length_cons] at hf
      cases il with
      | false =>
        simp only [plug_cons, plug_right] at h hnd
        have hp := Abs.read h
        have hxs : x ∉ sib.addrs := by
          have h1 := (nodup_plug.1 hnd).2.1
          rw [nodup_node] at h1
          exact fun hh => h1.2.2.2.2 x hh (mem_addrs_node.2 (Or.inl rfl))
        have hne : sib.ptr ≠ some x := ptr_ne_of_not_mem hxs
        simp [rb_prev_up, hx, hp, ctxPtr, ctxBeforeA, hne]
      | true =>
        simp only [plug_cons, plug_left] at h hnd
        have hp := Abs.read h
        have := ih p cp csp (.node x c cs l r) sib h hnd k (by omega)
        simp [rb_prev_up, hx, hp, ctxPtr, ctxBeforeA, this]

/-- Function `rb_prev` returns the previous address in order. -/
theorem rb_prev_spec {t : rbtree_st K V} {Γ : List (Frame K V)} {x : Nat} {c : rb_color_t}
    {cs : rb_cursor_st K V} {l r : Tree K V} (h : Abs t (plug Γ (.node x c cs l r)))
    (hnd : (plug Γ (.node x c cs l r)).addrs.Nodup) (fuel : Nat)
    (hf : (plug Γ (.node x c cs l r)).height ≤ fuel) :
    rb_prev fuel t x = some (ctxBeforeA Γ ++ l.addrs).getLast? := by
  have hx := Abs.read h
  have hlen := height_plug Γ (.node x c cs l r)
  cases l with
  | nil =>
    have := rb_prev_up_spec Γ x c cs .nil r h hnd fuel
      (by have := height_node_pos x c cs .nil r; omega)
    simp [rb_prev, hx, this, Tree.addrs]
  | node la cl csl ll lr =>
    have hrep : Repr t.mem (.node la cl csl ll lr) (some x) := ((Repr_plug Γ _).1 h.2).2.2.1
    have hh : (Tree.node la cl csl ll lr).height + 1 ≤
        (Tree.node x c cs (.node la cl csl ll lr) r).height := by
      simp only [Tree.height]; omega
    have := get_last_spec (.node la cl csl ll lr) (some x) la rfl hrep fuel (by omega)
    have hne : (Tree.node la cl csl ll lr).addrs ≠ [] := by simp [Tree.addrs]
    rw [List.getLast?_append_of_ne_nil _ hne]
    rw [List.getLast?_eq_getLast _ hne] at this ⊢
    simp [rb_prev, hx, this]

/-! ## Delete: cached cursors -/

theorem head_erase {P S : List Nat} {x : Nat} (h : (P ++ x :: S).Nodup) :
    (if some x = (P ++ x :: S).head? then S.head? else (P ++ x :: S).head?) =
      (P ++ S).head? := by
  cases P with
  | nil => simp
  | cons p P2 =>
    have hne : x ≠ p := by
      rintro rfl
      simp at h
    simp [hne]

theorem getLast_erase {P S : List Nat} {x : Nat} (h : (P ++ x :: S).Nodup) :
    (if some x = (P ++ x :: S).getLast? then P.getLast? else (P ++ x :: S).getLast?) =
      (P ++ S).getLast? := by
  cases S with
  | nil => simp
  | cons s S2 =>
    have hne : (s :: S2) ≠ [] := by simp
    have hx : x ∉ s :: S2 := by
      have := (List.nodup_append.1 h).2.1
      exact (List.nodup_cons.1 this).1
    have e1 : (P ++ x :: s :: S2).getLast? = (s :: S2).getLast? := by
      show (P ++ ([x] ++ s :: S2)).getLast? = _
      rw [List.getLast?_append_of_ne_nil _ (by simp), List.getLast?_append_of_ne_nil _ hne]
    rw [e1, List.getLast?_append_of_ne_nil _ hne, List.getLast?_eq_getLast _ hne]
    have : x ≠ (s :: S2).getLast hne := fun e => hx (e ▸ List.getLast_mem hne)
    simp [this]

theorem Abs.setCursors {t : rbtree_st K V} {T : Tree K V} (h : Abs t T) (f l : Option Nat) :
    Abs (t.setCursors f l) T := h

theorem delete_cursors_eval {t : rbtree_st K V} {x fuel : Nat} {F Lp : Option Nat}
    (hnx : rb_next fuel t x = some F)
    (hpv : ∀ f, rb_prev fuel (t.setCursors f t.last) x = some Lp) :
    delete_cursors fuel t x = some (t.setCursors (if some x = t.first then F else t.first)
      (if some x = t.last then Lp else t.last)) := by
  simp only [delete_cursors, Option.bind_eq_bind, Option.pure_def]
  by_cases h1 : some x = t.first
  · rw [if_pos h1, if_pos h1, hnx]
    simp only [Option.some_bind]
    by_cases h2 : some x = t.last
    · rw [if_pos h2, if_pos h2]
      have := hpv F
      simp only [rbtree_st.setCursors] at this ⊢
      rw [this]
      rfl
    · rw [if_neg h2, if_neg h2]
      rfl
  · rw [if_neg h1, if_neg h1]
    simp only [Option.some_bind]
    by_cases h2 : some x = t.last
    · rw [if_pos h2, if_pos h2]
      have := hpv t.first
      simp only [rbtree_st.setCursors] at this ⊢
      rw [this]
      rfl
    · rw [if_neg h2, if_neg h2]
      rfl

/-- Lines 389-392 of `rbtree_delete`: the cached cursors leave the node that
is about to be removed. -/
theorem delete_cursors_spec {t : rbtree_st K V} {Γ : List (Frame K V)} {x : Nat}
    {c : rb_color_t} {cs : rb_cursor_st K V} {l r : Tree K V}
    (h : Abs t (plug Γ (.node x c cs l r)))
    (hnd : (plug Γ (.node x c cs l r)).addrs.Nodup)
    (hf : t.first = (plug Γ (.node x c cs l r)).addrs.head?)
    (hl : t.last = (plug Γ (.node x c cs l r)).addrs.getLast?)
    (fuel : Nat) (hfu : (plug Γ (.node x c cs l r)).height ≤ fuel) :
    delete_cursors fuel t x = some (t.setCursors
      (ctxBeforeA Γ ++ (l.addrs ++ r.addrs) ++ ctxAfterA Γ).head?
      (ctxBeforeA Γ ++ (l.addrs ++ r.addrs) ++ ctxAfterA Γ).getLast?) := by
  have e : (plug Γ (.node x c cs l r)).addrs =
      (ctxBeforeA Γ ++ l.addrs) ++ x :: (r.addrs ++ ctxAfterA Γ) := by
    simp [addrs_plug, Tree.addrs]
  have e2 : ctxBeforeA Γ ++ (l.addrs ++ r.addrs) ++ ctxAfterA Γ =
      (ctxBeforeA Γ ++ l.addrs) ++ (r.addrs ++ ctxAfterA Γ) := by simp
  have hnx := rb_next_spec h hnd fuel hfu
  have hpv : ∀ f, rb_prev fuel (t.setCursors f t.last) x =
      some (ctxBeforeA Γ ++ l.addrs).getLast? :=
    fun f => rb_prev_spec (h.setCursors f t.last) hnd fuel hfu
  rw [e] at hf hl hnd
  rw [e2, ← head_erase hnd, ← getLast_erase hnd, ← hf, ← hl]
  exact delete_cursors_eval hnx hpv

/-! ## Locality of the rebalancing code -/

@[simp] theorem ins_root (t : rbtree_st K V) (x v) : (t.ins x v).root = t.root := rfl

theorem ins_read {t : rbtree_st K V} {x a : Nat} {v n : rbtree_node_st K V}
    (hx : t.mem x = none) (h : t.mem a = some n) : (t.ins x v).mem a = some n := by
  have : a ≠ x := by rintro rfl; rw [hx] at h; cases h
  simp [rbtree_st.ins, Function.update_apply, this, h]

theorem ins_store {t : rbtree_st K V} {x a : Nat} (v : rbtree_node_st K V)
    {n : rbtree_node_st K V} (w : rbtree_node_st K V)
    (hx : t.mem x = none) (h : t.mem a = some n) :
    (t.ins x v).store a w = (t.store a w).ins x v ∧ (t.store a w).mem x = none := by
  have : a ≠ x := by rintro rfl; rw [hx] at h; cases h
  refine ⟨?_, ?_⟩
  · simp only [rbtree_st.ins, rbtree_st.store]
    rw [Function.update_comm this]
  · simp [rbtree_st.store, Function.update_apply, Ne.symm this, hx]

theorem LocalR.mem (a : Nat) : LocalR (K := K) (V := V) (fun t => t.mem a) :=
  fun _ _ _ _ hx h => ins_read hx h

theorem Local.ret {A : Type} (f : rbtree_st K V → A) (hf : ∀ t x v, f (t.ins x v) = f t) :
    Local (fun t => pure (t, f t)) := by
  intro t u x v res hx h
  simp only [Option.pure_def, Option.some.injEq, Prod.mk.injEq] at h ⊢
  obtain ⟨rfl, rfl⟩ := h
  exact ⟨hx, rfl, hf _ _ _⟩

theorem Local0.ret0 : Local0 (K := K) (V := V) (fun t => pure t) := by
  intro t u x v hx h
  simp only [Option.pure_def, Option.some.injEq] at h ⊢
  subst h
  exact ⟨hx, rfl⟩

theorem Local.rd {A B : Type} {rd : rbtree_st K V → Option A}
    {k : A → rbtree_st K V → Option (rbtree_st K V × B)} (hr : LocalR rd)
    (hk : ∀ a, Local (k a)) : Local (fun t => (rd t).bind (fun a => k a t)) := by
  intro t u x v res hx h
  simp only [Option.bind_eq_some] at h ⊢
  obtain ⟨a, ha, h2⟩ := h
  obtain ⟨h3, h4⟩ := hk a t u x v res hx h2
  exact ⟨h3, a, hr t x v a hx ha, h4⟩

theorem Local0.read0 {A : Type} {rd : rbtree_st K V → Option A}
    {k : A → rbtree_st K V → Option (rbtree_st K V)} (hr : LocalR rd)
    (hk : ∀ a, Local0 (k a)) : Local0 (fun t => (rd t).bind (fun a => k a t)) := by
  intro t u x v hx h
  simp only [Option.bind_eq_some] at h ⊢
  obtain ⟨a, ha, h2⟩ := h
  obtain ⟨h3, h4⟩ := hk a t u x v hx h2
  exact ⟨h3, a, hr t x v a hx ha, h4⟩

theorem Local.opt {A B : Type} (o : Option A)
    {k : A → rbtree_st K V → Option (rbtree_st K V × B)}
    (hk : ∀ a, Local (k a)) : Local (fun t => o.bind (fun a => k a t)) :=
  @Local.rd K V A B (fun _ => o) k (fun _ _ _ _ _ h => h) hk

theorem Local0.opt0 {A : Type} (o : Option A)
    {k : A → rbtree_st K V → Option (rbtree_st K V)}
    (hk : ∀ a, Local0 (k a)) : Local0 (fun t => o.bind (fun a => k a t)) :=
  @Local0.read0 K V A (fun _ => o) k (fun _ _ _ _ _ h => h) hk

theorem Local.step0 {B : Type} {f : rbtree_st K V → Option (rbtree_st K V)}
    {k : rbtree_st K V → Option (rbtree_st K V × B)} (hf : Local0 f) (hk : Local k) :
    Local (fun t => (f t).bind k) := by
  intro t u x v res hx h
  simp only [Option.bind_eq_some] at h ⊢
  obtain ⟨t1, h1, h2⟩ := h
  obtain ⟨hx1, e1⟩ := hf t t1 x v hx h1
  obtain ⟨h3, h4⟩ := hk t1 u x v res hx1 h2
  exact ⟨h3, _, e1, h4⟩

theorem Local0.seq0 {f : rbtree_st K V → Option (rbtree_st K V)}
    {k : rbtree_st K V → Option (rbtree_st K V)} (hf : Local0 f) (hk : Local0 k) :
    Local0 (fun t => (f t).bind k) := by
  intro t u x v hx h
  simp only [Option.bind_eq_some] at h ⊢
  obtain ⟨t1, h1, h2⟩ := h
  obtain ⟨hx1, e1⟩ := hf t t1 x v hx h1
  obtain ⟨h3, h4⟩ := hk t1 u x v hx1 h2
  exact ⟨h3, _, e1, h4⟩

theorem Local.step {A B : Type} {f : rbtree_st K V → Option (rbtree_st K V × A)}
    {k : rbtree_st K V × A → Option (rbtree_st K V × B)} (hf : Local f)
    (hk : ∀ a, Local (fun t => k (t, a))) :
    Local (fun t => (f t).bind k) := by
  intro t u x v res hx h
  simp only [Option.bind_eq_some] at h ⊢
  obtain ⟨⟨t1, a⟩, h1, h2⟩ := h
  obtain ⟨hx1, e1⟩ := hf t t1 x v a hx h1
  obtain ⟨h3, h4⟩ := hk a t1 u x v res hx1 h2
  exact ⟨h3, _, e1, h4⟩

theorem Local0.seq {A : Type} {f : rbtree_st K V → Option (rbtree_st K V × A)}
    {k : rbtree_st K V × A → Option (rbtree_st K V)} (hf : Local f)
    (hk : ∀ a, Local0 (fun t => k (t, a))) :
    Local0 (fun t => (f t).bind k) := by
  intro t u x v hx h
  simp only [Option.bind_eq_some] at h ⊢
  obtain ⟨⟨t1, a⟩, h1, h2⟩ := h
  obtain ⟨hx1, e1⟩ := hf t t1 x v a hx h1
  obtain ⟨h3, h4⟩ := hk a t1 u x v hx1 h2
  exact ⟨h3, _, e1, h4⟩

theorem Local.ite {B : Type} (c : Prop) [Decidable c]
    {f g : rbtree_st K V → Option (rbtree_st K V × B)} (hf : Local f) (hg : Local g) :
    Local (fun t => if c then f t else g t) := by
  by_cases hc : c
  · simpa [hc] using hf
  · simpa [hc] using hg

theorem Local0.ite0 (c : Prop) [Decidable c]
    {f g : rbtree_st K V → Option (rbtree_st K V)} (hf : Local0 f) (hg : Local0 g) :
    Local0 (fun t => if c then f t else g t) := by
  by_cases hc : c
  · simpa [hc] using hf
  · simpa [hc] using hg

theorem set_color_local (c : rb_color_t) (a : Nat) :
    Local0 (K := K) (V := V) (set_color c a) := by
  intro t u x v hx h
  simp only [set_color, Option.bind_eq_bind, Option.bind_eq_some, Option.pure_def,
    Option.some.injEq] at h ⊢
  obtain ⟨n, hn, rfl⟩ := h
  exact ⟨(ins_store v _ hx hn).2, n, ins_read hx hn, (ins_store v _ hx hn).1⟩

theorem set_parent_local (c : Option Nat) (a : Nat) :
    Local0 (K := K) (V := V) (set_parent c a) := by
  intro t u x v hx h
  simp only [set_parent, Option.bind_eq_bind, Option.bind_eq_some, Option.pure_def,
    Option.some.injEq] at h ⊢
  obtain ⟨n, hn, rfl⟩ := h
  exact ⟨(ins_store v _ hx hn).2, n, ins_read hx hn, (ins_store v _ hx hn).1⟩

theorem set_left_local (c : Option Nat) (a : Nat) :
    Local0 (K := K) (V := V) (set_left c a) := by
  intro t u x v hx h
  simp only [set_left, Option.bind_eq_bind, Option.bind_eq_some, Option.pure_def,
    Option.some.injEq] at h ⊢
  obtain ⟨n, hn, rfl⟩ := h
  exact ⟨(ins_store v _ hx hn).2, n, ins_read hx hn, (ins_store v _ hx hn).1⟩

theorem set_right_local (c : Option Nat) (a : Nat) :
    Local0 (K := K) (V := V) (set_right c a) := by
  intro t u x v hx h
  simp only [set_right, Option.bind_eq_bind, Option.bind_eq_some, Option.pure_def,
    Option.some.injEq] at h ⊢
  obtain ⟨n, hn, rfl⟩ := h
  exact ⟨(ins_store v _ hx hn).2, n, ins_read hx hn, (ins_store v _ hx hn).1⟩

theorem rotate_relink_local (parent : Option Nat) (p q : Nat) :
    Local0 (K := K) (V := V) (fun t => rotate_relink t parent p q) := by
  cases parent with
  | none =>
    intro t u x v hx h
    simp only [rotate_relink, Option.pure_def, Option.some.injEq] at h ⊢
    subst h
    exact ⟨hx, rfl⟩
  | some par =>
    simp only [rotate_relink, Option.bind_eq_bind]
    refine Local0.read0 (LocalR.mem par) (fun parn => ?_)
    exact Local0.ite0 _ (set_left_local _ _) (set_right_local _ _)

theorem rotate_left_local (node : Nat) :
    Local0 (K := K) (V := V) (fun t => rotate_left t node) := by
  simp only [rotate_left, Option.bind_eq_bind]
  refine Local0.read0 (LocalR.mem node) (fun pn => ?_)
  refine Local0.opt0 _ (fun q => ?_)
  refine Local0.seq0 (rotate_relink_local _ _ _) ?_
  refine Local0.seq0 (set_parent_local _ _) ?_
  refine Local0.seq0 (set_parent_local _ _) ?_
  refine Local0.read0 (LocalR.mem q) (fun qn => ?_)
  refine Local0.seq0 (set_right_local _ _) ?_
  refine Local0.read0 (LocalR.mem node) (fun pn2 => ?_)
  refine Local0.seq0 ?_ (set_left_local _ _)
  cases pn2.right with
  | none => exact Local0.ret0
  | some r => exact set_parent_local _ _

theorem rotate_right_local (node : Nat) :
    Local0 (K := K) (V := V) (fun t => rotate_right t node) := by
  simp only [rotate_right, Option.bind_eq_bind]
  refine Local0.read0 (LocalR.mem node) (fun pn => ?_)
  refine Local0.opt0 _ (fun q => ?_)
  refine Local0.seq0 (rotate_relink_local _ _ _) ?_
  refine Local0.seq0 (set_parent_local _ _) ?_
  refine Local0.seq0 (set_parent_local _ _) ?_
  refine Local0.read0 (LocalR.mem q) (fun qn => ?_)
  refine Local0.seq0 (set_left_local _ _) ?_
  refine Local0.read0 (LocalR.mem node) (fun pn2 => ?_)
  refine Local0.seq0 ?_ (set_right_local _ _)
  cases pn2.left with
  | none => exact Local0.ret0
  | some r => exact set_parent_local _ _

theorem is_red_ptr_local (p : Option Nat) :
    LocalR (K := K) (V := V) (fun t => is_red_ptr t p) := by
  intro t x v res hx h
  cases p with
  | none => exact h
  | some a =>
    simp only [is_red_ptr, Option.bind_eq_bind, Option.bind_eq_some] at h ⊢
    obtain ⟨n, hn, h2⟩ := h
    exact ⟨n, ins_read hx hn, h2⟩

theorem is_black_or_null_local (p : Option Nat) :
    LocalR (K := K) (V := V) (fun t => is_black_or_null t p) := by
  intro t x v res hx h
  cases p with
  | none => exact h
  | some a =>
    simp only [is_black_or_null, Option.bind_eq_bind, Option.bind_eq_some] at h ⊢
    obtain ⟨n, hn, h2⟩ := h
    exact ⟨n, ins_read hx hn, h2⟩

theorem Local.retc {A : Type} (a : A) : Local (K := K) (V := V) (fun t => pure (t, a)) :=
  Local.ret (fun _ => a) (fun _ _ _ => rfl)

theorem fixup_red_sibling_left_local (par sibling : Nat) :
    Local (K := K) (V := V) (fun t => fixup_red_sibling_left t par sibling) := by
  simp only [fixup_red_sibling_left, Option.bind_eq_bind]
  refine Local.rd (LocalR.mem sibling) (fun sn => ?_)
  refine Local.ite _ ?_ (Local.retc _)
  refine Local.step0 (set_color_local _ _) ?_
  refine Local.step0 (set_color_local _ _) ?_
  refine Local.step0 (rotate_left_local _) ?_
  refine Local.rd (LocalR.mem par) (fun parn => ?_)
  exact Local.opt _ (fun s => Local.retc _)

theorem fixup_red_sibling_right_local (par sibling : Nat) :
    Local (K := K) (V := V) (fun t => fixup_red_sibling_right t par sibling) := by
  simp only [fixup_red_sibling_right, Option.bind_eq_bind]
  refine Local.rd (LocalR.mem sibling) (fun sn => ?_)
  refine Local.ite _ ?_ (Local.retc _)
  refine Local.step0 (set_color_local _ _) ?_
  refine Local.step0 (set_color_local _ _) ?_
  refine Local.step0 (rotate_right_local _) ?_
  refine Local.rd (LocalR.mem par) (fun parn => ?_)
  exact Local.opt _ (fun s => Local.retc _)

theorem fixup_near_left_local (par sibling : Nat) :
    Local (K := K) (V := V) (fun t => fixup_near_left t par sibling) := by
  simp only [fixup_near_left, Option.bind_eq_bind]
  refine Local.rd (LocalR.mem sibling) (fun sn => ?_)
  refine Local.rd (is_black_or_null_local _) (fun rb => ?_)
  refine Local.ite _ ?_ (Local.retc _)
  refine Local.opt _ (fun sl => ?_)
  refine Local.step0 (set_color_local _ _) ?_
  refine Local.step0 (set_color_local _ _) ?_
  refine Local.step0 (rotate_right_local _) ?_
  refine Local.rd (LocalR.mem par) (fun parn => ?_)
  exact Local.opt _ (fun s => Local.retc _)

theorem fixup_near_right_local (par sibling : Nat) :
    Local (K := K) (V := V) (fun t => fixup_near_right t par sibling) := by
  simp only [fixup_near_right, Option.bind_eq_bind]
  refine Local.rd (LocalR.mem sibling) (fun sn => ?_)
  refine Local.rd (is_black_or_null_local _) (fun rb => ?_)
  refine Local.ite _ ?_ (Local.retc _)
  refine Local.opt _ (fun sl => ?_)
  refine Local.step0 (set_color_local _ _) ?_
  refine Local.step0 (set_color_local _ _) ?_
  refine Local.step0 (rotate_left_local _) ?_
  refine Local.rd (LocalR.mem par) (fun parn => ?_)
  exact Local.opt _ (fun s => Local.retc _)

theorem fixup_far_left_local (par sibling : Nat) :
    Local0 (K := K) (V := V) (fun t => fixup_far_left t par sibling) := by
  simp only [fixup_far_left, Option.bind_eq_bind]
  refine Local0.read0 (LocalR.mem par) (fun parn => ?_)
  refine Local0.seq0 (set_color_local _ _) ?_
  refine Local0.seq0 (set_color_local _ _) ?_
  refine Local0.read0 (LocalR.mem sibling) (fun sn => ?_)
  refine Local0.opt0 _ (fun sr => ?_)
  exact Local0.seq0 (set_color_local _ _) (rotate_left_local _)

theorem fixup_far_right_local (par sibling : Nat) :
    Local0 (K := K) (V := V) (fun t => fixup_far_right t par sibling) := by
  simp only [fixup_far_right, Option.bind_eq_bind]
  refine Local0.read0 (LocalR.mem par) (fun parn => ?_)
  refine Local0.seq0 (set_color_local _ _) ?_
  refine Local0.seq0 (set_color_local _ _) ?_
  refine Local0.read0 (LocalR.mem sibling) (fun sn => ?_)
  refine Local0.opt0 _ (fun sr => ?_)
  exact Local0.seq0 (set_color_local _ _) (rotate_right_local _)

theorem fixup_black_sibling_left_local (par sibling : Nat) :
    Local (K := K) (V := V) (fun t => fixup_black_sibling_left t par sibling) := by
  simp only [fixup_black_sibling_left, Option.bind_eq_bind]
  refine Local.rd (LocalR.mem sibling) (fun sn => ?_)
  refine Local.rd (is_black_or_null_local _) (fun lb => ?_)
  refine Local.rd (is_black_or_null_local _) (fun rb => ?_)
  refine Local.ite _ ?_ ?_
  · refine Local.step0 (set_color_local _ _) ?_
    exact Local.rd (LocalR.mem par) (fun parn => Local.retc _)
  · refine Local.step (fixup_near_left_local _ _) (fun s => ?_)
    exact Local.step0 (fixup_far_left_local _ _) (Local.retc _)

theorem fixup_black_sibling_right_local (par sibling : Nat) :
    Local (K := K) (V := V) (fun t => fixup_black_sibling_right t par sibling) := by
  simp only [fixup_black_sibling_right, Option.bind_eq_bind]
  refine Local.rd (LocalR.mem sibling) (fun sn => ?_)
  refine Local.rd (is_black_or_null_local _) (fun lb => ?_)
  refine Local.rd (is_black_or_null_local _) (fun rb => ?_)
  refine Local.ite _ ?_ ?_
  · refine Local.step0 (set_color_local _ _) ?_
    exact Local.rd (LocalR.mem par) (fun parn => Local.retc _)
  · refine Local.step (fixup_near_right_local _ _) (fun s => ?_)
    exact Local.step0 (fixup_far_right_local _ _) (Local.retc _)

theorem delete_fixup_left_local (par : Nat) :
    Local (K := K) (V := V) (fun t => delete_fixup_left t par) := by
  simp only [delete_fixup_left, Option.bind_eq_bind]
  refine Local.rd (LocalR.mem par) (fun parn => ?_)
  refine Local.opt _ (fun s => ?_)
  exact Local.step (fixup_red_sibling_left_local _ _)
    (fun s2 => fixup_black_sibling_left_local _ _)

theorem delete_fixup_right_local (par : Nat) :
    Local (K := K) (V := V) (fun t => delete_fixup_right t par) := by
  simp only [delete_fixup_right, Option.bind_eq_bind]
  refine Local.rd (LocalR.mem par) (fun parn => ?_)
  refine Local.opt _ (fun s => ?_)
  exact Local.step (fixup_red_sibling_right_local _ _)
    (fun s2 => fixup_black_sibling_right_local _ _)

theorem Local.iteS {B : Type} (c : rbtree_st K V → Prop) [DecidablePred c]
    (hc : ∀ t x v, c (t.ins x v) ↔ c t)
    {f g : rbtree_st K V → Option (rbtree_st K V × B)} (hf : Local f) (hg : Local g) :
    Local (fun t => if c t then f t else g t) := by
  intro t u x v res hx h
  by_cases h1 : c t
  · have h2 := (hc t x v).2 h1
    simp only [] at h ⊢
    rw [if_pos h1] at h
    rw [if_pos h2]
    exact hf t u x v res hx h
  · have h2 : ¬ c (t.ins x v) := fun hh => h1 ((hc t x v).1 hh)
    simp only [] at h ⊢
    rw [if_neg h1] at h
    rw [if_neg h2]
    exact hg t u x v res hx h

theorem delete_fixup_local (fuel : Nat) : ∀ (node parent : Option Nat),
    Local (K := K) (V := V) (fun t => delete_fixup fuel t node parent) := by
  induction fuel with
  | zero =>
    intro node parent t u x v res hx h
    simp [delete_fixup] at h
  | succ k ih =>
    intro node parent
    simp only [delete_fixup, Option.bind_eq_bind]
    refine Local.iteS (fun t => node = t.root) (fun _ _ _ => Iff.rfl) (Local.retc _) ?_
    refine Local.opt _ (fun par => ?_)
    refine Local.rd (LocalR.mem par) (fun parn => ?_)
    refine Local.step (Local.ite _ (delete_fixup_left_local _) (delete_fixup_right_local _))
      (fun ctl => ?_)
    cases ctl with
    | none => exact Local.ret (fun t => t.root) (fun _ _ _ => rfl)
    | some p =>
      obtain ⟨nd, pa⟩ := p
      refine Local.rd (LocalR.mem nd) (fun nn => ?_)
      exact Local.ite _ (ih _ _) (Local.retc _)

theorem blacken_opt_local (node : Option Nat) :
    Local0 (K := K) (V := V) (fun t => blacken_opt t node) := by
  cases node with
  | none => exact Local0.ret0
  | some nd => exact set_color_local _ _

theorem delete_rebalance_local (fuel : Nat) (color : rb_color_t) (node parent : Option Nat) :
    Local0 (K := K) (V := V) (fun t => delete_rebalance fuel t color node parent) := by
  simp only [delete_rebalance, Option.bind_eq_bind]
  refine Local0.ite0 _ Local0.ret0 ?_
  refine Local0.read0 (is_red_ptr_local _) (fun red => ?_)
  refine Local0.ite0 _ ?_ ?_
  · exact Local0.opt0 _ (fun nd => set_color_local _ _)
  · exact Local0.seq (delete_fixup_local _ _ _) (fun nd => blacken_opt_local _)

/-! ## Function rbtree_delete -/

/-- Lines 441-512 of `rbtree_delete`: recolouring after the unlink. -/
theorem delete_rebalance_spec {t : rbtree_st K V} {ctx2 : List (Frame K V)} {hole : Tree K V}
    {col : rb_color_t} (h : Abs t (plug ctx2 hole)) (hnd : (plug ctx2 hole).addrs.Nodup)
    (hred : col = RB_RED →
      (plug ctx2 hole).Bal ∧ (plug ctx2 hole).NoRR ∧ (plug ctx2 hole).RootBlack)
    (hbr : col = RB_BLACK → ∀ h csh hl hr, hole = .node h RB_RED csh hl hr →
      (plug ctx2 (.node h RB_BLACK csh hl hr)).Bal ∧
      (plug ctx2 (.node h RB_BLACK csh hl hr)).NoRR ∧
      (plug ctx2 (.node h RB_BLACK csh hl hr)).RootBlack)
    (hbb : col = RB_BLACK → hole.isRed = false → DelInv ctx2 hole) :
    ∃ m r T2, (∀ fuel, ctx2.length + 1 ≤ fuel →
        delete_rebalance fuel t col hole.ptr (ctxPtr ctx2) = some (t.upd m r)) ∧
      Abs (t.upd m r) T2 ∧ T2.addrs = (plug ctx2 hole).addrs ∧
      T2.toList = (plug ctx2 hole).toList ∧ T2.Bal ∧ T2.NoRR ∧ T2.RootBlack := by
  rcases color_cases col with rfl | rfl
  · have hrepH : Repr t.mem hole (ctxPtr ctx2) := ((Repr_plug ctx2 hole).1 h.2).2
    have hir := is_red_ptr_spec hrepH
    cases hred2 : hole.isRed with
    | true =>
      obtain ⟨a, csh, hl, hr, rfl⟩ := isRed_eq_true hred2
      obtain ⟨m, r, e, hA⟩ := set_color_spec RB_BLACK h hnd
      obtain ⟨h1, h2, h3⟩ := hbr rfl a csh hl hr rfl
      refine ⟨m, r, _, ?_, hA, ?_, ?_, h1, h2, h3⟩
      · intro fuel _
        simp only [ptr_node, isRed_node_red] at hir
        simp [delete_rebalance, hir, e]
      · simp [addrs_plug, Tree.addrs]
      · simp [toList_plug, Tree.toList]
    | false =>
      obtain ⟨m, r, T2, e, hA, h1, h2, h3, h4, h5⟩ :=
        delete_fixup_spec ctx2.length t ctx2 hole (le_refl _) h hnd (hbb rfl hred2)
      refine ⟨m, r, T2, ?_, hA, h1, h2, h3, h4, h5⟩
      intro fuel hf
      have := e fuel hf
      simp only [delete_rebalance, hir, hred2, Option.bind_eq_bind, Option.some_bind]
      simpa using this
  · obtain ⟨h1, h2, h3⟩ := hred rfl
    refine ⟨t.mem, t.root, _, ?_, h, rfl, rfl, h1, h2, h3⟩
    intro fuel _
    simp [delete_rebalance, upd_self]

theorem end_delete_ins {t : rbtree_st K V} {x : Nat} {n : rbtree_node_st K V}
    (hx : t.mem x = none) :
    end_delete (t.ins x n) x = some { t with
      freed := if t.data_free then t.freed ++ [n.cs.data] else t.freed,
      nelem := (t.nelem + 2 ^ 32 - 1) % 2 ^ 32 } := by
  have e : Function.update (Function.update t.mem x (some n)) x none = t.mem := by
    rw [Function.update_idem, ← hx, Function.update_eq_self]
  simp only [end_delete, rbtree_st.ins, Function.update_same, Option.bind_eq_bind,
    Option.some_bind, Option.pure_def, Option.some.injEq]
  cases hd : t.data_free
  · simp only [Bool.false_eq_true, if_false, e]
  · simp only [if_true, e]

/-- Function `rbtree_delete` on a stored key: the node found by the descent
is removed, the colour rules are restored, the cursors and the count follow. -/
theorem rbtree_delete_found {t : rbtree_st K V} {T : Tree K V} (key : K) (ksize : Nat)
    {Γ : List (Frame K V)} {x : Nat} {c : rb_color_t} {cs : rb_cursor_st K V}
    {l r : Tree K V}
    (hc : Consistent t.cmp_fn) (h : Abs t T) (hs : Sorted t.cmp_fn T.toList)
    (hrb : T.RootBlack) (hn : T.NoRR) (hb : T.Bal)
    (hz : zoom t.cmp_fn key ksize T [] = (Γ, .node x c cs l r)) :
    ∃ t2 T2, (∀ fuel, T.height + 1 ≤ fuel → rbtree_delete fuel t key ksize = some t2) ∧
      Abs t2 T2 ∧
      T2.addrs = ctxBeforeA Γ ++ (l.addrs ++ r.addrs) ++ ctxAfterA Γ ∧
      T2.toList = ctxBefore Γ ++ (l.toList ++ r.toList) ++ ctxAfter Γ ∧
      T2.RootBlack ∧ T2.NoRR ∧ T2.Bal ∧
      t2.first = (if some x = t.first then (r.addrs ++ ctxAfterA Γ).head? else t.first) ∧
      t2.last = (if some x = t.last then (ctxBeforeA Γ ++ l.addrs).getLast? else t.last) ∧
      t2.nelem = (t.nelem + 2 ^ 32 - 1) % 2 ^ 32 ∧
      t2.freed = (if t.data_free then t.freed ++ [cs.data] else t.freed) ∧
      t2.mem x = none ∧
      t2.flag = t.flag ∧ t2.cmp_fn = t.cmp_fn ∧ t2.data_free = t.data_free := by
  have hT : plug Γ (.node x c cs l r) = T := by
    have := zoom_plug t.cmp_fn key ksize T []
    rw [hz] at this
    exact this
  subst hT
  have hnd := nodup_of_sorted hc h.2 hs
  have hx := Abs.read h
  have eA : (plug Γ (.node x c cs l r)).addrs =
      (ctxBeforeA Γ ++ l.addrs) ++ x :: (r.addrs ++ ctxAfterA Γ) := by
    simp [addrs_plug, Tree.addrs]
  have eA1 : ctxBeforeA Γ ++ (l.addrs ++ r.addrs) ++ ctxAfterA Γ =
      (ctxBeforeA Γ ++ l.addrs) ++ (r.addrs ++ ctxAfterA Γ) := by simp
  have hmid : (x :: ((ctxBeforeA Γ ++ l.addrs) ++ (r.addrs ++ ctxAfterA Γ))).Nodup := by
    rw [eA] at hnd
    exact List.nodup_middle.1 hnd
  obtain ⟨hx1, hnd1⟩ := List.nodup_cons.1 hmid
  rw [← eA1] at hx1 hnd1
  obtain ⟨F, hF⟩ : ∃ F, F = (if some x = t.first then (r.addrs ++ ctxAfterA Γ).head?
      else t.first) := ⟨_, rfl⟩
  obtain ⟨L, hL⟩ : ∃ L, L = (if some x = t.last then (ctxBeforeA Γ ++ l.addrs).getLast?
      else t.last) := ⟨_, rfl⟩
  obtain ⟨ctx2, hole, col, m, R, eU, hA1, hmx, ha1, hl1, hlen, hc1, hc2, hc3⟩ :=
    unlink_spec (h.setCursors F L) hnd hb hn hrb
  simp only [setCursors_mem] at hmx
  rw [← ha1] at hx1 hnd1
  have hA0 : Abs ((t.setCursors F L).upd
        (Function.update m x none) R) (plug ctx2 hole) := by
    refine ⟨hA1.1, hA1.2.congr (fun a ha => ?_)⟩
    have : a ≠ x := fun e => hx1 (e ▸ ha)
    simp [Function.update_apply, this]
  obtain ⟨m2, r2, T2, eR, hA2, ha2, hl2, hb2, hn2, hr2⟩ :=
    delete_rebalance_spec hA0 hnd1 hc1 hc2 hc3
  simp only [upd_upd] at hA2 eR
  have hloc := fun fuel hfu => delete_rebalance_local fuel col hole.ptr (ctxPtr ctx2) _ _ x
    ⟨cs, l.ptr, r.ptr, ctxPtr Γ, c⟩ (by simp) (eR fuel hfu)
  have hm2x : m2 x = none := by
    have := (hloc (ctx2.length + 1) (le_refl _)).1
    simpa using this
  have eins : ((t.setCursors F L).upd
        (Function.update m x none) R).ins x ⟨cs, l.ptr, r.ptr, ctxPtr Γ, c⟩ =
      (t.setCursors F L).upd m R := by
    simp only [rbtree_st.ins, rbtree_st.upd, Function.update_idem]
    rw [← hx, ← hmx, Function.update_eq_self]
  refine ⟨{ ((t.setCursors F L).upd m2 r2) with
      freed := if t.data_free then t.freed ++ [cs.data] else t.freed,
      nelem := (t.nelem + 2 ^ 32 - 1) % 2 ^ 32 }, T2, ?_, ?_⟩
  · intro fuel hfu
    have e1 := do_lookup_spec t key ksize _ fuel h (by omega)
    rw [hz] at e1
    have e2 := delete_cursors_eval (rb_next_spec h hnd fuel (by omega))
      (fun f => rb_prev_spec (h.setCursors f t.last) hnd fuel (by omega))
    rw [← hF, ← hL] at e2
    have e3 := eU fuel (by omega)
    simp only [Option.bind_eq_some] at e3
    obtain ⟨nx, e3a, t1, e3b, e3c⟩ := e3
    have e4 := (hloc fuel (by omega)).2
    rw [eins] at e4
    have e5 := end_delete_ins (t := (t.setCursors F L).upd m2 r2)
      (x := x) (n := ⟨cs, l.ptr, r.ptr, ctxPtr Γ, c⟩) hm2x
    simp only [rbtree_delete, e1, ptr_node, Option.bind_eq_bind, Option.some_bind, hx, e2, e3a,
      e3b, e3c, e4]
    exact e5
  · rw [← ha1, ← hl1, ← ha2, ← hl2]
    refine ⟨?_, ?_, ?_, hr2, hn2, hb2, ?_, ?_, ?_, ?_, ?_, ?_, ?_, ?_⟩
    · exact hA2.ofEq rfl rfl
    · rfl
    · rfl
    · exact hF
    · exact hL
    · rfl
    · rfl
    · exact hm2x
    all_goals rfl

/-! ## Traversal in order -/

theorem exists_zipper (T : Tree K V) (a : Nat) (ha : a ∈ T.addrs) :
    ∃ Γ c cs l r, T = plug Γ (.node a c cs l r) := by
  induction T with
  | nil => simp [Tree.addrs] at ha
  | node b c cs l r ihl ihr =>
    rcases mem_addrs_node.1 ha with rfl | h | h
    · exact ⟨[], c, cs, l, r, rfl⟩
    · obtain ⟨Γ, c2, cs2, l2, r2, e⟩ := ihl h
      refine ⟨Γ ++ [⟨true, b, c, cs, r⟩], c2, cs2, l2, r2, ?_⟩
      rw [plug_append, ← e]; rfl
    · obtain ⟨Γ, c2, cs2, l2, r2, e⟩ := ihr h
      refine ⟨Γ ++ [⟨false, b, c, cs, l⟩], c2, cs2, l2, r2, ?_⟩
      rw [plug_append, ← e]; rfl

theorem split_unique {p1 p2 s1 s2 : List Nat} {a : Nat} (h : p1 ++ a :: s1 = p2 ++ a :: s2)
    (hnd : (p1 ++ a :: s1).Nodup) : s1 = s2 := by
  induction p1 generalizing p2 with
  | nil =>
    cases p2 with
    | nil => simpa using h
    | cons b p2 =>
      simp only [List.nil_append, List.cons_append, List.cons.injEq] at h
      obtain ⟨rfl, h2⟩ := h
      rw [h2] at hnd
      simp at hnd
  | cons b p1 ih =>
    cases p2 with
    | nil =>
      simp only [List.nil_append, List.cons_append, List.cons.injEq] at h
      obtain ⟨rfl, h2⟩ := h
      simp at hnd
    | cons b2 p2 =>
      simp only [List.cons_append, List.cons.injEq] at h
      exact ih h.2 (List.nodup_cons.1 hnd).2

theorem rbtree_next_spec {t : rbtree_st K V} {T : Tree K V} (h : Abs t T) (hnd : T.addrs.Nodup)
    {pre suf : List Nat} {a : Nat} (e : T.addrs = pre ++ a :: suf) (fuel : Nat)
    (hf : T.height ≤ fuel) : rbtree_next fuel t a = some suf.head? := by
  have ha : a ∈ T.addrs := by rw [e]; simp
  obtain ⟨Γ, c, cs, l, r, rfl⟩ := exists_zipper T a ha
  have e2 : (plug Γ (.node a c cs l r)).addrs =
      (ctxBeforeA Γ ++ l.addrs) ++ a :: (r.addrs ++ ctxAfterA Γ) := by
    simp [addrs_plug, Tree.addrs]
  have e3 := split_unique (e2.symm.trans e) (e2 ▸ hnd)
  rw [← e3]
  exact rb_next_spec h hnd fuel hf

theorem inorder_from_spec {t : rbtree_st K V} {T : Tree K V} (h : Abs t T)
    (hnd : T.addrs.Nodup) (fuel : Nat) (hf : T.height ≤ fuel) :
    ∀ (suf pre : List Nat) (n : Nat), T.addrs = pre ++ suf → suf.length ≤ n →
      ∃ l, inorder_from fuel t n suf.head? = some l ∧
        l.map some = suf.map (fun a => (t.mem a).map (fun nd => nd.cs)) := by
  intro suf
  induction suf with
  | nil => intro pre n _ _; exact ⟨[], by simp [inorder_from], rfl⟩
  | cons a rest ih =>
    intro pre n e hn
    cases n with
    | zero => simp at hn
    | succ k =>
      have ha : a ∈ T.addrs := by rw [e]; simp
      obtain ⟨nd, hnd2⟩ := Option.ne_none_iff_exists'.1 (mem_of_Repr h.2 ha)
      have hnx := rbtree_next_spec h hnd e fuel hf
      obtain ⟨l, hl1, hl2⟩ := ih (pre ++ [a]) k (by simp [e])
        (by simp only [List.length_cons] at hn; omega)
      refine ⟨nd.cs :: l, ?_, ?_⟩
      · simp [inorder_from, hnd2, hnx, hl1]
      · simp [hl2, hnd2]

/-- The traversal from `rbtree_first` yields the entries of the shape in order. -/
theorem inorder_spec {t : rbtree_st K V} {T : Tree K V} (h : Abs t T) (hnd : T.addrs.Nodup)
    (hf : t.first = T.addrs.head?) (fuel : Nat) (hfu : T.height + T.addrs.length ≤ fuel) :
    inorder fuel t = some T.toList := by
  obtain ⟨l, hl1, hl2⟩ := inorder_from_spec h hnd fuel (by omega) T.addrs [] fuel rfl
    (by omega)
  rw [← toList_map_some h.2] at hl2
  have : l = T.toList := List.map_injective_iff.2 (Option.some_injective _) hl2
  rw [inorder, rbtree_first, hf, hl1, this]

/-! ## Invariant of the reachable trees -/

theorem inv_create (data_free : Bool) (cmp : K → Nat → K → Nat → Int) (flag : Int)
    (hc : Consistent cmp) : Inv (rbtree_create (V := V) data_free cmp flag) .nil := by
  refine ⟨hc, ⟨rfl, trivial⟩, List.Pairwise.nil, rfl, trivial, trivial, rfl, rfl, rfl⟩

theorem mod_succ_mod (a n : Nat) : (a % n + 1) % n = (a + 1) % n := by
  rw [Nat.add_mod, Nat.mod_mod, ← Nat.add_mod]

theorem mod_pred_mod (a n : Nat) (hn : 0 < n) : (a % n + n - 1) % n = (a + n - 1) % n := by
  have h1 : a % n + n - 1 = a % n + (n - 1) := by omega
  have h2 : a + n - 1 = a + (n - 1) := by omega
  rw [h1, h2, Nat.add_mod, Nat.mod_mod, ← Nat.add_mod]

theorem Inv.nodup {t : rbtree_st K V} {T : Tree K V} (h : Inv t T) : T.addrs.Nodup :=
  nodup_of_sorted h.1 h.2.1.2 h.2.2.1

/-- Function `rbtree_insert` on a key that is not stored: the invariant is
kept and the entry appears at its place in the order. -/
theorem inv_insert_new {t : rbtree_st K V} {T : Tree K V} (hI : Inv t T) (key : K)
    (ksize : Nat) (val : V) (a : Nat) (ha : t.mem a = none) {Γ : List (Frame K V)}
    (hz : zoom t.cmp_fn key ksize T [] = (Γ, .nil)) :
    ∃ t2 T2, (∀ fuel, T.height + 1 ≤ fuel → rbtree_insert fuel t key ksize val a = some t2) ∧
      Inv t2 T2 ∧ T.toList = ctxBefore Γ ++ ctxAfter Γ ∧
      T2.toList = ctxBefore Γ ++ ⟨key, ksize, val⟩ :: ctxAfter Γ ∧
      (∀ e ∈ ctxBefore Γ, t.cmp_fn e.key e.ksize key ksize < 0) ∧
      (∀ e ∈ ctxAfter Γ, 0 < t.cmp_fn e.key e.ksize key ksize) ∧
      t2.freed = t.freed ∧ t2.cmp_fn = t.cmp_fn ∧ t2.flag = t.flag ∧
      t2.data_free = t.data_free := by
  obtain ⟨hc, hA, hs, hrb, hn, hb, hf, hl, hne⟩ := hI
  have hz2 : (zoom t.cmp_fn key ksize T []).2 = .nil := by rw [hz]
  obtain ⟨t2, T2, e, hA2, ha2, hl2, hrb2, hn2, hb2, hf2, hla2, hne2, hfl, hcm, hdf, hfr⟩ :=
    rbtree_insert_new key ksize val a hc hA hs hrb hn hb ha hz2
  rw [hz] at ha2 hl2 hf2 hla2
  simp only at ha2 hl2 hf2 hla2
  have hT : plug Γ .nil = T := by
    have := zoom_plug t.cmp_fn key ksize T []
    rw [hz] at this
    exact this
  have hTl : T.toList = ctxBefore Γ ++ ctxAfter Γ := by
    rw [← hT, toList_plug]; simp [Tree.toList]
  have hTa : T.addrs = ctxBeforeA Γ ++ ctxAfterA Γ := by
    rw [← hT, addrs_plug]; simp [Tree.addrs]
  have hnd := nodup_of_sorted hc hA.2 hs
  have hbd := zoom_bounds hc key ksize T [] (by simpa [plug] using hs)
    (by simp [ctxBefore]) (by simp [ctxAfter])
  rw [hz] at hbd
  refine ⟨t2, T2, e, ⟨by rw [hcm]; exact hc, hA2, ?_, hrb2, hn2, hb2, ?_, ?_, ?_⟩, hTl, hl2,
    hbd.1, hbd.2, hfr, hcm, hfl, hdf⟩
  · rw [hcm, hl2]
    exact sorted_insert_mid hc ⟨key, ksize, val⟩ (hTl ▸ hs) hbd.1 hbd.2
  · rw [hf2, ha2]
    exact head_insert_ctx Γ a t.first (hTa ▸ hnd) (hTa ▸ hf)
  · rw [hla2, ha2]
    exact getLast_insert_ctx Γ a t.last (hTa ▸ hnd) (hTa ▸ hl)
  · rw [hne2, hne, hl2, hTl, mod_succ_mod]
    simp only [List.length_append, List.length_cons]
    rw [Nat.add_assoc]

/-- Function `rbtree_insert` on a stored key: only the entry of the node
found changes. -/
theorem inv_insert_found {t : rbtree_st K V} {T : Tree K V} (hI : Inv t T) (key : K)
    (ksize : Nat) (val : V) (a : Nat) {Γ : List (Frame K V)} {x : Nat} {c : rb_color_t}
    {cs : rb_cursor_st K V} {l r : Tree K V}
    (hz : zoom t.cmp_fn key ksize T [] = (Γ, .node x c cs l r)) :
    ∃ cs2, cs2 = (if Int.land t.flag RFLAG_EXTERN_KEY ≠ 0 then ⟨key, ksize, val⟩
        else ⟨cs.key, cs.ksize, val⟩) ∧
      (∀ fuel, T.height ≤ fuel → rbtree_insert fuel t key ksize val a =
        some { t with
          mem := Function.update t.mem x (some ⟨cs2, l.ptr, r.ptr, ctxPtr Γ, c⟩),
          freed := if t.data_free then t.freed ++ [cs.data] else t.freed }) ∧
      Inv { t with
          mem := Function.update t.mem x (some ⟨cs2, l.ptr, r.ptr, ctxPtr Γ, c⟩),
          freed := if t.data_free then t.freed ++ [cs.data] else t.freed }
        (plug Γ (.node x c cs2 l r)) ∧
      T = plug Γ (.node x c cs l r) ∧
      t.mem x = some ⟨cs, l.ptr, r.ptr, ctxPtr Γ, c⟩ ∧
      t.cmp_fn cs.key cs.ksize key ksize = 0 ∧
      t.cmp_fn cs2.key cs2.ksize key ksize = 0 := by
  obtain ⟨hc, hA, hs, hrb, hn, hb, hf, hl, hne⟩ := hI
  have hnd := nodup_of_sorted hc hA.2 hs
  have hz2 : (zoom t.cmp_fn key ksize T []).2 = .node x c cs l r := by rw [hz]
  obtain ⟨cs2, hcs2, e, hA2, hT, hx⟩ := rbtree_insert_found key ksize val a hA hnd hz2
  rw [hz] at e hA2 hT hx
  simp only at e hA2 hT hx
  have h0 := zoom_found t.cmp_fn key ksize T [] hz2
  have h02 : t.cmp_fn cs2.key cs2.ksize key ksize = 0 := by
    rw [hcs2]
    split
    · exact hc.refl key ksize
    · exact h0
  have heq : t.cmp_fn cs.key cs.ksize cs2.key cs2.ksize = 0 := by
    rw [hcs2]
    split
    · exact h0
    · exact hc.refl _ _
  subst hT
  refine ⟨cs2, hcs2, e, ⟨hc, hA2.ofEq rfl rfl, ?_, ?_, ?_, ?_, ?_, ?_, ?_⟩, rfl, hx, h0, h02⟩
  · rw [toList_plug] at hs ⊢
    simp only [Tree.toList, List.append_assoc, List.cons_append] at hs ⊢
    rw [← List.append_assoc] at hs ⊢
    exact sorted_replace_mid hc cs cs2 hs heq
  · cases Γ with
    | nil => simpa [Tree.RootBlack, plug, isRed_node] using hrb
    | cons f fs => exact (isRed_plug_cons f fs _).2 ((isRed_plug_cons f fs _).1 hrb)
  · rw [NoRR_plug] at hn ⊢
    simpa [Tree.NoRR, isRed_node] using hn
  · rw [Bal_plug] at hb ⊢
    exact hb
  · simpa [addrs_plug, Tree.addrs] using hf
  · simpa [addrs_plug, Tree.addrs] using hl
  · simpa [toList_plug, Tree.toList] using hne

/-- Function `rbtree_delete` on a key that is not stored. -/
theorem rbtree_delete_absent {t : rbtree_st K V} {T : Tree K V} (key : K) (ksize : Nat)
    (h : Abs t T) (hz : (zoom t.cmp_fn key ksize T []).2 = .nil) (fuel : Nat)
    (hf : T.height ≤ fuel) : rbtree_delete fuel t key ksize = some t := by
  have := do_lookup_spec t key ksize T fuel h hf
  rw [hz] at this
  simp [rbtree_delete, this]

/-- Function `rbtree_delete` on a stored key: the invariant is kept and
exactly the entry found leaves the order. -/
theorem inv_delete_found {t : rbtree_st K V} {T : Tree K V} (hI : Inv t T) (key : K)
    (ksize : Nat) {Γ : List (Frame K V)} {x : Nat} {c : rb_color_t}
    {cs : rb_cursor_st K V} {l r : Tree K V}
    (hz : zoom t.cmp_fn key ksize T [] = (Γ, .node x c cs l r)) :
    ∃ t2 T2, (∀ fuel, T.height + 1 ≤ fuel → rbtree_delete fuel t key ksize = some t2) ∧
      Inv t2 T2 ∧
      T.toList = (ctxBefore Γ ++ l.toList) ++ cs :: (r.toList ++ ctxAfter Γ) ∧
      T2.toList = (ctxBefore Γ ++ l.toList) ++ (r.toList ++ ctxAfter Γ) ∧
      t.cmp_fn cs.key cs.ksize key ksize = 0 ∧
      t2.freed = (if t.data_free then t.freed ++ [cs.data] else t.freed) ∧
      t2.cmp_fn = t.cmp_fn ∧ t2.flag = t.flag ∧ t2.data_free = t.data_free := by
  obtain ⟨hc, hA, hs, hrb, hn, hb, hf, hl, hne⟩ := hI
  have hnd := nodup_of_sorted hc hA.2 hs
  obtain ⟨t2, T2, e, hA2, ha2, hl2, hrb2, hn2, hb2, hf2, hla2, hne2, hfr, hmx, hfl, hcm, hdf⟩ :=
    rbtree_delete_found key ksize hc hA hs hrb hn hb hz
  have hT : plug Γ (.node x c cs l r) = T := by
    have := zoom_plug t.cmp_fn key ksize T []
    rw [hz] at this
    exact this
  have hTl : T.toList = (ctxBefore Γ ++ l.toList) ++ cs :: (r.toList ++ ctxAfter Γ) := by
    rw [← hT, toList_plug]; simp [Tree.toList]
  have hTa : T.addrs = (ctxBeforeA Γ ++ l.addrs) ++ x :: (r.addrs ++ ctxAfterA Γ) := by
    rw [← hT, addrs_plug]; simp [Tree.addrs]
  have hl3 : T2.toList = (ctxBefore Γ ++ l.toList) ++ (r.toList ++ ctxAfter Γ) := by
    rw [hl2]; simp
  have ha3 : T2.addrs = (ctxBeforeA Γ ++ l.addrs) ++ (r.addrs ++ ctxAfterA Γ) := by
    rw [ha2]; simp
  have h0 := zoom_found t.cmp_fn key ksize T [] (by rw [hz])
  rw [hTa] at hf hl hnd
  refine ⟨t2, T2, e, ⟨by rw [hcm]; exact hc, hA2, ?_, hrb2, hn2, hb2, ?_, ?_, ?_⟩, hTl, hl3, h0,
    hfr, hcm, hfl, hdf⟩
  · rw [hcm, hl3]
    rw [hTl] at hs
    exact List.Pairwise.sublist
      (List.Sublist.append (List.Sublist.refl _) (List.sublist_cons_self _ _)) hs
  · rw [hf2, ha3, hf]
    exact head_erase hnd
  · rw [hla2, ha3, hl]
    exact getLast_erase hnd
  · rw [hne2, hne, mod_pred_mod _ _ (by norm_num), hl3, hTl]
    simp only [List.length_append, List.length_cons]
    have : (ctxBefore Γ).length + l.toList.length +
        (r.toList.length + (ctxAfter Γ).length + 1) + 2 ^ 32 - 1 =
        (ctxBefore Γ).length + l.toList.length +
        (r.toList.length + (ctxAfter Γ).length) + 2 ^ 32 := by omega
    rw [this, Nat.add_mod_right]

/-- Every reachable tree satisfies the invariant for some shape. -/
theorem reach_inv {t : rbtree_st K V} (h : Reachable t) : ∃ T, Inv t T := by
  induction h with
  | create data_free cmp flag hc => exact ⟨_, inv_create data_free cmp flag hc⟩
  | @insert t t2 key ksize val a _ ha e ih =>
    obtain ⟨T, hI⟩ := ih
    obtain ⟨N, e⟩ := e
    cases hz : zoom t.cmp_fn key ksize T [] with
    | mk Γ S =>
      cases S with
      | nil =>
        obtain ⟨t3, T3, e3, hI3, -⟩ := inv_insert_new hI key ksize val a ha hz
        have := (e (max N (T.height + 1)) (le_max_left _ _)).symm.trans
          (e3 (max N (T.height + 1)) (le_max_right _ _))
        cases this
        exact ⟨T3, hI3⟩
      | node x c cs l r =>
        obtain ⟨cs2, -, e3, hI3, -⟩ := inv_insert_found hI key ksize val a hz
        have := (e (max N T.height) (le_max_left _ _)).symm.trans
          (e3 (max N T.height) (le_max_right _ _))
        cases this
        exact ⟨_, hI3⟩
  | @delete t t2 key ksize _ e ih =>
    obtain ⟨T, hI⟩ := ih
    obtain ⟨N, e⟩ := e
    cases hz : zoom t.cmp_fn key ksize T [] with
    | mk Γ S =>
      cases S with
      | nil =>
        have e3 := rbtree_delete_absent key ksize hI.2.1 (by rw [hz]) (max N T.height)
          (le_max_right _ _)
        have := (e (max N T.height) (le_max_left _ _)).symm.trans e3
        cases this
        exact ⟨T, hI⟩
      | node x c cs l r =>
        obtain ⟨t3, T3, e3, hI3, -⟩ := inv_delete_found hI key ksize hz
        have := (e (max N (T.height + 1)) (le_max_left _ _)).symm.trans
          (e3 (max N (T.height + 1)) (le_max_right _ _))
        cases this
        exact ⟨T3, hI3⟩

/-! ## Search and the stored entries -/

theorem Consistent.eq_trans {cmp : K → Nat → K → Nat → Int} (h : Consistent cmp)
    {a la b lb c lc} (h1 : cmp a la b lb = 0) (h2 : cmp b lb c lc = 0) : cmp a la c lc = 0 := by
  have h3 := h.2 _ _ _ _ _ _ (le_of_eq h1) (le_of_eq h2)
  have h4 := h.2 _ _ _ _ _ _ (le_of_eq (h.eq_symm h2)) (le_of_eq (h.eq_symm h1))
  have := h.1 c lc a la
  have := h.1 a la c lc
  omega

theorem entries_of_inv {t : rbtree_st K V} {T : Tree K V} (hI : Inv t T) :
    Entries t T.toList :=
  ⟨T.height + T.addrs.length, fun fuel hf => inorder_spec hI.2.1 hI.nodup hI.2.2.2.2.2.2.1 fuel hf⟩

theorem entries_unique {t : rbtree_st K V} {l l2 : List (rb_cursor_st K V)}
    (h1 : Entries t l) (h2 : Entries t l2) : l = l2 := by
  obtain ⟨N1, e1⟩ := h1
  obtain ⟨N2, e2⟩ := h2
  have := (e1 (max N1 N2) (le_max_left _ _)).symm.trans (e2 (max N1 N2) (le_max_right _ _))
  exact Option.some.inj this

theorem inserts_unique {t t2 t3 : rbtree_st K V} {key : K} {ksize : Nat} {val : V} {a : Nat}
    (h1 : InsertsTo t key ksize val a t2) (h2 : InsertsTo t key ksize val a t3) : t2 = t3 := by
  obtain ⟨N1, e1⟩ := h1
  obtain ⟨N2, e2⟩ := h2
  have := (e1 (max N1 N2) (le_max_left _ _)).symm.trans (e2 (max N1 N2) (le_max_right _ _))
  exact Option.some.inj this

theorem searches_unique {t : rbtree_st K V} {key : K} {ksize : Nat} {r1 r2 : Int × Option V}
    (h1 : SearchesTo t key ksize r1) (h2 : SearchesTo t key ksize r2) : r1 = r2 := by
  obtain ⟨N1, e1⟩ := h1
  obtain ⟨N2, e2⟩ := h2
  have := (e1 (max N1 N2) (le_max_left _ _)).symm.trans (e2 (max N1 N2) (le_max_right _ _))
  exact Option.some.inj this

/-- The descent ends on an empty edge only when no stored key compares equal. -/
theorem zoom_nil_absent {cmp : K → Nat → K → Nat → Int} (hc : Consistent cmp) (key : K)
    (ksize : Nat) (T : Tree K V) (hs : Sorted cmp T.toList) {Γ : List (Frame K V)}
    (hz : zoom cmp key ksize T [] = (Γ, .nil)) :
    ∀ e ∈ T.toList, cmp e.key e.ksize key ksize ≠ 0 := by
  have hbd := zoom_bounds hc key ksize T [] (by simpa [plug] using hs)
    (by simp [ctxBefore]) (by simp [ctxAfter])
  rw [hz] at hbd
  have hT : plug Γ .nil = T := by
    have := zoom_plug cmp key ksize T []
    rw [hz] at this
    exact this
  intro e he
  rw [← hT, toList_plug] at he
  simp only [Tree.toList, List.append_nil, List.mem_append] at he
  rcases he with he | he
  · have := hbd.1 e he
    omega
  · have := hbd.2 e he
    omega

theorem zoom_node_mem (cmp : K → Nat → K → Nat → Int) (key : K) (ksize : Nat) (T : Tree K V)
    {Γ : List (Frame K V)} {x : Nat} {c : rb_color_t} {cs : rb_cursor_st K V}
    {l r : Tree K V} (hz : zoom cmp key ksize T [] = (Γ, .node x c cs l r)) :
    cs ∈ T.toList ∧ cmp cs.key cs.ksize key ksize = 0 := by
  have hT : plug Γ (.node x c cs l r) = T := by
    have := zoom_plug cmp key ksize T []
    rw [hz] at this
    exact this
  refine ⟨?_, zoom_found cmp key ksize T [] (by rw [hz])⟩
  rw [← hT, toList_plug]
  simp [Tree.toList]

/-- In a strictly increasing list at most one entry compares equal to a key. -/
theorem sorted_equal_unique {cmp : K → Nat → K → Nat → Int} (hc : Consistent cmp)
    {l : List (rb_cursor_st K V)} (hs : Sorted cmp l) {key : K} {ksize : Nat}
    {e1 e2 : rb_cursor_st K V} (h1 : e1 ∈ l) (h2 : e2 ∈ l)
    (c1 : cmp e1.key e1.ksize key ksize = 0) (c2 : cmp e2.key e2.ksize key ksize = 0) :
    e1 = e2 := by
  have heq : cmp e1.key e1.ksize e2.key e2.ksize = 0 := hc.eq_trans c1 (hc.eq_symm c2)
  have heq2 := hc.eq_symm heq
  induction l with
  | nil => simp at h1
  | cons a rest ih =>
    obtain ⟨ha, hrest⟩ := List.pairwise_cons.1 hs
    rcases List.mem_cons.1 h1 with rfl | h1b
    · rcases List.mem_cons.1 h2 with rfl | h2b
      · rfl
      · have := ha e2 h2b
        unfold cursorLt at this
        omega
    · rcases List.mem_cons.1 h2 with rfl | h2b
      · have := ha e1 h1b
        unfold cursorLt at this
        omega
      · exact ih hrest h1b h2b

/-- Function `rbtree_search` follows the descent. -/
theorem rbtree_search_spec {t : rbtree_st K V} {T : Tree K V} (h : Abs t T) (key : K)
    (ksize : Nat) (fuel : Nat) (hf : T.height ≤ fuel) :
    rbtree_search fuel t key ksize = some
      (match (zoom t.cmp_fn key ksize T []).2 with
        | .nil => (-1, none)
        | .node _ _ cs _ _ => (0, some cs.data)) := by
  have e := do_lookup_spec t key ksize T fuel h hf
  have hp := zoom_plug t.cmp_fn key ksize T []
  cases hz : zoom t.cmp_fn key ksize T [] with
  | mk Γ S =>
    rw [hz] at e hp
    cases S with
    | nil => simp [rbtree_search, e]
    | node x c cs l r =>
      simp only [plug_nil] at hp
      subst hp
      have hx := Abs.read h
      simp [rbtree_search, e, hx]

/-- Function `rbtree_search` in terms of the stored entries. -/
theorem search_by_list {t : rbtree_st K V} {T : Tree K V} (hI : Inv t T) (key : K)
    (ksize : Nat) :
    (∀ e ∈ T.toList, t.cmp_fn e.key e.ksize key ksize = 0 →
      SearchesTo t key ksize (0, some e.data)) ∧
    ((∀ e ∈ T.toList, t.cmp_fn e.key e.ksize key ksize ≠ 0) →
      SearchesTo t key ksize (-1, none)) := by
  have hsp := rbtree_search_spec hI.2.1 key ksize
  cases hz : zoom t.cmp_fn key ksize T [] with
  | mk Γ S =>
    rw [hz] at hsp
    cases S with
    | nil =>
      have hab := zoom_nil_absent hI.1 key ksize T hI.2.2.1 hz
      exact ⟨fun e he h0 => (hab e he h0).elim, fun _ => ⟨T.height, hsp⟩⟩
    | node x c cs l r =>
      obtain ⟨hm, h0⟩ := zoom_node_mem t.cmp_fn key ksize T hz
      refine ⟨fun e he h1 => ?_, fun hall => (hall cs hm h0).elim⟩
      have := sorted_equal_unique hI.1 hI.2.2.1 he hm h1 h0
      subst this
      exact ⟨T.height, hsp⟩

/-! ## Example trees -/

theorem cmpC_consistent : Consistent cmpC := by
  refine ⟨fun a la b lb => ?_, fun a la b lb c lc h1 h2 => ?_⟩
  · simp only [cmpC]; omega
  · simp only [cmpC] at *; omega

theorem abs_ex3 : Abs ex3 exT3 :=
  ⟨rfl, rfl, ⟨rfl, trivial, trivial⟩, ⟨rfl, trivial, trivial⟩⟩

theorem abs_ex4 : Abs ex4 exT4 :=
  ⟨rfl, rfl, ⟨rfl, trivial, trivial⟩, ⟨rfl, trivial, ⟨rfl, trivial, trivial⟩⟩⟩

theorem sorted_exT3 : Sorted cmpC exT3.toList := by
  simp [Sorted, cursorLt, cmpC, exT3, Tree.toList]

theorem sorted_exT4 : Sorted cmpC exT4.toList := by
  simp [Sorted, cursorLt, cmpC, exT4, Tree.toList]

theorem uniform_exT3 : exT3.UniformBlack := by
  rw [uniformBlack_iff_Bal]
  simp [exT3, Tree.Bal]

theorem uniform_exT4 : exT4.UniformBlack := by
  rw [uniformBlack_iff_Bal]
  simp [exT4, Tree.Bal]

theorem norr_exT3 : exT3.NoRR := by
  simp [exT3, Tree.NoRR]

theorem norr_exT4 : exT4.NoRR := by
  simp [exT4, Tree.NoRR]

/-- A call of `rbtree_insert` on a tree that satisfies the invariant returns
what the model computes with enough fuel. -/
theorem inserts_getD {t : rbtree_st K V} {T : Tree K V} (hI : Inv t T) (key : K) (ksize : Nat)
    (val : V) (a : Nat) (ha : t.mem a = none) (F : Nat) (hF : T.height + 1 ≤ F) :
    InsertsTo t key ksize val a ((rbtree_insert F t key ksize val a).getD t) := by
  cases hz : zoom t.cmp_fn key ksize T [] with
  | mk Γ S =>
    cases S with
    | nil =>
      obtain ⟨t3, T3, e3, -⟩ := inv_insert_new hI key ksize val a ha hz
      rw [e3 F hF]
      exact ⟨_, e3⟩
    | node x c cs l r =>
      obtain ⟨cs2, -, e3, -⟩ := inv_insert_found hI key ksize val a hz
      rw [e3 F (by omega)]
      exact ⟨_, e3⟩

/-- A call of `rbtree_delete` on a tree that satisfies the invariant returns
what the model computes with enough fuel. -/
theorem deletes_getD {t : rbtree_st K V} {T : Tree K V} (hI : Inv t T) (key : K) (ksize : Nat)
    (F : Nat) (hF : T.height + 1 ≤ F) :
    DeletesTo t key ksize ((rbtree_delete F t key ksize).getD t) := by
  cases hz : zoom t.cmp_fn key ksize T [] with
  | mk Γ S =>
    cases S with
    | nil =>
      have e3 := rbtree_delete_absent key ksize hI.2.1 (by rw [hz])
      rw [e3 F (by omega)]
      exact ⟨_, e3⟩
    | node x c cs l r =>
      obtain ⟨t3, T3, e3, -⟩ := inv_delete_found hI key ksize hz
      rw [e3 F hF]
      exact ⟨_, e3⟩

theorem inv_ex0 : Inv ex0 .nil := inv_create true cmpC 0 cmpC_consistent

theorem inv_ex1 : Inv ex1 exT1 :=
  ⟨cmpC_consistent, ⟨rfl, rfl, trivial, trivial⟩,
    (show Sorted cmpC exT1.toList by simp [Sorted, exT1, Tree.toList]), rfl,
    by simp [exT1, Tree.NoRR], by simp [exT1, Tree.Bal], rfl, rfl, rfl⟩

theorem inv_ex2 : Inv ex2 exT2 :=
  ⟨cmpC_consistent, ⟨rfl, rfl, ⟨rfl, trivial, trivial⟩, trivial⟩,
    (show Sorted cmpC exT2.toList by simp [Sorted, cursorLt, cmpC, exT2, Tree.toList]), rfl,
    by simp [exT2, Tree.NoRR], by simp [exT2, Tree.Bal], rfl, rfl, rfl⟩

theorem inv_ex3 : Inv ex3 exT3 :=
  ⟨cmpC_consistent, abs_ex3, sorted_exT3, rfl, norr_exT3, (uniformBlack_iff_Bal _).1 uniform_exT3,
    rfl, rfl, rfl⟩

theorem inv_ex4 : Inv ex4 exT4 :=
  ⟨cmpC_consistent, abs_ex4, sorted_exT4, rfl, norr_exT4, (uniformBlack_iff_Bal _).1 uniform_exT4,
    rfl, rfl, rfl⟩

theorem reach_ex0 : Reachable ex0 := Reachable.create true cmpC 0 cmpC_consistent

theorem reach_ex1 : Reachable ex1 :=
  Reachable.insert 'b' 1 20 0 reach_ex0 rfl (inserts_getD inv_ex0 'b' 1 20 0 rfl 8 (by decide))

theorem reach_ex2 : Reachable ex2 :=
  Reachable.insert 'a' 1 10 1 reach_ex1 rfl (inserts_getD inv_ex1 'a' 1 10 1 rfl 8 (by decide))

theorem reach_ex3 : Reachable ex3 :=
  Reachable.insert 'c' 1 30 2 reach_ex2 rfl (inserts_getD inv_ex2 'c' 1 30 2 rfl 8 (by decide))

theorem reach_ex4 : Reachable ex4 :=
  Reachable.insert 'd' 1 40 3 reach_ex3 rfl (inserts_getD inv_ex3 'd' 1 40 3 rfl 8 (by decide))

theorem entries_ex3 : Entries ex3 [⟨'a', 1, 10⟩, ⟨'b', 1, 20⟩, ⟨'c', 1, 30⟩] :=
  entries_of_inv inv_ex3

theorem entries_ex4 :
    Entries ex4 [⟨'a', 1, 10⟩, ⟨'b', 1, 20⟩, ⟨'c', 1, 30⟩, ⟨'d', 1, 40⟩] :=
  entries_of_inv inv_ex4

/-! ## Claims C1 to C5 -/

/-- The colour rules do not depend on the entry stored in a node. -/
theorem colors_replace_cs {Γ : List (Frame K V)} {x : Nat} {c : rb_color_t}
    {cs : rb_cursor_st K V} (cs2 : rb_cursor_st K V) {l r : Tree K V}
    (hrb : (plug Γ (.node x c cs l r)).RootBlack) (hn : (plug Γ (.node x c cs l r)).NoRR)
    (hb : (plug Γ (.node x c cs l r)).Bal) :
    (plug Γ (.node x c cs2 l r)).RootBlack ∧ (plug Γ (.node x c cs2 l r)).NoRR ∧
      (plug Γ (.node x c cs2 l r)).Bal := by
  refine ⟨?_, ?_, ?_⟩
  · cases Γ with
    | nil => simpa [Tree.RootBlack, plug, isRed_node] using hrb
    | cons f fs => exact (isRed_plug_cons f fs _).2 ((isRed_plug_cons f fs _).1 hrb)
  · rw [NoRR_plug] at hn ⊢
    simpa [Tree.NoRR, isRed_node] using hn
  · rw [Bal_plug] at hb ⊢
    exact hb

/-- C1: `rbtree_insert` preserves the colouring rules. For every tree (a store
`t` holding a shape `T`) that is sorted in order under a consistent comparator
and has (a) a black root, (b) no red node with a red child, (c) the same number
of black nodes on every path from the root to an empty child edge, and for
every key, length and value, the call returns and the tree it leaves again
satisfies (a), (b) and (c). -/
theorem insert_preserves_colour_rules (t : rbtree_st K V) (T : Tree K V) (key : K)
    (ksize : Nat) (val : V) (a : Nat) (hc : Consistent t.cmp_fn) (h : Abs t T)
    (hs : Sorted t.cmp_fn T.toList) (hra : T.RootBlack) (hrb : T.NoRR)
    (hrc : T.UniformBlack) (ha : t.mem a = none) :
    ∃ t2 T2, InsertsTo t key ksize val a t2 ∧ Abs t2 T2 ∧
      T2.RootBlack ∧ T2.NoRR ∧ T2.UniformBlack := by
  have hb := (uniformBlack_iff_Bal T).1 hrc
  cases hz : zoom t.cmp_fn key ksize T [] with
  | mk Γ S =>
    cases S with
    | nil =>
      obtain ⟨t2, T2, e, hA2, -, -, hrb2, hn2, hb2, -⟩ :=
        rbtree_insert_new key ksize val a hc h hs hra hrb hb ha (by rw [hz])
      exact ⟨t2, T2, ⟨_, e⟩, hA2, hrb2, hn2, (uniformBlack_iff_Bal T2).2 hb2⟩
    | node x c cs l r =>
      have hnd := nodup_of_sorted hc h.2 hs
      obtain ⟨cs2, -, e, hA2, hT, -⟩ :=
        rbtree_insert_found key ksize val a h hnd (by rw [hz] : (zoom t.cmp_fn key ksize T []).2
          = .node x c cs l r)
      rw [hz] at e hA2 hT
      simp only at e hA2 hT
      subst hT
      obtain ⟨h1, h2, h3⟩ := colors_replace_cs cs2 hra hrb hb
      exact ⟨_, _, ⟨_, e⟩, hA2.ofEq rfl rfl, h1, h2, (uniformBlack_iff_Bal _).2 h3⟩

/-- Witness of C1: inserting "d" into the tree that holds a, b, c. -/
theorem insert_preserves_colour_rules_witness :
    ∃ t2 T2, InsertsTo ex3 'd' 1 40 3 t2 ∧ Abs t2 T2 ∧
      T2.RootBlack ∧ T2.NoRR ∧ T2.UniformBlack :=
  insert_preserves_colour_rules ex3 exT3 'd' 1 40 3 cmpC_consistent abs_ex3 sorted_exT3 rfl
    norr_exT3 uniform_exT3 rfl

/-- C2: `rbtree_delete` preserves the colouring rules. For every tree that is
sorted in order under a consistent comparator and satisfies (a), (b), (c), and
for every key (stored or not, whatever the number of children of its node and
the place of its successor), the call returns, so the fixup loop never reads
through an absent sibling, and the tree it leaves again satisfies (a), (b)
and (c). -/
theorem delete_preserves_colour_rules (t : rbtree_st K V) (T : Tree K V) (key : K)
    (ksize : Nat) (hc : Consistent t.cmp_fn) (h : Abs t T)
    (hs : Sorted t.cmp_fn T.toList) (hra : T.RootBlack) (hrb : T.NoRR)
    (hrc : T.UniformBlack) :
    ∃ t2 T2, DeletesTo t key ksize t2 ∧ Abs t2 T2 ∧
      T2.RootBlack ∧ T2.NoRR ∧ T2.UniformBlack := by
  have hb := (uniformBlack_iff_Bal T).1 hrc
  cases hz : zoom t.cmp_fn key ksize T [] with
  | mk Γ S =>
    cases S with
    | nil =>
      exact ⟨t, T, ⟨_, rbtree_delete_absent key ksize h (by rw [hz])⟩, h, hra, hrb, hrc⟩
    | node x c cs l r =>
      obtain ⟨t2, T2, e, hA2, -, -, hrb2, hn2, hb2, -⟩ :=
        rbtree_delete_found key ksize hc h hs hra hrb hb hz
      exact ⟨t2, T2, ⟨_, e⟩, hA2, hrb2, hn2, (uniformBlack_iff_Bal T2).2 hb2⟩

/-- Witness of C2: deleting "b", a node with two children whose successor is
not adjacent, from the tree that holds a, b, c, d. -/
theorem delete_preserves_colour_rules_witness :
    ∃ t2 T2, DeletesTo ex4 'b' 1 t2 ∧ Abs t2 T2 ∧
      T2.RootBlack ∧ T2.NoRR ∧ T2.UniformBlack :=
  delete_preserves_colour_rules ex4 exT4 'b' 1 cmpC_consistent abs_ex4 sorted_exT4 rfl
    norr_exT4 uniform_exT4

/-- C3: the order of the keys is an invariant of the reachable trees. For every
tree obtained from `rbtree_create` by calls of `rbtree_insert` and
`rbtree_delete` under a consistent comparator, the traversal that starts at
`rbtree_first` and steps with `rbtree_next` ends, and the keys it yields are
strictly increasing under the comparator: each compares below every later
one, so no two compare equal. -/
theorem reachable_inorder_strictly_increasing (t : rbtree_st K V) (h : Reachable t) :
    ∃ l, Entries t l ∧
      l.Pairwise (fun x y => t.cmp_fn x.key x.ksize y.key y.ksize < 0) := by
  obtain ⟨T, hI⟩ := reach_inv h
  exact ⟨T.toList, entries_of_inv hI, hI.2.2.1⟩

/-- Witness of C3: the tree that holds a, b, c, d. -/
theorem reachable_inorder_strictly_increasing_witness :
    ∃ l, Entries ex4 l ∧
      l.Pairwise (fun x y => ex4.cmp_fn x.key x.ksize y.key y.ksize < 0) :=
  reachable_inorder_strictly_increasing ex4 reach_ex4

/-- C4: inserting a new key adds exactly that entry. For every reachable tree
with entries `l` in order and every key that compares equal to no stored key,
the call returns and the entries of the tree it leaves are `l` with the new
entry put at its place in the order: what comes before compares below the
key, what comes after compares above it, and nothing else changes. -/
theorem insert_new_key_adds_entry (t : rbtree_st K V) (l : List (rb_cursor_st K V))
    (key : K) (ksize : Nat) (val : V) (a : Nat) (h : Reachable t) (ha : t.mem a = none)
    (hl : Entries t l) (hnew : ∀ e ∈ l, t.cmp_fn e.key e.ksize key ksize ≠ 0) :
    ∃ t2 l1 l2, InsertsTo t key ksize val a t2 ∧ l = l1 ++ l2 ∧
      Entries t2 (l1 ++ ⟨key, ksize, val⟩ :: l2) ∧
      (∀ e ∈ l1, t.cmp_fn e.key e.ksize key ksize < 0) ∧
      (∀ e ∈ l2, 0 < t.cmp_fn e.key e.ksize key ksize) := by
  obtain ⟨T, hI⟩ := reach_inv h
  have hlT : l = T.toList := entries_unique hl (entries_of_inv hI)
  subst hlT
  cases hz : zoom t.cmp_fn key ksize T [] with
  | mk Γ S =>
    cases S with
    | nil =>
      obtain ⟨t2, T2, e, hI2, hl1, hl2, hb1, hb2, -⟩ := inv_insert_new hI key ksize val a ha hz
      exact ⟨t2, _, _, ⟨_, e⟩, hl1, hl2 ▸ entries_of_inv hI2, hb1, hb2⟩
    | node x c cs l r =>
      obtain ⟨hm, h0⟩ := zoom_node_mem t.cmp_fn key ksize T hz
      exact (hnew cs hm h0).elim

/-- Witness of C4: "b", "a", "c" are stored and "d" is inserted. -/
theorem insert_new_key_adds_entry_witness :
    ∃ t2 l1 l2, InsertsTo ex3 'd' 1 40 3 t2 ∧
      [⟨'a', 1, 10⟩, ⟨'b', 1, 20⟩, ⟨'c', 1, 30⟩] = l1 ++ l2 ∧
      Entries t2 (l1 ++ ⟨'d', 1, 40⟩ :: l2) ∧
      (∀ e ∈ l1, ex3.cmp_fn e.key e.ksize 'd' 1 < 0) ∧
      (∀ e ∈ l2, 0 < ex3.cmp_fn e.key e.ksize 'd' 1) :=
  insert_new_key_adds_entry ex3 _ 'd' 1 40 3 reach_ex3 rfl entries_ex3 (by
    intro e he
    simp only [List.mem_cons, List.mem_singleton, List.not_mem_nil, or_false] at he
    rcases he with rfl | rfl | rfl <;> decide)

/-- C5: deleting a stored key removes exactly that entry. For every reachable
tree with entries `l` in order and every key that compares equal to a stored
key, the call returns and the entries of the tree it leaves are `l` without
the entry of that key, the others unchanged and in the same order (whatever
the number of children of the removed node). -/
theorem delete_stored_key_removes_entry (t : rbtree_st K V) (l : List (rb_cursor_st K V))
    (key : K) (ksize : Nat) (h : Reachable t) (hl : Entries t l)
    (hin : ∃ e ∈ l, t.cmp_fn e.key e.ksize key ksize = 0) :
    ∃ t2 l1 e l2, DeletesTo t key ksize t2 ∧ l = l1 ++ e :: l2 ∧
      t.cmp_fn e.key e.ksize key ksize = 0 ∧ Entries t2 (l1 ++ l2) := by
  obtain ⟨T, hI⟩ := reach_inv h
  have hlT : l = T.toList := entries_unique hl (entries_of_inv hI)
  subst hlT
  cases hz : zoom t.cmp_fn key ksize T [] with
  | mk Γ S =>
    cases S with
    | nil =>
      obtain ⟨e, he, h0⟩ := hin
      exact (zoom_nil_absent hI.1 key ksize T hI.2.2.1 hz e he h0).elim
    | node x c cs l r =>
      obtain ⟨t2, T2, e, hI2, hl1, hl2, h0, -⟩ := inv_delete_found hI key ksize hz
      exact ⟨t2, _, cs, _, ⟨_, e⟩, hl1, h0, hl2 ▸ entries_of_inv hI2⟩

/-- Witness of C5: deleting "b" from the tree that holds a, b, c, d. -/
theorem delete_stored_key_removes_entry_witness :
    ∃ t2 l1 e l2, DeletesTo ex4 'b' 1 t2 ∧
      [⟨'a', 1, 10⟩, ⟨'b', 1, 20⟩, ⟨'c', 1, 30⟩, ⟨'d', 1, 40⟩] = l1 ++ e :: l2 ∧
      ex4.cmp_fn e.key e.ksize 'b' 1 = 0 ∧ Entries t2 (l1 ++ l2) :=
  delete_stored_key_removes_entry ex4 _ 'b' 1 reach_ex4 entries_ex4
    ⟨⟨'b', 1, 20⟩, by simp, by decide⟩

/-! ## Claims C6 and C7 -/

/-- C6: `rbtree_search` is correct for the stored contents. For every
reachable tree with entries `l` and every key, the call returns; it returns 0
with the value of a stored entry in `*val` exactly when that entry's key
compares equal to the key, and it returns -1, leaving `*val` alone, when no
stored key compares equal. -/
theorem search_correct (t : rbtree_st K V) (l : List (rb_cursor_st K V)) (key : K)
    (ksize : Nat) (h : Reachable t) (hl : Entries t l) :
    ∃ res, SearchesTo t key ksize res ∧
      ((∃ e ∈ l, t.cmp_fn e.key e.ksize key ksize = 0 ∧ res = (0, some e.data)) ∨
        ((∀ e ∈ l, t.cmp_fn e.key e.ksize key ksize ≠ 0) ∧ res = (-1, none))) := by
  obtain ⟨T, hI⟩ := reach_inv h
  have hlT : l = T.toList := entries_unique hl (entries_of_inv hI)
  subst hlT
  obtain ⟨h1, h2⟩ := search_by_list hI key ksize
  by_cases hex : ∃ e ∈ T.toList, t.cmp_fn e.key e.ksize key ksize = 0
  · obtain ⟨e, he, h0⟩ := hex
    exact ⟨_, h1 e he h0, Or.inl ⟨e, he, h0, rfl⟩⟩
  · have hall : ∀ e ∈ T.toList, t.cmp_fn e.key e.ksize key ksize ≠ 0 :=
      fun e he h0 => hex ⟨e, he, h0⟩
    exact ⟨_, h2 hall, Or.inr ⟨hall, rfl⟩⟩

/-- Witness of C6: searching "c" in the tree that holds a, b, c, d. -/
theorem search_correct_witness :
    ∃ res, SearchesTo ex4 'c' 1 res ∧
      ((∃ e ∈ [(⟨'a', 1, 10⟩ : rb_cursor_st Char Nat), ⟨'b', 1, 20⟩, ⟨'c', 1, 30⟩,
          ⟨'d', 1, 40⟩], ex4.cmp_fn e.key e.ksize 'c' 1 = 0 ∧ res = (0, some e.data)) ∨
        ((∀ e ∈ [(⟨'a', 1, 10⟩ : rb_cursor_st Char Nat), ⟨'b', 1, 20⟩, ⟨'c', 1, 30⟩,
          ⟨'d', 1, 40⟩], ex4.cmp_fn e.key e.ksize 'c' 1 ≠ 0) ∧ res = (-1, none))) :=
  search_correct ex4 _ 'c' 1 reach_ex4 entries_ex4

/-- Searches after one entry comparing equal to `key` has been added or
replaced. -/
theorem search_after_update {t t2 : rbtree_st K V} {T T2 : Tree K V} (hI : Inv t T)
    (hI2 : Inv t2 T2) (hcm : t2.cmp_fn = t.cmp_fn) {key : K} {ksize : Nat} {val : V}
    (enew : rb_cursor_st K V) (hen : enew ∈ T2.toList)
    (h0 : t.cmp_fn enew.key enew.ksize key ksize = 0) (hv : enew.data = val)
    (hsub : ∀ e ∈ T.toList, t.cmp_fn e.key e.ksize key ksize ≠ 0 → e ∈ T2.toList)
    (hsup : ∀ e ∈ T2.toList, e = enew ∨ e ∈ T.toList) (k2 : K) (ks2 : Nat) :
    (t.cmp_fn k2 ks2 key ksize = 0 → SearchesTo t2 k2 ks2 (0, some val)) ∧
    (t.cmp_fn k2 ks2 key ksize ≠ 0 → ∀ res, SearchesTo t k2 ks2 res →
      SearchesTo t2 k2 ks2 res) := by
  have hc := hI.1
  obtain ⟨a1, a2⟩ := search_by_list hI k2 ks2
  obtain ⟨b1, b2⟩ := search_by_list hI2 k2 ks2
  rw [hcm] at b1 b2
  refine ⟨fun hk => ?_, fun hk res hres => ?_⟩
  · have := b1 enew hen (hc.eq_trans h0 (hc.eq_symm hk))
    rwa [hv] at this
  · by_cases hex : ∃ e ∈ T.toList, t.cmp_fn e.key e.ksize k2 ks2 = 0
    · obtain ⟨e, he, he0⟩ := hex
      have hr := searches_unique hres (a1 e he he0)
      subst hr
      have hne : t.cmp_fn e.key e.ksize key ksize ≠ 0 :=
        fun hh => hk (hc.eq_trans (hc.eq_symm he0) hh)
      exact b1 e (hsub e he hne) he0
    · have hall : ∀ e ∈ T.toList, t.cmp_fn e.key e.ksize k2 ks2 ≠ 0 :=
        fun e he h0 => hex ⟨e, he, h0⟩
      have hr := searches_unique hres (a2 hall)
      subst hr
      refine b2 (fun e he he0 => ?_)
      rcases hsup e he with rfl | he2
      · exact hk (hc.eq_trans (hc.eq_symm he0) h0)
      · exact hall e he2 he0

/-- C7: insert is a map update under search. For every reachable tree, keys
`key` and `k2` and value `val`, the insert returns, and on the tree it leaves
`rbtree_search` of `k2` gives `(0, val)` when `k2` compares equal to `key`,
and gives what it gave on the tree before when `k2` does not. -/
theorem insert_is_map_update (t : rbtree_st K V) (key : K) (ksize : Nat) (val : V) (a : Nat)
    (h : Reachable t) (ha : t.mem a = none) :
    ∃ t2, InsertsTo t key ksize val a t2 ∧ ∀ (k2 : K) (ks2 : Nat),
      (t.cmp_fn k2 ks2 key ksize = 0 → SearchesTo t2 k2 ks2 (0, some val)) ∧
      (t.cmp_fn k2 ks2 key ksize ≠ 0 → ∀ res, SearchesTo t k2 ks2 res →
        SearchesTo t2 k2 ks2 res) := by
  obtain ⟨T, hI⟩ := reach_inv h
  cases hz : zoom t.cmp_fn key ksize T [] with
  | mk Γ S =>
    cases S with
    | nil =>
      obtain ⟨t2, T2, e, hI2, hl1, hl2, -, -, -, hcm, -⟩ :=
        inv_insert_new hI key ksize val a ha hz
      refine ⟨t2, ⟨_, e⟩, fun k2 ks2 => ?_⟩
      refine search_after_update hI hI2 hcm ⟨key, ksize, val⟩ ?_ (hI.1.refl _ _) rfl
        ?_ ?_ k2 ks2
      · rw [hl2]; simp
      · intro e he _
        rw [hl1] at he
        rw [hl2]
        simp only [List.mem_append, List.mem_cons] at he ⊢
        tauto
      · intro e he
        rw [hl2] at he
        rw [hl1]
        simp only [List.mem_append, List.mem_cons] at he ⊢
        tauto
    | node x c cs l r =>
      obtain ⟨cs2, hcs2, e, hI2, hT, -, h0, h02⟩ := inv_insert_found hI key ksize val a hz
      refine ⟨_, ⟨_, e⟩, fun k2 ks2 => ?_⟩
      have hv : cs2.data = val := by rw [hcs2]; split <;> rfl
      refine search_after_update hI hI2 rfl cs2 ?_ h02 hv ?_ ?_ k2 ks2
      · simp [toList_plug, Tree.toList]
      · intro e he hne
        have hecs : e ≠ cs := by rintro rfl; exact hne h0
        rw [hT] at he
        simp only [toList_plug, Tree.toList, List.mem_append, List.mem_cons] at he ⊢
        tauto
      · intro e he
        rw [hT]
        simp only [toList_plug, Tree.toList, List.mem_append, List.mem_cons] at he ⊢
        tauto

/-- Witness of C7: inserting "d" into the tree that holds a, b, c. -/
theorem insert_is_map_update_witness :
    ∃ t2, InsertsTo ex3 'd' 1 40 3 t2 ∧ ∀ (k2 : Char) (ks2 : Nat),
      (ex3.cmp_fn k2 ks2 'd' 1 = 0 → SearchesTo t2 k2 ks2 (0, some 40)) ∧
      (ex3.cmp_fn k2 ks2 'd' 1 ≠ 0 → ∀ res, SearchesTo ex3 k2 ks2 res →
        SearchesTo t2 k2 ks2 res) :=
  insert_is_map_update ex3 'd' 1 40 3 reach_ex3 rfl

/-! ## Claims C8 to C10 -/

theorem cmpP_consistent : Consistent cmpP := by
  refine ⟨fun a la b lb => ?_, fun a la b lb c lc h1 h2 => ?_⟩
  · simp only [cmpP]; omega
  · simp only [cmpP] at *; omega

theorem inv_cx0 : Inv cx0 .nil := inv_create false cmpP RFLAG_EXTERN_KEY cmpP_consistent

theorem inv_cx1 : Inv cx1 (.node 0 RB_BLACK ⟨1, 1, 10⟩ .nil .nil) :=
  ⟨cmpP_consistent, ⟨rfl, rfl, trivial, trivial⟩,
    (show Sorted cmpP [⟨1, 1, 10⟩] by simp [Sorted]), rfl,
    by simp [Tree.NoRR], by simp [Tree.Bal], rfl, rfl, rfl⟩

theorem inv_cx2 : Inv cx2 (.node 0 RB_BLACK ⟨3, 1, 99⟩ .nil .nil) :=
  ⟨cmpP_consistent, ⟨rfl, rfl, trivial, trivial⟩,
    (show Sorted cmpP [⟨3, 1, 99⟩] by simp [Sorted]), rfl,
    by simp [Tree.NoRR], by simp [Tree.Bal], rfl, rfl, rfl⟩

theorem reach_cx1 : Reachable cx1 :=
  Reachable.insert 1 1 10 0 (Reachable.create false cmpP RFLAG_EXTERN_KEY cmpP_consistent) rfl
    (inserts_getD inv_cx0 1 1 10 0 rfl 8 (by decide))

/-- C8, the claim as stated fails: in external-key mode, on a reachable tree
that stores the key 1, `rbtree_insert` of the key 3, which compares equal to
1, returns and leaves a tree whose only stored key is 3, so the set of keys
has changed. -/
theorem reinsert_extern_changes_key :
    Reachable cx1 ∧ cx1.cmp_fn 1 1 3 1 = 0 ∧ InsertsTo cx1 3 1 99 1 cx2 ∧
      Entries cx1 [⟨1, 1, 10⟩] ∧ Entries cx2 [⟨3, 1, 99⟩] ∧
      ([⟨1, 1, 10⟩] : List (rb_cursor_st Nat Nat)).map (fun e => e.key) ≠
        ([⟨3, 1, 99⟩] : List (rb_cursor_st Nat Nat)).map (fun e => e.key) :=
  ⟨reach_cx1, by decide, inserts_getD inv_cx1 3 1 99 1 rfl 8 (by decide),
    entries_of_inv inv_cx1, entries_of_inv inv_cx2, by decide⟩

/-- C8 as amended: re-inserting a stored key only replaces its entry. For every
reachable tree with entries `l` and every key that compares equal to the key
of a stored entry, the call returns; the node `x` of that entry keeps its
links and its colour and every other node is untouched, the root, first, last
and the count are unchanged, the value of the entry is the new value, and its
key and length are unchanged when the tree copies keys, while in external-key
mode they are the given key and length (which compare equal to the old ones);
every other entry is unchanged. -/
theorem reinsert_replaces_entry (t : rbtree_st K V) (l : List (rb_cursor_st K V)) (key : K)
    (ksize : Nat) (val : V) (a : Nat) (h : Reachable t) (hl : Entries t l)
    (hin : ∃ e ∈ l, t.cmp_fn e.key e.ksize key ksize = 0) :
    ∃ t2 x n l1 l2 cs2, InsertsTo t key ksize val a t2 ∧ t.mem x = some n ∧
      l = l1 ++ n.cs :: l2 ∧ t.cmp_fn n.cs.key n.cs.ksize key ksize = 0 ∧
      cs2 = (if Int.land t.flag RFLAG_EXTERN_KEY ≠ 0 then ⟨key, ksize, val⟩
        else ⟨n.cs.key, n.cs.ksize, val⟩) ∧
      t.cmp_fn cs2.key cs2.ksize key ksize = 0 ∧
      t2.mem x = some { n with cs := cs2 } ∧ (∀ b, b ≠ x → t2.mem b = t.mem b) ∧
      t2.root = t.root ∧ t2.first = t.first ∧ t2.last = t.last ∧ t2.nelem = t.nelem ∧
      Entries t2 (l1 ++ cs2 :: l2) := by
  obtain ⟨T, hI⟩ := reach_inv h
  have hlT : l = T.toList := entries_unique hl (entries_of_inv hI)
  subst hlT
  cases hz : zoom t.cmp_fn key ksize T [] with
  | mk Γ S =>
    cases S with
    | nil =>
      obtain ⟨e, he, h0⟩ := hin
      exact (zoom_nil_absent hI.1 key ksize T hI.2.2.1 hz e he h0).elim
    | node x c cs l r =>
      obtain ⟨cs2, hcs2, e, hI2, hT, hx, h0, h02⟩ := inv_insert_found hI key ksize val a hz
      refine ⟨_, x, ⟨cs, l.ptr, r.ptr, ctxPtr Γ, c⟩, ctxBefore Γ ++ l.toList,
        r.toList ++ ctxAfter Γ, cs2, ⟨_, e⟩, hx, ?_, h0, hcs2, h02, ?_, ?_, rfl, rfl, rfl, rfl,
        ?_⟩
      · rw [hT, toList_plug]; simp [Tree.toList]
      · simp
      · intro b hb
        simp [Function.update_apply, hb]
      · have := entries_of_inv hI2
        rw [toList_plug] at this
        simpa [Tree.toList] using this

/-- Witness of C8 as amended: re-inserting "b" with a new value into the tree
that holds a, b, c, d. -/
theorem reinsert_replaces_entry_witness :
    ∃ t2 x n l1 l2 cs2, InsertsTo ex4 'b' 1 21 4 t2 ∧ ex4.mem x = some n ∧
      [⟨'a', 1, 10⟩, ⟨'b', 1, 20⟩, ⟨'c', 1, 30⟩, ⟨'d', 1, 40⟩] = l1 ++ n.cs :: l2 ∧
      ex4.cmp_fn n.cs.key n.cs.ksize 'b' 1 = 0 ∧
      cs2 = (if Int.land ex4.flag RFLAG_EXTERN_KEY ≠ 0 then ⟨'b', 1, 21⟩
        else ⟨n.cs.key, n.cs.ksize, 21⟩) ∧
      ex4.cmp_fn cs2.key cs2.ksize 'b' 1 = 0 ∧
      t2.mem x = some { n with cs := cs2 } ∧ (∀ b, b ≠ x → t2.mem b = ex4.mem b) ∧
      t2.root = ex4.root ∧ t2.first = ex4.first ∧ t2.last = ex4.last ∧
      t2.nelem = ex4.nelem ∧ Entries t2 (l1 ++ cs2 :: l2) :=
  reinsert_replaces_entry ex4 _ 'b' 1 21 4 reach_ex4 entries_ex4
    ⟨⟨'b', 1, 20⟩, by simp, by decide⟩

/-- C9: deleting an absent key is a no-op. For every reachable tree with
entries `l` and every key that compares equal to no stored key (every key, on
the empty tree), the call returns and leaves the very same tree: count, root,
first, last, every node with its links, colour, key and value, and the log of
destructor calls are what they were. -/
theorem delete_absent_is_noop (t : rbtree_st K V) (l : List (rb_cursor_st K V)) (key : K)
    (ksize : Nat) (h : Reachable t) (hl : Entries t l)
    (habs : ∀ e ∈ l, t.cmp_fn e.key e.ksize key ksize ≠ 0) :
    DeletesTo t key ksize t := by
  obtain ⟨T, hI⟩ := reach_inv h
  have hlT : l = T.toList := entries_unique hl (entries_of_inv hI)
  subst hlT
  cases hz : zoom t.cmp_fn key ksize T [] with
  | mk Γ S =>
    cases S with
    | nil => exact ⟨_, rbtree_delete_absent key ksize hI.2.1 (by rw [hz])⟩
    | node x c cs l r =>
      obtain ⟨hm, h0⟩ := zoom_node_mem t.cmp_fn key ksize T hz
      exact (habs cs hm h0).elim

/-- Witness of C9: deleting "z" from the tree that holds a, b, c, d. -/
theorem delete_absent_is_noop_witness : DeletesTo ex4 'z' 1 ex4 :=
  delete_absent_is_noop ex4 _ 'z' 1 reach_ex4 entries_ex4 (by
    intro e he
    simp only [List.mem_cons, List.mem_singleton, List.not_mem_nil, or_false] at he
    rcases he with rfl | rfl | rfl | rfl <;> decide)

theorem head_of_maps {A B : Type} {l : List A} {m : List B} {f : B → Option A}
    (h : l.map some = m.map f) : m.head?.bind f = l.head? := by
  cases l with
  | nil =>
    cases m with
    | nil => rfl
    | cons b m2 => simp at h
  | cons a l2 =>
    cases m with
    | nil => simp at h
    | cons b m2 =>
      simp only [List.map_cons, List.cons.injEq] at h
      simp [h.1.symm]

theorem getLast_of_maps {A B : Type} {l : List A} {m : List B} {f : B → Option A}
    (h : l.map some = m.map f) : m.getLast?.bind f = l.getLast? := by
  have h2 := congrArg List.reverse h
  rw [← List.map_reverse, ← List.map_reverse] at h2
  have := head_of_maps h2
  simpa [List.head?_reverse] using this

/-- C10: the cached extremes are correct. For every reachable tree, with `T`
the shape of the nodes under its root, whose addresses in order are `T.addrs`
and whose entries in order are `T.toList`: `rbtree_first` returns the leftmost
node under the root and `rbtree_last` the rightmost one; these nodes hold the
first and the last entry, which are the minimum and the maximum under the
comparator: the key of the first node is not above, and the key of the last
node is not below, the key of any node under the root; each of the two cursors
is `NULL` exactly when the root is `NULL`, that is, when no entry is stored;
and the traversal from `rbtree_first` along `rbtree_next` yields the entries
of all nodes under the root. -/
theorem cached_extremes_correct (t : rbtree_st K V) (h : Reachable t) :
    ∃ T, Abs t T ∧ Entries t T.toList ∧
      T.toList.map some = T.addrs.map (fun a => (t.mem a).map (fun n => n.cs)) ∧
      rbtree_first t = T.addrs.head? ∧ rbtree_last t = T.addrs.getLast? ∧
      (rbtree_first t).bind (fun a => (t.mem a).map (fun n => n.cs)) = T.toList.head? ∧
      (rbtree_last t).bind (fun a => (t.mem a).map (fun n => n.cs)) = T.toList.getLast? ∧
      (rbtree_first t = none ↔ t.root = none) ∧ (rbtree_last t = none ↔ t.root = none) ∧
      (t.root = none ↔ T.toList = []) ∧
      (∀ a ∈ T.addrs, ∃ n, t.mem a = some n ∧
        (∀ f nf, rbtree_first t = some f → t.mem f = some nf →
          t.cmp_fn nf.cs.key nf.cs.ksize n.cs.key n.cs.ksize ≤ 0) ∧
        (∀ m nm, rbtree_last t = some m → t.mem m = some nm →
          t.cmp_fn n.cs.key n.cs.ksize nm.cs.key nm.cs.ksize ≤ 0)) ∧
      (∀ f ∈ T.toList.head?, ∀ e ∈ T.toList, t.cmp_fn f.key f.ksize e.key e.ksize ≤ 0) ∧
      (∀ m ∈ T.toList.getLast?, ∀ e ∈ T.toList,
        t.cmp_fn e.key e.ksize m.key m.ksize ≤ 0) := by
  obtain ⟨T, hI⟩ := reach_inv h
  have hent := entries_of_inv hI
  obtain ⟨hc, hA, hs, -, -, -, hf, hl, -⟩ := hI
  have hmap := toList_map_some hA.2
  have hlen : T.toList.length = T.addrs.length := by
    have := congrArg List.length hmap
    simpa using this
  have hnil : T.addrs = [] ↔ T.toList = [] := by
    rw [← List.length_eq_zero, ← List.length_eq_zero (l := T.toList), hlen]
  have hroot : t.root = none ↔ T.addrs = [] := by
    rw [hA.1]
    cases T with
    | nil => simp [Tree.ptr, Tree.addrs]
    | node x c cs l r => simp [Tree.ptr, Tree.addrs]
  have hmin : ∀ f ∈ T.toList.head?, ∀ e ∈ T.toList,
      t.cmp_fn f.key f.ksize e.key e.ksize ≤ 0 := by
    intro f hfm e he
    cases hT : T.toList with
    | nil => rw [hT] at he; simp at he
    | cons a rest =>
      rw [hT] at hfm he hs
      simp only [List.head?_cons, Option.mem_def, Option.some.injEq] at hfm
      subst hfm
      rcases List.mem_cons.1 he with rfl | he2
      · exact le_of_eq (hc.refl _ _)
      · exact le_of_lt ((List.pairwise_cons.1 hs).1 e he2)
  have hmax : ∀ m ∈ T.toList.getLast?, ∀ e ∈ T.toList,
      t.cmp_fn e.key e.ksize m.key m.ksize ≤ 0 := by
    intro m hm e he
    have hne : T.toList ≠ [] := List.ne_nil_of_mem he
    rw [List.getLast?_eq_getLast _ hne] at hm
    simp only [Option.mem_def, Option.some.injEq] at hm
    obtain ⟨init, hinit⟩ : ∃ init, T.toList = init ++ [m] :=
      ⟨T.toList.dropLast, by rw [← hm]; exact (List.dropLast_append_getLast hne).symm⟩
    rw [hinit] at he hs
    rcases List.mem_append.1 he with he2 | he2
    · exact le_of_lt ((List.pairwise_append.1 hs).2.2 e he2 m (by simp))
    · simp only [List.mem_singleton] at he2
      subst he2
      exact le_of_eq (hc.refl _ _)
  have hfst : (rbtree_first t).bind (fun a => (t.mem a).map (fun n => n.cs)) =
      T.toList.head? := by rw [rbtree_first, hf]; exact head_of_maps hmap
  have hlst : (rbtree_last t).bind (fun a => (t.mem a).map (fun n => n.cs)) =
      T.toList.getLast? := by rw [rbtree_last, hl]; exact getLast_of_maps hmap
  refine ⟨T, hA, hent, hmap, hf, hl, hfst, hlst, ?_, ?_, hroot.trans hnil, ?_, hmin, hmax⟩
  · rw [rbtree_first, hf, List.head?_eq_none_iff]; exact hroot.symm
  · rw [rbtree_last, hl, List.getLast?_eq_none_iff]; exact hroot.symm
  · intro a ha
    obtain ⟨n, hn⟩ := Option.ne_none_iff_exists'.1 (mem_of_Repr hA.2 ha)
    have hnm : n.cs ∈ T.toList := by
      have : some n.cs ∈ T.toList.map some := by
        rw [hmap]
        exact List.mem_map.2 ⟨a, ha, by simp [hn]⟩
      simpa using this
    refine ⟨n, hn, fun f nf e1 e2 => ?_, fun m nm e1 e2 => ?_⟩
    · refine hmin nf.cs ?_ n.cs hnm
      rw [← hfst, e1]
      simp [e2]
    · refine hmax nm.cs ?_ n.cs hnm
      rw [← hlst, e1]
      simp [e2]

/-- Witness of C10: the tree that holds a, b, c, d. -/
theorem cached_extremes_correct_witness :
    ∃ T, Abs ex4 T ∧ Entries ex4 T.toList ∧
      T.toList.map some = T.addrs.map (fun a => (ex4.mem a).map (fun n => n.cs)) ∧
      rbtree_first ex4 = T.addrs.head? ∧ rbtree_last ex4 = T.addrs.getLast? ∧
      (rbtree_first ex4).bind (fun a => (ex4.mem a).map (fun n => n.cs)) = T.toList.head? ∧
      (rbtree_last ex4).bind (fun a => (ex4.mem a).map (fun n => n.cs)) = T.toList.getLast? ∧
      (rbtree_first ex4 = none ↔ ex4.root = none) ∧
      (rbtree_last ex4 = none ↔ ex4.root = none) ∧
      (ex4.root = none ↔ T.toList = []) ∧
      (∀ a ∈ T.addrs, ∃ n, ex4.mem a = some n ∧
        (∀ f nf, rbtree_first ex4 = some f → ex4.mem f = some nf →
          ex4.cmp_fn nf.cs.key nf.cs.ksize n.cs.key n.cs.ksize ≤ 0) ∧
        (∀ m nm, rbtree_last ex4 = some m → ex4.mem m = some nm →
          ex4.cmp_fn n.cs.key n.cs.ksize nm.cs.key nm.cs.ksize ≤ 0)) ∧
      (∀ f ∈ T.toList.head?, ∀ e ∈ T.toList, ex4.cmp_fn f.key f.ksize e.key e.ksize ≤ 0) ∧
      (∀ m ∈ T.toList.getLast?, ∀ e ∈ T.toList,
        ex4.cmp_fn e.key e.ksize m.key m.ksize ≤ 0) :=
  cached_extremes_correct ex4 reach_ex4

/-! ## Function default_cmp (claim C20) -/

theorem memcmp_from_agree (s1 s2 : Nat → Nat) :
    ∀ (n i : Nat), (∀ j, i ≤ j → j < i + n → s1 j % 256 = s2 j % 256) →
      memcmp_from s1 s2 i n = 0 := by
  intro n
  induction n with
  | zero => intro i _; rfl
  | succ k ih =>
    intro i h
    rw [memcmp_from, if_pos (h i (le_refl i) (by omega))]
    exact ih (i + 1) (fun j h1 h2 => h j (by omega) (by omega))

theorem int_of_u32_small (x : Nat) (h : x < 2 ^ 31) : int_of_u32 x = (x : Int) := by
  have h1 : x % 2 ^ 32 = x := Nat.mod_eq_of_lt (by omega)
  rw [int_of_u32, h1, if_pos h]

theorem wrap_int_small (z : Int) (h1 : -(2 ^ 31) ≤ z) (h2 : z < 2 ^ 31) : wrap_int z = z := by
  rw [wrap_int, Int.emod_eq_of_lt (by omega) (by omega)]
  omega

/-- Function `default_cmp` on a proper prefix, both lengths below `2 ^ 31`:
the shorter key sorts first. -/
theorem default_cmp_shorter_first (a : Nat → Nat) (la : Nat) (b : Nat → Nat) (lb : Nat)
    (hp : ProperInit a la b lb) (hb : lb < 2 ^ 31) :
    default_cmp a la b lb < 0 ∧ 0 < default_cmp b lb a la := by
  obtain ⟨hlt, hpre⟩ := hp
  have ha : la < 2 ^ 31 := by omega
  have h1 : la % 2 ^ 32 = la := Nat.mod_eq_of_lt (by omega)
  have h2 : lb % 2 ^ 32 = lb := Nat.mod_eq_of_lt (by omega)
  have m1 : memcmp a b la = 0 :=
    memcmp_from_agree a b la 0 (fun j _ hj => hpre j (by omega))
  have m2 : memcmp b a la = 0 :=
    memcmp_from_agree b a la 0 (fun j _ hj => (hpre j (by omega)).symm)
  constructor
  · simp only [default_cmp, h1, h2, if_pos hlt, m1, ne_eq, not_true_eq_false, if_false]
    rw [int_of_u32_small la ha, int_of_u32_small lb hb, wrap_int_small _ (by omega) (by omega)]
    omega
  · simp only [default_cmp, h1, h2, if_neg (Nat.lt_asymm hlt), m2, ne_eq, not_true_eq_false,
      if_false]
    rw [int_of_u32_small la ha, int_of_u32_small lb hb, wrap_int_small _ (by omega) (by omega)]
    omega

/-- C20, the code at a failing input: `default_cmp` is the comparator of a
tree created without one; the key of one zero byte is a proper
byte-prefix of the key of 2147483653 zero bytes, yet `default_cmp` returns the
positive number 2147483644 for (short, long) and the negative number
-2147483644 for (long, short): the long key sorts first. -/
theorem default_cmp_long_key_sign :
    (rbtree_create_default true 0 : rbtree_st (Nat → Nat) Nat).cmp_fn = default_cmp ∧
      ProperInit (fun _ => 0) 1 (fun _ => 0) 2147483653 ∧
      default_cmp (fun _ => 0) 1 (fun _ => 0) 2147483653 = 2147483644 ∧
      default_cmp (fun _ => 0) 2147483653 (fun _ => 0) 1 = -2147483644 := by
  refine ⟨rfl, ⟨by decide, fun i _ => rfl⟩, ?_, ?_⟩
  · simp [default_cmp, memcmp, memcmp_from, int_of_u32, wrap_int]
  · simp [default_cmp, memcmp, memcmp_from, int_of_u32, wrap_int]

/-! ## Claims C14 and C15 -/

/-- C14: overwriting destructs the old value exactly once. For every reachable
tree with a destructor registered and entries `l`, the insert returns and the
value read back for the key is the new one; when a stored entry compares
equal to the key, the log of destructor calls grows by exactly one call, on
the value of that entry; when no stored key compares equal, the log does not
grow. -/
theorem overwrite_destructs_old_once (t : rbtree_st K V) (l : List (rb_cursor_st K V))
    (key : K) (ksize : Nat) (val : V) (a : Nat) (h : Reachable t)
    (hd : t.data_free = true) (ha : t.mem a = none) (hl : Entries t l) :
    ∃ t2, InsertsTo t key ksize val a t2 ∧ SearchesTo t2 key ksize (0, some val) ∧
      (∀ e ∈ l, t.cmp_fn e.key e.ksize key ksize = 0 → t2.freed = t.freed ++ [e.data]) ∧
      ((∀ e ∈ l, t.cmp_fn e.key e.ksize key ksize ≠ 0) → t2.freed = t.freed) := by
  obtain ⟨T, hI⟩ := reach_inv h
  have hlT : l = T.toList := entries_unique hl (entries_of_inv hI)
  subst hlT
  have hc := hI.1
  cases hz : zoom t.cmp_fn key ksize T [] with
  | mk Γ S =>
    cases S with
    | nil =>
      obtain ⟨t2, T2, e, hI2, -, hT2, -, -, hfr, hcm, -, -⟩ :=
        inv_insert_new hI key ksize val a ha hz
      have hs := (search_by_list hI2 key ksize).1 ⟨key, ksize, val⟩
        (by rw [hT2]; simp) (by rw [hcm]; exact hc.refl key ksize)
      refine ⟨t2, ⟨_, e⟩, hs, fun e1 he1 h0 => ?_, fun _ => hfr⟩
      exact (zoom_nil_absent hc key ksize T hI.2.2.1 hz e1 he1 h0).elim
    | node x c cs l r =>
      obtain ⟨cs2, hcs2, e, hI2, hT, hx, h0, h02⟩ := inv_insert_found hI key ksize val a hz
      have hv : cs2.data = val := by rw [hcs2]; split <;> rfl
      have hs := (search_by_list hI2 key ksize).1 cs2
        (by rw [toList_plug]; simp [Tree.toList]) h02
      rw [hv] at hs
      have hm : cs ∈ T.toList := by rw [hT, toList_plug]; simp [Tree.toList]
      refine ⟨_, ⟨_, e⟩, hs, fun e1 he1 h1 => ?_, fun hall => (hall cs hm h0).elim⟩
      have : e1 = cs := sorted_equal_unique hc hI.2.2.1 he1 hm h1 h0
      subst this
      simp [hd]

/-- Witness of C14: re-inserting "b" into the tree that holds a, b, c, d. -/
theorem overwrite_destructs_old_once_witness :
    ∃ t2, InsertsTo ex4 'b' 1 21 4 t2 ∧ SearchesTo t2 'b' 1 (0, some 21) ∧
      (∀ e ∈ [(⟨'a', 1, 10⟩ : rb_cursor_st Char Nat), ⟨'b', 1, 20⟩, ⟨'c', 1, 30⟩,
          ⟨'d', 1, 40⟩], ex4.cmp_fn e.key e.ksize 'b' 1 = 0 → t2.freed = ex4.freed ++ [e.data]) ∧
      ((∀ e ∈ [(⟨'a', 1, 10⟩ : rb_cursor_st Char Nat), ⟨'b', 1, 20⟩, ⟨'c', 1, 30⟩,
          ⟨'d', 1, 40⟩], ex4.cmp_fn e.key e.ksize 'b' 1 ≠ 0) → t2.freed = ex4.freed) :=
  overwrite_destructs_old_once ex4 _ 'b' 1 21 4 reach_ex4 rfl rfl entries_ex4

/-- C15: a successful delete destructs exactly the removed value. For every
reachable tree with a destructor registered and entries `l`, and every key
that compares equal to the key of a stored entry `e`, the delete returns, the
log of destructor calls grows by exactly one call, on the value of `e`, and
the entries left are those of `l` without `e`. -/
theorem delete_destructs_removed_once (t : rbtree_st K V) (l : List (rb_cursor_st K V))
    (key : K) (ksize : Nat) (h : Reachable t) (hd : t.data_free = true) (hl : Entries t l)
    (hin : ∃ e ∈ l, t.cmp_fn e.key e.ksize key ksize = 0) :
    ∃ t2 l1 e l2, DeletesTo t key ksize t2 ∧ l = l1 ++ e :: l2 ∧
      t.cmp_fn e.key e.ksize key ksize = 0 ∧ t2.freed = t.freed ++ [e.data] ∧
      Entries t2 (l1 ++ l2) := by
  obtain ⟨T, hI⟩ := reach_inv h
  have hlT : l = T.toList := entries_unique hl (entries_of_inv hI)
  subst hlT
  cases hz : zoom t.cmp_fn key ksize T [] with
  | mk Γ S =>
    cases S with
    | nil =>
      obtain ⟨e, he, h0⟩ := hin
      exact (zoom_nil_absent hI.1 key ksize T hI.2.2.1 hz e he h0).elim
    | node x c cs l r =>
      obtain ⟨t2, T2, e, hI2, hT, hT2, h0, hfr, -⟩ := inv_delete_found hI key ksize hz
      refine ⟨t2, _, cs, _, ⟨_, e⟩, hT, h0, ?_, ?_⟩
      · rw [hfr, if_pos hd]
      · rw [← hT2]; exact entries_of_inv hI2

/-- Witness of C15: deleting "b", a node with two children, from the tree that
holds a, b, c, d. -/
theorem delete_destructs_removed_once_witness :
    ∃ t2 l1 e l2, DeletesTo ex4 'b' 1 t2 ∧
      [(⟨'a', 1, 10⟩ : rb_cursor_st Char Nat), ⟨'b', 1, 20⟩, ⟨'c', 1, 30⟩, ⟨'d', 1, 40⟩] =
        l1 ++ e :: l2 ∧
      ex4.cmp_fn e.key e.ksize 'b' 1 = 0 ∧ t2.freed = ex4.freed ++ [e.data] ∧
      Entries t2 (l1 ++ l2) :=
  delete_destructs_removed_once ex4 _ 'b' 1 reach_ex4 rfl entries_ex4
    ⟨⟨'b', 1, 20⟩, by simp, by decide⟩

/-! ## The loop of rbtree_foreach -/

/-- The loop of `rbtree_foreach` over a stretch of the tree on which the
callback returns 0 throughout. -/
theorem foreach_from_zero {D : Type} {t : rbtree_st K V} {T : Tree K V} (h : Abs t T)
    (hnd : T.addrs.Nodup) (fuel : Nat) (hf : T.height ≤ fuel) (data : D)
    (fn : K → Int → V → D → Int) :
    ∀ (suf pre : List Nat) (n : Nat) (log : List (K × Int × V))
      (ents : List (rb_cursor_st K V)), T.addrs = pre ++ suf → suf.length ≤ n →
      ents.map some = suf.map (fun a => (t.mem a).map (fun nd => nd.cs)) →
      (∀ e ∈ ents, fn e.key (int_of_u32 e.ksize) e.data data = 0) →
      foreach_from fuel t data fn n suf.head? log = some (0, log ++ ents.map callArgs) := by
  intro suf
  induction suf with
  | nil =>
    intro pre n log ents _ _ he _
    cases ents with
    | nil => simp [foreach_from]
    | cons e es => simp at he
  | cons a rest ih =>
    intro pre n log ents e hn he h0
    cases n with
    | zero => simp at hn
    | succ k =>
      cases ents with
      | nil => simp at he
      | cons e1 es =>
        simp only [List.map_cons, List.cons.injEq] at he
        obtain ⟨he1, he2⟩ := he
        have ha : a ∈ T.addrs := by rw [e]; simp
        obtain ⟨nd, hnd2⟩ := Option.ne_none_iff_exists'.1 (mem_of_Repr h.2 ha)
        rw [hnd2] at he1
        simp only [Option.map_some', Option.some.injEq] at he1
        have hnx := rbtree_next_spec h hnd e fuel hf
        subst he1
        have hz := h0 nd.cs (by simp)
        have hrec := ih (pre ++ [a]) k (log ++ [callArgs nd.cs]) es (by simp [e])
          (by simp only [List.length_cons] at hn; omega) he2
          (fun x hx => h0 x (by simp [hx]))
        simp only [List.head?_cons, foreach_from, hnd2, Option.bind_eq_bind, Option.some_bind,
          hz, ne_eq, not_true_eq_false, if_false, hnx]
        simpa [callArgs, List.append_assoc] using hrec

/-- The loop of `rbtree_foreach` up to the first entry on which the callback
returns a non-zero value. -/
theorem foreach_from_stop {D : Type} {t : rbtree_st K V} {T : Tree K V} (h : Abs t T)
    (hnd : T.addrs.Nodup) (fuel : Nat) (hf : T.height ≤ fuel) (data : D)
    (fn : K → Int → V → D → Int) (e : rb_cursor_st K V) (l2 : List (rb_cursor_st K V))
    (hr : fn e.key (int_of_u32 e.ksize) e.data data ≠ 0) :
    ∀ (suf pre : List Nat) (n : Nat) (log : List (K × Int × V))
      (l1 : List (rb_cursor_st K V)), T.addrs = pre ++ suf → suf.length ≤ n →
      (l1 ++ e :: l2).map some = suf.map (fun a => (t.mem a).map (fun nd => nd.cs)) →
      (∀ x ∈ l1, fn x.key (int_of_u32 x.ksize) x.data data = 0) →
      foreach_from fuel t data fn n suf.head? log =
        some (fn e.key (int_of_u32 e.ksize) e.data data, log ++ (l1 ++ [e]).map callArgs) := by
  intro suf
  induction suf with
  | nil =>
    intro pre n log l1 _ _ he _
    simp at he
  | cons a rest ih =>
    intro pre n log l1 ea hn he h0
    cases n with
    | zero => simp at hn
    | succ k =>
      have ha : a ∈ T.addrs := by rw [ea]; simp
      obtain ⟨nd, hnd2⟩ := Option.ne_none_iff_exists'.1 (mem_of_Repr h.2 ha)
      cases l1 with
      | nil =>
        simp only [List.nil_append, List.map_cons, List.cons.injEq, hnd2, Option.map_some',
          Option.some.injEq] at he
        obtain ⟨he1, -⟩ := he
        rw [he1] at hr
        simp only [List.head?_cons, foreach_from, hnd2, Option.bind_eq_bind, Option.some_bind,
          ne_eq, hr, not_false_eq_true, if_true]
        simp [callArgs, he1]
      | cons e1 es =>
        simp only [List.cons_append, List.map_cons, List.cons.injEq, hnd2, Option.map_some',
          Option.some.injEq] at he
        obtain ⟨he1, he2⟩ := he
        have hnx := rbtree_next_spec h hnd ea fuel hf
        subst he1
        have hz := h0 nd.cs (by simp)
        have hrec := ih (pre ++ [a]) k (log ++ [callArgs nd.cs]) es (by simp [ea])
          (by simp only [List.length_cons] at hn; omega) he2
          (fun x hx => h0 x (by simp [hx]))
        simp only [List.head?_cons, foreach_from, hnd2, Option.bind_eq_bind, Option.some_bind,
          hz, ne_eq, not_true_eq_false, if_false, hnx]
        simpa [callArgs, List.append_assoc] using hrec

theorem callArgs_small (e : rb_cursor_st K V) (h : e.ksize < 2 ^ 31) :
    callArgs e = (e.key, (e.ksize : Int), e.data) := by
  rw [callArgs, int_of_u32_small e.ksize h]

/-! ## Claims C17 and C18 -/

/-- C17 as amended: `rbtree_foreach` is a complete traversal in order that
hands the key length to the callback as an `int`. For every reachable tree,
with `T` the shape of the nodes under its root and `l` the entries of these
nodes in order (strictly ascending in the keys), and every callback that
always returns 0, the call returns 0 after exactly one call of the callback
per entry, in the order of `l`, each with the key, the key length converted
to `int` (the length itself when it is below `2 ^ 31`, the length minus
`2 ^ 32` from there on) and the value of the entry; with a `NULL` callback it
returns 0 without any call. -/
theorem foreach_visits_all {D : Type} (t : rbtree_st K V) (l : List (rb_cursor_st K V))
    (data : D) (fn : K → Int → V → D → Int) (h : Reachable t) (hl : Entries t l)
    (h0 : ∀ k s v d, fn k s v d = 0) :
    ∃ T, Abs t T ∧ T.toList = l ∧
      l.map some = T.addrs.map (fun a => (t.mem a).map (fun n => n.cs)) ∧
      ForeachTo t data (some fn)
        (0, l.map (fun e => (e.key, int_of_u32 e.ksize, e.data))) ∧
      l.Pairwise (fun x y => t.cmp_fn x.key x.ksize y.key y.ksize < 0) ∧
      (∀ e ∈ l, e.ksize < 2 ^ 31 → int_of_u32 e.ksize = (e.ksize : Int)) ∧
      (∀ e ∈ l, 2 ^ 31 ≤ e.ksize → e.ksize < 2 ^ 32 →
        int_of_u32 e.ksize = (e.ksize : Int) - 2 ^ 32) ∧
      ForeachTo t data none (0, []) := by
  obtain ⟨T, hI⟩ := reach_inv h
  have hlT : l = T.toList := entries_unique hl (entries_of_inv hI)
  subst hlT
  refine ⟨T, hI.2.1, rfl, toList_map_some hI.2.1.2,
    ⟨T.height + T.addrs.length, fun fuel hfu => ?_⟩, hI.2.2.1,
    fun e _ hs => int_of_u32_small e.ksize hs, fun e _ h1 h2 => ?_, ⟨0, fun _ _ => rfl⟩⟩
  · have := foreach_from_zero hI.2.1 hI.nodup fuel (by omega) data fn T.addrs [] fuel []
      T.toList rfl (by omega) (toList_map_some hI.2.1.2) (fun e _ => h0 _ _ _ _)
    simpa [rbtree_foreach, rbtree_first, hI.2.2.2.2.2.2.1, callArgs] using this
  · have hm : e.ksize % 2 ^ 32 = e.ksize := Nat.mod_eq_of_lt h2
    rw [int_of_u32, hm, if_neg (by omega)]

/-- Witness of C17 as amended: the callback that always returns 0 on the tree
that holds a, b, c, d. -/
theorem foreach_visits_all_witness :
    ∃ T, Abs ex4 T ∧
      T.toList = [(⟨'a', 1, 10⟩ : rb_cursor_st Char Nat), ⟨'b', 1, 20⟩, ⟨'c', 1, 30⟩,
        ⟨'d', 1, 40⟩] ∧
      [(⟨'a', 1, 10⟩ : rb_cursor_st Char Nat), ⟨'b', 1, 20⟩, ⟨'c', 1, 30⟩,
          ⟨'d', 1, 40⟩].map some = T.addrs.map (fun a => (ex4.mem a).map (fun n => n.cs)) ∧
      ForeachTo ex4 () (some (fun _ _ _ _ => 0))
        (0, [(⟨'a', 1, 10⟩ : rb_cursor_st Char Nat), ⟨'b', 1, 20⟩, ⟨'c', 1, 30⟩,
          ⟨'d', 1, 40⟩].map (fun e => (e.key, int_of_u32 e.ksize, e.data))) ∧
      [(⟨'a', 1, 10⟩ : rb_cursor_st Char Nat), ⟨'b', 1, 20⟩, ⟨'c', 1, 30⟩,
          ⟨'d', 1, 40⟩].Pairwise (fun x y => ex4.cmp_fn x.key x.ksize y.key y.ksize < 0) ∧
      (∀ e ∈ [(⟨'a', 1, 10⟩ : rb_cursor_st Char Nat), ⟨'b', 1, 20⟩, ⟨'c', 1, 30⟩,
          ⟨'d', 1, 40⟩], e.ksize < 2 ^ 31 → int_of_u32 e.ksize = (e.ksize : Int)) ∧
      (∀ e ∈ [(⟨'a', 1, 10⟩ : rb_cursor_st Char Nat), ⟨'b', 1, 20⟩, ⟨'c', 1, 30⟩,
          ⟨'d', 1, 40⟩], 2 ^ 31 ≤ e.ksize → e.ksize < 2 ^ 32 →
        int_of_u32 e.ksize = (e.ksize : Int) - 2 ^ 32) ∧
      ForeachTo ex4 () none (0, []) :=
  foreach_visits_all ex4 _ () (fun _ _ _ _ => 0) reach_ex4 entries_ex4 (fun _ _ _ _ => rfl)

/-- A member of a strictly increasing list splits it into the smaller entries
and the larger ones. -/
theorem sorted_split {cmp : K → Nat → K → Nat → Int} {l : List (rb_cursor_st K V)}
    (hs : Sorted cmp l) {e : rb_cursor_st K V} (he : e ∈ l) :
    ∃ l1 l2, l = l1 ++ e :: l2 ∧ (∀ x ∈ l1, cmp x.key x.ksize e.key e.ksize < 0) ∧
      (∀ x ∈ l2, cmp e.key e.ksize x.key x.ksize < 0) := by
  obtain ⟨l1, l2, rfl⟩ := List.append_of_mem he
  refine ⟨l1, l2, rfl, fun x hx => ?_, fun x hx => ?_⟩
  · exact (List.pairwise_append.1 hs).2.2 x hx e (by simp)
  · exact (List.pairwise_cons.1 (List.pairwise_append.1 hs).2.1).1 x hx

/-- C18: `rbtree_foreach` stops at the first non-zero result of the callback.
For every reachable tree with entries `l`, if the callback returns `r`, not 0,
on the entry `e` and 0 on every entry with a smaller key, the call returns
`r` and the calls made are exactly those on the entries before `e` and on `e`
itself: no entry with a larger key is visited. -/
theorem foreach_stops_early {D : Type} (t : rbtree_st K V) (l : List (rb_cursor_st K V))
    (data : D) (fn : K → Int → V → D → Int) (e : rb_cursor_st K V) (r : Int)
    (h : Reachable t) (hl : Entries t l) (he : e ∈ l)
    (hr : fn e.key (int_of_u32 e.ksize) e.data data = r) (hr0 : r ≠ 0)
    (hz : ∀ x ∈ l, t.cmp_fn x.key x.ksize e.key e.ksize < 0 →
      fn x.key (int_of_u32 x.ksize) x.data data = 0) :
    ∃ l1 l2, l = l1 ++ e :: l2 ∧
      ForeachTo t data (some fn) (r, (l1 ++ [e]).map callArgs) ∧
      (∀ x ∈ l1, t.cmp_fn x.key x.ksize e.key e.ksize < 0) ∧
      (∀ x ∈ l2, t.cmp_fn e.key e.ksize x.key x.ksize < 0) := by
  obtain ⟨T, hI⟩ := reach_inv h
  have hlT : l = T.toList := entries_unique hl (entries_of_inv hI)
  subst hlT
  obtain ⟨l1, l2, e12, hlt, hgt⟩ := sorted_split hI.2.2.1 he
  refine ⟨l1, l2, e12, ⟨T.height + T.addrs.length, fun fuel hfu => ?_⟩, hlt, hgt⟩
  have hm := toList_map_some hI.2.1.2
  rw [e12] at hm
  have := foreach_from_stop hI.2.1 hI.nodup fuel (by omega) data fn e l2 (by rw [hr]; exact hr0)
    T.addrs [] fuel [] l1 rfl (by omega) hm
    (fun x hx => hz x (by rw [e12]; simp [hx]) (hlt x hx))
  rw [hr] at this
  simpa [rbtree_foreach, rbtree_first, hI.2.2.2.2.2.2.1] using this

/-- Witness of C18: on the tree that holds a, b, c, d, a callback that returns
7 on the key "c" and 0 elsewhere. -/
theorem foreach_stops_early_witness :
    ∃ l1 l2, [(⟨'a', 1, 10⟩ : rb_cursor_st Char Nat), ⟨'b', 1, 20⟩, ⟨'c', 1, 30⟩,
        ⟨'d', 1, 40⟩] = l1 ++ ⟨'c', 1, 30⟩ :: l2 ∧
      ForeachTo ex4 () (some (fun k _ _ _ => if k = 'c' then 7 else 0))
        (7, (l1 ++ [⟨'c', 1, 30⟩]).map callArgs) ∧
      (∀ x ∈ l1, ex4.cmp_fn x.key x.ksize 'c' 1 < 0) ∧
      (∀ x ∈ l2, ex4.cmp_fn 'c' 1 x.key x.ksize < 0) :=
  foreach_stops_early ex4 _ () (fun k _ _ _ => if k = 'c' then 7 else 0) ⟨'c', 1, 30⟩ 7
    reach_ex4 entries_ex4 (by simp) rfl (by decide) (by decide)

/-! ## Entries along a path -/

theorem ctxAfter_map_some {m : Nat → Option (rbtree_node_st K V)} :
    ∀ (Γ : List (Frame K V)) (hp : Option Nat), ReprCtx m Γ hp →
      (ctxAfter Γ).map some = (ctxAfterA Γ).map (fun a => (m a).map (fun n => n.cs)) := by
  intro Γ
  induction Γ with
  | nil => intro _ _; rfl
  | cons f fs ih =>
    intro hp h
    obtain ⟨hcell, hsib, hrest⟩ := h
    cases hl : f.isLeft with
    | true => simp [ctxAfter, ctxAfterA, hl, hcell, toList_map_some hsib, ih _ hrest]
    | false => simp [ctxAfter, ctxAfterA, hl, ih _ hrest]

theorem ctxBefore_map_some {m : Nat → Option (rbtree_node_st K V)} :
    ∀ (Γ : List (Frame K V)) (hp : Option Nat), ReprCtx m Γ hp →
      (ctxBefore Γ).map some = (ctxBeforeA Γ).map (fun a => (m a).map (fun n => n.cs)) := by
  intro Γ
  induction Γ with
  | nil => intro _ _; rfl
  | cons f fs ih =>
    intro hp h
    obtain ⟨hcell, hsib, hrest⟩ := h
    cases hl : f.isLeft with
    | true => simp [ctxBefore, ctxBeforeA, hl, ih _ hrest]
    | false => simp [ctxBefore, ctxBeforeA, hl, hcell, toList_map_some hsib, ih _ hrest]

theorem lower_bound_loop_null (fuel : Nat) (t : rbtree_st K V) (key : K) (ksize n : Nat) :
    lower_bound_loop fuel t key ksize n none = some none := by
  cases n <;> rfl

theorem upper_bound_loop_null (fuel : Nat) (t : rbtree_st K V) (key : K) (ksize n : Nat) :
    upper_bound_loop fuel t key ksize n none = some none := by
  cases n <;> rfl

/-- A cursor at the head of a stretch of addresses holds the head of the
matching stretch of entries. -/
theorem head_cell {m : Nat → Option (rbtree_node_st K V)} {es : List (rb_cursor_st K V)}
    {as : List Nat} (h : es.map some = as.map (fun a => (m a).map (fun n => n.cs))) {b : Nat}
    (hb : as.head? = some b) : ∃ n rest, m b = some n ∧ es = n.cs :: rest := by
  cases as with
  | nil => simp at hb
  | cons a1 as1 =>
    simp only [List.head?_cons, Option.some.injEq] at hb
    subst hb
    cases es with
    | nil => simp at h
    | cons e1 es1 =>
      simp only [List.map_cons, List.cons.injEq] at h
      cases hm : m a1 with
      | none => rw [hm] at h; simp at h
      | some n =>
        rw [hm] at h
        simp only [Option.map_some', Option.some.injEq] at h
        exact ⟨n, es1, rfl, by rw [h.1]⟩

/-- A cursor at the end of a stretch of addresses holds the last of the
matching stretch of entries. -/
theorem last_cell {m : Nat → Option (rbtree_node_st K V)} {es : List (rb_cursor_st K V)}
    {as : List Nat} (h : es.map some = as.map (fun a => (m a).map (fun n => n.cs))) {b : Nat}
    (hb : as.getLast? = some b) : ∃ n init, m b = some n ∧ es = init ++ [n.cs] := by
  have h2 := congrArg List.reverse h
  rw [← List.map_reverse, ← List.map_reverse] at h2
  have hb2 : as.reverse.head? = some b := by rw [List.head?_reverse]; exact hb
  obtain ⟨n, rest, hm, he⟩ := head_cell h2 hb2
  refine ⟨n, rest.reverse, hm, ?_⟩
  have := congrArg List.reverse he
  simpa using this

/-! ## Functions rbtree_lower_bound and rbtree_upper_bound -/

/-- Function `rbtree_lower_bound` on a key that is not stored: the first node
after the empty edge on which the descent ends. -/
theorem lower_bound_absent {t : rbtree_st K V} {T : Tree K V} (hI : Inv t T) (key : K)
    (ksize : Nat) {Γ : List (Frame K V)} (hz : zoom t.cmp_fn key ksize T [] = (Γ, .nil))
    (fuel : Nat) (hf : T.height + 2 ≤ fuel) :
    rbtree_lower_bound fuel t key ksize = some (ctxAfterA Γ).head? := by
  have hc := hI.1
  have hA := hI.2.1
  have hs := hI.2.2.1
  have hnd := hI.nodup
  have hlk := do_lookup_spec t key ksize T fuel hA (by omega)
  rw [hz] at hlk
  have hT : plug Γ .nil = T := by
    have := zoom_plug t.cmp_fn key ksize T []
    rw [hz] at this
    exact this
  have hbd := zoom_bounds hc key ksize T [] (by simpa [plug] using hs)
    (by simp [ctxBefore]) (by simp [ctxAfter])
  rw [hz] at hbd
  simp only [rbtree_lower_bound, hlk, Option.bind_eq_bind, Option.some_bind, Tree.ptr]
  subst hT
  obtain ⟨hctx, -⟩ := (Repr_plug Γ .nil).1 hA.2
  cases Γ with
  | nil => exact lower_bound_loop_null _ _ _ _ _
  | cons f fs =>
    obtain ⟨k, rfl⟩ : ∃ k, fuel = k + 2 := ⟨fuel - 2, by omega⟩
    obtain ⟨hcell, hsib, hrest⟩ := hctx
    cases hl : f.isLeft with
    | true =>
      have hgt : 0 < t.cmp_fn f.cs.key f.cs.ksize key ksize :=
        hbd.2 f.cs (by simp [ctxAfter, hl])
      simp [ctxPtr, lower_bound_loop, hcell, ctxAfterA, hl, not_lt.2 (le_of_lt hgt)]
    | false =>
      have hlt : t.cmp_fn f.cs.key f.cs.ksize key ksize < 0 :=
        hbd.1 f.cs (by simp [ctxBefore, hl])
      have hpl : plug (f :: fs) .nil = plug fs (.node f.a f.c f.cs f.sib .nil) := by
        simp [plug, Frame.plug, hl]
      rw [hpl] at hA hnd hf
      have hnx := rb_next_spec hA hnd (k + 2) (by omega)
      simp only [Tree.addrs, List.nil_append] at hnx
      simp only [ctxPtr, lower_bound_loop, hcell, Option.bind_eq_bind, Option.some_bind, hlt,
        if_true, hnx, ctxAfterA, hl, Bool.false_eq_true, if_false]
      cases hh : (ctxAfterA fs).head? with
      | none => exact lower_bound_loop_null _ _ _ _ _
      | some b =>
        obtain ⟨n, rest, hm, he⟩ := head_cell (ctxAfter_map_some fs _ hrest) hh
        have hgt : 0 < t.cmp_fn n.cs.key n.cs.ksize key ksize :=
          hbd.2 n.cs (by simp [ctxAfter, hl, he])
        simp [lower_bound_loop, hm, not_lt.2 (le_of_lt hgt)]

/-- Function `rbtree_upper_bound` on a key that is not stored: the last node
before the empty edge on which the descent ends. -/
theorem upper_bound_absent {t : rbtree_st K V} {T : Tree K V} (hI : Inv t T) (key : K)
    (ksize : Nat) {Γ : List (Frame K V)} (hz : zoom t.cmp_fn key ksize T [] = (Γ, .nil))
    (fuel : Nat) (hf : T.height + 2 ≤ fuel) :
    rbtree_upper_bound fuel t key ksize = some (ctxBeforeA Γ).getLast? := by
  have hc := hI.1
  have hA := hI.2.1
  have hs := hI.2.2.1
  have hnd := hI.nodup
  have hlk := do_lookup_spec t key ksize T fuel hA (by omega)
  rw [hz] at hlk
  have hT : plug Γ .nil = T := by
    have := zoom_plug t.cmp_fn key ksize T []
    rw [hz] at this
    exact this
  have hbd := zoom_bounds hc key ksize T [] (by simpa [plug] using hs)
    (by simp [ctxBefore]) (by simp [ctxAfter])
  rw [hz] at hbd
  simp only [rbtree_upper_bound, hlk, Option.bind_eq_bind, Option.some_bind, Tree.ptr]
  subst hT
  obtain ⟨hctx, -⟩ := (Repr_plug Γ .nil).1 hA.2
  cases Γ with
  | nil => exact upper_bound_loop_null _ _ _ _ _
  | cons f fs =>
    obtain ⟨k, rfl⟩ : ∃ k, fuel = k + 2 := ⟨fuel - 2, by omega⟩
    obtain ⟨hcell, hsib, hrest⟩ := hctx
    cases hl : f.isLeft with
    | false =>
      have hlt : t.cmp_fn f.cs.key f.cs.ksize key ksize < 0 :=
        hbd.1 f.cs (by simp [ctxBefore, hl])
      simp [ctxPtr, upper_bound_loop, hcell, ctxBeforeA, hl, not_lt.2 (le_of_lt hlt)]
    | true =>
      have hgt : 0 < t.cmp_fn f.cs.key f.cs.ksize key ksize :=
        hbd.2 f.cs (by simp [ctxAfter, hl])
      have hpl : plug (f :: fs) .nil = plug fs (.node f.a f.c f.cs .nil f.sib) := by
        simp [plug, Frame.plug, hl]
      rw [hpl] at hA hnd hf
      have hpv := rb_prev_spec hA hnd (k + 2) (by omega)
      simp only [Tree.addrs, List.append_nil] at hpv
      simp only [ctxPtr, upper_bound_loop, hcell, Option.bind_eq_bind, Option.some_bind, gt_iff_lt,
        hgt, if_true, hpv, ctxBeforeA, hl]
      cases hh : (ctxBeforeA fs).getLast? with
      | none => exact upper_bound_loop_null _ _ _ _ _
      | some b =>
        obtain ⟨n, init, hm, he⟩ := last_cell (ctxBefore_map_some fs _ hrest) hh
        have hlt : t.cmp_fn n.cs.key n.cs.ksize key ksize < 0 :=
          hbd.1 n.cs (by simp [ctxBefore, hl, he])
        simp [upper_bound_loop, hm, not_lt.2 (le_of_lt hlt)]

/-- Functions `rbtree_lower_bound` and `rbtree_upper_bound` on a stored key:
the node that holds it. -/
theorem bounds_found {t : rbtree_st K V} {T : Tree K V} (hA : Abs t T) (key : K)
    (ksize : Nat) {Γ : List (Frame K V)} {x : Nat} {c : rb_color_t} {cs : rb_cursor_st K V}
    {l r : Tree K V} (hz : zoom t.cmp_fn key ksize T [] = (Γ, .node x c cs l r))
    (fuel : Nat) (hf : T.height ≤ fuel) :
    rbtree_lower_bound fuel t key ksize = some (some x) ∧
      rbtree_upper_bound fuel t key ksize = some (some x) := by
  have hlk := do_lookup_spec t key ksize T fuel hA hf
  rw [hz] at hlk
  simp [rbtree_lower_bound, rbtree_upper_bound, hlk, Tree.ptr]

/-! ## Ceiling and floor in a sorted list -/

/-- In a strictly increasing list, an entry not below the key whose
predecessors are all below the key is the smallest entry not below the key,
and it is the match when the key is stored. -/
theorem ceiling_props {cmp : K → Nat → K → Nat → Int} (hc : Consistent cmp)
    {l1 l2 : List (rb_cursor_st K V)} {c0 : rb_cursor_st K V} {key : K} {ksize : Nat}
    (hs : Sorted cmp (l1 ++ c0 :: l2)) (h1 : ∀ e ∈ l1, cmp e.key e.ksize key ksize < 0)
    (h0 : 0 ≤ cmp c0.key c0.ksize key ksize) :
    (∀ e ∈ l1 ++ c0 :: l2, 0 ≤ cmp e.key e.ksize key ksize →
      cmp c0.key c0.ksize e.key e.ksize ≤ 0) ∧
    ((∃ e ∈ l1 ++ c0 :: l2, cmp e.key e.ksize key ksize = 0) →
      cmp c0.key c0.ksize key ksize = 0) := by
  have hlt : ∀ e ∈ l2, cmp c0.key c0.ksize e.key e.ksize < 0 :=
    fun e he => (List.pairwise_cons.1 (List.pairwise_append.1 hs).2.1).1 e he
  refine ⟨fun e he hge => ?_, fun hex => ?_⟩
  · rcases List.mem_append.1 he with he1 | he2
    · have := h1 e he1; omega
    · rcases List.mem_cons.1 he2 with rfl | he3
      · exact le_of_eq (hc.refl _ _)
      · exact le_of_lt (hlt e he3)
  · obtain ⟨e, he, he0⟩ := hex
    rcases List.mem_append.1 he with he1 | he2
    · have := h1 e he1; omega
    · rcases List.mem_cons.1 he2 with rfl | he3
      · exact he0
      · have := hc.lt_of_lt_of_le (hlt e he3) (le_of_eq he0)
        omega

/-- In a strictly increasing list, an entry not above the key whose
successors are all above the key is the largest entry not above the key, and
it is the match when the key is stored. -/
theorem floor_props {cmp : K → Nat → K → Nat → Int} (hc : Consistent cmp)
    {l1 l2 : List (rb_cursor_st K V)} {c0 : rb_cursor_st K V} {key : K} {ksize : Nat}
    (hs : Sorted cmp (l1 ++ c0 :: l2)) (h2 : ∀ e ∈ l2, 0 < cmp e.key e.ksize key ksize)
    (h0 : cmp c0.key c0.ksize key ksize ≤ 0) :
    (∀ e ∈ l1 ++ c0 :: l2, cmp e.key e.ksize key ksize ≤ 0 →
      cmp e.key e.ksize c0.key c0.ksize ≤ 0) ∧
    ((∃ e ∈ l1 ++ c0 :: l2, cmp e.key e.ksize key ksize = 0) →
      cmp c0.key c0.ksize key ksize = 0) := by
  have hlt : ∀ e ∈ l1, cmp e.key e.ksize c0.key c0.ksize < 0 :=
    fun e he => (List.pairwise_append.1 hs).2.2 e he c0 (by simp)
  refine ⟨fun e he hle => ?_, fun hex => ?_⟩
  · rcases List.mem_append.1 he with he1 | he2
    · exact le_of_lt (hlt e he1)
    · rcases List.mem_cons.1 he2 with rfl | he3
      · exact le_of_eq (hc.refl _ _)
      · have := h2 e he3; omega
  · obtain ⟨e, he, he0⟩ := hex
    rcases List.mem_append.1 he with he1 | he2
    · have h3 := hc.lt_of_le_of_lt (le_of_eq (hc.eq_symm he0)) (hlt e he1)
      have := (hc.flip _ _ _ _).1 h3
      omega
    · rcases List.mem_cons.1 he2 with rfl | he3
      · exact he0
      · have := h2 e he3; omega

theorem map_some_nil_iff {m : Nat → Option (rbtree_node_st K V)}
    {es : List (rb_cursor_st K V)} {as : List Nat}
    (h : es.map some = as.map (fun a => (m a).map (fun n => n.cs))) : as = [] ↔ es = [] := by
  have := congrArg List.length h
  simp only [List.length_map] at this
  rw [← List.length_eq_zero, ← List.length_eq_zero (l := es), this]

/-! ## Claims C12 and C13 -/

theorem inv_ey1 : Inv ey1 eyT1 :=
  ⟨cmpC_consistent, ⟨rfl, rfl, trivial, trivial⟩,
    (show Sorted cmpC eyT1.toList by simp [Sorted, eyT1, Tree.toList]), rfl,
    by simp [eyT1, Tree.NoRR], by simp [eyT1, Tree.Bal], rfl, rfl, rfl⟩

theorem inv_ey2 : Inv ey2 eyT2 :=
  ⟨cmpC_consistent, ⟨rfl, rfl, trivial, ⟨rfl, trivial, trivial⟩⟩,
    (show Sorted cmpC eyT2.toList by simp [Sorted, cursorLt, cmpC, eyT2, Tree.toList]), rfl,
    by simp [eyT2, Tree.NoRR], by simp [eyT2, Tree.Bal], rfl, rfl, rfl⟩

theorem inv_ey3 : Inv ey3 eyT3 :=
  ⟨cmpC_consistent, ⟨rfl, rfl, ⟨rfl, trivial, trivial⟩, ⟨rfl, trivial, trivial⟩⟩,
    (show Sorted cmpC eyT3.toList by simp [Sorted, cursorLt, cmpC, eyT3, Tree.toList]), rfl,
    by simp [eyT3, Tree.NoRR], by simp [eyT3, Tree.Bal], rfl, rfl, rfl⟩

theorem reach_ey1 : Reachable ey1 :=
  Reachable.insert 'a' 1 10 0 reach_ex0 rfl (inserts_getD inv_ex0 'a' 1 10 0 rfl 8 (by decide))

theorem reach_ey2 : Reachable ey2 :=
  Reachable.insert 'c' 1 30 1 reach_ey1 rfl (inserts_getD inv_ey1 'c' 1 30 1 rfl 8 (by decide))

theorem reach_ey3 : Reachable ey3 :=
  Reachable.insert 'e' 1 50 2 reach_ey2 rfl (inserts_getD inv_ey2 'e' 1 50 2 rfl 8 (by decide))

theorem entries_ey3 : Entries ey3 [⟨'a', 1, 10⟩, ⟨'c', 1, 30⟩, ⟨'e', 1, 50⟩] :=
  entries_of_inv inv_ey3

/-- C12: `rbtree_lower_bound` is a ceiling query. For every reachable tree
with entries `l` and every key, the call returns; it returns `NULL` exactly
when every stored key is strictly below the key; otherwise it returns a node
of the tree whose key is not below the key while every entry before it is
below the key, so that its key is the smallest stored key not below the key,
and it is the match when the key is stored. -/
theorem lower_bound_is_ceiling (t : rbtree_st K V) (l : List (rb_cursor_st K V)) (key : K)
    (ksize : Nat) (h : Reachable t) (hl : Entries t l) :
    ∃ res, LowerBoundsTo t key ksize res ∧
      (res = none ↔ ∀ e ∈ l, t.cmp_fn e.key e.ksize key ksize < 0) ∧
      (∀ a, res = some a → ∃ n l1 l2, t.mem a = some n ∧ l = l1 ++ n.cs :: l2 ∧
        0 ≤ t.cmp_fn n.cs.key n.cs.ksize key ksize ∧
        (∀ e ∈ l1, t.cmp_fn e.key e.ksize key ksize < 0) ∧
        (∀ e ∈ l, 0 ≤ t.cmp_fn e.key e.ksize key ksize →
          t.cmp_fn n.cs.key n.cs.ksize e.key e.ksize ≤ 0) ∧
        ((∃ e ∈ l, t.cmp_fn e.key e.ksize key ksize = 0) →
          t.cmp_fn n.cs.key n.cs.ksize key ksize = 0)) := by
  obtain ⟨T, hI⟩ := reach_inv h
  have hlT : l = T.toList := entries_unique hl (entries_of_inv hI)
  subst hlT
  have hc := hI.1
  have hs := hI.2.2.1
  have hbd := zoom_bounds hc key ksize T [] (by simpa [plug] using hs)
    (by simp [ctxBefore]) (by simp [ctxAfter])
  have hT := zoom_plug t.cmp_fn key ksize T []
  cases hz : zoom t.cmp_fn key ksize T [] with
  | mk Γ S =>
    rw [hz] at hbd hT
    simp only [plug] at hT
    obtain ⟨hb1, hb2⟩ := hbd
    cases S with
    | nil =>
      have hL : T.toList = ctxBefore Γ ++ ctxAfter Γ := by
        rw [← hT, toList_plug]; simp [Tree.toList]
      have hctx : ReprCtx t.mem Γ none := by
        have := hI.2.1.2
        rw [← hT] at this
        exact ((Repr_plug Γ .nil).1 this).1
      have hmap := ctxAfter_map_some Γ _ hctx
      refine ⟨_, ⟨T.height + 2, fun fuel hf => lower_bound_absent hI key ksize hz fuel hf⟩,
        ?_, ?_⟩
      · rw [List.head?_eq_none_iff, map_some_nil_iff hmap]
        constructor
        · intro he e hm
          rw [hL, he, List.append_nil] at hm
          exact hb1 e hm
        · intro hall
          cases hca : ctxAfter Γ with
          | nil => rfl
          | cons e es =>
            have h1 := hall e (by rw [hL, hca]; simp)
            have h2 := hb2 e (by rw [hca]; simp)
            omega
      · intro a ha
        obtain ⟨n, rest, hm, he⟩ := head_cell hmap ha
        have hL2 : T.toList = ctxBefore Γ ++ n.cs :: rest := by rw [hL, he]
        have h0 : 0 ≤ t.cmp_fn n.cs.key n.cs.ksize key ksize :=
          le_of_lt (hb2 n.cs (by rw [he]; simp))
        rw [hL2] at hs
        obtain ⟨p1, p2⟩ := ceiling_props hc hs hb1 h0
        rw [hL2]
        exact ⟨n, ctxBefore Γ, rest, hm, rfl, h0, hb1, p1, p2⟩
    | node x c cs l r =>
      have h0 := (zoom_node_mem t.cmp_fn key ksize T hz).2
      have hA := hI.2.1
      rw [← hT] at hA
      have hcell := hA.read
      have hL : T.toList = (ctxBefore Γ ++ l.toList) ++ cs :: (r.toList ++ ctxAfter Γ) := by
        rw [← hT, toList_plug]; simp [Tree.toList]
      rw [hL] at hs
      have hlt : ∀ e ∈ ctxBefore Γ ++ l.toList, t.cmp_fn e.key e.ksize key ksize < 0 := by
        intro e he
        exact hc.lt_of_lt_of_le ((List.pairwise_append.1 hs).2.2 e he cs (by simp)) (le_of_eq h0)
      refine ⟨_, ⟨T.height, fun fuel hf => (bounds_found hI.2.1 key ksize hz fuel hf).1⟩, ?_, ?_⟩
      · constructor
        · intro he; cases he
        · intro hall
          have := hall cs (by rw [hL]; simp)
          omega
      · intro a ha
        cases ha
        obtain ⟨p1, p2⟩ := ceiling_props hc hs hlt (le_of_eq h0.symm)
        rw [hL]
        exact ⟨_, _, _, hcell, rfl, le_of_eq h0.symm, hlt, p1, p2⟩

/-- Witness of C12: with the keys a, c, e stored, the lower bound of "b" is the
node (at address 1) that holds "c". -/
theorem lower_bound_is_ceiling_witness :
    rbtree_lower_bound 8 ey3 'b' 1 = some (some 1) ∧
      (ey3.mem 1).map (fun n => n.cs.key) = some 'c' ∧
      ∃ res, LowerBoundsTo ey3 'b' 1 res ∧
        (res = none ↔ ∀ e ∈ [(⟨'a', 1, 10⟩ : rb_cursor_st Char Nat), ⟨'c', 1, 30⟩,
          ⟨'e', 1, 50⟩], ey3.cmp_fn e.key e.ksize 'b' 1 < 0) ∧
        (∀ a, res = some a → ∃ n l1 l2, ey3.mem a = some n ∧
          [(⟨'a', 1, 10⟩ : rb_cursor_st Char Nat), ⟨'c', 1, 30⟩, ⟨'e', 1, 50⟩] =
            l1 ++ n.cs :: l2 ∧
          0 ≤ ey3.cmp_fn n.cs.key n.cs.ksize 'b' 1 ∧
          (∀ e ∈ l1, ey3.cmp_fn e.key e.ksize 'b' 1 < 0) ∧
          (∀ e ∈ [(⟨'a', 1, 10⟩ : rb_cursor_st Char Nat), ⟨'c', 1, 30⟩, ⟨'e', 1, 50⟩],
            0 ≤ ey3.cmp_fn e.key e.ksize 'b' 1 →
            ey3.cmp_fn n.cs.key n.cs.ksize e.key e.ksize ≤ 0) ∧
          ((∃ e ∈ [(⟨'a', 1, 10⟩ : rb_cursor_st Char Nat), ⟨'c', 1, 30⟩, ⟨'e', 1, 50⟩],
            ey3.cmp_fn e.key e.ksize 'b' 1 = 0) →
            ey3.cmp_fn n.cs.key n.cs.ksize 'b' 1 = 0)) :=
  ⟨rfl, rfl, lower_bound_is_ceiling ey3 _ 'b' 1 reach_ey3 entries_ey3⟩

/-- C13: `rbtree_upper_bound` is a floor query. For every reachable tree with
entries `l` and every key, the call returns; it returns `NULL` exactly when
every stored key is strictly above the key; otherwise it returns a node of
the tree whose key is not above the key while every entry after it is above
the key, so that its key is the largest stored key not above the key, and it
is the match when the key is stored. -/
theorem upper_bound_is_floor (t : rbtree_st K V) (l : List (rb_cursor_st K V)) (key : K)
    (ksize : Nat) (h : Reachable t) (hl : Entries t l) :
    ∃ res, UpperBoundsTo t key ksize res ∧
      (res = none ↔ ∀ e ∈ l, 0 < t.cmp_fn e.key e.ksize key ksize) ∧
      (∀ a, res = some a → ∃ n l1 l2, t.mem a = some n ∧ l = l1 ++ n.cs :: l2 ∧
        t.cmp_fn n.cs.key n.cs.ksize key ksize ≤ 0 ∧
        (∀ e ∈ l2, 0 < t.cmp_fn e.key e.ksize key ksize) ∧
        (∀ e ∈ l, t.cmp_fn e.key e.ksize key ksize ≤ 0 →
          t.cmp_fn e.key e.ksize n.cs.key n.cs.ksize ≤ 0) ∧
        ((∃ e ∈ l, t.cmp_fn e.key e.ksize key ksize = 0) →
          t.cmp_fn n.cs.key n.cs.ksize key ksize = 0)) := by
  obtain ⟨T, hI⟩ := reach_inv h
  have hlT : l = T.toList := entries_unique hl (entries_of_inv hI)
  subst hlT
  have hc := hI.1
  have hs := hI.2.2.1
  have hbd := zoom_bounds hc key ksize T [] (by simpa [plug] using hs)
    (by simp [ctxBefore]) (by simp [ctxAfter])
  have hT := zoom_plug t.cmp_fn key ksize T []
  cases hz : zoom t.cmp_fn key ksize T [] with
  | mk Γ S =>
    rw [hz] at hbd hT
    simp only [plug] at hT
    obtain ⟨hb1, hb2⟩ := hbd
    cases S with
    | nil =>
      have hL : T.toList = ctxBefore Γ ++ ctxAfter Γ := by
        rw [← hT, toList_plug]; simp [Tree.toList]
      have hctx : ReprCtx t.mem Γ none := by
        have := hI.2.1.2
        rw [← hT] at this
        exact ((Repr_plug Γ .nil).1 this).1
      have hmap := ctxBefore_map_some Γ _ hctx
      refine ⟨_, ⟨T.height + 2, fun fuel hf => upper_bound_absent hI key ksize hz fuel hf⟩,
        ?_, ?_⟩
      · rw [List.getLast?_eq_none_iff, map_some_nil_iff hmap]
        constructor
        · intro he e hm
          rw [hL, he, List.nil_append] at hm
          exact hb2 e hm
        · intro hall
          cases hcb : ctxBefore Γ with
          | nil => rfl
          | cons e es =>
            have h1 := hall e (by rw [hL, hcb]; simp)
            have h2 := hb1 e (by rw [hcb]; simp)
            omega
      · intro a ha
        obtain ⟨n, init, hm, he⟩ := last_cell hmap ha
        have hL2 : T.toList = init ++ n.cs :: ctxAfter Γ := by rw [hL, he]; simp
        have h0 : t.cmp_fn n.cs.key n.cs.ksize key ksize ≤ 0 :=
          le_of_lt (hb1 n.cs (by rw [he]; simp))
        rw [hL2] at hs
        obtain ⟨p1, p2⟩ := floor_props hc hs hb2 h0
        rw [hL2]
        exact ⟨n, init, ctxAfter Γ, hm, rfl, h0, hb2, p1, p2⟩
    | node x c cs l r =>
      have h0 := (zoom_node_mem t.cmp_fn key ksize T hz).2
      have hA := hI.2.1
      rw [← hT] at hA
      have hcell := hA.read
      have hL : T.toList = (ctxBefore Γ ++ l.toList) ++ cs :: (r.toList ++ ctxAfter Γ) := by
        rw [← hT, toList_plug]; simp [Tree.toList]
      rw [hL] at hs
      have hgt : ∀ e ∈ r.toList ++ ctxAfter Γ, 0 < t.cmp_fn e.key e.ksize key ksize := by
        intro e he
        have h1 : t.cmp_fn cs.key cs.ksize e.key e.ksize < 0 :=
          (List.pairwise_cons.1 (List.pairwise_append.1 hs).2.1).1 e he
        have h2 := hc.lt_of_le_of_lt (le_of_eq (hc.eq_symm h0)) h1
        exact (hc.flip _ _ _ _).1 h2
      refine ⟨_, ⟨T.height, fun fuel hf => (bounds_found hI.2.1 key ksize hz fuel hf).2⟩, ?_, ?_⟩
      · constructor
        · intro he; cases he
        · intro hall
          have := hall cs (by rw [hL]; simp)
          omega
      · intro a ha
        cases ha
        obtain ⟨p1, p2⟩ := floor_props hc hs hgt (le_of_eq h0)
        rw [hL]
        exact ⟨_, _, _, hcell, rfl, le_of_eq h0, hgt, p1, p2⟩

/-- Witness of C13: with the keys a, c, e stored, the upper bound of "b" is the
node (at address 0) that holds "a". -/
theorem upper_bound_is_floor_witness :
    rbtree_upper_bound 8 ey3 'b' 1 = some (some 0) ∧
      (ey3.mem 0).map (fun n => n.cs.key) = some 'a' ∧
      ∃ res, UpperBoundsTo ey3 'b' 1 res ∧
        (res = none ↔ ∀ e ∈ [(⟨'a', 1, 10⟩ : rb_cursor_st Char Nat), ⟨'c', 1, 30⟩,
          ⟨'e', 1, 50⟩], 0 < ey3.cmp_fn e.key e.ksize 'b' 1) ∧
        (∀ a, res = some a → ∃ n l1 l2, ey3.mem a = some n ∧
          [(⟨'a', 1, 10⟩ : rb_cursor_st Char Nat), ⟨'c', 1, 30⟩, ⟨'e', 1, 50⟩] =
            l1 ++ n.cs :: l2 ∧
          ey3.cmp_fn n.cs.key n.cs.ksize 'b' 1 ≤ 0 ∧
          (∀ e ∈ l2, 0 < ey3.cmp_fn e.key e.ksize 'b' 1) ∧
          (∀ e ∈ [(⟨'a', 1, 10⟩ : rb_cursor_st Char Nat), ⟨'c', 1, 30⟩, ⟨'e', 1, 50⟩],
            ey3.cmp_fn e.key e.ksize 'b' 1 ≤ 0 →
            ey3.cmp_fn e.key e.ksize n.cs.key n.cs.ksize ≤ 0) ∧
          ((∃ e ∈ [(⟨'a', 1, 10⟩ : rb_cursor_st Char Nat), ⟨'c', 1, 30⟩, ⟨'e', 1, 50⟩],
            ey3.cmp_fn e.key e.ksize 'b' 1 = 0) →
            ey3.cmp_fn n.cs.key n.cs.ksize 'b' 1 = 0)) :=
  ⟨rfl, rfl, upper_bound_is_floor ey3 _ 'b' 1 reach_ey3 entries_ey3⟩

/-! ## Stepping between neighbours -/

theorem split_unique_pre {p1 p2 s1 s2 : List Nat} {a : Nat} (h : p1 ++ a :: s1 = p2 ++ a :: s2)
    (hnd : (p1 ++ a :: s1).Nodup) : p1 = p2 := by
  have hs := split_unique h hnd
  subst hs
  exact List.append_cancel_right h

theorem rbtree_prev_spec {t : rbtree_st K V} {T : Tree K V} (h : Abs t T) (hnd : T.addrs.Nodup)
    {pre suf : List Nat} {a : Nat} (e : T.addrs = pre ++ a :: suf) (fuel : Nat)
    (hf : T.height ≤ fuel) : rbtree_prev fuel t a = some pre.getLast? := by
  have ha : a ∈ T.addrs := by rw [e]; simp
  obtain ⟨Γ, c, cs, l, r, rfl⟩ := exists_zipper T a ha
  have e2 : (plug Γ (.node a c cs l r)).addrs =
      (ctxBeforeA Γ ++ l.addrs) ++ a :: (r.addrs ++ ctxAfterA Γ) := by
    simp [addrs_plug, Tree.addrs]
  have e3 := split_unique_pre (e2.symm.trans e) (e2 ▸ hnd)
  rw [← e3]
  exact rb_prev_spec h hnd fuel hf

/-- Entries and addresses that match one to one split at the same place. -/
theorem split_map {f : Nat → Option (rb_cursor_st K V)} :
    ∀ (pre : List Nat) (es : List (rb_cursor_st K V)) (a : Nat) (suf : List Nat),
      es.map some = (pre ++ a :: suf).map f →
      ∃ l1 c l2, es = l1 ++ c :: l2 ∧ l1.map some = pre.map f ∧ f a = some c ∧
        l2.map some = suf.map f := by
  intro pre
  induction pre with
  | nil =>
    intro es a suf h
    cases es with
    | nil => simp at h
    | cons e es1 =>
      simp only [List.nil_append, List.map_cons, List.cons.injEq] at h
      exact ⟨[], e, es1, rfl, rfl, h.1.symm, h.2⟩
  | cons p ps ih =>
    intro es a suf h
    cases es with
    | nil => simp at h
    | cons e es1 =>
      simp only [List.cons_append, List.map_cons, List.cons.injEq] at h
      obtain ⟨l1, c, l2, h1, h2, h3, h4⟩ := ih es1 a suf h.2
      refine ⟨e :: l1, c, l2, by rw [h1]; rfl, ?_, h3, h4⟩
      simp [h.1, h2]

theorem head_none_iff_last {pre suf : List Nat} {a : Nat} (hnd : (pre ++ a :: suf).Nodup) :
    suf.head? = none ↔ (pre ++ a :: suf).getLast? = some a := by
  constructor
  · intro h
    rw [List.head?_eq_none_iff] at h
    subst h
    simp
  · intro h
    cases suf with
    | nil => rfl
    | cons b bs =>
      exfalso
      have h1 : (pre ++ a :: b :: bs).getLast? = (b :: bs).getLast? := by
        rw [show pre ++ a :: b :: bs = (pre ++ [a]) ++ (b :: bs) by simp]
        exact List.getLast?_append_of_ne_nil _ (by simp)
      rw [h1] at h
      have hm : a ∈ b :: bs := List.mem_of_getLast?_eq_some h
      have := (List.nodup_append.1 hnd).2.1
      exact (List.nodup_cons.1 this).1 hm

theorem last_none_iff_head {pre suf : List Nat} {a : Nat} (hnd : (pre ++ a :: suf).Nodup) :
    pre.getLast? = none ↔ (pre ++ a :: suf).head? = some a := by
  constructor
  · intro h
    rw [List.getLast?_eq_none_iff] at h
    subst h
    simp
  · intro h
    cases pre with
    | nil => rfl
    | cons b bs =>
      exfalso
      simp only [List.cons_append, List.head?_cons, Option.some.injEq] at h
      subst h
      simp at hnd

/-! ## Claim C19 -/

/-- C19: cursor stepping follows the order of the entries. For every reachable
tree with entries `l`, held as the shape `T`, and every node `a` of `T`:
`rbtree_next(a)` and `rbtree_prev(a)` return; `rbtree_next(a)` is `NULL`
exactly when `a` is the last node and otherwise is the node of the tree with
the smallest stored key strictly above the key of `a`; `rbtree_prev(a)` is
`NULL` exactly when `a` is the first node and otherwise is the node with the
largest stored key strictly below; stepping back from `rbtree_next(a)` gives
`a` again, and so does stepping forward from `rbtree_prev(a)`. -/
theorem cursor_steps_in_order (t : rbtree_st K V) (l : List (rb_cursor_st K V))
    (h : Reachable t) (hl : Entries t l) :
    ∃ T, Abs t T ∧ T.toList = l ∧ ∀ a ∈ T.addrs, ∃ n nx pv, t.mem a = some n ∧ n.cs ∈ l ∧
      NextsTo t a nx ∧ PrevsTo t a pv ∧
      (nx = none ↔ rbtree_last t = some a) ∧ (pv = none ↔ rbtree_first t = some a) ∧
      (∀ b, nx = some b → ∃ nb, b ∈ T.addrs ∧ t.mem b = some nb ∧ nb.cs ∈ l ∧
        t.cmp_fn n.cs.key n.cs.ksize nb.cs.key nb.cs.ksize < 0 ∧
        (∀ e ∈ l, t.cmp_fn n.cs.key n.cs.ksize e.key e.ksize < 0 →
          t.cmp_fn nb.cs.key nb.cs.ksize e.key e.ksize ≤ 0) ∧
        PrevsTo t b (some a)) ∧
      (∀ b, pv = some b → ∃ nb, b ∈ T.addrs ∧ t.mem b = some nb ∧ nb.cs ∈ l ∧
        t.cmp_fn nb.cs.key nb.cs.ksize n.cs.key n.cs.ksize < 0 ∧
        (∀ e ∈ l, t.cmp_fn e.key e.ksize n.cs.key n.cs.ksize < 0 →
          t.cmp_fn e.key e.ksize nb.cs.key nb.cs.ksize ≤ 0) ∧
        NextsTo t b (some a)) := by
  obtain ⟨T, hI⟩ := reach_inv h
  have hlT : l = T.toList := entries_unique hl (entries_of_inv hI)
  subst hlT
  have hc := hI.1
  have hA := hI.2.1
  have hs := hI.2.2.1
  have hnd := hI.nodup
  refine ⟨T, hA, rfl, fun a ha => ?_⟩
  obtain ⟨pre, suf, e⟩ := List.append_of_mem ha
  have hmap := toList_map_some hA.2
  rw [e] at hmap hnd
  obtain ⟨l1, c, l2, hL, hm1, hma, hm2⟩ := split_map pre T.toList a suf hmap
  obtain ⟨n, hn⟩ : ∃ n, t.mem a = some n := by
    cases hx : t.mem a with
    | none => rw [hx] at hma; simp at hma
    | some n => exact ⟨n, rfl⟩
  have hnc : n.cs = c := by rw [hn] at hma; simpa using hma
  subst hnc
  rw [hL] at hs
  have hlt1 : ∀ x ∈ l1, t.cmp_fn x.key x.ksize n.cs.key n.cs.ksize < 0 :=
    fun x hx => (List.pairwise_append.1 hs).2.2 x hx n.cs (by simp)
  have hs2 := (List.pairwise_append.1 hs).2.1
  have hlt2 : ∀ x ∈ l2, t.cmp_fn n.cs.key n.cs.ksize x.key x.ksize < 0 :=
    fun x hx => (List.pairwise_cons.1 hs2).1 x hx
  refine ⟨n, suf.head?, pre.getLast?, hn, by rw [hL]; simp,
    ⟨T.height, fun fuel hf => rbtree_next_spec hA (e ▸ hnd) e fuel hf⟩,
    ⟨T.height, fun fuel hf => rbtree_prev_spec hA (e ▸ hnd) e fuel hf⟩, ?_, ?_, ?_, ?_⟩
  · rw [rbtree_last, hI.2.2.2.2.2.2.2.1, e]
    exact head_none_iff_last hnd
  · rw [rbtree_first, hI.2.2.2.2.2.2.1, e]
    exact last_none_iff_head hnd
  · intro b hb
    obtain ⟨nb, rest, hmb, hl2⟩ := head_cell hm2 hb
    obtain ⟨suf2, hsuf⟩ : ∃ suf2, suf = b :: suf2 := by
      cases suf with
      | nil => simp at hb
      | cons b1 s2 =>
        simp only [List.head?_cons, Option.some.injEq] at hb
        exact ⟨s2, by rw [hb]⟩
    have e2 : T.addrs = (pre ++ [a]) ++ b :: suf2 := by rw [e, hsuf]; simp
    refine ⟨nb, by rw [e2]; simp, hmb, by rw [hL, hl2]; simp, hlt2 nb.cs (by rw [hl2]; simp),
      fun x hx hgt => ?_, ⟨T.height, fun fuel hf => ?_⟩⟩
    · rw [hL] at hx
      rcases List.mem_append.1 hx with h1 | h2
      · have := (hc.flip _ _ _ _).1 hgt
        have := hlt1 x h1
        omega
      · rcases List.mem_cons.1 h2 with rfl | h3
        · have := hc.refl n.cs.key n.cs.ksize
          omega
        · rw [hl2] at h3 hs2
          rcases List.mem_cons.1 h3 with rfl | h4
          · exact le_of_eq (hc.refl _ _)
          · exact le_of_lt
              ((List.pairwise_cons.1 (List.pairwise_cons.1 hs2).2).1 x h4)
    · have := rbtree_prev_spec hA (e ▸ hnd) e2 fuel hf
      simpa using this
  · intro b hb
    obtain ⟨nb, init, hmb, hl1⟩ := last_cell hm1 hb
    obtain ⟨pre2, hpre⟩ : ∃ pre2, pre = pre2 ++ [b] := by
      have hne : pre ≠ [] := by rintro rfl; simp at hb
      refine ⟨pre.dropLast, ?_⟩
      have h1 := List.dropLast_append_getLast hne
      rw [List.getLast?_eq_getLast _ hne] at hb
      simp only [Option.some.injEq] at hb
      rw [hb] at h1
      exact h1.symm
    have e2 : T.addrs = pre2 ++ b :: (a :: suf) := by rw [e, hpre]; simp
    refine ⟨nb, by rw [e2]; simp, hmb, by rw [hL, hl1]; simp, hlt1 nb.cs (by rw [hl1]; simp),
      fun x hx hlt => ?_, ⟨T.height, fun fuel hf => ?_⟩⟩
    · rw [hL] at hx
      rcases List.mem_append.1 hx with h1 | h2
      · rw [hl1] at h1 hs
        rcases List.mem_append.1 h1 with h3 | h4
        · have hp := (List.pairwise_append.1 (List.pairwise_append.1 hs).1).2.2
          exact le_of_lt (hp x h3 nb.cs (by simp))
        · simp only [List.mem_singleton] at h4
          subst h4
          exact le_of_eq (hc.refl _ _)
      · rcases List.mem_cons.1 h2 with rfl | h3
        · have := hc.refl n.cs.key n.cs.ksize
          omega
        · have := (hc.flip _ _ _ _).1 (hlt2 x h3)
          omega
    · have := rbtree_next_spec hA (e ▸ hnd) e2 fuel hf
      simpa using this

/-- Witness of C19: the tree that holds a, b, c, d; stepping from "b" (address
0) leads to "c" (address 2) and back. -/
theorem cursor_steps_in_order_witness :
    rbtree_next 8 ex4 0 = some (some 2) ∧ rbtree_prev 8 ex4 2 = some (some 0) ∧
    ∃ T, Abs ex4 T ∧ T.toList =
        [(⟨'a', 1, 10⟩ : rb_cursor_st Char Nat), ⟨'b', 1, 20⟩, ⟨'c', 1, 30⟩, ⟨'d', 1, 40⟩] ∧
      ∀ a ∈ T.addrs, ∃ n nx pv, ex4.mem a = some n ∧
      n.cs ∈ 
          [(⟨'a', 1, 10⟩ : rb_cursor_st Char Nat), ⟨'b', 1, 20⟩, ⟨'c', 1, 30⟩, ⟨'d', 1, 40⟩] ∧
      NextsTo ex4 a nx ∧ PrevsTo ex4 a pv ∧
      (nx = none ↔ rbtree_last ex4 = some a) ∧ (pv = none ↔ rbtree_first ex4 = some a) ∧
      (∀ b, nx = some b → ∃ nb, b ∈ T.addrs ∧ ex4.mem b = some nb ∧
        nb.cs ∈ 
          [(⟨'a', 1, 10⟩ : rb_cursor_st Char Nat), ⟨'b', 1, 20⟩, ⟨'c', 1, 30⟩, ⟨'d', 1, 40⟩] ∧
        ex4.cmp_fn n.cs.key n.cs.ksize nb.cs.key nb.cs.ksize < 0 ∧
        (∀ e ∈ 
          [(⟨'a', 1, 10⟩ : rb_cursor_st Char Nat), ⟨'b', 1, 20⟩, ⟨'c', 1, 30⟩, ⟨'d', 1, 40⟩],
          ex4.cmp_fn n.cs.key n.cs.ksize e.key e.ksize < 0 →
          ex4.cmp_fn nb.cs.key nb.cs.ksize e.key e.ksize ≤ 0) ∧
        PrevsTo ex4 b (some a)) ∧
      (∀ b, pv = some b → ∃ nb, b ∈ T.addrs ∧ ex4.mem b = some nb ∧
        nb.cs ∈ 
          [(⟨'a', 1, 10⟩ : rb_cursor_st Char Nat), ⟨'b', 1, 20⟩, ⟨'c', 1, 30⟩, ⟨'d', 1, 40⟩] ∧
        ex4.cmp_fn nb.cs.key nb.cs.ksize n.cs.key n.cs.ksize < 0 ∧
        (∀ e ∈ 
          [(⟨'a', 1, 10⟩ : rb_cursor_st Char Nat), ⟨'b', 1, 20⟩, ⟨'c', 1, 30⟩, ⟨'d', 1, 40⟩],
          ex4.cmp_fn e.key e.ksize n.cs.key n.cs.ksize < 0 →
          ex4.cmp_fn e.key e.ksize nb.cs.key nb.cs.ksize ≤ 0) ∧
        NextsTo ex4 b (some a)) :=
  ⟨rfl, rfl, cursor_steps_in_order ex4 _ reach_ex4 entries_ex4⟩

/-! ## Functions node_destroy and rbtree_destroy -/

theorem wipe_nil (t : rbtree_st K V) : t.wipe .nil = t := by
  cases t
  simp [rbtree_st.wipe, Tree.addrs, Tree.postorder]

theorem wipe_node (t : rbtree_st K V) (x : Nat) (c : rb_color_t) (cs : rb_cursor_st K V)
    (l r : Tree K V) :
    t.wipe (.node x c cs l r) =
      { (t.wipe l).wipe r with
        freed := if t.data_free then ((t.wipe l).wipe r).freed ++ [cs.data]
          else ((t.wipe l).wipe r).freed,
        mem := Function.update ((t.wipe l).wipe r).mem x none } := by
  cases hd : t.data_free with
  | true =>
    simp only [rbtree_st.wipe, hd, if_true, Tree.postorder, List.append_assoc, Tree.addrs]
    congr 1
    funext a
    by_cases hax : a = x
    · subst hax; simp
    · by_cases hal : a ∈ l.addrs <;> by_cases har : a ∈ r.addrs <;>
        simp [Function.update_apply, hax, hal, har]
  | false =>
    simp only [rbtree_st.wipe, hd, Tree.addrs, Bool.false_eq_true, if_false]
    congr 1
    funext a
    by_cases hax : a = x
    · subst hax; simp
    · by_cases hal : a ∈ l.addrs <;> by_cases har : a ∈ r.addrs <;>
        simp [Function.update_apply, hax, hal, har]

/-- Function `node_destroy` on a stored shape: every node of the shape is
released and the destructor, when registered, gets every value once, both
subtrees before their parent. -/
theorem node_destroy_spec : ∀ (T : Tree K V) (par : Option Nat) (t : rbtree_st K V)
    (fuel : Nat), Repr t.mem T par → T.addrs.Nodup → T.height ≤ fuel →
    destroy_child (node_destroy fuel) t T.ptr = some (t.wipe T) := by
  intro T
  induction T with
  | nil =>
    intro par t fuel _ _ _
    simp [destroy_child, wipe_nil]
  | node x c cs l r ihl ihr =>
    intro par t fuel hR hnd hf
    obtain ⟨hcell, hl, hr⟩ := hR
    obtain ⟨hxl, hxr, hndl, hndr, hdis⟩ := nodup_node.1 hnd
    simp only [Tree.height] at hf
    obtain ⟨k, rfl⟩ : ∃ k, fuel = k + 1 := ⟨fuel - 1, by omega⟩
    have h1 := ihl (some x) t k hl hndl (by omega)
    have hc1 : (t.wipe l).mem x = some ⟨cs, l.ptr, r.ptr, par, c⟩ := by
      simp [rbtree_st.wipe, hxl, hcell]
    have hr1 : Repr (t.wipe l).mem r (some x) :=
      hr.congr (fun a ha => by
        have : a ∉ l.addrs := fun hh => hdis a hh ha
        simp [rbtree_st.wipe, this])
    have h2 := ihr (some x) (t.wipe l) k hr1 hndr (by omega)
    have hc2 : ((t.wipe l).wipe r).mem x = some ⟨cs, l.ptr, r.ptr, par, c⟩ := by
      simp [rbtree_st.wipe, hxl, hxr, hcell]
    have hd2 : ((t.wipe l).wipe r).data_free = t.data_free := rfl
    rw [wipe_node]
    show node_destroy (k + 1) t x = _
    simp only [node_destroy, hcell, Option.bind_eq_bind, Option.some_bind, h1, hc1, h2, hc2,
      Option.pure_def, Option.some.injEq, hd2]
    cases hd : t.data_free with
    | true => simp only [if_true]
    | false => simp only [Bool.false_eq_true, if_false, hd2, hd]

theorem postorder_perm (T : Tree K V) : T.postorder.Perm (T.toList.map (fun e => e.data)) := by
  induction T with
  | nil => exact List.Perm.refl _
  | node x c cs l r ihl ihr =>
    simp only [Tree.postorder, Tree.toList, List.map_append, List.map_cons, List.append_assoc]
    exact List.Perm.append ihl ((List.perm_append_singleton _ _).trans (List.Perm.cons _ ihr))

/-- Function `rbtree_destroy` on a tree that holds the shape `T`. -/
theorem rbtree_destroy_spec {t : rbtree_st K V} {T : Tree K V} (h : Abs t T)
    (hnd : T.addrs.Nodup) (fuel : Nat) (hf : T.height ≤ fuel) :
    rbtree_destroy fuel (some t) = some (some (t.wipe T)) := by
  have := node_destroy_spec T none t fuel h.2 hnd hf
  cases T with
  | nil =>
    have hr : t.root = none := h.1
    simp [rbtree_destroy, hr, wipe_nil]
  | node x c cs l r =>
    have hr : t.root = some x := h.1
    simp only [ptr_node, destroy_child] at this
    simp [rbtree_destroy, hr, this]

/-! ## Claim C16 -/

/-- C16: `rbtree_destroy` destructs every surviving value exactly once. For
every reachable tree with entries `l`, the call returns, and the destructor
calls it adds to the log are, when a destructor is registered, a rearrangement
of the values of `l` (one call per stored key, none for values deleted or
overwritten earlier), and none at all when no destructor is registered. -/
theorem destroy_destructs_survivors (t : rbtree_st K V) (l : List (rb_cursor_st K V))
    (h : Reachable t) (hl : Entries t l) :
    ∃ t2 calls, DestroysTo (some t) (some t2) ∧ t2.freed = t.freed ++ calls ∧
      (t.data_free = true → calls.Perm (l.map (fun e => e.data))) ∧
      (t.data_free = false → calls = []) := by
  obtain ⟨T, hI⟩ := reach_inv h
  have hlT : l = T.toList := entries_unique hl (entries_of_inv hI)
  subst hlT
  refine ⟨t.wipe T, if t.data_free then T.postorder else [],
    ⟨T.height, fun fuel hf => rbtree_destroy_spec hI.2.1 hI.nodup fuel hf⟩, ?_, ?_, ?_⟩
  · cases hd : t.data_free <;> simp [rbtree_st.wipe, hd]
  · intro hd
    rw [if_pos hd]
    exact postorder_perm T
  · intro hd
    simp [hd]

/-- Witness of C16: destroying the tree that holds a, b, c, d, with a
destructor registered; the destructor gets 10, 40, 30, 20 in this order. -/
theorem destroy_destructs_survivors_witness :
    ((rbtree_destroy 8 (some ex4)).map (fun r => r.map (fun t2 => t2.freed))) =
        some (some [10, 40, 30, 20]) ∧
      ∃ t2 calls, DestroysTo (some ex4) (some t2) ∧ t2.freed = ex4.freed ++ calls ∧
        (ex4.data_free = true → calls.Perm
          ([(⟨'a', 1, 10⟩ : rb_cursor_st Char Nat), ⟨'b', 1, 20⟩, ⟨'c', 1, 30⟩,
            ⟨'d', 1, 40⟩].map (fun e => e.data))) ∧
        (ex4.data_free = false → calls = []) :=
  ⟨rfl, destroy_destructs_survivors ex4 _ reach_ex4 entries_ex4⟩

/-! ## Locality of the insert fixup -/

theorem insert_fixup_left_local (node parent grandpa : Nat) :
    Local (K := K) (V := V) (fun t => insert_fixup_left t node parent grandpa) := by
  simp only [insert_fixup_left, Option.bind_eq_bind]
  refine Local.rd (LocalR.mem grandpa) (fun gn => ?_)
  refine Local.rd (is_red_ptr_local _) (fun red => ?_)
  refine Local.ite _ ?_ ?_
  · refine Local.step0 (set_color_local _ _) ?_
    refine Local.opt _ (fun u => ?_)
    refine Local.step0 (set_color_local _ _) ?_
    exact Local.step0 (set_color_local _ _) (Local.retc _)
  · refine Local.rd (LocalR.mem parent) (fun pn => ?_)
    refine Local.step (B := Nat) (A := Nat × Nat) ?_ (fun p => ?_)
    · refine Local.ite _ ?_ (Local.retc _)
      refine Local.step0 (rotate_left_local _) ?_
      refine Local.rd (LocalR.mem parent) (fun n => ?_)
      exact Local.opt _ (fun pa => Local.retc _)
    · obtain ⟨nd, pa⟩ := p
      simp only []
      refine Local.step0 (set_color_local _ _) ?_
      refine Local.step0 (set_color_local _ _) ?_
      exact Local.step0 (rotate_right_local _) (Local.retc _)

theorem insert_fixup_right_local (node parent grandpa : Nat) :
    Local (K := K) (V := V) (fun t => insert_fixup_right t node parent grandpa) := by
  simp only [insert_fixup_right, Option.bind_eq_bind]
  refine Local.rd (LocalR.mem grandpa) (fun gn => ?_)
  refine Local.rd (is_red_ptr_local _) (fun red => ?_)
  refine Local.ite _ ?_ ?_
  · refine Local.step0 (set_color_local _ _) ?_
    refine Local.opt _ (fun u => ?_)
    refine Local.step0 (set_color_local _ _) ?_
    exact Local.step0 (set_color_local _ _) (Local.retc _)
  · refine Local.rd (LocalR.mem parent) (fun pn => ?_)
    refine Local.step (B := Nat) (A := Nat × Nat) ?_ (fun p => ?_)
    · refine Local.ite _ ?_ (Local.retc _)
      refine Local.step0 (rotate_right_local _) ?_
      refine Local.rd (LocalR.mem parent) (fun n => ?_)
      exact Local.opt _ (fun pa => Local.retc _)
    · obtain ⟨nd, pa⟩ := p
      simp only []
      refine Local.step0 (set_color_local _ _) ?_
      refine Local.step0 (set_color_local _ _) ?_
      exact Local.step0 (rotate_left_local _) (Local.retc _)

theorem insert_fixup_local (fuel : Nat) : ∀ (node : Nat),
    Local0 (K := K) (V := V) (fun t => insert_fixup fuel t node) := by
  induction fuel with
  | zero =>
    intro node t u x v hx h
    simp [insert_fixup] at h
  | succ k ih =>
    intro node
    simp only [insert_fixup, Option.bind_eq_bind]
    refine Local0.read0 (LocalR.mem node) (fun n => ?_)
    cases n.parent with
    | none => exact Local0.ret0
    | some parent =>
      simp only []
      refine Local0.read0 (LocalR.mem parent) (fun pn => ?_)
      refine Local0.ite0 _ Local0.ret0 ?_
      refine Local0.opt0 _ (fun grandpa => ?_)
      refine Local0.read0 (LocalR.mem grandpa) (fun gn => ?_)
      refine Local0.seq (Local.ite _ (insert_fixup_left_local _ _ _)
        (insert_fixup_right_local _ _ _)) (fun nd => ih nd)

/-! ## Free cells under rbtree_insert -/

theorem insert_overwrite_keeps {t u : rbtree_st K V} {node : Nat} {key : K} {ksize : Nat}
    {val : V} {x : Nat} (h : insert_overwrite t node key ksize val = some u)
    (hx : t.mem x = none) : u.mem x = none := by
  unfold insert_overwrite at h
  cases hm : t.mem node with
  | none => simp [hm] at h
  | some n =>
    have hne : x ≠ node := by rintro rfl; rw [hx] at hm; cases hm
    by_cases hd : t.data_free = true <;>
      by_cases he : Int.land t.flag RFLAG_EXTERN_KEY ≠ 0 <;>
      simp [hm, hd, he, rbtree_st.store] at h <;> subst h <;>
      simp [Function.update_apply, hx, hne]

theorem insert_link_keeps {t u : rbtree_st K V} {node : Nat} {parent : Option Nat}
    {is_left : Bool} {x : Nat} (v : rbtree_node_st K V)
    (h : insert_link t node parent is_left = some u) (hx : t.mem x = none) :
    u.mem x = none := by
  cases parent with
  | none =>
    simp only [insert_link, Option.pure_def, Option.some.injEq] at h
    subst h
    exact hx
  | some par =>
    simp only [insert_link] at h
    cases is_left with
    | true =>
      simp only [if_true, set_child] at h
      refine (set_left_local (some node) par _ u x v ?_ h).1
      split <;> exact hx
    | false =>
      simp only [Bool.false_eq_true, if_false, set_child] at h
      refine (set_right_local (some node) par _ u x v ?_ h).1
      split <;> exact hx

/-- Function `rbtree_insert` leaves free cells free, the one handed out by the
allocator apart. -/
theorem insert_keeps {t t2 : rbtree_st K V} {fuel : Nat} {key : K} {ksize : Nat} {val : V}
    {a x : Nat} (h : rbtree_insert fuel t key ksize val a = some t2) (hx : t.mem x = none)
    (hxa : x ≠ a) : t2.mem x = none := by
  simp only [rbtree_insert, Option.bind_eq_bind, Option.bind_eq_some] at h
  obtain ⟨⟨found, parent, is_left⟩, -, h⟩ := h
  cases found with
  | some node => exact insert_overwrite_keeps h hx
  | none =>
    simp only [Option.bind_eq_some, Option.pure_def, Option.some.injEq] at h
    obtain ⟨t3, h3, t4, h4, r, -, t5, h5, rfl⟩ := h
    have v : rbtree_node_st K V := ⟨⟨key, ksize, val⟩, none, none, none, RB_RED⟩
    have h1 : (t.store a ⟨⟨key, ksize, val⟩, none, none, parent, RB_RED⟩).mem x = none := by
      simp [rbtree_st.store, Function.update_apply, hxa, hx]
    have hx3 := insert_link_keeps v h3 h1
    have hx4 := (insert_fixup_local fuel a t3 t4 x v hx3 h4).1
    exact (set_color_local RB_BLACK r t4 t5 x v hx4 h5).1

/-! ## A tree with any number of keys -/

theorem cmpN_consistent : Consistent cmpN := by
  refine ⟨fun a la b lb => ?_, fun a la b lb c lc h1 h2 => ?_⟩
  · simp only [cmpN]; split_ifs <;> omega
  · simp only [cmpN] at *; split_ifs at * <;> omega

theorem size_eq_length (T : Tree K V) : T.size = T.toList.length := by
  induction T with
  | nil => rfl
  | node x c cs l r ihl ihr =>
    simp only [Tree.size, Tree.toList, List.length_append, List.length_cons, ihl, ihr]
    omega

theorem height_le_size (T : Tree K V) : T.height ≤ T.size := by
  induction T with
  | nil => exact Nat.le_refl _
  | node x c cs l r ihl ihr =>
    simp only [Tree.size, Tree.height]
    have := max_le (Nat.le_trans ihl (Nat.le_add_right _ r.size))
      (Nat.le_trans ihr (Nat.le_add_left _ l.size))
    omega

theorem deletes_unique {t t2 t3 : rbtree_st K V} {key : K} {ksize : Nat}
    (h1 : DeletesTo t key ksize t2) (h2 : DeletesTo t key ksize t3) : t2 = t3 := by
  obtain ⟨N1, e1⟩ := h1
  obtain ⟨N2, e2⟩ := h2
  have := (e1 (max N1 N2) (le_max_left _ _)).symm.trans (e2 (max N1 N2) (le_max_right _ _))
  exact Option.some.inj this

/-- The tree `fill n` is reachable, holds `n` entries with the keys below `n`,
each of length 8, and the addresses from `n` on are free. -/
theorem fill_spec : ∀ n, ∃ T, Inv (fill n) T ∧ T.toList.length = n ∧ Reachable (fill n) ∧
    (∀ b, n ≤ b → (fill n).mem b = none) ∧ (∀ e ∈ T.toList, e.key < n ∧ e.ksize = 8) ∧
    (fill n).cmp_fn = cmpN := by
  intro n
  induction n with
  | zero =>
    exact ⟨.nil, inv_create false cmpN 0 cmpN_consistent, rfl,
      Reachable.create false cmpN 0 cmpN_consistent, fun _ _ => rfl,
      fun e he => by simp [Tree.toList] at he, rfl⟩
  | succ n ih =>
    obtain ⟨T, hI, hlen, hR, hfree, hkeys, hcmp⟩ := ih
    have ha : (fill n).mem n = none := hfree n (Nat.le_refl n)
    have hh : T.height + 1 ≤ n + 1 := by
      have := height_le_size T
      rw [size_eq_length, hlen] at this
      omega
    cases hz : zoom (fill n).cmp_fn n 8 T [] with
    | mk Γ S =>
      cases S with
      | node x c cs l r =>
        exfalso
        obtain ⟨hm, h0⟩ := zoom_node_mem (fill n).cmp_fn n 8 T hz
        have := (hkeys cs hm).1
        rw [hcmp] at h0
        simp only [cmpN] at h0
        split_ifs at h0
      | nil =>
        obtain ⟨t2, T2, e, hI2, hT, hT2, -, -, -, hcm, -, -⟩ := inv_insert_new hI n 8 0 n ha hz
        have hfill : fill (n + 1) = t2 := by
          rw [fill, e (n + 1) hh]
          rfl
        rw [hfill]
        refine ⟨T2, hI2, ?_, Reachable.insert n 8 0 n hR ha ⟨_, e⟩, fun b hb => ?_,
          fun x hx => ?_, by rw [hcm, hcmp]⟩
        · rw [hT2, ← hlen, hT]
          simp only [List.length_append, List.length_cons]
          omega
        · exact insert_keeps (e (n + 1) hh) (hfree b (by omega)) (by omega)
        · rw [hT2] at hx
          have hsub : ∀ y ∈ T.toList, y.key < n + 1 ∧ y.ksize = 8 := fun y hy =>
            ⟨Nat.lt_succ_of_lt (hkeys y hy).1, (hkeys y hy).2⟩
          rw [hT] at hsub
          rcases List.mem_append.1 hx with h1 | h2
          · exact hsub x (List.mem_append_left _ h1)
          · rcases List.mem_cons.1 h2 with rfl | h3
            · exact ⟨Nat.lt_succ_self n, rfl⟩
            · exact hsub x (List.mem_append_right _ h3)

/-! ## Claim C11 -/

/-- C11, the claim as stated fails: the tree obtained from `rbtree_create` by
`rbtree_insert` of the `2 ^ 32` keys `0, 1, ..., 2 ^ 32 - 1`, each of them a
number held in 8 bytes, is reachable and holds `2 ^ 32` nodes with pairwise
different keys, yet `rbtree_count` returns 0 on it: the counter is a
`uint32_t` and has wrapped around. -/
theorem count_wraps_at_two_pow_32 :
    Reachable (fill (2 ^ 32)) ∧
      (∃ T, Abs (fill (2 ^ 32)) T ∧ T.size = 2 ^ 32 ∧
        (∀ e ∈ T.toList, e.key < 2 ^ 32 ∧ e.ksize = 8) ∧
        T.toList.Pairwise (fun x y => x.key < y.key)) ∧
      rbtree_count (fill (2 ^ 32)) = 0 := by
  obtain ⟨T, hI, hlen, hR, -, hk, hcmp⟩ := fill_spec (2 ^ 32)
  refine ⟨hR, ⟨T, hI.2.1, by rw [size_eq_length, hlen], hk, ?_⟩, ?_⟩
  · have hs := hI.2.2.1
    rw [hcmp] at hs
    exact hs.imp (fun {x y} hxy => by
      simp only [cursorLt, cmpN] at hxy
      split_ifs at hxy with h1 h2
      · exact h1
      · omega
      · omega)
  · rw [rbtree_count, hI.2.2.2.2.2.2.2.2, hlen]
    exact Nat.mod_self _

/-- C11 as amended: `rbtree_count` is the number of stored keys modulo
`2 ^ 32`. For every reachable tree, held as the shape `T`, `rbtree_count`
returns the number of nodes of `T` modulo `2 ^ 32`, hence that number itself
while it is below `2 ^ 32`; an insert of a key that is not stored adds one
(modulo `2 ^ 32`), a delete of a stored key takes one off, and an insert of a
stored key and a delete of a key that is not stored leave the count as it
is. -/
theorem count_is_size_mod (t : rbtree_st K V) (h : Reachable t) :
    ∃ T, Abs t T ∧ rbtree_count t = T.size % 2 ^ 32 ∧
      (T.size < 2 ^ 32 → rbtree_count t = T.size) ∧
      (∀ key ksize val a t2, t.mem a = none → InsertsTo t key ksize val a t2 →
        ((∀ e ∈ T.toList, t.cmp_fn e.key e.ksize key ksize ≠ 0) →
          rbtree_count t2 = (rbtree_count t + 1) % 2 ^ 32) ∧
        ((∃ e ∈ T.toList, t.cmp_fn e.key e.ksize key ksize = 0) →
          rbtree_count t2 = rbtree_count t)) ∧
      (∀ key ksize t2, DeletesTo t key ksize t2 →
        ((∃ e ∈ T.toList, t.cmp_fn e.key e.ksize key ksize = 0) →
          rbtree_count t2 = (rbtree_count t + 2 ^ 32 - 1) % 2 ^ 32) ∧
        ((∀ e ∈ T.toList, t.cmp_fn e.key e.ksize key ksize ≠ 0) →
          rbtree_count t2 = rbtree_count t)) := by
  obtain ⟨T, hI⟩ := reach_inv h
  have hc := hI.1
  have hs := hI.2.2.1
  have hn : t.nelem = T.toList.length % 2 ^ 32 := hI.2.2.2.2.2.2.2.2
  refine ⟨T, hI.2.1, ?_, ?_, ?_, ?_⟩
  · rw [rbtree_count, hn, size_eq_length]
  · intro hlt
    rw [rbtree_count, hn, size_eq_length]
    rw [size_eq_length] at hlt
    exact Nat.mod_eq_of_lt hlt
  · intro key ksize val a t2 ha hins
    cases hz : zoom t.cmp_fn key ksize T [] with
    | mk Γ S =>
      cases S with
      | nil =>
        obtain ⟨t3, T3, e, hI3, hT, hT3, -⟩ := inv_insert_new hI key ksize val a ha hz
        have := inserts_unique hins ⟨_, e⟩
        subst this
        refine ⟨fun _ => ?_, fun hex => ?_⟩
        · have hn3 : t2.nelem = T3.toList.length % 2 ^ 32 := hI3.2.2.2.2.2.2.2.2
          rw [rbtree_count, rbtree_count, hn3, hn, mod_succ_mod, hT3, hT]
          simp only [List.length_append, List.length_cons]
          rw [Nat.add_assoc]
        · obtain ⟨e1, he1, h0⟩ := hex
          exact (zoom_nil_absent hc key ksize T hs hz e1 he1 h0).elim
      | node x c cs l r =>
        obtain ⟨cs2, -, e, -, -, -, h0, -⟩ := inv_insert_found hI key ksize val a hz
        have := inserts_unique hins ⟨_, e⟩
        subst this
        refine ⟨fun hall => ?_, fun _ => rfl⟩
        exact (hall cs (zoom_node_mem t.cmp_fn key ksize T hz).1 h0).elim
  · intro key ksize t2 hdel
    cases hz : zoom t.cmp_fn key ksize T [] with
    | mk Γ S =>
      cases S with
      | nil =>
        have e := rbtree_delete_absent key ksize hI.2.1 (by rw [hz])
        have := deletes_unique hdel ⟨_, e⟩
        subst this
        refine ⟨fun hex => ?_, fun _ => rfl⟩
        obtain ⟨e1, he1, h0⟩ := hex
        exact (zoom_nil_absent hc key ksize T hs hz e1 he1 h0).elim
      | node x c cs l r =>
        obtain ⟨t3, T3, e, hI3, hT, hT3, h0, -⟩ := inv_delete_found hI key ksize hz
        have := deletes_unique hdel ⟨_, e⟩
        subst this
        refine ⟨fun _ => ?_, fun hall => ?_⟩
        · have hn3 : t2.nelem = T3.toList.length % 2 ^ 32 := hI3.2.2.2.2.2.2.2.2
          rw [rbtree_count, rbtree_count, hn3, hn, mod_pred_mod _ _ (by norm_num), hT3, hT]
          simp only [List.length_append, List.length_cons]
          have : (ctxBefore Γ).length + l.toList.length +
              (r.toList.length + (ctxAfter Γ).length + 1) + 2 ^ 32 - 1 =
              (ctxBefore Γ).length + l.toList.length +
              (r.toList.length + (ctxAfter Γ).length) + 2 ^ 32 := by omega
          rw [this, Nat.add_mod_right]
        · exact (hall cs (zoom_node_mem t.cmp_fn key ksize T hz).1 h0).elim

/-- Witness of C11 as amended: the tree that holds a, b, c, d has the count 4. -/
theorem count_is_size_mod_witness :
    rbtree_count ex4 = 4 ∧
    ∃ T, Abs ex4 T ∧ rbtree_count ex4 = T.size % 2 ^ 32 ∧
      (T.size < 2 ^ 32 → rbtree_count ex4 = T.size) ∧
      (∀ key ksize val a t2, ex4.mem a = none → InsertsTo ex4 key ksize val a t2 →
        ((∀ e ∈ T.toList, ex4.cmp_fn e.key e.ksize key ksize ≠ 0) →
          rbtree_count t2 = (rbtree_count ex4 + 1) % 2 ^ 32) ∧
        ((∃ e ∈ T.toList, ex4.cmp_fn e.key e.ksize key ksize = 0) →
          rbtree_count t2 = rbtree_count ex4)) ∧
      (∀ key ksize t2, DeletesTo ex4 key ksize t2 →
        ((∃ e ∈ T.toList, ex4.cmp_fn e.key e.ksize key ksize = 0) →
          rbtree_count t2 = (rbtree_count ex4 + 2 ^ 32 - 1) % 2 ^ 32) ∧
        ((∀ e ∈ T.toList, ex4.cmp_fn e.key e.ksize key ksize ≠ 0) →
          rbtree_count t2 = rbtree_count ex4)) :=
  ⟨rfl, count_is_size_mod ex4 reach_ex4⟩

/-! ## Claims C30, C23 and C22 -/

/-- C30, the code at a failing input: `default_cmp` is the comparator of a
tree created without one; for the key of one zero byte and the key of
2147483649 zero bytes it returns the negative number -2147483648 both for
(short, long) and for (long, short), so the sign of one result is not the
negation of the sign of the other, and `default_cmp` is not a consistent
three-way comparison. -/
theorem default_cmp_not_antisymmetric :
    (rbtree_create_default true 0 : rbtree_st (Nat → Nat) Nat).cmp_fn = default_cmp ∧
      default_cmp (fun _ => 0) 1 (fun _ => 0) 2147483649 = -2147483648 ∧
      default_cmp (fun _ => 0) 2147483649 (fun _ => 0) 1 = -2147483648 ∧
      ¬ Consistent default_cmp := by
  have h1 : default_cmp (fun _ => 0) 1 (fun _ => 0) 2147483649 = -2147483648 := by
    simp [default_cmp, memcmp, memcmp_from, int_of_u32, wrap_int]
  have h2 : default_cmp (fun _ => 0) 2147483649 (fun _ => 0) 1 = -2147483648 := by
    simp [default_cmp, memcmp, memcmp_from, int_of_u32, wrap_int]
  refine ⟨rfl, h1, h2, fun hc => ?_⟩
  have := (hc.1 (fun _ => 0) 1 (fun _ => 0) 2147483649).1 (by rw [h1]; decide)
  rw [h2] at this
  exact absurd this (by decide)

theorem size_of_nelem (t : rbtree_st K V) (n node_size : Nat) (h : t.nelem = n) :
    rbtree_count t = n ∧ rbtree_size node_size t = (n * node_size) % 2 ^ 32 := by
  rw [rbtree_count, rbtree_size, h]
  exact ⟨rfl, rfl⟩

/-- C23, the claim as stated fails: with tree nodes of 56 bytes, the reachable
tree that holds the 76695845 keys `0, ..., 76695844`, each of them a number
held in 8 bytes, has the count 76695845, and `rbtree_size` returns 24, not
76695845 * 56 = 4294967320. -/
theorem size_wraps_at_two_pow_32 :
    Reachable (fill 76695845) ∧
      (∃ T, Abs (fill 76695845) T ∧ T.size = 76695845 ∧
        ∀ e ∈ T.toList, e.key < 76695845 ∧ e.ksize = 8) ∧
      rbtree_count (fill 76695845) = 76695845 ∧
      rbtree_size 56 (fill 76695845) = 24 ∧
      rbtree_size 56 (fill 76695845) ≠ rbtree_count (fill 76695845) * 56 := by
  obtain ⟨T, hI, hlen, hr, -, hk, -⟩ := fill_spec 76695845
  have hn := size_of_nelem (fill 76695845) 76695845 56
    (by rw [hI.2.2.2.2.2.2.2.2, hlen]; norm_num)
  have h24 : 76695845 * 56 % 2 ^ 32 = 24 := by norm_num
  rw [h24] at hn
  refine ⟨hr, ⟨T, hI.2.1, by rw [size_eq_length, hlen], hk⟩, hn.1, hn.2, ?_⟩
  rw [hn.1, hn.2]
  norm_num

/-- C23 as amended: `rbtree_size` is the count times the node size, reduced
modulo `2 ^ 32`. For every tree and every node size, `rbtree_size` is
`rbtree_count` times the node size modulo `2 ^ 32`; it is the product itself
when that is below `2 ^ 32`; it is 0 for the empty tree; it is the same for any
two trees with the same count, whatever their keys, key lengths and values;
and on a reachable tree with entries `l` it is the number of entries times
the node size modulo `2 ^ 32`. -/
theorem size_is_count_times_node_mod (node_size : Nat) (t : rbtree_st K V) :
    rbtree_size node_size t = (rbtree_count t * node_size) % 2 ^ 32 ∧
      (rbtree_count t * node_size < 2 ^ 32 →
        rbtree_size node_size t = rbtree_count t * node_size) ∧
      (∀ (data_free : Bool) (cmp : K → Nat → K → Nat → Int) (flag : Int),
        rbtree_size node_size (rbtree_create (V := V) data_free cmp flag) = 0) ∧
      (∀ t2 : rbtree_st K V, rbtree_count t2 = rbtree_count t →
        rbtree_size node_size t2 = rbtree_size node_size t) ∧
      (∀ l : List (rb_cursor_st K V), Reachable t → Entries t l →
        rbtree_size node_size t = (l.length * node_size) % 2 ^ 32) ∧
      (∀ (t2 : rbtree_st K V) (l l2 : List (rb_cursor_st K V)), Reachable t → Entries t l →
        Reachable t2 → Entries t2 l2 → l2.length = l.length →
        rbtree_size node_size t2 = rbtree_size node_size t) := by
  have hred : ∀ (s : rbtree_st K V) (l : List (rb_cursor_st K V)), Reachable s → Entries s l →
      rbtree_size node_size s = (l.length * node_size) % 2 ^ 32 := by
    intro s l h hl
    obtain ⟨T, hI⟩ := reach_inv h
    have hlT : l = T.toList := entries_unique hl (entries_of_inv hI)
    subst hlT
    rw [rbtree_size, hI.2.2.2.2.2.2.2.2, Nat.mod_mul_mod]
  refine ⟨rfl, fun hlt => Nat.mod_eq_of_lt hlt, fun _ _ _ => ?_, fun t2 h2 => ?_,
    fun l h hl => hred t l h hl, fun t2 l l2 h hl h2 hl2 hlen => ?_⟩
  · simp [rbtree_size, rbtree_create]
  · simp only [rbtree_size, rbtree_count] at h2 ⊢
    rw [h2]
  · rw [hred t l h hl, hred t2 l2 h2 hl2, hlen]

/-- C23 as amended, at the tree that holds a, b, c, d, with nodes of 56
bytes. -/
theorem size_is_count_times_node_mod_witness :
    rbtree_size 56 ex4 = (rbtree_count ex4 * 56) % 2 ^ 32 ∧
      (rbtree_count ex4 * 56 < 2 ^ 32 → rbtree_size 56 ex4 = rbtree_count ex4 * 56) ∧
      (∀ (data_free : Bool) (cmp : Char → Nat → Char → Nat → Int) (flag : Int),
        rbtree_size 56 (rbtree_create (V := Nat) data_free cmp flag) = 0) ∧
      (∀ t2 : rbtree_st Char Nat, rbtree_count t2 = rbtree_count ex4 →
        rbtree_size 56 t2 = rbtree_size 56 ex4) ∧
      (∀ l : List (rb_cursor_st Char Nat), Reachable ex4 → Entries ex4 l →
        rbtree_size 56 ex4 = (l.length * 56) % 2 ^ 32) ∧
      (∀ (t2 : rbtree_st Char Nat) (l l2 : List (rb_cursor_st Char Nat)), Reachable ex4 →
        Entries ex4 l → Reachable t2 → Entries t2 l2 → l2.length = l.length →
        rbtree_size 56 t2 = rbtree_size 56 ex4) :=
  size_is_count_times_node_mod 56 ex4

/-- C22: key storage on overwrite depends on the mode. For every reachable tree
with entries `l` and every key that compares equal to the key of a stored
entry `e`, the insert returns and the mode flag is unchanged; when the tree was
created with the external-key flag, the entry now carries the key and length
of the call; when it was created without the flag, the entry keeps its stored
key and length. In both modes the value is the new one and every other entry
is unchanged. -/
theorem overwrite_key_by_mode (t : rbtree_st K V) (l : List (rb_cursor_st K V)) (key : K)
    (ksize : Nat) (val : V) (a : Nat) (h : Reachable t) (hl : Entries t l)
    (hin : ∃ e ∈ l, t.cmp_fn e.key e.ksize key ksize = 0) :
    ∃ t2 l1 e l2, InsertsTo t key ksize val a t2 ∧ l = l1 ++ e :: l2 ∧
      t.cmp_fn e.key e.ksize key ksize = 0 ∧ t2.flag = t.flag ∧
      (Int.land t.flag RFLAG_EXTERN_KEY ≠ 0 → Entries t2 (l1 ++ ⟨key, ksize, val⟩ :: l2)) ∧
      (Int.land t.flag RFLAG_EXTERN_KEY = 0 →
        Entries t2 (l1 ++ ⟨e.key, e.ksize, val⟩ :: l2)) := by
  obtain ⟨T, hI⟩ := reach_inv h
  have hlT : l = T.toList := entries_unique hl (entries_of_inv hI)
  subst hlT
  cases hz : zoom t.cmp_fn key ksize T [] with
  | mk Γ S =>
    cases S with
    | nil =>
      obtain ⟨e, he, h0⟩ := hin
      exact (zoom_nil_absent hI.1 key ksize T hI.2.2.1 hz e he h0).elim
    | node x c cs l r =>
      obtain ⟨cs2, hcs2, e, hI2, hT, hx, h0, h02⟩ := inv_insert_found hI key ksize val a hz
      have hE := entries_of_inv hI2
      rw [toList_plug] at hE
      refine ⟨_, ctxBefore Γ ++ l.toList, cs, r.toList ++ ctxAfter Γ, ⟨_, e⟩, ?_, h0, rfl,
        fun hf => ?_, fun hf => ?_⟩
      · rw [hT, toList_plug]; simp [Tree.toList]
      · rw [if_pos hf] at hcs2
        subst hcs2
        simpa [Tree.toList] using hE
      · rw [if_neg (not_not.2 hf)] at hcs2
        subst hcs2
        simpa [Tree.toList] using hE

/-- Witness of C22: in external-key mode, inserting the key 3 into the tree
that stores the key 1, which compares equal to 3. -/
theorem overwrite_key_by_mode_witness :
    ∃ t2 l1 e l2, InsertsTo cx1 3 1 99 1 t2 ∧
      ([⟨1, 1, 10⟩] : List (rb_cursor_st Nat Nat)) = l1 ++ e :: l2 ∧
      cx1.cmp_fn e.key e.ksize 3 1 = 0 ∧ t2.flag = cx1.flag ∧
      (Int.land cx1.flag RFLAG_EXTERN_KEY ≠ 0 → Entries t2 (l1 ++ ⟨3, 1, 99⟩ :: l2)) ∧
      (Int.land cx1.flag RFLAG_EXTERN_KEY = 0 →
        Entries t2 (l1 ++ ⟨e.key, e.ksize, 99⟩ :: l2)) :=
  overwrite_key_by_mode cx1 _ 3 1 99 1 reach_cx1 (entries_of_inv inv_cx1)
    ⟨⟨1, 1, 10⟩, by simp [Tree.toList], by decide⟩

/-! ## Claim C21 -/

/-- A balanced shape of black height `b` has at least `2 ^ b - 1` nodes. -/
theorem two_pow_bh_le_size (T : Tree K V) : T.Bal → 2 ^ T.bh ≤ T.size + 1 := by
  induction T with
  | nil => intro _; simp [Tree.bh, Tree.size]
  | node x c cs l r ihl ihr =>
    intro hb
    obtain ⟨hlr, hbl, hbr⟩ := hb
    have h1 := ihl hbl
    have h2 := ihr hbr
    rw [← hlr] at h2
    simp only [Tree.bh, Tree.size]
    cases c with
    | RB_RED => simp only [reduceCtorEq, if_false, Nat.add_zero]; omega
    | RB_BLACK => simp only [if_true, pow_succ]; omega

/-- In a balanced shape without a red node under a red node, the height is at
most twice the black height, plus one when the root is red. -/
theorem height_le_two_bh (T : Tree K V) :
    T.NoRR → T.Bal → T.height ≤ 2 * T.bh + (if T.isRed then 1 else 0) := by
  induction T with
  | nil => intro _ _; simp [Tree.height]
  | node x c cs l r ihl ihr =>
    intro hn hb
    obtain ⟨hlr, hbl, hbr⟩ := hb
    obtain ⟨hred, hnl, hnr⟩ := hn
    have h1 := ihl hnl hbl
    have h2 := ihr hnr hbr
    rw [← hlr] at h2
    simp only [Tree.height, Tree.bh]
    cases c with
    | RB_RED =>
      obtain ⟨e1, e2⟩ := hred rfl
      rw [e1] at h1
      rw [e2] at h2
      simp only [Bool.false_eq_true, if_false, Nat.add_zero] at h1 h2
      simp only [Tree.isRed, reduceCtorEq, if_false, if_true, Nat.add_zero]
      have := max_le h1 h2
      omega
    | RB_BLACK =>
      have e1 : (if l.isRed = true then 1 else 0) ≤ 1 := by split <;> omega
      have e2 : (if r.isRed = true then 1 else 0) ≤ 1 := by split <;> omega
      simp only [Tree.isRed, if_true, Bool.false_eq_true, if_false, Nat.add_zero]
      have := max_le (Nat.le_trans h1 (Nat.add_le_add_left e1 _))
        (Nat.le_trans h2 (Nat.add_le_add_left e2 _))
      omega

/-- The height bound of a red-black shape. -/
theorem height_log_bound (T : Tree K V) (hr : T.RootBlack) (hn : T.NoRR) (hb : T.Bal) :
    2 ^ ((T.height + 1) / 2) ≤ T.size + 1 ∧ T.height ≤ 2 * Nat.log 2 (T.size + 1) := by
  have h1 := height_le_two_bh T hn hb
  rw [show T.isRed = false from hr] at h1
  simp only [Bool.false_eq_true, if_false, Nat.add_zero] at h1
  have h2 := two_pow_bh_le_size T hb
  have h3 : (T.height + 1) / 2 ≤ T.bh := by omega
  refine ⟨Nat.le_trans (Nat.pow_le_pow_right (by decide) h3) h2, ?_⟩
  have h4 : T.bh ≤ Nat.log 2 (T.size + 1) := Nat.le_log_of_pow_le (by decide) h2
  omega

/-- C21: the height is logarithmic in the number of entries. Every reachable
tree with entries `l` holds a shape `T` with these entries whose height `h`
(the number of nodes on the longest path from the root down) satisfies
`2 ^ ceil(h / 2) ≤ n + 1` and `h ≤ 2 * log2 (n + 1)` for `n` the number of
entries; `rbtree_destroy` returns with a recursion depth of `h` for
`node_destroy`, and `do_lookup` returns within `h` rounds of its loop, each
round making one call of the comparator. -/
theorem height_is_logarithmic (t : rbtree_st K V) (l : List (rb_cursor_st K V))
    (h : Reachable t) (hl : Entries t l) :
    ∃ T, Abs t T ∧ T.toList = l ∧ T.size = l.length ∧
      2 ^ ((T.height + 1) / 2) ≤ l.length + 1 ∧ T.height ≤ 2 * Nat.log 2 (l.length + 1) ∧
      (∃ res, rbtree_destroy T.height (some t) = some res) ∧
      ∀ key ksize, ∃ res, do_lookup T.height t key ksize = some res := by
  obtain ⟨T, hI⟩ := reach_inv h
  have hlT : l = T.toList := entries_unique hl (entries_of_inv hI)
  subst hlT
  have hb := height_log_bound T hI.2.2.2.1 hI.2.2.2.2.1 hI.2.2.2.2.2.1
  rw [size_eq_length] at hb
  exact ⟨T, hI.2.1, rfl, size_eq_length T, hb.1, hb.2,
    ⟨_, rbtree_destroy_spec hI.2.1 hI.nodup T.height (Nat.le_refl _)⟩,
    fun key ksize => ⟨_, do_lookup_spec t key ksize T T.height hI.2.1 (Nat.le_refl _)⟩⟩

/-- Witness of C21: the tree that holds a, b, c, d. -/
theorem height_is_logarithmic_witness :
    ∃ T, Abs ex4 T ∧ T.toList = [⟨'a', 1, 10⟩, ⟨'b', 1, 20⟩, ⟨'c', 1, 30⟩, ⟨'d', 1, 40⟩] ∧
      T.size = ([⟨'a', 1, 10⟩, ⟨'b', 1, 20⟩, ⟨'c', 1, 30⟩, ⟨'d', 1, 40⟩] :
        List (rb_cursor_st Char Nat)).length ∧
      2 ^ ((T.height + 1) / 2) ≤ ([⟨'a', 1, 10⟩, ⟨'b', 1, 20⟩, ⟨'c', 1, 30⟩, ⟨'d', 1, 40⟩] :
        List (rb_cursor_st Char Nat)).length + 1 ∧
      T.height ≤ 2 * Nat.log 2 (([⟨'a', 1, 10⟩, ⟨'b', 1, 20⟩, ⟨'c', 1, 30⟩, ⟨'d', 1, 40⟩] :
        List (rb_cursor_st Char Nat)).length + 1) ∧
      (∃ res, rbtree_destroy T.height (some ex4) = some res) ∧
      ∀ key ksize, ∃ res, do_lookup T.height ex4 key ksize = some res :=
  height_is_logarithmic ex4 _ reach_ex4 entries_ex4

/-! ## Claim C27 -/

/-- In a stored shape every node is pointed back to by its children, and only
the top node can have the parent field of the shape. -/
theorem repr_links {m : Nat → Option (rbtree_node_st K V)} :
    ∀ (T : Tree K V) (par : Option Nat), Repr m T par → ∀ a ∈ T.addrs,
      ∃ n, m a = some n ∧
        (∀ c, n.left = some c → ∃ nc, m c = some nc ∧ nc.parent = some a) ∧
        (∀ c, n.right = some c → ∃ nc, m c = some nc ∧ nc.parent = some a) ∧
        (n.parent = none → par = none ∧ T.ptr = some a) := by
  intro T
  induction T with
  | nil => intro par _ a ha; simp [Tree.addrs] at ha
  | node x c cs l r ihl ihr =>
    intro par hR a ha
    obtain ⟨hcell, hl, hr⟩ := hR
    rcases mem_addrs_node.1 ha with rfl | hal | har
    · refine ⟨_, hcell, fun ch hch => ?_, fun ch hch => ?_, fun hp => ⟨hp, rfl⟩⟩
      · cases l with
        | nil => simp [Tree.ptr] at hch
        | node y cy csy ly ry =>
          simp only [Tree.ptr, Option.some.injEq] at hch
          subst hch
          exact ⟨_, hl.1, rfl⟩
      · cases r with
        | nil => simp [Tree.ptr] at hch
        | node y cy csy ly ry =>
          simp only [Tree.ptr, Option.some.injEq] at hch
          subst hch
          exact ⟨_, hr.1, rfl⟩
    · obtain ⟨n, hn, h1, h2, h3⟩ := ihl (some x) hl a hal
      exact ⟨n, hn, h1, h2, fun hp => by simpa using (h3 hp).1⟩
    · obtain ⟨n, hn, h1, h2, h3⟩ := ihr (some x) hr a har
      exact ⟨n, hn, h1, h2, fun hp => by simpa using (h3 hp).1⟩

/-- A tree that stores a shape has consistent parent back-references. -/
theorem parentLinks_of_abs {t : rbtree_st K V} {T : Tree K V} (h : Abs t T) :
    ParentLinks t T := by
  refine ⟨fun r hr => ?_, fun a ha => ?_⟩
  · cases T with
    | nil => rw [h.1] at hr; simp [Tree.ptr] at hr
    | node x c cs l r2 =>
      rw [h.1] at hr
      simp only [Tree.ptr, Option.some.injEq] at hr
      subst hr
      exact ⟨_, h.2.1, rfl⟩
  · obtain ⟨n, hn, h1, h2, h3⟩ := repr_links T none h.2 a ha
    exact ⟨n, hn, h1, h2, fun hp => by rw [h.1]; exact (h3 hp).2⟩

/-- C27: parent back-references stay consistent with child links. Every
reachable tree stores a shape `T` whose nodes have consistent back-references:
the parent of the root is absent, a left or right child of a node points back
to it, and a node whose parent is absent is the root. An insert and a delete
lead to a tree with the same property. `rotate_left` and `rotate_right`, on any
stored shape with distinct nodes in which the rotated node has the child
needed, return a tree that stores the rotated shape, again with consistent
back-references. -/
theorem parent_links_consistent (t : rbtree_st K V) (h : Reachable t) :
    (∃ T, Abs t T ∧ ParentLinks t T) ∧
      (∀ key ksize val a t2, t.mem a = none → InsertsTo t key ksize val a t2 →
        ∃ T2, Abs t2 T2 ∧ ParentLinks t2 T2) ∧
      (∀ key ksize t2, DeletesTo t key ksize t2 → ∃ T2, Abs t2 T2 ∧ ParentLinks t2 T2) ∧
      (∀ (s : rbtree_st K V) (Γ : List (Frame K V)) (p q : Nat) (cp cq : rb_color_t)
        (csp csq : rb_cursor_st K V) (A B C : Tree K V),
        Abs s (plug Γ (.node p cp csp A (.node q cq csq B C))) →
        (plug Γ (.node p cp csp A (.node q cq csq B C))).addrs.Nodup →
        ∃ s2, rotate_left s p = some s2 ∧
          Abs s2 (plug Γ (.node q cq csq (.node p cp csp A B) C)) ∧
          ParentLinks s2 (plug Γ (.node q cq csq (.node p cp csp A B) C))) ∧
      (∀ (s : rbtree_st K V) (Γ : List (Frame K V)) (p q : Nat) (cp cq : rb_color_t)
        (csp csq : rb_cursor_st K V) (A B C : Tree K V),
        Abs s (plug Γ (.node p cp csp (.node q cq csq A B) C)) →
        (plug Γ (.node p cp csp (.node q cq csq A B) C)).addrs.Nodup →
        ∃ s2, rotate_right s p = some s2 ∧
          Abs s2 (plug Γ (.node q cq csq A (.node p cp csp B C))) ∧
          ParentLinks s2 (plug Γ (.node q cq csq A (.node p cp csp B C)))) := by
  refine ⟨?_, ?_, ?_, ?_, ?_⟩
  · obtain ⟨T, hI⟩ := reach_inv h
    exact ⟨T, hI.2.1, parentLinks_of_abs hI.2.1⟩
  · intro key ksize val a t2 ha hins
    obtain ⟨T2, hI2⟩ := reach_inv (Reachable.insert key ksize val a h ha hins)
    exact ⟨T2, hI2.2.1, parentLinks_of_abs hI2.2.1⟩
  · intro key ksize t2 hdel
    obtain ⟨T2, hI2⟩ := reach_inv (Reachable.delete key ksize h hdel)
    exact ⟨T2, hI2.2.1, parentLinks_of_abs hI2.2.1⟩
  · intro s Γ p q cp cq csp csq A B C hA hnd
    obtain ⟨m, r, e, hA2⟩ := rotate_left_spec hA hnd
    exact ⟨_, e, hA2, parentLinks_of_abs hA2⟩
  · intro s Γ p q cp cq csp csq A B C hA hnd
    obtain ⟨m, r, e, hA2⟩ := rotate_right_spec hA hnd
    exact ⟨_, e, hA2, parentLinks_of_abs hA2⟩

/-- Witness of C27: the tree that holds a, b, c, d. -/
theorem parent_links_consistent_witness :
    (∃ T, Abs ex4 T ∧ ParentLinks ex4 T) ∧
      (∀ key ksize val a t2, ex4.mem a = none → InsertsTo ex4 key ksize val a t2 →
        ∃ T2, Abs t2 T2 ∧ ParentLinks t2 T2) ∧
      (∀ key ksize t2, DeletesTo ex4 key ksize t2 → ∃ T2, Abs t2 T2 ∧ ParentLinks t2 T2) ∧
      (∀ (s : rbtree_st Char Nat) (Γ : List (Frame Char Nat)) (p q : Nat) (cp cq : rb_color_t)
        (csp csq : rb_cursor_st Char Nat) (A B C : Tree Char Nat),
        Abs s (plug Γ (.node p cp csp A (.node q cq csq B C))) →
        (plug Γ (.node p cp csp A (.node q cq csq B C))).addrs.Nodup →
        ∃ s2, rotate_left s p = some s2 ∧
          Abs s2 (plug Γ (.node q cq csq (.node p cp csp A B) C)) ∧
          ParentLinks s2 (plug Γ (.node q cq csq (.node p cp csp A B) C))) ∧
      (∀ (s : rbtree_st Char Nat) (Γ : List (Frame Char Nat)) (p q : Nat) (cp cq : rb_color_t)
        (csp csq : rb_cursor_st Char Nat) (A B C : Tree Char Nat),
        Abs s (plug Γ (.node p cp csp (.node q cq csq A B) C)) →
        (plug Γ (.node p cp csp (.node q cq csq A B) C)).addrs.Nodup →
        ∃ s2, rotate_right s p = some s2 ∧
          Abs s2 (plug Γ (.node q cq csq A (.node p cp csp B C))) ∧
          ParentLinks s2 (plug Γ (.node q cq csq A (.node p cp csp B C)))) :=
  parent_links_consistent ex4 reach_ex4

/-! ## List links: reads and assignments -/

theorem list_next_some_iff {m : Nat → Option list_t} {a : Nat} :
    (∃ b, list_next m a = some b) ↔ ∃ c, m a = some c := by
  simp only [list_next]
  cases m a <;> simp

theorem list_prev_some_iff {m : Nat → Option list_t} {a : Nat} :
    (∃ b, list_prev m a = some b) ↔ ∃ c, m a = some c := by
  simp only [list_prev]
  cases m a <;> simp

/-- Assignment `a->next = v` on an allocated link. -/
theorem list_set_next_spec {m : Nat → Option list_t} {a : Nat} (v : Nat)
    (h : ∃ c, m a = some c) :
    ∃ m2, list_set_next m a v = some m2 ∧
      list_next m2 = Function.update (list_next m) a (some v) ∧ list_prev m2 = list_prev m ∧
      ∀ x, x ≠ a → m2 x = m x := by
  obtain ⟨c, hc⟩ := h
  refine ⟨Function.update m a (some { c with next := v }), by simp [list_set_next, hc],
    ?_, ?_, ?_⟩
  · funext x
    by_cases hx : x = a
    · subst hx; simp [list_next]
    · simp [list_next, Function.update_apply, hx]
  · funext x
    by_cases hx : x = a
    · subst hx; simp [list_prev, hc]
    · simp [list_prev, Function.update_apply, hx]
  · intro x hx
    simp [Function.update_apply, hx]

/-- Assignment `a->prev = v` on an allocated link. -/
theorem list_set_prev_spec {m : Nat → Option list_t} {a : Nat} (v : Nat)
    (h : ∃ c, m a = some c) :
    ∃ m2, list_set_prev m a v = some m2 ∧
      list_prev m2 = Function.update (list_prev m) a (some v) ∧ list_next m2 = list_next m ∧
      ∀ x, x ≠ a → m2 x = m x := by
  obtain ⟨c, hc⟩ := h
  refine ⟨Function.update m a (some { c with prev := v }), by simp [list_set_prev, hc],
    ?_, ?_, ?_⟩
  · funext x
    by_cases hx : x = a
    · subst hx; simp [list_prev]
    · simp [list_prev, Function.update_apply, hx]
  · funext x
    by_cases hx : x = a
    · subst hx; simp [list_next, hc]
    · simp [list_next, Function.update_apply, hx]
  · intro x hx
    simp [Function.update_apply, hx]

theorem alloc_of_next_eq {m m2 : Nat → Option list_t} (h : list_next m2 = list_next m)
    {a : Nat} (ha : ∃ c, m a = some c) : ∃ c, m2 a = some c := by
  rw [← list_next_some_iff] at ha ⊢
  rw [h]; exact ha

theorem alloc_of_prev_eq {m m2 : Nat → Option list_t} (h : list_prev m2 = list_prev m)
    {a : Nat} (ha : ∃ c, m a = some c) : ∃ c, m2 a = some c := by
  rw [← list_prev_some_iff] at ha ⊢
  rw [h]; exact ha

/-- Function `list_del` on a link `elem` between `p` and `n` (which may be
`elem` itself): afterwards `elem` points to itself, `p` points on to `n` and
`n` back to `p`. -/
theorem list_del_spec {m : Nat → Option list_t} (l : Option Nat) {e p n : Nat}
    (hp : list_prev m e = some p) (hn : list_next m e = some n)
    (hpa : ∃ c, m p = some c) (hna : ∃ c, m n = some c) :
    ∃ m2, list_del m l e = some m2 ∧
      list_next m2 = Function.update (Function.update (list_next m) p (some n)) e (some e) ∧
      list_prev m2 = Function.update (Function.update (list_prev m) n (some p)) e (some e) ∧
      ∀ x, x ≠ e → x ≠ p → x ≠ n → m2 x = m x := by
  have hea : ∃ c, m e = some c := list_next_some_iff.1 ⟨n, hn⟩
  obtain ⟨m1, e1, n1, p1, f1⟩ := list_set_next_spec n hpa
  have hn1 : list_next m1 e = some n := by
    rw [n1]
    by_cases h : e = p
    · subst h; simp
    · simp [Function.update_apply, h, hn]
  have hp1 : list_prev m1 e = some p := by rw [p1]; exact hp
  obtain ⟨m2, e2, p2, n2, f2⟩ := list_set_prev_spec p (alloc_of_prev_eq p1 hna)
  obtain ⟨m3, e3, n3, p3, f3⟩ :=
    list_set_next_spec e (alloc_of_next_eq n2 (alloc_of_prev_eq p1 hea))
  obtain ⟨m4, e4, p4, n4, f4⟩ := list_set_prev_spec e (alloc_of_prev_eq p3 (alloc_of_next_eq n2
    (alloc_of_prev_eq p1 hea)))
  refine ⟨m4, ?_, ?_, ?_, ?_⟩
  · simp only [list_del, hp, hn, Option.bind_eq_bind, Option.some_bind, e1, hn1, hp1, e2, e3, e4]
  · rw [n4, n3, n2, n1]
  · rw [p4, p3, p2, p1]
  · intro x h1 h2 h3
    rw [f4 x h1, f3 x h1, f2 x h3, f1 x h2]

/-! ## Functions list_add_head and list_add_tail: the assignments -/

/-- Function `list_add_head` after its call of `list_del`: the four
assignments that link `elem` between `l` and the former first link `h`. -/
theorem list_add_head_raw {m m1 : Nat → Option list_t} {l e h : Nat}
    (hd : list_del m (some l) e = some m1) (hh : list_next m1 l = some h)
    (hea : ∃ c, m1 e = some c) (hha : ∃ c, m1 h = some c) :
    ∃ m5, list_add_head m l e = some m5 ∧
      list_next m5 = Function.update (Function.update (list_next m1) l (some e)) e (some h) ∧
      list_prev m5 = Function.update (Function.update (list_prev m1) e (some l)) h (some e) ∧
      ∀ x, x ≠ l → x ≠ e → x ≠ h → m5 x = m1 x := by
  have hla : ∃ c, m1 l = some c := list_next_some_iff.1 ⟨h, hh⟩
  obtain ⟨m2, e2, n2, p2, f2⟩ := list_set_next_spec e hla
  obtain ⟨m3, e3, p3, n3, f3⟩ := list_set_prev_spec l (alloc_of_prev_eq p2 hea)
  obtain ⟨m4, e4, n4, p4, f4⟩ := list_set_next_spec h (alloc_of_next_eq n3 (alloc_of_prev_eq p2 hea))
  obtain ⟨m5, e5, p5, n5, f5⟩ := list_set_prev_spec e
    (alloc_of_prev_eq p4 (alloc_of_next_eq n3 (alloc_of_prev_eq p2 hha)))
  refine ⟨m5, ?_, ?_, ?_, ?_⟩
  · simp only [list_add_head, hd, Option.bind_eq_bind, Option.some_bind, hh, e2, e3, e4, e5]
  · rw [n5, n4, n3, n2]
  · rw [p5, p4, p3, p2]
  · intro x h1 h2 h3
    rw [f5 x h3, f4 x h2, f3 x h2, f2 x h1]

/-- Function `list_add_tail` after its call of `list_del`: the four
assignments that link `elem` between the former last link `q` and `l`. -/
theorem list_add_tail_raw {m m1 : Nat → Option list_t} {l e q : Nat}
    (hd : list_del m (some l) e = some m1) (hq : list_prev m1 l = some q)
    (hea : ∃ c, m1 e = some c) (hqa : ∃ c, m1 q = some c) :
    ∃ m5, list_add_tail m l e = some m5 ∧
      list_next m5 = Function.update (Function.update (list_next m1) e (some l)) q (some e) ∧
      list_prev m5 = Function.update (Function.update (list_prev m1) l (some e)) e (some q) ∧
      ∀ x, x ≠ l → x ≠ e → x ≠ q → m5 x = m1 x := by
  have hla : ∃ c, m1 l = some c := list_prev_some_iff.1 ⟨q, hq⟩
  obtain ⟨m2, e2, p2, n2, f2⟩ := list_set_prev_spec e hla
  obtain ⟨m3, e3, n3, p3, f3⟩ := list_set_next_spec l (alloc_of_next_eq n2 hea)
  obtain ⟨m4, e4, p4, n4, f4⟩ := list_set_prev_spec q (alloc_of_prev_eq p3 (alloc_of_next_eq n2 hea))
  obtain ⟨m5, e5, n5, p5, f5⟩ := list_set_next_spec e
    (alloc_of_next_eq n4 (alloc_of_prev_eq p3 (alloc_of_next_eq n2 hqa)))
  refine ⟨m5, ?_, ?_, ?_, ?_⟩
  · simp only [list_add_tail, hd, Option.bind_eq_bind, Option.some_bind, hq, e2, e3, e4, e5]
  · rw [n5, n4, n3, n2]
  · rw [p5, p4, p3, p2]
  · intro x h1 h2 h3
    rw [f5 x h3, f4 x h2, f3 x h2, f2 x h1]

/-- A chain carries over to another relation that holds wherever the first
does on the sources and targets of the chain. -/
theorem chain_imp_src {R S : Nat → Nat → Prop} :
    ∀ (L : List Nat), List.Chain' R L →
      (∀ a b, a ∈ L.dropLast → b ∈ L.tail → R a b → S a b) → List.Chain' S L := by
  intro L
  induction L with
  | nil => intro _ _; exact List.chain'_nil
  | cons x r ih =>
    intro hc himp
    cases r with
    | nil => exact List.chain'_singleton x
    | cons y r2 =>
      rw [List.chain'_cons] at hc ⊢
      refine ⟨himp x y (by simp) (by simp) hc.1, ih hc.2 (fun a b ha hb hab => ?_)⟩
      exact himp a b (by simp [ha]) (by simp [List.mem_of_mem_tail hb]) hab

theorem link_alloc_left {m : Nat → Option list_t} {a b : Nat} (h : Link m a b) :
    ∃ c, m a = some c := list_next_some_iff.1 ⟨b, h.1⟩

theorem link_alloc_right {m : Nat → Option list_t} {a b : Nat} (h : Link m a b) :
    ∃ c, m b = some c := list_prev_some_iff.1 ⟨a, h.2⟩

/-- Function `list_del` on a link `e` between `p` and `n`, in terms of `Link`. -/
theorem list_del_link {m : Nat → Option list_t} (l : Option Nat) {e p n : Nat}
    (h1 : Link m p e) (h2 : Link m e n) (hpe : p ≠ e) (hne : n ≠ e) :
    ∃ m2, list_del m l e = some m2 ∧ SelfLinked m2 e ∧ Link m2 p n ∧
      (∀ a b, a ≠ e → b ≠ e → Link m a b → Link m2 a b) ∧
      ∀ x, x ≠ e → x ≠ p → x ≠ n → m2 x = m x := by
  obtain ⟨m2, e2, n2, p2, f2⟩ :=
    list_del_spec l h1.2 h2.1 (link_alloc_left h1) (link_alloc_right h2)
  refine ⟨m2, e2, ?_, ?_, ?_, f2⟩
  · simp [SelfLinked, Link, n2, p2]
  · simp [Link, n2, p2, Function.update_apply, hpe, hne]
  · intro a b ha hb hab
    have hap : a = p → False := fun h => by
      subst h
      exact hb (Option.some.inj (hab.1.symm.trans h1.1))
    have hbn : b = n → False := fun h => by
      subst h
      exact ha (Option.some.inj (hab.2.symm.trans h2.2))
    have hap2 : ¬ a = p := hap
    have hbn2 : ¬ b = n := hbn
    simp [Link, n2, p2, Function.update_apply, ha, hb, hap2, hbn2, hab.1, hab.2]

/-- Function `list_del` on a link that points to itself changes nothing. -/
theorem list_del_self {m : Nat → Option list_t} (l : Option Nat) {e : Nat}
    (h : SelfLinked m e) : ∃ m2, list_del m l e = some m2 ∧ SelfLinked m2 e ∧
      (∀ a b, Link m a b → Link m2 a b) ∧ ∀ x, x ≠ e → m2 x = m x := by
  obtain ⟨m2, e2, n2, p2, f2⟩ :=
    list_del_spec l h.2 h.1 (link_alloc_left h) (link_alloc_left h)
  have hn : list_next m2 = list_next m := by
    rw [n2]; funext x
    by_cases hx : x = e
    · subst hx; simp [h.1]
    · simp [Function.update_apply, hx]
  have hp : list_prev m2 = list_prev m := by
    rw [p2]; funext x
    by_cases hx : x = e
    · subst hx; simp [h.2]
    · simp [Function.update_apply, hx]
  refine ⟨m2, e2, ?_, ?_, fun x hx => f2 x hx hx hx⟩
  · simpa [SelfLinked, Link, hn, hp] using h
  · intro a b hab
    simpa [Link, hn, hp] using hab

/-! ## Function list_del on a well-formed list -/

theorem listrep_alloc_head {m : Nat → Option list_t} {l : Nat} {xs : List Nat}
    (h : ListRep m l xs) : ∃ c, m l = some c := by
  have hc := h.2
  rw [List.cons_append, List.chain'_cons'] at hc
  obtain ⟨y, hy⟩ : ∃ y, (xs ++ [l]).head? = some y := ⟨_, List.head?_eq_head (by simp)⟩
  exact link_alloc_left (hc.1 y hy)

/-- Taking the link `e` out of a well-formed list with `list_del`. -/
theorem listrep_del {m : Nat → Option list_t} (lo : Option Nat) {l e : Nat} {A B : List Nat}
    (h : ListRep m l (A ++ e :: B)) :
    ∃ m1, list_del m lo e = some m1 ∧ ListRep m1 l (A ++ B) ∧ SelfLinked m1 e ∧
      ∀ x, x ∉ l :: (A ++ e :: B) → m1 x = m x := by
  obtain ⟨hnd, hc⟩ := h
  have hl : l :: (A ++ e :: B) ++ [l] = (l :: A) ++ e :: (B ++ [l]) := by simp
  rw [hl, List.chain'_split] at hc
  obtain ⟨hc1, hc2⟩ := hc
  obtain ⟨hcA, -, hpe⟩ := List.chain'_append.1 hc1
  obtain ⟨hen, hcB⟩ := List.chain'_cons'.1 hc2
  obtain ⟨p, hp⟩ : ∃ p, (l :: A).getLast? = some p := ⟨_, List.getLast?_eq_getLast _ (by simp)⟩
  obtain ⟨n, hn⟩ : ∃ n, (B ++ [l]).head? = some n := ⟨_, List.head?_eq_head (by simp)⟩
  have h1 : Link m p e := hpe p hp e rfl
  have h2 : Link m e n := hen n hn
  have hnd2 : (l :: A ++ e :: B).Nodup := hnd
  have heA : ∀ a, a ∈ l :: A → a ≠ e := by
    intro a ha hae
    subst hae
    rw [show l :: (A ++ a :: B) = (l :: A) ++ a :: B by simp] at hnd
    have := (List.nodup_append.1 hnd).2.2
    exact this ha (List.mem_cons_self _ _)
  have heB : ∀ a, a ∈ B ++ [l] → a ≠ e := by
    intro a ha hae
    subst hae
    rw [show l :: (A ++ a :: B) = (l :: A) ++ a :: B by simp] at hnd
    obtain ⟨-, h3, h4⟩ := List.nodup_append.1 hnd
    rcases List.mem_append.1 ha with hb | hb
    · exact (List.nodup_cons.1 h3).1 hb
    · simp only [List.mem_singleton] at hb
      subst hb
      exact h4 (List.mem_cons_self _ _) (List.mem_cons_self _ _)
  have hpm : p ∈ l :: A := List.mem_of_getLast?_eq_some hp
  have hnm : n ∈ B ++ [l] := List.mem_of_mem_head? hn
  obtain ⟨m1, e1, hs, hpn, hk, hf⟩ := list_del_link lo h1 h2 (heA p hpm) (heB n hnm)
  refine ⟨m1, e1, ⟨?_, ?_⟩, hs, ?_⟩
  · rw [show l :: (A ++ e :: B) = (l :: A) ++ e :: B by simp] at hnd
    have := List.nodup_append.1 hnd
    rw [show l :: (A ++ B) = (l :: A) ++ B by simp]
    refine List.nodup_append.2 ⟨this.1, (List.nodup_cons.1 this.2.1).2, ?_⟩
    intro a ha hb
    exact this.2.2 ha (by simp [hb])
  · rw [show l :: (A ++ B) ++ [l] = (l :: A) ++ (B ++ [l]) by simp, List.chain'_append]
    refine ⟨chain_imp_src _ hcA (fun a b ha hb => hk a b
        (heA a (List.mem_of_mem_dropLast ha)) (heA b (List.mem_of_mem_tail hb))),
      chain_imp_src _ hcB (fun a b ha hb => hk a b
        (heB a (List.mem_of_mem_dropLast ha)) (heB b (List.mem_of_mem_tail hb))), ?_⟩
    intro x hx y hy
    rw [hp] at hx
    rw [hn] at hy
    simp only [Option.mem_def, Option.some.injEq] at hx hy
    subst hx; subst hy
    exact hpn
  · intro x hx
    refine hf x ?_ ?_ ?_
    · intro hxe; subst hxe; exact hx (by simp)
    · intro hxp; subst hxp
      exact hx (by
        rcases List.mem_cons.1 hpm with h | h
        · simp [h]
        · simp [h])
    · intro hxn; subst hxn
      exact hx (by
        rcases List.mem_append.1 hnm with h | h
        · simp [h]
        · simp only [List.mem_singleton] at h; simp [h])

/-- The call of `list_del` on a link that is initialised and in no list leaves
a well-formed list as it is. -/
theorem listrep_del_self {m : Nat → Option list_t} (lo : Option Nat) {l e : Nat}
    {xs : List Nat} (h : ListRep m l xs) (hs : SelfLinked m e) :
    ∃ m1, list_del m lo e = some m1 ∧ ListRep m1 l xs ∧ SelfLinked m1 e ∧
      ∀ x, x ≠ e → m1 x = m x := by
  obtain ⟨m1, e1, hs1, hk, hf⟩ := list_del_self lo hs
  exact ⟨m1, e1, ⟨h.1, h.2.imp (fun {a b} => hk a b)⟩, hs1, hf⟩

/-! ## Linking an element at the head and at the tail -/

/-- Function `list_add_head` once `list_del` has left the element initialised
and outside the well-formed list: the element becomes the first one. -/
theorem listrep_insert_head {m m1 : Nat → Option list_t} {l e : Nat} {ys : List Nat}
    (hd : list_del m (some l) e = some m1) (h : ListRep m1 l ys) (hs : SelfLinked m1 e)
    (hne : e ∉ l :: ys) :
    ∃ m5, list_add_head m l e = some m5 ∧ ListRep m5 l (e :: ys) ∧
      ∀ x, x ∉ e :: l :: ys → m5 x = m1 x := by
  obtain ⟨hnd, hc⟩ := h
  rw [List.cons_append] at hc
  obtain ⟨hlh, hcY⟩ := List.chain'_cons'.1 hc
  obtain ⟨hh, hhd⟩ : ∃ hh, (ys ++ [l]).head? = some hh := ⟨_, List.head?_eq_head (by simp)⟩
  have h1 : Link m1 l hh := hlh hh hhd
  have hhm : hh ∈ ys ++ [l] := List.mem_of_mem_head? hhd
  have hel : e ≠ l := fun h => hne (by simp [h])
  have hey : ∀ a, a ∈ ys ++ [l] → a ≠ e := by
    intro a ha hae
    subst hae
    rcases List.mem_append.1 ha with hb | hb
    · exact hne (by simp [hb])
    · simp only [List.mem_singleton] at hb
      exact hel hb
  have hhe : hh ≠ e := hey hh hhm
  obtain ⟨m5, e5, n5, p5, f5⟩ :=
    list_add_head_raw hd h1.1 (link_alloc_left hs) (link_alloc_right h1)
  have hle : l ≠ e := fun h => hel h.symm
  refine ⟨m5, e5, ⟨?_, ?_⟩, ?_⟩
  · have := List.nodup_cons.1 hnd
    refine List.nodup_cons.2 ⟨?_, List.nodup_cons.2 ⟨fun h => hne (by simp [h]), this.2⟩⟩
    intro h
    rcases List.mem_cons.1 h with h | h
    · exact hle h
    · exact this.1 h
  · rw [show l :: (e :: ys) ++ [l] = l :: e :: (ys ++ [l]) by simp, List.chain'_cons,
      List.chain'_cons']
    refine ⟨?_, ?_, ?_⟩
    · simp [Link, n5, p5, Function.update_apply, hle, hhe.symm]
    · intro y hy
      rw [hhd] at hy
      simp only [Option.mem_def, Option.some.injEq] at hy
      subst hy
      simp [Link, n5, p5]
    · refine chain_imp_src _ hcY (fun a b ha hb hab => ?_)
      rw [List.dropLast_concat] at ha
      have hal : a ≠ l := fun h => by
        subst h
        exact (List.nodup_cons.1 hnd).1 ha
      have hae : a ≠ e := hey a (by simp [ha])
      have hbe : b ≠ e := hey b (List.mem_of_mem_tail hb)
      have hbh : b ≠ hh := fun h => by
        subst h
        exact hal (Option.some.inj (hab.2.symm.trans h1.2))
      simp [Link, n5, p5, Function.update_apply, hal, hae, hbe, hbh, hab.1, hab.2]
  · intro x hx
    refine f5 x ?_ ?_ ?_
    · intro h; subst h; exact hx (by simp)
    · intro h; subst h; exact hx (by simp)
    · intro h; subst h
      exact hx (by
        rcases List.mem_append.1 hhm with h | h
        · simp [h]
        · simp only [List.mem_singleton] at h; simp [h])

/-- Function `list_add_tail` once `list_del` has left the element initialised
and outside the well-formed list: the element becomes the last one. -/
theorem listrep_insert_tail {m m1 : Nat → Option list_t} {l e : Nat} {ys : List Nat}
    (hd : list_del m (some l) e = some m1) (h : ListRep m1 l ys) (hs : SelfLinked m1 e)
    (hne : e ∉ l :: ys) :
    ∃ m5, list_add_tail m l e = some m5 ∧ ListRep m5 l (ys ++ [e]) ∧
      ∀ x, x ∉ e :: l :: ys → m5 x = m1 x := by
  obtain ⟨hnd, hc⟩ := h
  rw [show l :: ys ++ [l] = (l :: ys) ++ [l] by simp] at hc
  obtain ⟨hcY, -, hql⟩ := List.chain'_append.1 hc
  obtain ⟨q, hq⟩ : ∃ q, (l :: ys).getLast? = some q := ⟨_, List.getLast?_eq_getLast _ (by simp)⟩
  have h1 : Link m1 q l := hql q hq l rfl
  have hqm : q ∈ l :: ys := List.mem_of_getLast?_eq_some hq
  have hel : e ≠ l := fun h => hne (by simp [h])
  have hle : l ≠ e := fun h => hel h.symm
  have hey : ∀ a, a ∈ l :: ys → a ≠ e := by
    intro a ha hae
    subst hae
    exact hne ha
  have hqe : q ≠ e := hey q hqm
  obtain ⟨m5, e5, n5, p5, f5⟩ :=
    list_add_tail_raw hd h1.2 (link_alloc_left hs) (link_alloc_left h1)
  refine ⟨m5, e5, ⟨?_, ?_⟩, ?_⟩
  · rw [show l :: (ys ++ [e]) = (l :: ys) ++ [e] by simp]
    refine List.nodup_append.2 ⟨hnd, List.nodup_singleton e, ?_⟩
    intro a ha hb
    simp only [List.mem_singleton] at hb
    exact hey a ha hb
  · rw [show l :: (ys ++ [e]) ++ [l] = (l :: ys) ++ [e, l] by simp, List.chain'_append]
    refine ⟨?_, ?_, ?_⟩
    · refine chain_imp_src _ hcY (fun a b ha hb hab => ?_)
      have hbm : b ∈ ys := hb
      have hbl : b ≠ l := fun h => by
        subst h
        exact (List.nodup_cons.1 hnd).1 hbm
      have hbe : b ≠ e := hey b (by simp [hbm])
      have hae : a ≠ e := hey a (List.mem_of_mem_dropLast ha)
      have haq : a ≠ q := fun h => by
        subst h
        exact hbl (Option.some.inj (hab.1.symm.trans h1.1))
      simp [Link, n5, p5, Function.update_apply, hbl, hae, hbe, haq, hab.1, hab.2]
    · rw [List.chain'_pair]
      simp [Link, n5, p5, Function.update_apply, hle, hqe.symm]
    · intro x hx y hy
      rw [hq] at hx
      simp only [Option.mem_def, Option.some.injEq, List.head?_cons] at hx hy
      subst hx; subst hy
      simp [Link, n5, p5]
  · intro x hx
    refine f5 x ?_ ?_ ?_
    · intro h; subst h; exact hx (by simp)
    · intro h; subst h; exact hx (by simp)
    · intro h; subst h
      exact hx (by
        rcases List.mem_cons.1 hqm with h | h
        · simp [h]
        · simp [h])

/-! ## Walking a well-formed list -/

theorem head_append_getD (xs : List Nat) (l : Nat) :
    (xs ++ [l]).head? = some (xs.head?.getD l) := by
  cases xs <;> rfl

/-- The walk of `list_foreach` along a chain of links that ends in the head. -/
theorem list_foreach_from_spec {m : Nat → Option list_t} {l : Nat} :
    ∀ (xs : List Nat), List.Chain' (Link m) (xs ++ [l]) → l ∉ xs →
      ∀ fuel, xs.length + 1 ≤ fuel → list_foreach_from m l fuel (xs.head?.getD l) = some xs := by
  intro xs
  induction xs with
  | nil =>
    intro _ _ fuel hf
    obtain ⟨k, rfl⟩ : ∃ k, fuel = k + 1 := ⟨fuel - 1, by simp at hf; omega⟩
    simp [list_foreach_from]
  | cons x r ih =>
    intro hc hl fuel hf
    obtain ⟨k, rfl⟩ : ∃ k, fuel = k + 1 := ⟨fuel - 1, by omega⟩
    rw [List.cons_append] at hc
    obtain ⟨hx, hr⟩ := List.chain'_cons'.1 hc
    have hn := (hx _ (head_append_getD r l)).1
    have hxl : x ≠ l := fun h => hl (by simp [h])
    have := ih hr (fun h => hl (by simp [h])) k (by simp only [List.length_cons] at hf; omega)
    simp [list_foreach_from, hxl, hn, this]

/-- What the reading functions of `list.c` return on a well-formed list. -/
theorem listrep_observe {m : Nat → Option list_t} {l : Nat} {xs : List Nat}
    (h : ListRep m l xs) :
    WalksTo m l xs ∧ CountsTo m l xs.length ∧ list_head m l = some xs.head? ∧
      list_tail m l = some xs.getLast? ∧ list_is_empty m l = some xs.isEmpty := by
  obtain ⟨hnd, hc⟩ := h
  have hc0 := hc
  rw [List.cons_append] at hc
  obtain ⟨hx, hr⟩ := List.chain'_cons'.1 hc
  have hn := (hx _ (head_append_getD xs l)).1
  have hl : l ∉ xs := (List.nodup_cons.1 hnd).1
  have hw : ∀ fuel, xs.length + 1 ≤ fuel → list_elems fuel m l = some xs := by
    intro fuel hf
    simp [list_elems, hn, list_foreach_from_spec xs hr hl fuel hf]
  refine ⟨⟨_, hw⟩, ⟨xs.length + 1, fun fuel hf => by simp [list_count, hw fuel hf]⟩, ?_, ?_, ?_⟩
  · cases xs with
    | nil => simp [list_head, hn]
    | cons x r =>
      have hxl : x ≠ l := fun h => hl (by simp [h])
      simp only [List.head?_cons, Option.getD_some] at hn
      simp [list_head, hn, hxl]
  · rw [show l :: xs ++ [l] = (l :: xs) ++ [l] by simp] at hc0
    obtain ⟨-, -, hq⟩ := List.chain'_append.1 hc0
    rcases List.eq_nil_or_concat xs with rfl | ⟨ys, q, rfl⟩
    · have := (hq l rfl l rfl).2
      simp [list_tail, this]
    · rw [List.concat_eq_append] at hq hl ⊢
      have hlast : (l :: (ys ++ [q])).getLast? = some q := by
        rw [show l :: (ys ++ [q]) = (l :: ys) ++ [q] by simp, List.getLast?_concat]
      have := (hq q hlast l rfl).2
      have hql : q ≠ l := fun h => hl (by simp [h])
      simp [list_tail, this, hql]
  · cases xs with
    | nil => simp [list_is_empty, hn]
    | cons x r =>
      have hxl : x ≠ l := fun h => hl (by simp [h])
      simp only [List.head?_cons, Option.getD_some] at hn
      simp [list_is_empty, hn, hxl]

theorem chain_succ {R : Nat → Nat → Prop} {z : Nat} :
    ∀ (L : List Nat), List.Chain' R (L ++ [z]) → ∀ a ∈ L, ∃ b ∈ L.tail ++ [z], R a b := by
  intro L
  induction L with
  | nil => intro _ a ha; simp at ha
  | cons x r ih =>
    intro hc a ha
    rw [List.cons_append] at hc
    obtain ⟨hx, hr⟩ := List.chain'_cons'.1 hc
    rcases List.mem_cons.1 ha with rfl | har
    · have hh := head_append_getD r z
      exact ⟨_, List.mem_of_mem_head? hh, hx _ hh⟩
    · obtain ⟨b, hb, hab⟩ := ih hr a har
      refine ⟨b, ?_, hab⟩
      rcases List.mem_append.1 hb with h | h
      · exact List.mem_append_left _ (List.mem_of_mem_tail h)
      · exact List.mem_append_right _ h

theorem chain_pred {R : Nat → Nat → Prop} :
    ∀ (L : List Nat) (z : Nat), List.Chain' R (z :: L) → ∀ b ∈ L, ∃ a ∈ z :: L.dropLast, R a b := by
  intro L
  induction L with
  | nil => intro _ _ b hb; simp at hb
  | cons x r ih =>
    intro z hc b hb
    rw [List.chain'_cons] at hc
    rcases List.mem_cons.1 hb with rfl | hbr
    · exact ⟨z, by simp, hc.1⟩
    · obtain ⟨a, ha, hab⟩ := ih x hc.2 b hbr
      refine ⟨a, ?_, hab⟩
      cases r with
      | nil => simp at hbr
      | cons y r2 =>
        simp only [List.dropLast_cons₂]
        exact List.mem_cons_of_mem _ ha

/-- In a well-formed list the `next` and `prev` links are inverse to each
other and stay inside the list. -/
theorem listrep_inverse {m : Nat → Option list_t} {l : Nat} {xs : List Nat}
    (h : ListRep m l xs) :
    LinksInverse m (l :: xs) := by
  intro a ha
  obtain ⟨hnd, hc⟩ := h
  have hc1 : List.Chain' (Link m) ((l :: xs) ++ [l]) := by simpa using hc
  obtain ⟨b, hb, hab⟩ := chain_succ (l :: xs) hc1 a ha
  have hc2 : List.Chain' (Link m) (l :: (xs ++ [l])) := by simpa using hc
  obtain ⟨c, hcm, hca⟩ := chain_pred (xs ++ [l]) l hc2 a (by
    rcases List.mem_cons.1 ha with h | h
    · simp [h]
    · simp [h])
  refine ⟨b, c, ?_, ?_, hab.1, hab.2, hca.2, hca.1⟩
  · simp only [List.tail_cons] at hb
    rcases List.mem_append.1 hb with h | h
    · exact List.mem_cons_of_mem _ h
    · simp only [List.mem_singleton] at h; simp [h]
  · simpa [List.dropLast_concat] using hcm

/-! ## Claim C29 -/

/-- Function `list_add_tail` and `list_add_head` on an element that is in the
list already. -/
theorem list_add_linked {m : Nat → Option list_t} {l e : Nat} {A B : List Nat}
    (h : ListRep m l (A ++ e :: B)) :
    (∃ m2, list_add_tail m l e = some m2 ∧ ListRep m2 l (A ++ B ++ [e])) ∧
      ∃ m2, list_add_head m l e = some m2 ∧ ListRep m2 l (e :: (A ++ B)) := by
  obtain ⟨m1, e1, hR, hs, -⟩ := listrep_del (some l) h
  have hne : e ∉ l :: (A ++ B) := by
    have hnd := h.1
    rw [show l :: (A ++ e :: B) = (l :: A) ++ e :: B by simp] at hnd
    obtain ⟨h1, h2, h3⟩ := List.nodup_append.1 hnd
    intro hm
    rcases List.mem_cons.1 hm with h | h
    · exact h3 (by simp [h]) (List.mem_cons_self _ _)
    · rcases List.mem_append.1 h with h | h
      · exact h3 (List.mem_cons_of_mem _ h) (List.mem_cons_self _ _)
      · exact (List.nodup_cons.1 h2).1 h
  obtain ⟨m2, e2, hR2, -⟩ := listrep_insert_tail e1 hR hs hne
  obtain ⟨m3, e3, hR3, -⟩ := listrep_insert_head e1 hR hs hne
  exact ⟨⟨m2, e2, hR2⟩, ⟨m3, e3, hR3⟩⟩

/-- Function `list_add_tail` and `list_add_head` on an initialised element
that is in no list. -/
theorem list_add_fresh {m : Nat → Option list_t} {l e : Nat} {xs : List Nat}
    (h : ListRep m l xs) (hs : SelfLinked m e) (hne : e ∉ l :: xs) :
    (∃ m2, list_add_tail m l e = some m2 ∧ ListRep m2 l (xs ++ [e])) ∧
      ∃ m2, list_add_head m l e = some m2 ∧ ListRep m2 l (e :: xs) := by
  obtain ⟨m1, e1, hR, hs1, -⟩ := listrep_del_self (some l) h hs
  obtain ⟨m2, e2, hR2, -⟩ := listrep_insert_tail e1 hR hs1 hne
  obtain ⟨m3, e3, hR3, -⟩ := listrep_insert_head e1 hR hs1 hne
  exact ⟨⟨m2, e2, hR2⟩, ⟨m3, e3, hR3⟩⟩

/-- C29: adding an element that is already linked does not duplicate it. For
every well-formed circular list with head `l` and elements `xs`:
for every element `e` of it, standing between the elements `A` and `B`,
`list_add_tail(l, e)` returns and leaves the well-formed list `A, B, e`, and
`list_add_head(l, e)` returns and leaves the well-formed list `e, A, B`; in
both, `list_count` returns the same number as before, `e` is what `list_tail`
(resp. `list_head`) returns, the walk along `next` from `l` visits `e` exactly
once, and `next` and `prev` are inverse to each other on the links of the
list. For every initialised element that is not in the list, both calls return
and `list_count` then returns one more than before. -/
theorem add_linked_not_duplicated (m : Nat → Option list_t) (l : Nat) (xs : List Nat)
    (h : ListRep m l xs) :
    CountsTo m l xs.length ∧
      (∀ e ∈ xs, ∃ A B, xs = A ++ e :: B ∧
        (∃ m2, list_add_tail m l e = some m2 ∧ ListRep m2 l (A ++ B ++ [e]) ∧
          CountsTo m2 l xs.length ∧ list_tail m2 l = some (some e) ∧
          WalksTo m2 l (A ++ B ++ [e]) ∧ (A ++ B ++ [e]).count e = 1 ∧
          LinksInverse m2 (l :: (A ++ B ++ [e]))) ∧
        (∃ m2, list_add_head m l e = some m2 ∧ ListRep m2 l (e :: (A ++ B)) ∧
          CountsTo m2 l xs.length ∧ list_head m2 l = some (some e) ∧
          WalksTo m2 l (e :: (A ++ B)) ∧ (e :: (A ++ B)).count e = 1 ∧
          LinksInverse m2 (l :: e :: (A ++ B)))) ∧
      (∀ e, SelfLinked m e → e ∉ l :: xs →
        (∃ m2, list_add_tail m l e = some m2 ∧ ListRep m2 l (xs ++ [e]) ∧
          CountsTo m2 l (xs.length + 1) ∧ list_tail m2 l = some (some e)) ∧
        (∃ m2, list_add_head m l e = some m2 ∧ ListRep m2 l (e :: xs) ∧
          CountsTo m2 l (xs.length + 1) ∧ list_head m2 l = some (some e))) := by
  refine ⟨(listrep_observe h).2.1, ?_, ?_⟩
  · intro e he
    obtain ⟨A, B, rfl⟩ := List.append_of_mem he
    obtain ⟨⟨m2, e2, hR2⟩, ⟨m3, e3, hR3⟩⟩ := list_add_linked h
    obtain ⟨w2, c2, -, t2, -⟩ := listrep_observe hR2
    obtain ⟨w3, c3, h3, -, -⟩ := listrep_observe hR3
    refine ⟨A, B, rfl, ⟨m2, e2, hR2, ?_, ?_, w2, ?_, listrep_inverse hR2⟩,
      ⟨m3, e3, hR3, ?_, ?_, w3, ?_, listrep_inverse hR3⟩⟩
    · have : (A ++ B ++ [e]).length = (A ++ e :: B).length := by simp
      rw [← this]; exact c2
    · rw [t2, List.getLast?_concat]
    · exact List.count_eq_one_of_mem (List.nodup_cons.1 hR2.1).2 (by simp)
    · have : (e :: (A ++ B)).length = (A ++ e :: B).length := by simp; omega
      rw [← this]; exact c3
    · rw [h3]; rfl
    · exact List.count_eq_one_of_mem (List.nodup_cons.1 hR3.1).2 (by simp)
  · intro e hs hne
    obtain ⟨⟨m2, e2, hR2⟩, ⟨m3, e3, hR3⟩⟩ := list_add_fresh h hs hne
    obtain ⟨-, c2, -, t2, -⟩ := listrep_observe hR2
    obtain ⟨-, c3, h3, -, -⟩ := listrep_observe hR3
    refine ⟨⟨m2, e2, hR2, ?_, ?_⟩, ⟨m3, e3, hR3, ?_, ?_⟩⟩
    · simpa using c2
    · rw [t2, List.getLast?_concat]
    · simpa using c3
    · rw [h3]; rfl

theorem listrep_lx3 : ListRep lx3 0 [1, 2] := by
  refine ⟨by decide, ?_⟩
  simp [Link, list_next, list_prev, lx3]

/-- Witness of C29: the list with the elements 1 and 2. -/
theorem add_linked_not_duplicated_witness :
    CountsTo lx3 0 [1, 2].length ∧
      (∀ e ∈ [1, 2], ∃ A B, [1, 2] = A ++ e :: B ∧
        (∃ m2, list_add_tail lx3 0 e = some m2 ∧ ListRep m2 0 (A ++ B ++ [e]) ∧
          CountsTo m2 0 [1, 2].length ∧ list_tail m2 0 = some (some e) ∧
          WalksTo m2 0 (A ++ B ++ [e]) ∧ (A ++ B ++ [e]).count e = 1 ∧
          LinksInverse m2 (0 :: (A ++ B ++ [e]))) ∧
        (∃ m2, list_add_head lx3 0 e = some m2 ∧ ListRep m2 0 (e :: (A ++ B)) ∧
          CountsTo m2 0 [1, 2].length ∧ list_head m2 0 = some (some e) ∧
          WalksTo m2 0 (e :: (A ++ B)) ∧ (e :: (A ++ B)).count e = 1 ∧
          LinksInverse m2 (0 :: e :: (A ++ B)))) ∧
      (∀ e, SelfLinked lx3 e → e ∉ 0 :: [1, 2] →
        (∃ m2, list_add_tail lx3 0 e = some m2 ∧ ListRep m2 0 ([1, 2] ++ [e]) ∧
          CountsTo m2 0 ([1, 2].length + 1) ∧ list_tail m2 0 = some (some e)) ∧
        (∃ m2, list_add_head lx3 0 e = some m2 ∧ ListRep m2 0 (e :: [1, 2]) ∧
          CountsTo m2 0 ([1, 2].length + 1) ∧ list_head m2 0 = some (some e))) :=
  add_linked_not_duplicated lx3 0 [1, 2] listrep_lx3

/-! ## Function list_pop_head -/

theorem link_congr {m m2 : Nat → Option list_t} {a b : Nat} (ha : m2 a = m a)
    (hb : m2 b = m b) (h : Link m a b) : Link m2 a b := by
  simpa [Link, list_next, list_prev, ha, hb] using h

/-- A well-formed list only depends on its own links. -/
theorem listrep_frame {m m2 : Nat → Option list_t} {l : Nat} {xs : List Nat}
    (h : ListRep m l xs) (hm : ∀ x ∈ l :: xs, m2 x = m x) : ListRep m2 l xs := by
  refine ⟨h.1, ?_⟩
  have hsub : ∀ x, x ∈ l :: xs ++ [l] → x ∈ l :: xs := by
    intro x hx
    simp only [List.cons_append, List.mem_cons, List.mem_append, List.mem_singleton,
      List.not_mem_nil, or_false] at hx
    rcases hx with h | h | h
    · simp [h]
    · simp [h]
    · simp [h]
  exact chain_imp_src _ h.2 (fun a b ha hb hab =>
    link_congr (hm a (hsub a (List.mem_of_mem_dropLast ha)))
      (hm b (hsub b (List.mem_of_mem_tail hb))) hab)

/-- Every link of a well-formed list is allocated. -/
theorem listrep_alloc {m : Nat → Option list_t} {l : Nat} {xs : List Nat}
    (h : ListRep m l xs) : ∀ a ∈ l :: xs, ∃ c, m a = some c := by
  intro a ha
  obtain ⟨b, c, -, -, hn, -⟩ := listrep_inverse h a ha
  exact list_next_some_iff.1 ⟨b, hn⟩

/-- Function `list_pop_head` on a well-formed list that is not empty. -/
theorem list_pop_head_cons {m : Nat → Option list_t} {l x : Nat} {xs : List Nat}
    (h : ListRep m l (x :: xs)) :
    ∃ m1, list_pop_head m l = some (m1, some x) ∧ ListRep m1 l xs ∧ SelfLinked m1 x ∧
      ∀ y, y ∉ l :: x :: xs → m1 y = m y := by
  have hc := h.2
  rw [List.cons_append] at hc
  have hn := ((List.chain'_cons'.1 hc).1 _ (head_append_getD (x :: xs) l)).1
  simp only [List.head?_cons, Option.getD_some] at hn
  have hxl : x ≠ l := fun e => (List.nodup_cons.1 h.1).1 (by simp [e])
  obtain ⟨m1, e1, hR, hs, hf⟩ := listrep_del (A := []) (some l) h
  refine ⟨m1, ?_, hR, hs, hf⟩
  simp [list_pop_head, list_is_empty, hn, hxl, e1]

/-- Function `list_pop_head` on an empty well-formed list. -/
theorem list_pop_head_nil {m : Nat → Option list_t} {l : Nat} (h : ListRep m l []) :
    list_pop_head m l = some (m, none) := by
  have hc := h.2
  rw [List.cons_append] at hc
  have hn := ((List.chain'_cons'.1 hc).1 _ (head_append_getD [] l)).1
  simp only [List.head?_nil, Option.getD_none] at hn
  simp [list_pop_head, list_is_empty, hn]

/-! ## Functions stack_push, stack_pop and stack_top -/

variable {D : Type}

/-- Function `list_add_head` on an initialised element that is in no list,
with the links it leaves untouched. -/
theorem list_add_head_fresh {m : Nat → Option list_t} {l e : Nat} {xs : List Nat}
    (h : ListRep m l xs) (hs : SelfLinked m e) (hne : e ∉ l :: xs) :
    ∃ m2, list_add_head m l e = some m2 ∧ ListRep m2 l (e :: xs) ∧
      ∀ x, x ∉ e :: l :: xs → m2 x = m x := by
  obtain ⟨m1, e1, hR, hs1, f1⟩ := listrep_del_self (some l) h hs
  obtain ⟨m3, e3, hR3, f3⟩ := listrep_insert_head e1 hR hs1 hne
  refine ⟨m3, e3, hR3, fun x hx => ?_⟩
  rw [f3 x hx, f1 x (fun h => hx (by simp [h]))]

theorem map_update_not_mem (f : Nat → Option D) (a : Nat) (v : Option D) (xs : List Nat)
    (h : a ∉ xs) : xs.map (Function.update f a v) = xs.map f := by
  apply List.map_congr_left
  intro x hx
  have : x ≠ a := fun e => h (e ▸ hx)
  simp [Function.update_apply, this]

/-- Function `stack_push` on a well-formed stack. -/
theorem stack_push_spec {st : stack_st D} {as : List Nat} {ds : List (Option D)}
    (h : StackRep st as ds) (d : Option D) (a : Nat) (ha : st.links a = none) :
    ∃ st2, stack_push st d a = some st2 ∧ StackRep st2 (a :: as) (d :: ds) ∧
      st2.size = st.size + 1 ∧ st2.self = st.self ∧
      ∀ b, b ≠ a → st.links b = none → st2.links b = none := by
  obtain ⟨hR, hd, hs⟩ := h
  have hal := listrep_alloc hR
  have hne : a ∉ st.self :: as := fun hm => by
    obtain ⟨c, hc⟩ := hal a hm
    rw [ha] at hc
    exact Option.noConfusion hc
  have hR0 : ListRep (list_init st.links a) st.self as :=
    listrep_frame hR (fun x hx => by
      have : x ≠ a := fun e => hne (e ▸ hx)
      simp [list_init, Function.update_apply, this])
  have hs0 : SelfLinked (list_init st.links a) a := by
    simp [SelfLinked, Link, list_next, list_prev, list_init]
  obtain ⟨m2, e2, hR2, f2⟩ := list_add_head_fresh hR0 hs0 hne
  refine ⟨{ st with links := m2, data := Function.update st.data a d, size := st.size + 1 },
    by simp [stack_push, e2], ⟨hR2, ?_, ?_⟩, rfl, rfl, ?_⟩
  · have : a ∉ as := fun hm => hne (List.mem_cons_of_mem _ hm)
    simp [map_update_not_mem _ _ _ _ this, hd]
  · simp [hs]
  · intro b hb hbn
    have hbm : b ∉ a :: st.self :: as := fun hm => by
      rcases List.mem_cons.1 hm with h | h
      · exact hb h
      · obtain ⟨c, hc⟩ := hal b h
        rw [hbn] at hc
        exact Option.noConfusion hc
    show m2 b = none
    rw [f2 b hbm]
    simp [list_init, Function.update_apply, hb, hbn]

/-- Function `stack_pop` on a well-formed stack that is not empty. -/
theorem stack_pop_spec {st : stack_st D} {a : Nat} {as : List Nat} {d : Option D}
    {ds : List (Option D)} (h : StackRep st (a :: as) (d :: ds)) :
    ∃ st2, stack_pop st = some (st2, d) ∧ StackRep st2 as ds ∧ st2.size = st.size - 1 ∧
      st2.self = st.self := by
  obtain ⟨hR, hd, hs⟩ := h
  obtain ⟨m1, e1, hR1, hs1, -⟩ := list_pop_head_cons hR
  obtain ⟨c, hc⟩ := link_alloc_left hs1
  have hne : a ∉ st.self :: as := by
    have := List.nodup_cons.1 hR.1
    intro hm
    rcases List.mem_cons.1 hm with h | h
    · exact this.1 (by simp [h])
    · exact (List.nodup_cons.1 this.2).1 h
  simp only [List.map_cons, List.cons.injEq] at hd
  have hsz : st.size ≠ 0 := by rw [hs]; simp
  refine ⟨{ st with links := Function.update m1 a none,
                    data := Function.update st.data a none, size := st.size - 1 },
    by simp [stack_pop, hsz, e1, hc, hd.1], ⟨?_, ?_, ?_⟩, rfl, rfl⟩
  · exact listrep_frame hR1 (fun x hx => by
      have : x ≠ a := fun e => hne (e ▸ hx)
      simp [Function.update_apply, this])
  · have : a ∉ as := fun hm => hne (List.mem_cons_of_mem _ hm)
    simp [map_update_not_mem _ _ _ _ this, hd.2]
  · simp [hs]

/-- Function `stack_top` on a well-formed stack that is not empty. -/
theorem stack_top_spec {st : stack_st D} {a : Nat} {as : List Nat} {d : Option D}
    {ds : List (Option D)} (h : StackRep st (a :: as) (d :: ds)) :
    stack_top st = some d := by
  obtain ⟨hR, hd, hs⟩ := h
  obtain ⟨c, hc⟩ := listrep_alloc hR a (by simp)
  have hh := (listrep_observe hR).2.2.1
  simp only [List.map_cons, List.cons.injEq] at hd
  have hsz : st.size ≠ 0 := by rw [hs]; simp
  simp [stack_top, hsz, hh, hc, hd.1]

/-- Function `stack_pop` and `stack_top` on an empty well-formed stack. -/
theorem stack_pop_nil {st : stack_st D} (h : StackRep st [] []) :
    stack_pop st = some (st, none) ∧ stack_top st = some none ∧ st.size = 0 := by
  obtain ⟨-, -, hs⟩ := h
  simp only [List.length_nil] at hs
  simp [stack_pop, stack_top, hs]

theorem stackrep_lengths {st : stack_st D} {as : List Nat} {ds : List (Option D)}
    (h : StackRep st as ds) : as.length = ds.length ∧ st.size = ds.length := by
  obtain ⟨-, hd, hs⟩ := h
  have : as.length = ds.length := by rw [← hd, List.length_map]
  exact ⟨this, by rw [hs, this]⟩

/-! ## Claim C26 -/

/-- After `stack_new` the stack is well-formed and empty. -/
theorem stackrep_new (s : Nat) : StackRep (stack_new s : stack_st D) [] [] := by
  refine ⟨⟨by simp, ?_⟩, rfl, rfl⟩
  simp [stack_new, Link, list_next, list_prev, list_init]

/-- The call `stack_pop` made `n` times on a well-formed stack with at least
`n` nodes returns the `n` data pointers on top, from the top down. -/
theorem stack_pop_n_spec : ∀ (n : Nat) (st : stack_st D) (as : List Nat) (ds : List (Option D)),
    StackRep st as ds → n ≤ ds.length →
    ∃ st2, stack_pop_n n st = some (st2, ds.take n) ∧ StackRep st2 (as.drop n) (ds.drop n) ∧
      st2.size = st.size - n := by
  intro n
  induction n with
  | zero => intro st as ds h _; exact ⟨st, rfl, h, rfl⟩
  | succ k ih =>
    intro st as ds h hn
    have hlen := (stackrep_lengths h).1
    cases ds with
    | nil => simp at hn
    | cons d ds2 =>
      cases as with
      | nil => simp at hlen
      | cons a as2 =>
        obtain ⟨st1, e1, h1, hs1, -⟩ := stack_pop_spec h
        obtain ⟨st2, e2, h2, hs2⟩ := ih st1 as2 ds2 h1 (by simpa using hn)
        refine ⟨st2, by simp [stack_pop_n, e1, e2], h2, ?_⟩
        rw [hs2, hs1]; omega

/-- The calls `stack_push` for a list of data pointers, with fresh distinct
addresses from the allocator, on a well-formed stack. -/
theorem stack_push_all_spec : ∀ (pushes : List (Option D × Nat)) (st : stack_st D)
    (as : List Nat) (ds : List (Option D)), StackRep st as ds →
    (pushes.map Prod.snd).Nodup → (∀ p ∈ pushes, st.links p.2 = none) →
    ∃ st2, stack_push_all pushes st = some st2 ∧
      StackRep st2 ((pushes.map Prod.snd).reverse ++ as) ((pushes.map Prod.fst).reverse ++ ds) ∧
      st2.size = st.size + pushes.length := by
  intro pushes
  induction pushes with
  | nil => intro st as ds h _ _; exact ⟨st, rfl, by simpa using h, rfl⟩
  | cons p rest ih =>
    intro st as ds h hnd hfr
    obtain ⟨d, a⟩ := p
    simp only [List.map_cons, List.nodup_cons] at hnd
    obtain ⟨st1, e1, h1, hs1, -, f1⟩ := stack_push_spec h d a (hfr (d, a) (by simp))
    obtain ⟨st2, e2, h2, hs2⟩ := ih st1 (a :: as) (d :: ds) h1 hnd.2 (fun q hq => by
      refine f1 q.2 (fun e => hnd.1 ?_) (hfr q (by simp [hq]))
      rw [← e]
      exact List.mem_map_of_mem _ hq)
    refine ⟨st2, by simp [stack_push_all, e1, e2], by simpa using h2, ?_⟩
    rw [hs2, hs1, List.length_cons]; omega

/-- C26: the stack is last-in first-out. For every well-formed stack that
holds the data pointers `ds` (top first): `stack_size` is their number;
`stack_push` of a pointer `d` (the allocator handing out a fresh address)
returns, increases `stack_size` by one and makes `stack_top` return `d`, and a
following `stack_pop` returns `d` and leaves a stack of the previous size that
holds `ds` again; after the pushes of `d1, ..., dn` in turn, `n` calls of
`stack_pop` return `dn, ..., d1` in this order and leave a stack of the
previous size that holds `ds`; and when the stack is empty, `stack_pop` and
`stack_top` return `NULL` and leave the stack as it is, with size 0. -/
theorem stack_is_lifo (st : stack_st D) (ds : List (Option D)) (h : Holds st ds) :
    stack_size st = ds.length ∧
      (∀ d a, st.links a = none →
        ∃ st2, stack_push st d a = some st2 ∧ stack_size st2 = stack_size st + 1 ∧
          stack_top st2 = some d ∧ Holds st2 (d :: ds) ∧
          ∃ st3, stack_pop st2 = some (st3, d) ∧ stack_size st3 = stack_size st ∧
            Holds st3 ds) ∧
      (∀ pushes : List (Option D × Nat), (pushes.map Prod.snd).Nodup →
        (∀ p ∈ pushes, st.links p.2 = none) →
        ∃ st2 st3, stack_push_all pushes st = some st2 ∧
          stack_pop_n pushes.length st2 = some (st3, (pushes.map Prod.fst).reverse) ∧
          stack_size st3 = stack_size st ∧ Holds st3 ds) ∧
      (ds = [] → stack_pop st = some (st, none) ∧ stack_top st = some none ∧
        stack_size st = 0 ∧ stack_empty st = true) := by
  obtain ⟨as, hR⟩ := h
  refine ⟨(stackrep_lengths hR).2, ?_, ?_, ?_⟩
  · intro d a ha
    obtain ⟨st2, e2, h2, hs2, -, -⟩ := stack_push_spec hR d a ha
    obtain ⟨st3, e3, h3, hs3, -⟩ := stack_pop_spec h2
    refine ⟨st2, e2, hs2, stack_top_spec h2, ⟨_, h2⟩, st3, e3, ?_, ⟨_, h3⟩⟩
    simp only [stack_size]
    rw [hs3, hs2]; omega
  · intro pushes hnd hfr
    obtain ⟨st2, e2, h2, hs2⟩ := stack_push_all_spec pushes st as ds hR hnd hfr
    obtain ⟨st3, e3, h3, hs3⟩ := stack_pop_n_spec pushes.length st2 _ _ h2 (by simp)
    have hl : (pushes.map Prod.fst).reverse.length = pushes.length := by simp
    have hl2 : (pushes.map Prod.snd).reverse.length = pushes.length := by simp
    rw [← hl, List.take_left] at e3
    rw [hl] at e3
    nth_rewrite 2 [← hl] at h3
    nth_rewrite 1 [← hl2] at h3
    rw [List.drop_left, List.drop_left] at h3
    refine ⟨st2, st3, e2, e3, ?_, ⟨_, h3⟩⟩
    simp only [stack_size]
    rw [hs3, hs2]; omega
  · intro hds
    subst hds
    have : as = [] := by
      have := (stackrep_lengths hR).1
      simpa using this
    subst this
    obtain ⟨h1, h2, h3⟩ := stack_pop_nil hR
    exact ⟨h1, h2, h3, by simp [stack_empty, h3]⟩

theorem holds_sx1 : Holds sx1 [some 7] := by
  obtain ⟨st2, e2, h2, -⟩ := stack_push_spec (stackrep_new (D := Nat) 0) (some 7) 1 (by
    simp [stack_new, list_init])
  have : sx1 = st2 := by simp [sx1, e2]
  rw [this]
  exact ⟨_, h2⟩

/-- Witness of C26: the stack that holds the one pointer 7. -/
theorem stack_is_lifo_witness :
    stack_size sx1 = [some 7].length ∧
      (∀ d a, sx1.links a = none →
        ∃ st2, stack_push sx1 d a = some st2 ∧ stack_size st2 = stack_size sx1 + 1 ∧
          stack_top st2 = some d ∧ Holds st2 (d :: [some 7]) ∧
          ∃ st3, stack_pop st2 = some (st3, d) ∧ stack_size st3 = stack_size sx1 ∧
            Holds st3 [some 7]) ∧
      (∀ pushes : List (Option Nat × Nat), (pushes.map Prod.snd).Nodup →
        (∀ p ∈ pushes, sx1.links p.2 = none) →
        ∃ st2 st3, stack_push_all pushes sx1 = some st2 ∧
          stack_pop_n pushes.length st2 = some (st3, (pushes.map Prod.fst).reverse) ∧
          stack_size st3 = stack_size sx1 ∧ Holds st3 [some 7]) ∧
      (([some 7] : List (Option Nat)) = [] → stack_pop sx1 = some (sx1, none) ∧
        stack_top sx1 = some none ∧ stack_size sx1 = 0 ∧ stack_empty sx1 = true) :=
  stack_is_lifo sx1 [some 7] holds_sx1

/-! ## Claims C25 and C24 -/

/-- C25, the code at a failing input: after `stack_new`, `stack_push(7)` and
`stack_push(NULL)` the stack holds the two pointers `NULL` and 7 and has size
2; `stack_clear` returns after its first `stack_pop`, which yields the `NULL`
on top, and leaves a stack of size 1 that still holds the pointer 7, so
`stack_size` is 1 and `stack_empty` is false. -/
theorem stack_clear_stops_at_null :
    ∃ st, sx2 = some st ∧ Holds st [none, some 7] ∧ stack_size st = 2 ∧
      ∃ st2, (∀ fuel, stack_clear (fuel + 1) st = some st2) ∧ stack_size st2 = 1 ∧
        stack_empty st2 = false ∧ Holds st2 [some 7] := by
  obtain ⟨st1, e1, h1, s1, -, f1⟩ := stack_push_spec (stackrep_new (D := Nat) 0) (some 7) 1 (by
    simp [stack_new, list_init])
  obtain ⟨st2, e2, h2, s2, -, -⟩ := stack_push_spec h1 none 2 (f1 2 (by decide) (by
    simp [stack_new, list_init]))
  obtain ⟨st3, e3, h3, s3, -⟩ := stack_pop_spec h2
  have hs1 : st1.size = 1 := by rw [s1]; rfl
  have hs2 : st2.size = 2 := by rw [s2, hs1]
  have hs3 : st3.size = 1 := by rw [s3, hs2]
  refine ⟨st2, by simp [sx2, e1, e2], ⟨_, h2⟩, hs2, st3, fun fuel => ?_, hs3, ?_, ⟨_, h3⟩⟩
  · simp [stack_clear, e3]
  · simp [stack_empty, hs3]

/-- C24, the code at a failing input: `TRIE_NODE_CONTINUE` is the same number
as `TRIE_NODE_TAKEN`; on the trie whose root has the two children 11 and 12,
with the callback that always returns `TRIE_NODE_CONTINUE`, `trie_node_foreach`
returns after one call of the callback, on the node 12, and never calls it on
the node 11; with a callback that returns 0 it calls it on 12 and on 11. -/
theorem trie_foreach_continue_stops :
    TRIE_NODE_CONTINUE = TRIE_NODE_TAKEN ∧
      (∀ fuel, trie_node_foreach (fuel + 2) tx3 10 (fun _ => TRIE_NODE_CONTINUE) 0 =
        some [12]) ∧
      trie_node_foreach 4 tx3 10 (fun _ => 0) 0 = some [12, 11] := by
  refine ⟨rfl, fun fuel => ?_, by decide⟩
  rfl

/-! ## Counting rotations: the same tree -/

/-- The counting body of the fixup loop returns what `insert_fixup_left`
returns, with a count of at most two, which is zero when the uncle is red. -/
theorem fixup_left_rot_of {t t2 : rbtree_st K V} {x p g x2 : Nat}
    (h : insert_fixup_left t x p g = some (t2, x2)) :
    ∃ k, insert_fixup_left_rot t x p g = some (t2, x2, k) ∧ k ≤ 2 ∧
      ∀ gn, t.mem g = some gn → is_red_ptr t gn.right = some true → k = 0 := by
  simp only [insert_fixup_left, Option.bind_eq_bind, Option.bind_eq_some, Option.pure_def] at h
  obtain ⟨gn, hg, red, hred, h⟩ := h
  cases red
  · simp only [Bool.false_eq_true, if_false, Option.bind_eq_some] at h
    obtain ⟨pn, hp, ⟨t1, n1, p1⟩, h1, t3, e3, t4, e4, t5, e5, e6⟩ := h
    simp only [Option.some.injEq, Prod.mk.injEq] at e6
    obtain ⟨rfl, rfl⟩ := e6
    by_cases hxr : some x = pn.right
    · simp only [hxr, if_true, Option.bind_eq_some, Option.some.injEq, Prod.mk.injEq] at h1
      obtain ⟨a, ea, a1, ea1, a2, ea2, rfl, rfl, rfl⟩ := h1
      refine ⟨2, ?_, le_refl _, fun gn2 hg2 hr2 => ?_⟩
      · simp [insert_fixup_left_rot, hg, hred, hp, hxr, ea, ea1, ea2, e3, e4, e5]
      · rw [hg] at hg2
        simp only [Option.some.injEq] at hg2
        subst hg2
        rw [hred] at hr2
        simp at hr2
    · simp only [hxr, if_false, Option.some.injEq, Prod.mk.injEq] at h1
      obtain ⟨rfl, rfl, rfl⟩ := h1
      refine ⟨1, ?_, by omega, fun gn2 hg2 hr2 => ?_⟩
      · simp [insert_fixup_left_rot, hg, hred, hp, hxr, e3, e4, e5]
      · rw [hg] at hg2
        simp only [Option.some.injEq] at hg2
        subst hg2
        rw [hred] at hr2
        simp at hr2
  · simp only [if_true, Option.bind_eq_some, Option.some.injEq, Prod.mk.injEq] at h
    obtain ⟨t3, e3, u, eu, t4, e4, t5, e5, rfl, rfl⟩ := h
    refine ⟨0, ?_, by omega, fun _ _ _ => rfl⟩
    have hred2 := hred
    rw [eu] at hred2
    simp [insert_fixup_left_rot, hg, hred2, e3, eu, e4, e5]

/-- The counting body of the fixup loop returns what `insert_fixup_right`
returns, with a count of at most two, which is zero when the uncle is red. -/
theorem fixup_right_rot_of {t t2 : rbtree_st K V} {x p g x2 : Nat}
    (h : insert_fixup_right t x p g = some (t2, x2)) :
    ∃ k, insert_fixup_right_rot t x p g = some (t2, x2, k) ∧ k ≤ 2 ∧
      ∀ gn, t.mem g = some gn → is_red_ptr t gn.left = some true → k = 0 := by
  simp only [insert_fixup_right, Option.bind_eq_bind, Option.bind_eq_some, Option.pure_def] at h
  obtain ⟨gn, hg, red, hred, h⟩ := h
  cases red
  · simp only [Bool.false_eq_true, if_false, Option.bind_eq_some] at h
    obtain ⟨pn, hp, ⟨t1, n1, p1⟩, h1, t3, e3, t4, e4, t5, e5, e6⟩ := h
    simp only [Option.some.injEq, Prod.mk.injEq] at e6
    obtain ⟨rfl, rfl⟩ := e6
    by_cases hxr : some x = pn.left
    · simp only [hxr, if_true, Option.bind_eq_some, Option.some.injEq, Prod.mk.injEq] at h1
      obtain ⟨a, ea, a1, ea1, a2, ea2, rfl, rfl, rfl⟩ := h1
      refine ⟨2, ?_, le_refl _, fun gn2 hg2 hr2 => ?_⟩
      · simp [insert_fixup_right_rot, hg, hred, hp, hxr, ea, ea1, ea2, e3, e4, e5]
      · rw [hg] at hg2
        simp only [Option.some.injEq] at hg2
        subst hg2
        rw [hred] at hr2
        simp at hr2
    · simp only [hxr, if_false, Option.some.injEq, Prod.mk.injEq] at h1
      obtain ⟨rfl, rfl, rfl⟩ := h1
      refine ⟨1, ?_, by omega, fun gn2 hg2 hr2 => ?_⟩
      · simp [insert_fixup_right_rot, hg, hred, hp, hxr, e3, e4, e5]
      · rw [hg] at hg2
        simp only [Option.some.injEq] at hg2
        subst hg2
        rw [hred] at hr2
        simp at hr2
  · simp only [if_true, Option.bind_eq_some, Option.some.injEq, Prod.mk.injEq] at h
    obtain ⟨t3, e3, u, eu, t4, e4, t5, e5, rfl, rfl⟩ := h
    refine ⟨0, ?_, by omega, fun _ _ _ => rfl⟩
    have hred2 := hred
    rw [eu] at hred2
    simp [insert_fixup_right_rot, hg, hred2, e3, eu, e4, e5]

/-- The counting loop returns the tree that `insert_fixup` returns. -/
theorem fixup_rot_of : ∀ (fuel : Nat) (t t2 : rbtree_st K V) (x c : Nat),
    insert_fixup fuel t x = some t2 → ∃ c2, insert_fixup_rot fuel t x c = some (t2, c2) := by
  intro fuel
  induction fuel with
  | zero => intro t t2 x c h; simp [insert_fixup] at h
  | succ k ih =>
    intro t t2 x c h
    simp only [insert_fixup, Option.bind_eq_bind, Option.bind_eq_some] at h
    obtain ⟨n, hn, h⟩ := h
    cases hpar : n.parent with
    | none =>
      simp only [hpar, Option.pure_def, Option.some.injEq] at h
      subst h
      exact ⟨c, by simp [insert_fixup_rot, hn, hpar]⟩
    | some p =>
      simp only [hpar, Option.bind_eq_bind, Option.bind_eq_some] at h
      obtain ⟨pn, hp, h⟩ := h
      by_cases hb : pn.color = RB_BLACK
      · simp only [hb, if_true, Option.pure_def, Option.some.injEq] at h
        subst h
        exact ⟨c, by simp [insert_fixup_rot, hn, hpar, hp, hb]⟩
      · simp only [hb, if_false, Option.bind_eq_some] at h
        obtain ⟨g, hg, gn, hgn, ⟨t1, x1⟩, h1, h2⟩ := h
        by_cases hl : some p = gn.left
        · simp only [hl, if_true] at h1
          obtain ⟨k1, e1, -, -⟩ := fixup_left_rot_of h1
          obtain ⟨c2, e2⟩ := ih t1 t2 x1 (c + k1) h2
          exact ⟨c2, by simp [insert_fixup_rot, hn, hpar, hp, hb, hg, hgn, hl.symm, e1, e2]⟩
        · simp only [hl, if_false] at h1
          obtain ⟨k1, e1, -, -⟩ := fixup_right_rot_of h1
          obtain ⟨c2, e2⟩ := ih t1 t2 x1 (c + k1) h2
          exact ⟨c2, by simp [insert_fixup_rot, hn, hpar, hp, hb, hg, hgn, hl, e1, e2]⟩

/-- The counting insert returns the tree that `rbtree_insert` returns. -/
theorem insert_rot_of {fuel : Nat} {t t2 : rbtree_st K V} {key : K} {ksize : Nat} {val : V}
    {a : Nat} (h : rbtree_insert fuel t key ksize val a = some t2) :
    ∃ k, rbtree_insert_rot fuel t key ksize val a = some (t2, k) := by
  simp only [rbtree_insert, Option.bind_eq_bind, Option.bind_eq_some] at h
  obtain ⟨⟨found, parent, il⟩, hlk, h⟩ := h
  cases found with
  | some node =>
    simp only at h
    exact ⟨0, by simp [rbtree_insert_rot, hlk, h]⟩
  | none =>
    simp only [Option.bind_eq_bind, Option.bind_eq_some, Option.pure_def, Option.some.injEq] at h
    obtain ⟨t1, e1, t3, e3, r, er, t4, e4, rfl⟩ := h
    obtain ⟨c2, ec⟩ := fixup_rot_of fuel t1 t3 a 0 e3
    exact ⟨c2, by simp [rbtree_insert_rot, hlk, e1, ec, er, e4]⟩

/-! ## Insert fixup: the rotation case -/

/-- The body of the fixup loop, `parent == grandpa->left`, when the uncle is
not red: after the rotations the node sits below a black parent. -/
theorem insert_fixup_left_rotates {t : rbtree_st K V} {rest : List (Frame K V)} {x p g : Nat}
    {il1 : Bool} {cs csp csg : rb_cursor_st K V} {l r sp sg : Tree K V}
    (h : Abs t (plug (⟨il1, p, RB_RED, csp, sp⟩ :: ⟨true, g, RB_BLACK, csg, sg⟩ :: rest)
      (.node x RB_RED cs l r)))
    (hnd : (plug (⟨il1, p, RB_RED, csp, sp⟩ :: ⟨true, g, RB_BLACK, csg, sg⟩ :: rest)
      (.node x RB_RED cs l r)).addrs.Nodup)
    (hsgred : sg.isRed = false) :
    ∃ m r2 x2 ctx2 cs2 l2 r3, insert_fixup_left t x p g = some (t.upd m r2, x2) ∧
      Abs (t.upd m r2) (plug ctx2 (.node x2 RB_RED cs2 l2 r3)) ∧
      ∀ f fs, ctx2 = f :: fs → f.c = RB_BLACK := by
  have hg := Abs.read (Γ := rest) (a := g) h
  have hsgR : Repr t.mem sg (some g) := ((Repr_plug rest _).1 h.2).2.2.2
  have hu := is_red_ptr_spec hsgR
  simp only [hsgred] at hu
  cases il1
  · simp only [plug_cons, plug_left, plug_right] at h hnd ⊢
    have hp := Abs.read (Γ := ⟨true, g, RB_BLACK, csg, sg⟩ :: rest) (a := p) h
    obtain ⟨m1, r1, e1, h1⟩ := rotate_left_spec
      (Γ := ⟨true, g, RB_BLACK, csg, sg⟩ :: rest) h hnd
    simp only [plug_cons, plug_left] at h1
    have hp1 := Abs.read (Γ := ⟨true, x, RB_RED, cs, r⟩ :: ⟨true, g, RB_BLACK, csg, sg⟩ :: rest)
      (a := p) h1
    have hnd1 : (plug rest (.node g RB_BLACK csg (.node x RB_RED cs
        (.node p RB_RED csp sp l) r) sg)).addrs.Nodup := by
      simpa [addrs_plug, Tree.addrs] using hnd
    obtain ⟨m2, r2, e2, h2⟩ := set_color_spec RB_BLACK
      (Γ := ⟨true, g, RB_BLACK, csg, sg⟩ :: rest) h1 hnd1
    simp only [plug_cons, plug_left, upd_upd] at h2 e2
    have hnd2 : (plug rest (.node g RB_BLACK csg (.node x RB_BLACK cs
        (.node p RB_RED csp sp l) r) sg)).addrs.Nodup := by
      simpa [addrs_plug, Tree.addrs] using hnd
    obtain ⟨m3, r3, e3, h3⟩ := set_color_spec RB_RED (Γ := rest) h2 hnd2
    simp only [upd_upd] at h3 e3
    have hnd3 : (plug rest (.node g RB_RED csg (.node x RB_BLACK cs
        (.node p RB_RED csp sp l) r) sg)).addrs.Nodup := by
      simpa [addrs_plug, Tree.addrs] using hnd
    obtain ⟨m4, r4, e4, h4⟩ := rotate_right_spec (Γ := rest) h3 hnd3
    simp only [upd_upd] at h4 e4
    refine ⟨m4, r4, p, ⟨true, x, RB_BLACK, cs, .node g RB_RED csg r sg⟩ :: rest, csp, sp, l,
      ?_, h4, ?_⟩
    · simp [insert_fixup_left, hg, hu, hp, e1, hp1, ctxPtr, e2, e3, e4]
    · intro f fs hf
      simp only [List.cons.injEq] at hf
      rw [← hf.1]
  · simp only [plug_cons, plug_left, plug_right] at h hnd ⊢
    have hp := Abs.read (Γ := ⟨true, g, RB_BLACK, csg, sg⟩ :: rest) (a := p) h
    have hxsp : some x ≠ sp.ptr := by
      apply ptr_ne_of_not_mem2
      have h1 := (nodup_node.1 (nodup_plug.1 hnd).2.1).2.2.1
      exact (nodup_node.1 h1).2.2.2.2 x (by simp [mem_addrs_node])
    obtain ⟨m2, r2, e2, h2⟩ := set_color_spec RB_BLACK
      (Γ := ⟨true, g, RB_BLACK, csg, sg⟩ :: rest) h hnd
    simp only [plug_cons, plug_left, upd_upd] at h2 e2
    have hnd2 : (plug rest (.node g RB_BLACK csg (.node p RB_BLACK csp
        (.node x RB_RED cs l r) sp) sg)).addrs.Nodup := by
      simpa [addrs_plug, Tree.addrs] using hnd
    obtain ⟨m3, r3, e3, h3⟩ := set_color_spec RB_RED (Γ := rest) h2 hnd2
    simp only [upd_upd] at h3 e3
    have hnd3 : (plug rest (.node g RB_RED csg (.node p RB_BLACK csp
        (.node x RB_RED cs l r) sp) sg)).addrs.Nodup := by
      simpa [addrs_plug, Tree.addrs] using hnd
    obtain ⟨m4, r4, e4, h4⟩ := rotate_right_spec (Γ := rest) h3 hnd3
    simp only [upd_upd] at h4 e4
    refine ⟨m4, r4, x, ⟨true, p, RB_BLACK, csp, .node g RB_RED csg sp sg⟩ :: rest, cs, l, r,
      ?_, h4, ?_⟩
    · simp [insert_fixup_left, hg, hu, hp, hxsp, e2, e3, e4]
    · intro f fs hf
      simp only [List.cons.injEq] at hf
      rw [← hf.1]

/-- The body of the fixup loop, `parent != grandpa->left`, when the uncle is
not red: after the rotations the node sits below a black parent. -/
theorem insert_fixup_right_rotates {t : rbtree_st K V} {rest : List (Frame K V)} {x p g : Nat}
    {il1 : Bool} {cs csp csg : rb_cursor_st K V} {l r sp sg : Tree K V}
    (h : Abs t (plug (⟨il1, p, RB_RED, csp, sp⟩ :: ⟨false, g, RB_BLACK, csg, sg⟩ :: rest)
      (.node x RB_RED cs l r)))
    (hnd : (plug (⟨il1, p, RB_RED, csp, sp⟩ :: ⟨false, g, RB_BLACK, csg, sg⟩ :: rest)
      (.node x RB_RED cs l r)).addrs.Nodup)
    (hsgred : sg.isRed = false) :
    ∃ m r2 x2 ctx2 cs2 l2 r3, insert_fixup_right t x p g = some (t.upd m r2, x2) ∧
      Abs (t.upd m r2) (plug ctx2 (.node x2 RB_RED cs2 l2 r3)) ∧
      ∀ f fs, ctx2 = f :: fs → f.c = RB_BLACK := by
  have hg := Abs.read (Γ := rest) (a := g) h
  have hsgR : Repr t.mem sg (some g) := ((Repr_plug rest _).1 h.2).2.2.1
  have hu := is_red_ptr_spec hsgR
  simp only [hsgred] at hu
  cases il1
  · simp only [plug_cons, plug_left, plug_right] at h hnd ⊢
    have hp := Abs.read (Γ := ⟨false, g, RB_BLACK, csg, sg⟩ :: rest) (a := p) h
    have hxsp : some x ≠ sp.ptr := by
      apply ptr_ne_of_not_mem2
      have h1 := (nodup_node.1 (nodup_plug.1 hnd).2.1).2.2.2.1
      exact fun hx => (nodup_node.1 h1).2.2.2.2 x hx (by simp [mem_addrs_node])
    obtain ⟨m2, r2, e2, h2⟩ := set_color_spec RB_BLACK
      (Γ := ⟨false, g, RB_BLACK, csg, sg⟩ :: rest) h hnd
    simp only [plug_cons, plug_right, upd_upd] at h2 e2
    have hnd2 : (plug rest (.node g RB_BLACK csg sg (.node p RB_BLACK csp sp
        (.node x RB_RED cs l r)))).addrs.Nodup := by
      simpa [addrs_plug, Tree.addrs] using hnd
    obtain ⟨m3, r3, e3, h3⟩ := set_color_spec RB_RED (Γ := rest) h2 hnd2
    simp only [upd_upd] at h3 e3
    have hnd3 : (plug rest (.node g RB_RED csg sg (.node p RB_BLACK csp sp
        (.node x RB_RED cs l r)))).addrs.Nodup := by
      simpa [addrs_plug, Tree.addrs] using hnd
    obtain ⟨m4, r4, e4, h4⟩ := rotate_left_spec (Γ := rest) h3 hnd3
    simp only [upd_upd] at h4 e4
    refine ⟨m4, r4, x, ⟨false, p, RB_BLACK, csp, .node g RB_RED csg sg sp⟩ :: rest, cs, l, r,
      ?_, h4, ?_⟩
    · simp [insert_fixup_right, hg, hu, hp, hxsp, e2, e3, e4]
    · intro f fs hf
      simp only [List.cons.injEq] at hf
      rw [← hf.1]
  · simp only [plug_cons, plug_left, plug_right] at h hnd ⊢
    have hp := Abs.read (Γ := ⟨false, g, RB_BLACK, csg, sg⟩ :: rest) (a := p) h
    obtain ⟨m1, r1, e1, h1⟩ := rotate_right_spec
      (Γ := ⟨false, g, RB_BLACK, csg, sg⟩ :: rest) h hnd
    simp only [plug_cons, plug_right] at h1
    have hp1 := Abs.read
      (Γ := ⟨false, x, RB_RED, cs, l⟩ :: ⟨false, g, RB_BLACK, csg, sg⟩ :: rest) (a := p) h1
    have hnd1 : (plug rest (.node g RB_BLACK csg sg (.node x RB_RED cs l
        (.node p RB_RED csp r sp)))).addrs.Nodup := by
      simpa [addrs_plug, Tree.addrs] using hnd
    obtain ⟨m2, r2, e2, h2⟩ := set_color_spec RB_BLACK
      (Γ := ⟨false, g, RB_BLACK, csg, sg⟩ :: rest) h1 hnd1
    simp only [plug_cons, plug_right, upd_upd] at h2 e2
    have hnd2 : (plug rest (.node g RB_BLACK csg sg (.node x RB_BLACK cs l
        (.node p RB_RED csp r sp)))).addrs.Nodup := by
      simpa [addrs_plug, Tree.addrs] using hnd
    obtain ⟨m3, r3, e3, h3⟩ := set_color_spec RB_RED (Γ := rest) h2 hnd2
    simp only [upd_upd] at h3 e3
    have hnd3 : (plug rest (.node g RB_RED csg sg (.node x RB_BLACK cs l
        (.node p RB_RED csp r sp)))).addrs.Nodup := by
      simpa [addrs_plug, Tree.addrs] using hnd
    obtain ⟨m4, r4, e4, h4⟩ := rotate_left_spec (Γ := rest) h3 hnd3
    simp only [upd_upd] at h4 e4
    refine ⟨m4, r4, p, ⟨false, x, RB_BLACK, cs, .node g RB_RED csg sg l⟩ :: rest, csp, r, sp,
      ?_, h4, ?_⟩
    · simp [insert_fixup_right, hg, hu, hp, e1, hp1, ctxPtr, e2, e3, e4]
    · intro f fs hf
      simp only [List.cons.injEq] at hf
      rw [← hf.1]

/-- The counting loop stops at once below a black parent or at the root. -/
theorem insert_fixup_rot_exit {t : rbtree_st K V} {Γ : List (Frame K V)} {x : Nat}
    {c : rb_color_t} {cs : rb_cursor_st K V} {l r : Tree K V} (fuel k : Nat)
    (h : Abs t (plug Γ (.node x c cs l r)))
    (hc : ∀ f fs, Γ = f :: fs → f.c = RB_BLACK) :
    insert_fixup_rot (fuel + 1) t x k = some (t, k) := by
  have hx := h.read
  cases Γ with
  | nil => simp [insert_fixup_rot, hx, ctxPtr]
  | cons f fs =>
    obtain ⟨il, p, cp, csp, sp⟩ := f
    have hcp : cp = RB_BLACK := hc _ _ rfl
    subst hcp
    cases il
    · have hp := Abs.read (Γ := fs) (a := p) h
      simp [insert_fixup_rot, hx, ctxPtr, hp]
    · have hp := Abs.read (Γ := fs) (a := p) h
      simp [insert_fixup_rot, hx, ctxPtr, hp]

/-! ## Counting rotations: the loop -/

/-- The counting fixup loop on a tree with a red node `x` that may have a red
parent: it returns, and it adds at most two rotations to the count. -/
theorem insert_fixup_rot_spec (n : Nat) : ∀ (t : rbtree_st K V) (Γ : List (Frame K V)) (x : Nat)
    (cs : rb_cursor_st K V) (l r : Tree K V) (c : Nat), Γ.length ≤ n →
    Abs t (plug Γ (.node x RB_RED cs l r)) →
    (plug Γ (.node x RB_RED cs l r)).addrs.Nodup → InsInv Γ l r →
    ∃ t2 c2, (∀ fuel, Γ.length + 1 ≤ fuel → insert_fixup_rot fuel t x c = some (t2, c2)) ∧
      c2 ≤ c + 2 := by
  induction n with
  | zero =>
    intro t Γ x cs l r c hlen h hnd hinv
    cases Γ with
    | cons f fs => simp at hlen
    | nil =>
      refine ⟨t, c, fun fuel hf => ?_, by omega⟩
      cases fuel with
      | zero => omega
      | succ k => exact insert_fixup_rot_exit k c h (by simp)
  | succ n ih =>
    intro t Γ x cs l r c hlen h hnd hinv
    have hinv0 := hinv
    obtain ⟨hl, hr, hlr, hrr, hbh, hlb, hrb, hcb, hcn, hcr⟩ := hinv
    have hexit : (∀ f fs, Γ = f :: fs → f.c = RB_BLACK) →
        ∀ fuel, Γ.length + 1 ≤ fuel → insert_fixup_rot fuel t x c = some (t, c) := by
      intro hc fuel hf
      cases fuel with
      | zero => omega
      | succ k => exact insert_fixup_rot_exit k c h hc
    cases Γ with
    | nil => exact ⟨t, c, hexit (by simp), by omega⟩
    | cons f1 rest1 =>
      obtain ⟨il1, p, cp, csp, sp⟩ := f1
      rcases color_cases cp with rfl | rfl
      · exact ⟨t, c, hexit (by simp), by omega⟩
      · cases rest1 with
        | nil => simp [CtxRootBlack] at hcr
        | cons f2 rest =>
          obtain ⟨il2, g, cg, csg, sg⟩ := f2
          have hcg : cg = RB_BLACK := by
            rcases color_cases cg with rfl | rfl
            · rfl
            · simp [CtxNoRR] at hcn
          subst hcg
          have hx := Abs.read
            (Γ := ⟨il1, p, RB_RED, csp, sp⟩ :: ⟨il2, g, RB_BLACK, csg, sg⟩ :: rest) h
          have hp : ∃ pl pr, t.mem p = some ⟨csp, pl, pr, some g, RB_RED⟩ := by
            cases il1
            · exact ⟨_, _, Abs.read (Γ := ⟨il2, g, RB_BLACK, csg, sg⟩ :: rest) (a := p) h⟩
            · exact ⟨_, _, Abs.read (Γ := ⟨il2, g, RB_BLACK, csg, sg⟩ :: rest) (a := p) h⟩
          obtain ⟨pl, pr, hp⟩ := hp
          simp only [List.length_cons] at hlen
          cases il2
          · have hg : t.mem g = some ⟨csg, sg.ptr, some p, ctxPtr rest, RB_BLACK⟩ := by
              cases il1
              · exact Abs.read (Γ := rest) (a := g) h
              · exact Abs.read (Γ := rest) (a := g) h
            have hpsg : some p ≠ sg.ptr := by
              apply ptr_ne_of_not_mem2
              have hnd2 := hnd
              cases il1 <;>
              · simp only [plug_cons, plug_left, plug_right] at hnd2
                have h1 := (nodup_plug.1 hnd2).2.1
                exact fun hx => (nodup_node.1 h1).2.2.2.2 p hx (by simp [mem_addrs_node])
            have hsgR : Repr t.mem sg (some g) := by
              cases il1
              · exact ((Repr_plug rest _).1 h.2).2.2.1
              · exact ((Repr_plug rest _).1 h.2).2.2.1
            have hu := is_red_ptr_spec hsgR
            cases hsgred : sg.isRed
            · obtain ⟨m1, r1, x2, ctx2, cs2, l2, r3, e1, h1, hblk⟩ :=
                insert_fixup_right_rotates h hnd hsgred
              obtain ⟨k1, ek, hk, -⟩ := fixup_right_rot_of e1
              refine ⟨t.upd m1 r1, c + k1, fun fuel hf => ?_, by omega⟩
              simp only [List.length_cons] at hf
              obtain ⟨k, rfl⟩ : ∃ k, fuel = k + 1 := ⟨fuel - 1, by omega⟩
              have e3 := insert_fixup_rot_exit (k - 1) (c + k1) h1 hblk
              rw [show k - 1 + 1 = k by omega] at e3
              simp [insert_fixup_rot, hx, ctxPtr, hp, hg, hpsg, ek, e3]
            · obtain ⟨m1, r1, x2, ctx2, cs2, l2, r3, e1, h1, ha1, hl1, hi1, hlen2⟩ :=
                insert_fixup_right_spec h hnd hinv0
              obtain ⟨k1, ek, -, hk0⟩ := fixup_right_rot_of e1
              have hk : k1 = 0 := hk0 _ hg (by rw [hu, hsgred])
              subst hk
              obtain ⟨t2, c2, e2, hc2⟩ :=
                ih _ ctx2 x2 cs2 l2 r3 c (by omega) h1 (ha1 ▸ hnd) hi1
              refine ⟨t2, c2, fun fuel hf => ?_, hc2⟩
              simp only [List.length_cons] at hf
              cases fuel with
              | zero => omega
              | succ k =>
                have e3 := e2 k (by omega)
                simp [insert_fixup_rot, hx, ctxPtr, hp, hg, hpsg, ek, e3]
          · have hg : t.mem g = some ⟨csg, some p, sg.ptr, ctxPtr rest, RB_BLACK⟩ := by
              cases il1
              · exact Abs.read (Γ := rest) (a := g) h
              · exact Abs.read (Γ := rest) (a := g) h
            have hsgR : Repr t.mem sg (some g) := by
              cases il1
              · exact ((Repr_plug rest _).1 h.2).2.2.2
              · exact ((Repr_plug rest _).1 h.2).2.2.2
            have hu := is_red_ptr_spec hsgR
            cases hsgred : sg.isRed
            · obtain ⟨m1, r1, x2, ctx2, cs2, l2, r3, e1, h1, hblk⟩ :=
                insert_fixup_left_rotates h hnd hsgred
              obtain ⟨k1, ek, hk, -⟩ := fixup_left_rot_of e1
              refine ⟨t.upd m1 r1, c + k1, fun fuel hf => ?_, by omega⟩
              simp only [List.length_cons] at hf
              obtain ⟨k, rfl⟩ : ∃ k, fuel = k + 1 := ⟨fuel - 1, by omega⟩
              have e3 := insert_fixup_rot_exit (k - 1) (c + k1) h1 hblk
              rw [show k - 1 + 1 = k by omega] at e3
              simp [insert_fixup_rot, hx, ctxPtr, hp, hg, ek, e3]
            · obtain ⟨m1, r1, x2, ctx2, cs2, l2, r3, e1, h1, ha1, hl1, hi1, hlen2⟩ :=
                insert_fixup_left_spec h hnd hinv0
              obtain ⟨k1, ek, -, hk0⟩ := fixup_left_rot_of e1
              have hk : k1 = 0 := hk0 _ hg (by rw [hu, hsgred])
              subst hk
              obtain ⟨t2, c2, e2, hc2⟩ :=
                ih _ ctx2 x2 cs2 l2 r3 c (by omega) h1 (ha1 ▸ hnd) hi1
              refine ⟨t2, c2, fun fuel hf => ?_, hc2⟩
              simp only [List.length_cons] at hf
              cases fuel with
              | zero => omega
              | succ k =>
                have e3 := e2 k (by omega)
                simp [insert_fixup_rot, hx, ctxPtr, hp, hg, ek, e3]

/-! ## Claim C28 -/

/-- The counting insert of a key that is not stored makes at most two
rotations. -/
theorem insert_rot_new {t : rbtree_st K V} {T : Tree K V} (hI : Inv t T) (key : K)
    (ksize : Nat) (val : V) (a : Nat) (ha : t.mem a = none) {Γ : List (Frame K V)}
    (hz : zoom t.cmp_fn key ksize T [] = (Γ, .nil)) :
    ∃ t2 k, (∀ fuel, T.height + 1 ≤ fuel →
        rbtree_insert_rot fuel t key ksize val a = some (t2, k) ∧
        rbtree_insert fuel t key ksize val a = some t2) ∧ k ≤ 2 := by
  obtain ⟨t2, T2, e, -⟩ := inv_insert_new hI key ksize val a ha hz
  have h := hI.2.1
  have hplug := zoom_plug t.cmp_fn key ksize T []
  have hlk := fun fuel (hf : T.height + 1 ≤ fuel) =>
    do_lookup_spec t key ksize T fuel h (by omega)
  rw [hz] at hplug hlk
  simp only [plug_nil] at hplug
  subst hplug
  have hnd := hI.nodup
  have hafresh : a ∉ (plug Γ .nil).addrs := fun hm => mem_of_Repr h.2 hm ha
  obtain ⟨m1, r1, e1, h1⟩ := insert_link_spec a ⟨key, ksize, val⟩ h hnd ha
  generalize hF : (if ctxPtr Γ = none ∨ (ctxIsLeft Γ = true ∧ ctxPtr Γ = t.first)
    then some a else t.first) = F at e1
  generalize hL : (if ctxPtr Γ = none ∨ (ctxIsLeft Γ = false ∧ ctxPtr Γ = t.last)
    then some a else t.last) = L at e1
  have hnd1 : (plug Γ (.node a RB_RED ⟨key, ksize, val⟩ .nil .nil)).addrs.Nodup := by
    rw [addrs_plug] at hnd hafresh ⊢
    simp only [Tree.addrs, List.append_nil, List.nil_append, List.mem_append, not_or,
      List.append_assoc, List.singleton_append] at hnd hafresh ⊢
    rw [List.nodup_append] at hnd ⊢
    refine ⟨hnd.1, List.nodup_cons.2 ⟨hafresh.2, hnd.2.1⟩, ?_⟩
    intro x hx hx2
    rcases List.mem_cons.1 hx2 with rfl | hx2
    · exact hafresh.1 hx
    · exact hnd.2.2 hx hx2
  have hlen : Γ.length ≤ (plug Γ (.nil : Tree K V)).height := by
    have := height_plug Γ (.nil : Tree K V)
    omega
  obtain ⟨t3, c3, e3, hc3⟩ := insert_fixup_rot_spec Γ.length
    ((t.setCursors F L).upd m1 r1) Γ a ⟨key, ksize, val⟩ .nil .nil 0 (le_refl _)
    (h1.ofEq rfl rfl) hnd1 (insInv_leaf hI.2.2.2.1 hI.2.2.2.2.1 hI.2.2.2.2.2.1)
  refine ⟨t2, c3, fun fuel hf => ?_, by omega⟩
  have e0 := e fuel hf
  obtain ⟨k, hk⟩ := insert_rot_of e0
  refine ⟨?_, e0⟩
  have hk2 := hk
  simp only [rbtree_insert_rot, hlk fuel hf, ptr_nil, Option.bind_eq_bind, Option.some_bind, e1,
    e3 fuel (by omega), Option.bind_eq_some, Option.pure_def, Option.some.injEq,
    Prod.mk.injEq] at hk2
  obtain ⟨rt, -, t4, -, -, hck⟩ := hk2
  rw [hck]
  exact hk

/-- The counting insert of a key that is stored makes no rotation. -/
theorem insert_rot_found {t : rbtree_st K V} {T : Tree K V} (hI : Inv t T) (key : K)
    (ksize : Nat) (val : V) (a : Nat) {Γ : List (Frame K V)} {x : Nat} {c : rb_color_t}
    {cs : rb_cursor_st K V} {l r : Tree K V}
    (hz : zoom t.cmp_fn key ksize T [] = (Γ, .node x c cs l r)) :
    ∃ t2, ∀ fuel, T.height ≤ fuel →
        rbtree_insert_rot fuel t key ksize val a = some (t2, 0) ∧
        rbtree_insert fuel t key ksize val a = some t2 := by
  obtain ⟨cs2, -, e, -⟩ := inv_insert_found hI key ksize val a hz
  refine ⟨{ t with
      mem := Function.update t.mem x (some ⟨cs2, l.ptr, r.ptr, ctxPtr Γ, c⟩),
      freed := if t.data_free then t.freed ++ [cs.data] else t.freed }, fun fuel hf => ?_⟩
  have e0 := e fuel hf
  refine ⟨?_, e0⟩
  obtain ⟨k, hk⟩ := insert_rot_of e0
  have hlk := do_lookup_spec t key ksize T fuel hI.2.1 hf
  rw [hz] at hlk
  have hk2 := hk
  simp only [rbtree_insert_rot, hlk, ptr_node, Option.bind_eq_bind, Option.some_bind,
    Option.bind_eq_some, Option.pure_def, Option.some.injEq, Prod.mk.injEq] at hk2
  obtain ⟨t4, -, -, hck⟩ := hk2
  rw [hck]
  exact hk

/-- C28: insertion performs at most two rotations. For every tree that
satisfies the red-black invariants (it stores a shape `T` that is sorted, has
a black root, no red node under a red node and equal black heights) and every
key and value, the call of `rbtree_insert` returns, it leaves the tree that
`rbtree_insert` leaves, and it makes at most 2 calls of `rotate_left` and
`rotate_right` in total. -/
theorem insert_rotates_at_most_twice (t : rbtree_st K V) (T : Tree K V) (key : K) (ksize : Nat)
    (val : V) (a : Nat) (hI : Inv t T) (ha : t.mem a = none) :
    ∃ t2 k, InsertsRotating t key ksize val a t2 k ∧ InsertsTo t key ksize val a t2 ∧
      k ≤ 2 := by
  cases hz : zoom t.cmp_fn key ksize T [] with
  | mk Γ S =>
    cases S with
    | nil =>
      obtain ⟨t2, k, e, hk⟩ := insert_rot_new hI key ksize val a ha hz
      exact ⟨t2, k, ⟨_, fun fuel hf => (e fuel hf).1⟩, ⟨_, fun fuel hf => (e fuel hf).2⟩, hk⟩
    | node x c cs l r =>
      obtain ⟨t2, e⟩ := insert_rot_found hI key ksize val a hz
      exact ⟨t2, 0, ⟨_, fun fuel hf => (e fuel hf).1⟩, ⟨_, fun fuel hf => (e fuel hf).2⟩,
        by omega⟩

/-- Witness of C28: inserting "e" into the tree that holds a, b, c, d. -/
theorem insert_rotates_at_most_twice_witness :
    ∃ t2 k, InsertsRotating ex4 'e' 1 50 4 t2 k ∧ InsertsTo ex4 'e' 1 50 4 t2 ∧ k ≤ 2 :=
  insert_rotates_at_most_twice ex4 exT4 'e' 1 50 4 inv_ex4 rfl

/-! ## Claim C31 -/

theorem getLast_some_split {xs : List Nat} {x : Nat} (h : xs.getLast? = some x) :
    ∃ B, xs = B ++ [x] := by
  rcases List.eq_nil_or_concat xs with rfl | ⟨B, y, rfl⟩
  · simp at h
  · rw [List.concat_eq_append, List.getLast?_concat] at h
    simp only [Option.some.injEq] at h
    subst h
    exact ⟨B, List.concat_eq_append _ _⟩

theorem head_some_split {xs : List Nat} {y : Nat} (h : xs.head? = some y) :
    ∃ R, xs = y :: R := by
  cases xs with
  | nil => simp at h
  | cons z R =>
    simp only [List.head?_cons, Option.some.injEq] at h
    subst h
    exact ⟨R, rfl⟩

/-- C31: the two bound queries bracket an absent key with in-order neighbours.
For every reachable tree with entries `l` and every key, `rbtree_upper_bound`
and `rbtree_lower_bound` return, say `u` and `lo`. When the key compares equal
to no stored key: if both are nodes then `rbtree_next(u)` is `lo` and
`rbtree_prev(lo)` is `u`; if `u` is `NULL` then `lo` is what `rbtree_first`
returns; if `lo` is `NULL` then `u` is what `rbtree_last` returns. When the key
compares equal to a stored key, `rbtree_get_cursor` returns a node, which holds
that key, and both queries return this same node. -/
theorem bounds_bracket_absent_key (t : rbtree_st K V) (l : List (rb_cursor_st K V)) (key : K)
    (ksize : Nat) (h : Reachable t) (hl : Entries t l) :
    ∃ u lo, UpperBoundsTo t key ksize u ∧ LowerBoundsTo t key ksize lo ∧
      ((∀ e ∈ l, t.cmp_fn e.key e.ksize key ksize ≠ 0) →
        (∀ x y, u = some x → lo = some y → NextsTo t x (some y) ∧ PrevsTo t y (some x)) ∧
        (u = none → lo = rbtree_first t) ∧ (lo = none → u = rbtree_last t)) ∧
      ((∃ e ∈ l, t.cmp_fn e.key e.ksize key ksize = 0) →
        ∃ x n, GetsCursor t key ksize (some x) ∧ t.mem x = some n ∧
          t.cmp_fn n.cs.key n.cs.ksize key ksize = 0 ∧ u = some x ∧ lo = some x) := by
  obtain ⟨T, hI⟩ := reach_inv h
  have hlT : l = T.toList := entries_unique hl (entries_of_inv hI)
  subst hlT
  have hc := hI.1
  have hs := hI.2.2.1
  have hA := hI.2.1
  have hnd := hI.nodup
  have hT := zoom_plug t.cmp_fn key ksize T []
  cases hz : zoom t.cmp_fn key ksize T [] with
  | mk Γ S =>
    rw [hz] at hT
    simp only [plug] at hT
    cases S with
    | nil =>
      have hAd : T.addrs = ctxBeforeA Γ ++ ctxAfterA Γ := by
        rw [← hT, addrs_plug]; simp [Tree.addrs]
      refine ⟨_, _, ⟨T.height + 2, fun fuel hf => upper_bound_absent hI key ksize hz fuel hf⟩,
        ⟨T.height + 2, fun fuel hf => lower_bound_absent hI key ksize hz fuel hf⟩, fun _ => ?_,
        fun hex => ?_⟩
      · refine ⟨fun x y hx hy => ?_, fun hu => ?_, fun hlo => ?_⟩
        · obtain ⟨B, hB⟩ := getLast_some_split hx
          obtain ⟨R, hR⟩ := head_some_split hy
          have e1 : T.addrs = B ++ x :: (y :: R) := by rw [hAd, hB, hR]; simp
          have e2 : T.addrs = (B ++ [x]) ++ y :: R := by rw [hAd, hB, hR]
          refine ⟨⟨T.height, fun fuel hf => ?_⟩, ⟨T.height, fun fuel hf => ?_⟩⟩
          · rw [rbtree_next_spec hA hnd e1 fuel hf]; rfl
          · rw [rbtree_prev_spec hA hnd e2 fuel hf, List.getLast?_concat]
        · have : ctxBeforeA Γ = [] := List.getLast?_eq_none_iff.1 hu
          rw [this, List.nil_append] at hAd
          rw [rbtree_first, hI.2.2.2.2.2.2.1, hAd]
        · have : ctxAfterA Γ = [] := List.head?_eq_none_iff.1 hlo
          rw [this, List.append_nil] at hAd
          rw [rbtree_last, hI.2.2.2.2.2.2.2.1, hAd]
      · obtain ⟨e, he, h0⟩ := hex
        exact (zoom_nil_absent hc key ksize T hs hz e he h0).elim
    | node x c cs l r =>
      have hb := fun fuel hf => bounds_found hA key ksize hz fuel hf
      have hcell : t.mem x = some ⟨cs, l.ptr, r.ptr, ctxPtr Γ, c⟩ := by
        have := hA
        rw [← hT] at this
        exact this.read
      have h0 := (zoom_node_mem t.cmp_fn key ksize T hz).2
      have hm := (zoom_node_mem t.cmp_fn key ksize T hz).1
      refine ⟨some x, some x, ⟨T.height, fun fuel hf => (hb fuel hf).2⟩,
        ⟨T.height, fun fuel hf => (hb fuel hf).1⟩, fun hall => (hall cs hm h0).elim,
        fun _ => ⟨x, _, ⟨T.height, fun fuel hf => ?_⟩, hcell, h0, rfl, rfl⟩⟩
      have hlk := do_lookup_spec t key ksize T fuel hA hf
      rw [hz] at hlk
      simp [rbtree_get_cursor, hlk, Tree.ptr]

/-- Witness of C31: with the keys a, c, e stored, the key "b" lies between the
node at 0 (which holds "a") and the node at 1 (which holds "c"). -/
theorem bounds_bracket_absent_key_witness :
    rbtree_upper_bound 8 ey3 'b' 1 = some (some 0) ∧
      rbtree_lower_bound 8 ey3 'b' 1 = some (some 1) ∧
      ∃ u lo, UpperBoundsTo ey3 'b' 1 u ∧ LowerBoundsTo ey3 'b' 1 lo ∧
        ((∀ e ∈ [(⟨'a', 1, 10⟩ : rb_cursor_st Char Nat), ⟨'c', 1, 30⟩, ⟨'e', 1, 50⟩],
            ey3.cmp_fn e.key e.ksize 'b' 1 ≠ 0) →
          (∀ x y, u = some x → lo = some y →
            NextsTo ey3 x (some y) ∧ PrevsTo ey3 y (some x)) ∧
          (u = none → lo = rbtree_first ey3) ∧ (lo = none → u = rbtree_last ey3)) ∧
        ((∃ e ∈ [(⟨'a', 1, 10⟩ : rb_cursor_st Char Nat), ⟨'c', 1, 30⟩, ⟨'e', 1, 50⟩],
            ey3.cmp_fn e.key e.ksize 'b' 1 = 0) →
          ∃ x n, GetsCursor ey3 'b' 1 (some x) ∧ ey3.mem x = some n ∧
            ey3.cmp_fn n.cs.key n.cs.ksize 'b' 1 = 0 ∧ u = some x ∧ lo = some x) :=
  ⟨rfl, rfl, bounds_bracket_absent_key ey3 _ 'b' 1 reach_ey3 entries_ey3⟩

/-! ## Claim C32 -/

theorem payload_map_some {t : rbtree_st K V} {T : Tree K V} (h : Abs t T) :
    T.toList.map some = T.addrs.map (payload t) :=
  toList_map_some h.2

theorem maps_agree {A B : Type} {f g : A → B} {xs : List A} {ys : List B}
    (h1 : ys = xs.map f) (h2 : ys = xs.map g) : ∀ b ∈ xs, g b = f b := by
  intro b hb
  exact (List.map_inj_left.1 (h2.symm.trans h1)) b hb

/-- Function `rbtree_insert` of a key that is not stored leaves the payload of
every node of the tree where it is, and the new node carries the new entry. -/
theorem insert_keeps_payload {t : rbtree_st K V} {T : Tree K V} (hI : Inv t T) (key : K)
    (ksize : Nat) (val : V) (a : Nat) (ha : t.mem a = none) {Γ : List (Frame K V)}
    (hz : zoom t.cmp_fn key ksize T [] = (Γ, .nil)) :
    ∃ t2, InsertsTo t key ksize val a t2 ∧
      (∀ b ∈ T.addrs, payload t2 b = payload t b) ∧
      payload t2 a = some ⟨key, ksize, val⟩ := by
  have hz2 : (zoom t.cmp_fn key ksize T []).2 = .nil := by rw [hz]
  obtain ⟨t2, T2, e, hA2, had, hto, -⟩ := rbtree_insert_new key ksize val a hI.1 hI.2.1
    hI.2.2.1 hI.2.2.2.1 hI.2.2.2.2.1 hI.2.2.2.2.2.1 ha hz2
  rw [hz] at had hto
  simp only at had hto
  have hT := zoom_plug t.cmp_fn key ksize T []
  rw [hz] at hT
  simp only [plug] at hT
  have hAd : T.addrs = ctxBeforeA Γ ++ ctxAfterA Γ := by
    rw [← hT, addrs_plug]; simp [Tree.addrs]
  have hL : T.toList = ctxBefore Γ ++ ctxAfter Γ := by
    rw [← hT, toList_plug]; simp [Tree.toList]
  have hctx : ReprCtx t.mem Γ none := by
    have := hI.2.1.2
    rw [← hT] at this
    exact ((Repr_plug Γ .nil).1 this).1
  have hB1 : (ctxBefore Γ).map some = (ctxBeforeA Γ).map (payload t) :=
    ctxBefore_map_some Γ _ hctx
  have hA1 : (ctxAfter Γ).map some = (ctxAfterA Γ).map (payload t) :=
    ctxAfter_map_some Γ _ hctx
  have h2 := payload_map_some hA2
  rw [had, hto] at h2
  simp only [List.map_append, List.map_cons] at h2
  have hlen : ((ctxBefore Γ).map some).length = ((ctxBeforeA Γ).map (payload t2)).length := by
    have := congrArg List.length hB1
    simpa using this
  obtain ⟨e1, e2⟩ := List.append_inj h2 hlen
  simp only [List.cons.injEq] at e2
  refine ⟨t2, ⟨_, e⟩, fun b hb => ?_, e2.1.symm⟩
  rw [hAd] at hb
  rcases List.mem_append.1 hb with hb | hb
  · exact maps_agree hB1 e1 b hb
  · exact maps_agree hA1 e2.2 b hb

/-- Function `rbtree_delete` of a stored key releases the node that holds it
and leaves the payload of every other node of the tree where it is. -/
theorem delete_keeps_payload {t : rbtree_st K V} {T : Tree K V} (hI : Inv t T) (key : K)
    (ksize : Nat) {Γ : List (Frame K V)} {x : Nat} {c : rb_color_t}
    {cs : rb_cursor_st K V} {l r : Tree K V}
    (hz : zoom t.cmp_fn key ksize T [] = (Γ, .node x c cs l r)) :
    ∃ t2, DeletesTo t key ksize t2 ∧ x ∈ T.addrs ∧ payload t x = some cs ∧
      payload t2 x = none ∧ ∀ b ∈ T.addrs, b ≠ x → payload t2 b = payload t b := by
  obtain ⟨t2, T2, e, hA2, had, hto, -, -, -, -, -, -, -, hx, -⟩ :=
    rbtree_delete_found key ksize hI.1 hI.2.1 hI.2.2.1 hI.2.2.2.1 hI.2.2.2.2.1
      hI.2.2.2.2.2.1 hz
  have hT := zoom_plug t.cmp_fn key ksize T []
  rw [hz] at hT
  simp only [plug] at hT
  have hAd : T.addrs = ctxBeforeA Γ ++ (l.addrs ++ x :: r.addrs) ++ ctxAfterA Γ := by
    rw [← hT, addrs_plug]; simp [Tree.addrs]
  have hrep := hI.2.1.2
  rw [← hT] at hrep
  obtain ⟨hctx, hcell, hl, hr⟩ := (Repr_plug Γ _).1 hrep
  have hB1 : (ctxBefore Γ).map some = (ctxBeforeA Γ).map (payload t) :=
    ctxBefore_map_some Γ _ hctx
  have hA1 : (ctxAfter Γ).map some = (ctxAfterA Γ).map (payload t) :=
    ctxAfter_map_some Γ _ hctx
  have hl1 : l.toList.map some = l.addrs.map (payload t) := toList_map_some hl
  have hr1 : r.toList.map some = r.addrs.map (payload t) := toList_map_some hr
  have h1 : T2.toList.map some = T2.addrs.map (payload t) := by
    rw [had, hto]
    simp only [List.map_append, hB1, hA1, hl1, hr1]
  have h2 := payload_map_some hA2
  refine ⟨t2, ⟨_, e⟩, ?_, ?_, ?_, fun b hb hbx => ?_⟩
  · rw [hAd]; simp
  · simp [payload, hcell]
  · simp [payload, hx]
  · refine maps_agree h1 h2 b ?_
    rw [hAd] at hb
    rw [had]
    simp only [List.mem_append, List.mem_cons] at hb ⊢
    tauto

/-- C32: mutations never move payload between nodes. For every reachable tree
with entries `l`, the nodes of the tree, at the addresses `as` in order, carry
these entries, and: after `rbtree_insert` of a key that compares equal to no
stored key, every node of the tree carries the same key, key length and value
as before and the new node carries the new entry; after `rbtree_delete` of a
key that compares equal to a stored key, the node `x` that held the matching
entry is released and every other node of the tree carries the same key, key
length and value as before (also when `x` had two children), so a cursor to
any other entry reads what it read before. -/
theorem mutations_keep_payload (t : rbtree_st K V) (l : List (rb_cursor_st K V))
    (h : Reachable t) (hl : Entries t l) :
    ∃ as : List Nat, as.Nodup ∧ l.map some = as.map (payload t) ∧
      (∀ key ksize val a t2, t.mem a = none →
        (∀ e ∈ l, t.cmp_fn e.key e.ksize key ksize ≠ 0) → InsertsTo t key ksize val a t2 →
        (∀ b ∈ as, payload t2 b = payload t b) ∧ payload t2 a = some ⟨key, ksize, val⟩) ∧
      (∀ key ksize t2, (∃ e ∈ l, t.cmp_fn e.key e.ksize key ksize = 0) →
        DeletesTo t key ksize t2 →
        ∃ x e, x ∈ as ∧ payload t x = some e ∧ e ∈ l ∧
          t.cmp_fn e.key e.ksize key ksize = 0 ∧ payload t2 x = none ∧
          ∀ b ∈ as, b ≠ x → payload t2 b = payload t b) := by
  obtain ⟨T, hI⟩ := reach_inv h
  have hlT : l = T.toList := entries_unique hl (entries_of_inv hI)
  subst hlT
  refine ⟨T.addrs, hI.nodup, payload_map_some hI.2.1, ?_, ?_⟩
  · intro key ksize val a t2 ha hall hins
    cases hz : zoom t.cmp_fn key ksize T [] with
    | mk Γ S =>
      cases S with
      | nil =>
        obtain ⟨t3, e3, hp, hn⟩ := insert_keeps_payload hI key ksize val a ha hz
        have := inserts_unique hins e3
        subst this
        exact ⟨hp, hn⟩
      | node x c cs l r =>
        have hm := zoom_node_mem t.cmp_fn key ksize T hz
        exact (hall cs hm.1 hm.2).elim
  · intro key ksize t2 hex hdel
    cases hz : zoom t.cmp_fn key ksize T [] with
    | mk Γ S =>
      cases S with
      | nil =>
        obtain ⟨e, he, h0⟩ := hex
        exact (zoom_nil_absent hI.1 key ksize T hI.2.2.1 hz e he h0).elim
      | node x c cs l r =>
        obtain ⟨t3, e3, hx, hpx, hx2, hp⟩ := delete_keeps_payload hI key ksize hz
        have := deletes_unique hdel e3
        subst this
        have hm := zoom_node_mem t.cmp_fn key ksize T hz
        exact ⟨x, cs, hx, hpx, hm.1, hm.2, hx2, hp⟩

/-- Witness of C32: the tree that holds a, b, c, d. -/
theorem mutations_keep_payload_witness :
    ∃ as : List Nat, as.Nodup ∧
      ([⟨'a', 1, 10⟩, ⟨'b', 1, 20⟩, ⟨'c', 1, 30⟩, ⟨'d', 1, 40⟩] :
        List (rb_cursor_st Char Nat)).map some = as.map (payload ex4) ∧
      (∀ key ksize val a t2, ex4.mem a = none →
        (∀ e ∈ ([⟨'a', 1, 10⟩, ⟨'b', 1, 20⟩, ⟨'c', 1, 30⟩, ⟨'d', 1, 40⟩] :
          List (rb_cursor_st Char Nat)), ex4.cmp_fn e.key e.ksize key ksize ≠ 0) →
        InsertsTo ex4 key ksize val a t2 →
        (∀ b ∈ as, payload t2 b = payload ex4 b) ∧ payload t2 a = some ⟨key, ksize, val⟩) ∧
      (∀ key ksize t2,
        (∃ e ∈ ([⟨'a', 1, 10⟩, ⟨'b', 1, 20⟩, ⟨'c', 1, 30⟩, ⟨'d', 1, 40⟩] :
          List (rb_cursor_st Char Nat)), ex4.cmp_fn e.key e.ksize key ksize = 0) →
        DeletesTo ex4 key ksize t2 →
        ∃ x e, x ∈ as ∧ payload ex4 x = some e ∧
          e ∈ ([⟨'a', 1, 10⟩, ⟨'b', 1, 20⟩, ⟨'c', 1, 30⟩, ⟨'d', 1, 40⟩] :
            List (rb_cursor_st Char Nat)) ∧
          ex4.cmp_fn e.key e.ksize key ksize = 0 ∧ payload t2 x = none ∧
          ∀ b ∈ as, b ≠ x → payload t2 b = payload ex4 b) :=
  mutations_keep_payload ex4 _ reach_ex4 entries_ex4

/-! ## Claim C17: the key length as an int -/

theorem cmpB_consistent : Consistent cmpB := by
  refine ⟨fun a la b lb => ?_, fun a la b lb c lc h1 h2 => ?_⟩
  · simp only [cmpB]; omega
  · simp only [cmpB] at *; omega

theorem inv_ez0 : Inv ez0 .nil := inv_create false cmpB 0 cmpB_consistent

theorem inv_ez1 : Inv ez1 (.node 0 RB_BLACK ⟨fun _ => 0, 2147483649, 10⟩ .nil .nil) :=
  ⟨cmpB_consistent, ⟨rfl, rfl, trivial, trivial⟩,
    (show Sorted cmpB [⟨fun _ => 0, 2147483649, 10⟩] by simp [Sorted]), rfl,
    by simp [Tree.NoRR], by simp [Tree.Bal], rfl, rfl, rfl⟩

theorem reach_ez1 : Reachable ez1 :=
  Reachable.insert (fun _ => 0) 2147483649 10 0
    (Reachable.create false cmpB 0 cmpB_consistent) rfl
    (inserts_getD inv_ez0 (fun _ => 0) 2147483649 10 0 rfl 8 (by decide))

/-- C17, the claim as stated fails: the tree obtained from `rbtree_create` by
`rbtree_insert` of one key of 2147483649 bytes is reachable and stores the one
entry with this key, the key length 2147483649 and the value 10; with the
callback that always returns 0, `rbtree_foreach` returns 0 after one call of
the callback, which is handed -2147483647 as the key length, not
2147483649. -/
theorem foreach_passes_length_as_int :
    Reachable ez1 ∧
      Abs ez1 (.node 0 RB_BLACK ⟨fun _ => 0, 2147483649, 10⟩ .nil .nil) ∧
      Entries ez1 [⟨fun _ => 0, 2147483649, 10⟩] ∧
      ForeachTo ez1 () (some (fun _ _ _ _ => 0)) (0, [(fun _ => 0, -2147483647, 10)]) ∧
      ¬ ForeachTo ez1 () (some (fun _ _ _ _ => 0)) (0, [(fun _ => 0, 2147483649, 10)]) := by
  have hI := inv_ez1
  have hF : ForeachTo ez1 () (some (fun _ _ _ _ => 0))
      (0, [(fun _ => 0, -2147483647, 10)]) := by
    refine ⟨2, fun fuel hfu => ?_⟩
    have := foreach_from_zero hI.2.1 hI.nodup fuel (by simp [Tree.height]; omega) ()
      (fun _ _ _ _ => 0) [0] [] fuel [] [⟨fun _ => 0, 2147483649, 10⟩] rfl
      (by simp; omega) (toList_map_some hI.2.1.2) (fun e _ => rfl)
    have hc : callArgs (⟨fun _ => 0, 2147483649, 10⟩ : rb_cursor_st (Nat → Nat) Nat) =
        (fun _ => 0, -2147483647, 10) := by
      simp [callArgs, int_of_u32]
    simp only [List.map_cons, List.map_nil, List.nil_append, hc] at this
    rw [rbtree_foreach, rbtree_first, hI.2.2.2.2.2.2.1]
    exact this
  refine ⟨reach_ez1, hI.2.1, entries_of_inv hI, hF, fun hG => ?_⟩
  obtain ⟨N1, e1⟩ := hF
  obtain ⟨N2, e2⟩ := hG
  have := (e1 (max N1 N2) (le_max_left _ _)).symm.trans (e2 (max N1 N2) (le_max_right _ _))
  simp only [Option.some.injEq, Prod.mk.injEq, List.cons.injEq, true_and, and_true] at this
  omega

end Xcore
